import Mathlib

/-!
SamehadaDB storage core: in-memory skip list, clock replacer, block page, disk-backed
index, page header and row-identifier packing

A shallow embedding of `container/skip_list/skip_list.go`,
`container/skip_list/skip_list_iterator.go`, `storage/buffer/clock_replacer.go`,
`storage/page/skip_list_page/skip_list_block_page.go`, `storage/page/page.go` and
`samehada/samehada_util/samehada_util.go`.

Pointers become indices into an arena (`Heap`): `new(T)` appends a cell, a nil
pointer is `none`.  Every operation returns `Option`: `none` stands for a Go
run-time panic (nil dereference, index out of range, negative `make` length)
or for a loop that never ends.  Loops that follow pointers get as fuel the number
of cells of the arena: a walk that revisits no cell is shorter than that, and a
walk that revisits a cell (the heap is not written during these loops) never ends.
The probe loops of the disk-backed index get as fuel the number of slots of the
directory.  Fixed-size arrays are lists, unsigned machine integers are natural numbers,
signed ones are integers that `wrapInt32` brings back into range.

The in-memory skip list is embedded over the type `K` of its keys, with the linear order
in which the comparison methods of a key compare; the declared scalar types (integer,
float, string) are the types `KeyOf t`, and a key is a `Value K`: a scalar or the marked
infinite value of the sentinel.
-/

set_option linter.unusedSectionVars false

namespace SkipList

variable {K : Type} [LinearOrder K] [Inhabited K]

/-- The value `math.MaxUint32`, used as the "not found" result and as the value of the
sentinel. -/
def maxUint32 : Nat := 4294967295

/-- Conversion of an integer to `int32` with two's complement wrap-around. -/
def wrapInt32 (n : Int) : Int := (n + 2147483648) % 4294967296 - 2147483648

/-- Modelled from the spec: the scalar types of a key, "a key of a declared scalar type
(integer/float/string)": the constants `types.Integer`, `types.Float` and `types.Varchar`
of the switch in `NewSkipListOnMem`. -/
inductive TypeID where
  | Integer
  | Float
  | Varchar
deriving DecidableEq, Repr

/-- Modelled from the spec: the scalars of a declared type: the integers, the numbers that
a float denotes (a fraction or one of the two infinities of the float format), the
strings.  A float that is not a number has no place here: the comparison functions of
package `types` are not among the sources, and the spec has the keys of a list strictly
ordered, which says nothing of a key that compares with no other. -/
abbrev KeyOf : TypeID → Type
  | TypeID.Integer => Int
  | TypeID.Float => WithBot (WithTop Rat)
  | TypeID.Varchar => String

/-- The scalars of each declared type are linearly ordered. -/
instance instLinearOrderKeyOf : (t : TypeID) → LinearOrder (KeyOf t)
  | TypeID.Integer => inferInstanceAs (LinearOrder Int)
  | TypeID.Float => inferInstanceAs (LinearOrder (WithBot (WithTop Rat)))
  | TypeID.Varchar => inferInstanceAs (LinearOrder String)

/-- Each declared type has its zero value: 0, 0.0 and the empty string. -/
instance instInhabitedKeyOf : (t : TypeID) → Inhabited (KeyOf t)
  | TypeID.Integer => ⟨(0 : Int)⟩
  | TypeID.Float => ⟨((0 : Rat) : WithBot (WithTop Rat))⟩
  | TypeID.Varchar => ⟨""⟩

/-- Modelled from the spec: `types.Value` (package `types` is not among the sources) for
the keys of a list whose declared scalar type is `K`, which stands for any of the types
`KeyOf t`.  A key is a scalar of that type, or the marked infinite value that `SetInf`
produces; the spec says that the sentinel's key "compares as positive infinity" and is
recognised by an explicit is-infinite marker, "not by a sentinel value collision with real
keys".  The scalars of a type are compared in their linear order (the spec has every key
of a chain "strictly greater" than the one before). -/
inductive Value (K : Type) where
  | key (v : K)
  | inf
deriving DecidableEq, Repr

namespace Value

/-- Modelled from the spec: `Value.IsInf`, the is-infinite marker. -/
def IsInf : Value K → Bool
  | inf => true
  | key _ => false

/-- Modelled from the spec: `Value.CompareLessThan`, with the infinite value above every
scalar. -/
def CompareLessThan : Value K → Value K → Bool
  | key a, key b => decide (a < b)
  | key _, inf => true
  | inf, _ => false

/-- Modelled from the spec: `Value.CompareGreaterThan`. -/
def CompareGreaterThan : Value K → Value K → Bool
  | key a, key b => decide (b < a)
  | inf, key _ => true
  | _, inf => false

/-- Modelled from the spec: `Value.CompareEquals`. -/
def CompareEquals : Value K → Value K → Bool
  | key a, key b => decide (a = b)
  | inf, inf => true
  | _, _ => false

end Value

/-- The struct `SkipListOnMem`: one node of the in-memory skip list.  `Forward` holds
pointers (arena indices), `none` being nil. -/
structure SkipListOnMem (K : Type) where
  IsHeader : Bool
  Key : Option (Value K)
  Val : Nat
  Level : Int
  CurMaxLevel : Int
  Forward : List (Option Nat)
deriving DecidableEq, Repr

/-- The arena of allocated nodes; a pointer is an index into it. -/
abbrev Heap (K : Type) := List (SkipListOnMem K)

/-- The part of `NewSkipListOnMem` that every node shares: the fields are set and
`Forward` is `make([]*SkipListOnMem, 20)`, twenty nil pointers. -/
def newNode (level : Int) (key : Option (Value K)) (value : Nat) : SkipListOnMem K :=
  { IsHeader := false, Key := key, Val := value, Level := level, CurMaxLevel := level,
    Forward := List.replicate 20 none }

/-- `NewSkipListOnMem(level, key, value, isHeader)`: allocates the node and, for a header,
the sentinel after it (key infinite, value `math.MaxUint32`), to which the header's twenty
forward pointers are set.  Returns the new heap and the pointer to the node.  A header
with a nil key panics at `key.ValueType()`.  The three cases of the switch on
`key.ValueType()` give the sentinel the infinite value of the type of the key, which is
`Value.inf` of the key type `K` in each case. -/
def NewSkipListOnMem (h : Heap K) (level : Int) (key : Option (Value K)) (value : Nat)
    (isHeader : Bool) : Option (Heap K × Nat) :=
  let ret := h.length
  if isHeader then
    match key with
    | none => none
    | some _ =>
      let sentinel := ret + 1
      let s : SkipListOnMem K :=
        { newNode level (none : Option (Value K)) maxUint32 with Key := some Value.inf }
      let r : SkipListOnMem K :=
        { newNode level key value with Forward := List.replicate 20 (some sentinel) }
      some (h ++ [r, s], ret)
  else
    some (h ++ [newNode level key value], ret)

/-- The expression `p.Forward[i]`: dereference `p` and index the slice. -/
def readForward (h : Heap K) (p i : Nat) : Option (Option Nat) :=
  match h[p]? with
  | none => none
  | some n => n.Forward[i]?

/-- The expression `*p.Key` for a possibly nil pointer `p`. -/
def readKey (h : Heap K) (p : Option Nat) : Option (Value K) :=
  match p with
  | none => none
  | some q =>
    match h[q]? with
    | none => none
    | some n => n.Key

/-- The assignment `p.Forward[i] = v`. -/
def writeForward (h : Heap K) (p i : Nat) (v : Option Nat) : Option (Heap K) :=
  match h[p]? with
  | none => none
  | some n =>
    if i < n.Forward.length then
      some (h.set p { n with Forward := n.Forward.set i v })
    else none

/-- The inner loop `for x.Forward[i].Key.CompareLessThan(*key) { x = x.Forward[i] }`,
returning the final `x`. -/
def advance (h : Heap K) (key : Value K) (i : Nat) : Nat → Nat → Option Nat
  | 0, _ => none
  | fuel + 1, x =>
    match readForward h x i with
    | none => none
    | some f =>
      match readKey h f with
      | none => none
      | some k =>
        if k.CompareLessThan key then
          match f with
          | none => none
          | some y => advance h key i fuel y
        else some x

/-- The outer loop of `getValueOnMemInner`, `for i := n - 1; i >= 0; i--`, from node `x`. -/
def descend (h : Heap K) (key : Value K) : Nat → Nat → Option Nat
  | 0, x => some x
  | n + 1, x =>
    match advance h key n h.length x with
    | none => none
    | some y => descend h key n y

/-- `getValueOnMemInner(key)`: the last node whose key is less than `key`. -/
def getValueOnMemInner (h : Heap K) (sl : Nat) (key : Value K) : Option Nat :=
  match h[sl]? with
  | none => none
  | some n => descend h key n.CurMaxLevel.toNat sl

/-- `GetValueOnMem(key)`: `math.MaxUint32` when the key is absent. -/
def GetValueOnMem (h : Heap K) (sl : Nat) (key : Value K) : Option Nat :=
  match getValueOnMemInner h sl key with
  | none => none
  | some x =>
    match readForward h x 0 with
    | none => none
    | some xf =>
      match readKey h xf, xf with
      | some k, some q =>
        if k.CompareEquals key then (h[q]?).map (fun n => n.Val) else some maxUint32
      | _, _ => none

/-- `GetEqualOrNearestSmallerNodeOnMem(key)`. -/
def GetEqualOrNearestSmallerNodeOnMem (h : Heap K) (sl : Nat) (key : Value K) : Option Nat :=
  getValueOnMemInner h sl key

/-- `GetNodeLevel()`, given the number `s` of coin flips `rand.Float32() < SkipListProb`
that succeed before the first one that fails: the `int32` counter `retLevel` starts at 1
and is incremented `s` times, then capped by `CurMaxLevel`. -/
def GetNodeLevel (curMaxLevel : Int) (s : Nat) : Int :=
  min (wrapInt32 (1 + (s : Int))) curMaxLevel

/-- The descent of `InsertOnMem` and `RemoveOnMem`, which records in `update[ii]` the
node reached at level `ii`. -/
def descendUpdate (h : Heap K) (key : Value K) :
    Nat → Nat → List (Option Nat) → Option (Nat × List (Option Nat))
  | 0, x, update => some (x, update)
  | n + 1, x, update =>
    match advance h key n h.length x with
    | none => none
    | some y =>
      if n < update.length then descendUpdate h key n y (update.set n (some y))
      else none

/-- The splice loop of `InsertOnMem`, `for ii := 0; ii < newLevel; ii++`, with `n`
iterations left: `x.Forward[ii] = update[ii].Forward[ii]; update[ii].Forward[ii] = x`. -/
def spliceLoop (x : Nat) (update : List (Option Nat)) : Nat → Nat → Heap K → Option (Heap K)
  | 0, _, h => some h
  | n + 1, ii, h =>
    match update[ii]? with
    | some (some p) =>
      match readForward h p ii with
      | none => none
      | some f =>
        match writeForward h x ii f with
        | none => none
        | some h1 =>
          match writeForward h1 p ii (some x) with
          | none => none
          | some h2 => spliceLoop x update n (ii + 1) h2
    | _ => none

/-- `InsertOnMem(key, value)` on the list with header `sl`; `s` is the outcome of the coin
flips of `GetNodeLevel`. -/
def InsertOnMem (h : Heap K) (sl : Nat) (key : Value K) (value : Nat) (s : Nat) : Option (Heap K) :=
  match h[sl]? with
  | none => none
  | some hd =>
    let len := wrapInt32 (hd.CurMaxLevel + 1)
    if len < 0 then none else
    match descendUpdate h key hd.CurMaxLevel.toNat sl (List.replicate len.toNat none) with
    | none => none
    | some (x, update) =>
      match readForward h x 0 with
      | none => none
      | some xf =>
        match readKey h xf, xf with
        | some k, some q =>
          if k.CompareEquals key then
            (h[q]?).map (fun n => h.set q { n with Val := value })
          else
            let drawn := GetNodeLevel hd.CurMaxLevel s
            if hd.CurMaxLevel ≤ drawn then
              let newLevel := wrapInt32 (hd.CurMaxLevel + 1)
              let h1 := h.set sl { hd with CurMaxLevel := newLevel }
              if 0 ≤ newLevel - 1 ∧ (newLevel - 1).toNat < update.length then
                let update1 := update.set (newLevel - 1).toNat (some sl)
                match NewSkipListOnMem h1 newLevel (some key) value false with
                | none => none
                | some (h2, nx) => spliceLoop nx update1 newLevel.toNat 0 h2
              else none
            else
              match NewSkipListOnMem h drawn (some key) value false with
              | none => none
              | some (h2, nx) => spliceLoop nx update drawn.toNat 0 h2
        | _, _ => none

/-- The unsplice loop of `RemoveOnMem`, `for ii := 0; ii < sl.CurMaxLevel; ii++`, with `n`
iterations left; it breaks at the first level whose predecessor does not point at `x`. -/
def unspliceLoop (x : Nat) (update : List (Option Nat)) : Nat → Nat → Heap K → Option (Heap K)
  | 0, _, h => some h
  | n + 1, ii, h =>
    match update[ii]? with
    | some (some p) =>
      match readForward h p ii with
      | none => none
      | some f =>
        if f ≠ some x then some h
        else
          match readForward h x ii with
          | none => none
          | some g =>
            match writeForward h p ii g with
            | none => none
            | some h1 => unspliceLoop x update n (ii + 1) h1
    | _ => none

/-- The last loop of `RemoveOnMem`:
`for (sl.CurMaxLevel > 1) && (sl.Forward[sl.CurMaxLevel-1] == sl) { sl.CurMaxLevel-- }`.
Each round lowers `CurMaxLevel`, so `CurMaxLevel` rounds of fuel are enough. -/
def shrinkLoop (sl : Nat) : Nat → Heap K → Option (Heap K)
  | 0, h => some h
  | n + 1, h =>
    match h[sl]? with
    | none => none
    | some hd =>
      if 1 < hd.CurMaxLevel then
        match hd.Forward[(hd.CurMaxLevel - 1).toNat]? with
        | none => none
        | some f =>
          if f = some sl then
            shrinkLoop sl n (h.set sl { hd with CurMaxLevel := hd.CurMaxLevel - 1 })
          else some h
      else some h

/-- `RemoveOnMem(key, value)` on the list with header `sl`. -/
def RemoveOnMem (h : Heap K) (sl : Nat) (key : Value K) (_value : Nat) : Option (Heap K) :=
  match h[sl]? with
  | none => none
  | some hd =>
    if hd.CurMaxLevel < 0 then none else
    match descendUpdate h key hd.CurMaxLevel.toNat sl
        (List.replicate hd.CurMaxLevel.toNat none) with
    | none => none
    | some (x, update) =>
      match readForward h x 0 with
      | none => none
      | some xf =>
        match readKey h xf, xf with
        | some k, some q =>
          if k.CompareEquals key then
            match unspliceLoop q update hd.CurMaxLevel.toNat 0 h with
            | none => none
            | some h1 => shrinkLoop sl hd.CurMaxLevel.toNat h1
          else some h
        | _, _ => none

/-- The struct `SkipListIteratorOnMem`. -/
structure SkipListIteratorOnMem (K : Type) where
  curNode : Nat
  rangeStartKey : Option (Value K)
  rangeEndKey : Option (Value K)
deriving DecidableEq, Repr

/-- `IteratorOnMem(rangeStartKey, rangeEndKey)`. -/
def IteratorOnMem (h : Heap K) (sl : Nat) (rangeStartKey rangeEndKey : Option (Value K)) :
    Option (SkipListIteratorOnMem K) :=
  match rangeStartKey with
  | none => some { curNode := sl, rangeStartKey := none, rangeEndKey := rangeEndKey }
  | some k =>
    match GetEqualOrNearestSmallerNodeOnMem h sl k with
    | none => none
    | some x => some { curNode := x, rangeStartKey := some k, rangeEndKey := rangeEndKey }

/-- The result `(done, key, val)` of `Next` (the error is always nil). -/
structure NextResult (K : Type) where
  done : Bool
  key : Option (Value K)
  val : Nat
deriving DecidableEq, Repr

/-- `SkipListIteratorOnMem.Next()`: the iterator after the call and what the call returns. -/
def Next (h : Heap K) (itr : SkipListIteratorOnMem K) :
    Option (SkipListIteratorOnMem K × NextResult K) :=
  match readForward h itr.curNode 0 with
  | none => none
  | some f =>
    match readKey h f, f with
    | some k, some c =>
      let itr1 := { itr with curNode := c }
      let over :=
        match itr.rangeEndKey with
        | none => false
        | some e => k.CompareGreaterThan e
      if over || k.IsInf then some (itr1, { done := true, key := none, val := maxUint32 })
      else (h[c]?).map (fun n => (itr1, { done := false, key := some k, val := n.Val }))
    | _, _ => none

/-- The loop of the callers, `for done, _, key, val := itr.Next(); !done; ... = itr.Next()`,
collecting the pairs that `Next` returns before it reports done. -/
def iterate (h : Heap K) : Nat → SkipListIteratorOnMem K → Option (List (Value K × Nat))
  | 0, _ => none
  | fuel + 1, itr =>
    match Next h itr with
    | none => none
    | some (itr1, r) =>
      if r.done then some []
      else
        match r.key, iterate h fuel itr1 with
        | some k, some rest => some ((k, r.val) :: rest)
        | _, _ => none

/-- The pairs yielded by a full scan with `IteratorOnMem(lo, hi)`. -/
def scan (h : Heap K) (sl : Nat) (lo hi : Option (Value K)) : Option (List (Value K × Nat)) :=
  match IteratorOnMem h sl lo hi with
  | none => none
  | some itr => iterate h h.length itr

end SkipList
namespace SkipList

variable {K : Type} [LinearOrder K] [Inhabited K]

/-- The level-`i` link relation: `a.Forward[i]` is the node `b`. -/
def Link (h : Heap K) (i : Nat) (a b : Nat) : Prop := readForward h a i = some (some b)

/-- The nodes `l` are, in order, the level-`i` chain from the header (node 0) to the
sentinel (node 1). -/
def Path (h : Heap K) (i : Nat) (l : List Nat) : Prop := List.Chain' (Link h i) (0 :: l ++ [1])

/-- The key of node `p` (the zero value of the key type when the node has none). -/
def keyAt (h : Heap K) (p : Nat) : K :=
  match readKey h (some p) with
  | some (Value.key k) => k
  | _ => default

/-- The value stored in node `p`. -/
def valAt (h : Heap K) (p : Nat) : Nat :=
  match h[p]? with
  | some n => n.Val
  | none => 0

/-- The well-formedness invariant of a skip list whose header is node 0 and whose sentinel
is node 1: `lv i` lists the nodes of the level-`i` chain and `L` is `CurMaxLevel`. -/
structure Inv (h : Heap K) (lv : Nat → List Nat) (L : Nat) : Prop where
  curMax : (h[0]?).map (fun n => n.CurMaxLevel) = some (L : Int)
  Lle : L ≤ 20
  fwdLen : ∀ q, q < h.length → (h[q]?).map (fun n => n.Forward.length) = some 20
  senKey : readKey h (some 1) = some Value.inf
  keys : ∀ q, 2 ≤ q → q < h.length → ∃ k, readKey h (some q) = some (Value.key k)
  path : ∀ i, i < 20 → Path h i (lv i)
  mem : ∀ i, ∀ q ∈ lv i, 2 ≤ q ∧ q < h.length
  sorted : ∀ i, (lv i).Pairwise (fun a b => keyAt h a < keyAt h b)
  sub : ∀ i, (lv (i + 1)).Sublist (lv i)
  top : ∀ i, L ≤ i → lv i = []

end SkipList
namespace SkipList

variable {K : Type} [LinearOrder K] [Inhabited K]

/-- The nodes of a chain whose key is below `k`. -/
def pre (h : Heap K) (k : K) (l : List Nat) : List Nat :=
  l.filter (fun p => decide (keyAt h p < k))

/-- The nodes of a chain whose key is not below `k`. -/
def post (h : Heap K) (k : K) (l : List Nat) : List Nat :=
  l.filter (fun p => !decide (keyAt h p < k))

/-- The last node of a chain whose key is below `k`, the header when there is none. -/
def pred (h : Heap K) (k : K) (l : List Nat) : Nat := (pre h k l).getLastD 0

end SkipList
namespace SkipList

variable {K : Type} [LinearOrder K] [Inhabited K]

/-- The first node of a chain whose key is not below `k`, the sentinel when there is none. -/
def succ (h : Heap K) (k : K) (l : List Nat) : Nat := ((post h k l).head?).getD 1

/-- The key-value pairs held by the nodes of a chain, in chain order. -/
def entries (h : Heap K) (l : List Nat) : List (K × Nat) :=
  l.map (fun p => (keyAt h p, valAt h p))

end SkipList
namespace SkipList

variable {K : Type} [LinearOrder K] [Inhabited K]

/-- The result of a point lookup in a list of key-value pairs: the value of the first pair
with key `k`, `math.MaxUint32` when there is none. -/
def lookupD (m : List (K × Nat)) (k : K) : Nat := (m.lookup k).getD maxUint32

end SkipList
namespace SkipList

variable {K : Type} [LinearOrder K] [Inhabited K]

/-- A node with its forward pointers erased: what the splice and unsplice loops leave
unchanged. -/
def shape (n : SkipListOnMem K) : SkipListOnMem K :=
  { n with Forward := List.replicate n.Forward.length none }

end SkipList
namespace SkipList

variable {K : Type} [LinearOrder K] [Inhabited K]

/-- The pairs of `m` after key `k` is given the value `v`: the pairs with a smaller key, the
pair `(k, v)`, the pairs with a greater key. -/
def upsert (m : List (K × Nat)) (k : K) (v : Nat) : List (K × Nat) :=
  m.filter (fun e => decide (e.1 < k)) ++ (k, v) :: m.filter (fun e => decide (k < e.1))

/-- The level-`j` chain after a node `x` with key `k` is spliced into the lowest `m` levels. -/
def spliced (h : Heap K) (k : K) (x m : Nat) (lv : Nat → List Nat) (j : Nat) : List Nat :=
  if j < m then pre h k (lv j) ++ x :: post h k (lv j) else lv j

end SkipList
namespace SkipList

variable {K : Type} [LinearOrder K] [Inhabited K]

/-- A chain tail after the node `x` is unlinked from its head, when `x` is its head. -/
def dropHead (x : Nat) (b : List Nat) : List Nat :=
  if b.head? = some x then b.tail else b

end SkipList
namespace SkipList

variable {K : Type} [LinearOrder K] [Inhabited K]

/-- The key `k` lies within the optional inclusive bounds `lo` and `hi`. -/
def inRange (lo hi : Option K) (k : K) : Bool :=
  (match lo with
    | none => true
    | some a => decide (a ≤ k)) &&
  (match hi with
    | none => true
    | some b => decide (k ≤ b))

/-- The pairs of a list of entries as the iterator returns them. -/
def asValues (m : List (K × Nat)) : List (Value K × Nat) :=
  m.map (fun e => (Value.key e.1, e.2))

end SkipList
namespace SkipList

variable {K : Type} [LinearOrder K] [Inhabited K]

/-- The states of the list with header node 0 that are built through the interface: a
header made by `NewSkipListOnMem(level, key, value, true)` in an empty arena, with a level
that its twenty forward pointers can hold, followed by calls of `InsertOnMem` and
`RemoveOnMem` that return. -/
inductive Reachable : Heap K → Prop where
  | fresh {level : Int} {key : Value K} {value : Nat} {h : Heap K} :
      NewSkipListOnMem [] level (some key) value true = some (h, 0) →
      0 ≤ level → level ≤ 20 → Reachable h
  | insert {h h1 : Heap K} {k : K} {v s : Nat} :
      Reachable h → InsertOnMem h 0 (Value.key k) v s = some h1 → Reachable h1
  | remove {h h1 : Heap K} {k : K} {v : Nat} :
      Reachable h → RemoveOnMem h 0 (Value.key k) v = some h1 → Reachable h1

/-- A sequence of `InsertOnMem(key, value)` calls on the list with header 0; the third
component of a call is the outcome of its coin flips. -/
def insertAll : Heap K → List (K × Nat × Nat) → Option (Heap K)
  | h, [] => some h
  | h, (k, v, s) :: ops =>
    match InsertOnMem h 0 (Value.key k) v s with
    | none => none
    | some h1 => insertAll h1 ops

/-- The value passed to the most recent insertion of key `k` in a sequence of calls. -/
def lastValue : List (K × Nat × Nat) → K → Option Nat
  | [], _ => none
  | (k1, v, _) :: ops, k =>
    match lastValue ops k with
    | some w => some w
    | none => if k1 = k then some v else none

end SkipList
namespace SkipList

variable {K : Type} [LinearOrder K] [Inhabited K]

/-- A fresh list as the tests build it: `NewSkipListOnMem(1, &val, math.MaxUint32, true)`
with `val` the integer 0. -/
def sampleFresh : Heap Int :=
  [{ newNode 1 (some (Value.key 0)) maxUint32 with Forward := List.replicate 20 (some 1) },
   { newNode 1 (none : Option (Value Int)) maxUint32 with Key := some Value.inf }]

/-- A short sequence of insertions: key 5, key 3, key 5 again. -/
def sampleOps : List (Int × Nat × Nat) := [(5, 50, 0), (3, 30, 1), (5, 55, 0)]

/-- The list after `sampleOps`. -/
def sampleList : Heap Int := (insertAll sampleFresh sampleOps).getD []

/-- The list `sampleList` after `InsertOnMem(7, 70)` with two successful coin flips. -/
def sampleInserted : Heap Int := (InsertOnMem sampleList 0 (Value.key 7) 70 2).getD []

end SkipList
namespace SkipList

/-- The float key that denotes the fraction `q`. -/
def floatKey (q : Rat) : KeyOf TypeID.Float := ((q : WithTop Rat) : WithBot (WithTop Rat))

/-- A fresh list with keys of type Float: `NewSkipListOnMem(1, &val, math.MaxUint32, true)`
with `val` the float 0. -/
def sampleFreshFloat : Heap (KeyOf TypeID.Float) :=
  [{ newNode 1 (some (Value.key (floatKey 0))) maxUint32 with
      Forward := List.replicate 20 (some 1) },
   { newNode 1 (none : Option (Value (KeyOf TypeID.Float))) maxUint32 with
      Key := some Value.inf }]

/-- The list of float keys after `InsertOnMem(2.5, 25)` with no successful coin flip; the
key is a fraction in lowest terms. -/
def sampleFloatOne : Heap (KeyOf TypeID.Float) :=
  (InsertOnMem sampleFreshFloat 0 (Value.key (floatKey ⟨5, 2, by decide, by decide⟩)) 25 0).getD []

/-- The list `sampleFloatOne` after `InsertOnMem(0.5, 5)` with one successful coin flip. -/
def sampleFloats : Heap (KeyOf TypeID.Float) :=
  (InsertOnMem sampleFloatOne 0 (Value.key (floatKey ⟨1, 2, by decide, by decide⟩)) 5 1).getD []

/-- A fresh list with keys of type Varchar: `NewSkipListOnMem(1, &val, math.MaxUint32, true)`
with `val` the empty string. -/
def sampleFreshVarchar : Heap (KeyOf TypeID.Varchar) :=
  [{ newNode 1 (some (Value.key "")) maxUint32 with Forward := List.replicate 20 (some 1) },
   { newNode 1 (none : Option (Value (KeyOf TypeID.Varchar))) maxUint32 with
      Key := some Value.inf }]

/-- The list of string keys after `InsertOnMem("pear", 7)` with no successful coin flip. -/
def sampleVarchar : Heap (KeyOf TypeID.Varchar) :=
  (InsertOnMem sampleFreshVarchar 0 (Value.key "pear") 7 0).getD []

end SkipList
namespace Clock

/-- The type `FrameID` (a `uint32`). -/
abbrev FrameID := Nat

/-- Modelled from the spec: the struct `node` of the circular list (`circular_list.go` is
not among the sources).  The fields `key`, `value` and `next` are the ones `ClockReplacer`
reads and writes; `prev` makes the list "doubly-linked" as the spec says.  Pointers are
indices into the arena of nodes, `none` being nil. -/
structure node where
  key : FrameID
  value : Bool
  next : Option Nat
  prev : Option Nat
deriving DecidableEq, Repr

/-- Modelled from the spec: the struct `circularList` (`circular_list.go` is not among the
sources), "a circular, doubly-linked set of candidate frame ids, each tagged with a boolean
reference bit", "constructed with a fixed capacity".  The fields `head`, `size` and
`supportMap` are the ones `ClockReplacer` uses; the Go map from frame id to node is a list
of pairs. -/
structure circularList where
  head : Option Nat
  tail : Option Nat
  size : Nat
  capacity : Nat
  supportMap : List (FrameID × Nat)
deriving DecidableEq, Repr

/-- A value of type `**node`: the address of the field `head` of the list, or of the field
`next` of a node. -/
inductive NodeRef where
  | head
  | next (n : Nat)
deriving DecidableEq, Repr

/-- The struct `ClockReplacer` together with the arena its nodes live in (the mutex, which
every method takes on entry and releases on return, is left out). -/
structure ClockReplacer where
  nodes : List node
  cList : circularList
  clockHand : NodeRef
deriving DecidableEq, Repr

/-- Modelled from the spec: `newCircularList(capacity)`, the empty list. -/
def newCircularList (capacity : Nat) : circularList :=
  { head := none, tail := none, size := 0, capacity := capacity, supportMap := [] }

/-- Modelled from the spec: `circularList.hasKey(key)`, whether the frame is in the set. -/
def hasKey (l : circularList) (key : FrameID) : Bool :=
  (l.supportMap.lookup key).isSome

/-- The assignment `p.next = v`. -/
def setNext (nodes : List node) (p : Nat) (v : Option Nat) : Option (List node) :=
  match nodes[p]? with
  | none => none
  | some n => some (nodes.set p { n with next := v })

/-- The assignment `p.prev = v`. -/
def setPrev (nodes : List node) (p : Nat) (v : Option Nat) : Option (List node) :=
  match nodes[p]? with
  | none => none
  | some n => some (nodes.set p { n with prev := v })

/-- Modelled from the spec: `circularList.insert(key, value)` ("a frame enters the set on
Unpin").  A full list is left as it is; a key that is present has its value replaced;
otherwise a node is allocated and linked in after the tail, before the head. -/
def insert (nodes : List node) (l : circularList) (key : FrameID) (value : Bool) :
    Option (List node × circularList) :=
  if l.size = l.capacity then some (nodes, l)
  else
    match l.supportMap.lookup key with
    | some p =>
      match nodes[p]? with
      | none => none
      | some n => some (nodes.set p { n with value := value }, l)
    | none =>
      let newNode := nodes.length
      if l.size = 0 then
        some (nodes ++ [{ key := key, value := value, next := some newNode,
                          prev := some newNode }],
          { l with head := some newNode, tail := some newNode, size := l.size + 1,
                   supportMap := l.supportMap ++ [(key, newNode)] })
      else
        match l.head, l.tail with
        | some hd, some tl =>
          let nodes1 := nodes ++ [{ key := key, value := value, next := some hd,
                                    prev := some tl }]
          match setNext nodes1 tl (some newNode) with
          | none => none
          | some nodes2 =>
            match setPrev nodes2 hd (some newNode) with
            | none => none
            | some nodes3 =>
              some (nodes3, { l with tail := some newNode, size := l.size + 1,
                                     supportMap := l.supportMap ++ [(key, newNode)] })
        | _, _ => none

/-- Modelled from the spec: `circularList.remove(key)` ("a frame leaves the set on Pin or
on being chosen as victim").  The node is unlinked from its neighbours and dropped from the
map; its own `next` field is left as it is, so that a hand set to `&node.next` is "left at
its successor". -/
def remove (nodes : List node) (l : circularList) (key : FrameID) :
    Option (List node × circularList) :=
  match l.supportMap.lookup key with
  | none => some (nodes, l)
  | some p =>
    let supportMap1 := l.supportMap.filter (fun e => e.1 ≠ key)
    if l.size = 1 then
      some (nodes, { l with head := none, tail := none, size := l.size - 1,
                            supportMap := supportMap1 })
    else
      match nodes[p]? with
      | none => none
      | some n =>
        match n.next, n.prev with
        | some nx, some pv =>
          let head1 := if l.head = some p then some nx else l.head
          let tail1 := if l.tail = some p then some pv else l.tail
          match setPrev nodes nx (some pv) with
          | none => none
          | some nodes1 =>
            match setNext nodes1 pv (some nx) with
            | none => none
            | some nodes2 =>
              some (nodes2, { l with head := head1, tail := tail1, size := l.size - 1,
                                     supportMap := supportMap1 })
        | _, _ => none

/-- The expression `*r` for `r` of type `**node`. -/
def deref (c : ClockReplacer) : NodeRef → Option Nat
  | NodeRef.head => c.cList.head
  | NodeRef.next n =>
    match c.nodes[n]? with
    | none => none
    | some m => m.next

/-- `NewClockReplacer(poolSize)`. -/
def NewClockReplacer (poolSize : Nat) : ClockReplacer :=
  { nodes := [], cList := newCircularList poolSize, clockHand := NodeRef.head }

/-- `ClockReplacer.Size()`. -/
def Size (c : ClockReplacer) : Nat := c.cList.size

/-- The `for` loop of `Victim` with the local variable `currentNode`, which the loop never
reassigns.  A round that finds the reference bit set clears it and goes round again, so two
rounds of fuel are always enough. -/
def victimLoop (currentNode : Nat) : Nat → ClockReplacer → Option (ClockReplacer × Option FrameID)
  | 0, _ => none
  | fuel + 1, c =>
    match c.nodes[currentNode]? with
    | none => none
    | some n =>
      if n.value then
        victimLoop currentNode fuel
          { c with nodes := c.nodes.set currentNode { n with value := false },
                   clockHand := NodeRef.next currentNode }
      else
        match remove c.nodes c.cList n.key with
        | none => none
        | some (nodes1, l1) =>
          some ({ nodes := nodes1, cList := l1, clockHand := NodeRef.next currentNode },
            some n.key)

/-- `ClockReplacer.Victim()`: the replacer after the call and the returned `*FrameID`. -/
def Victim (c : ClockReplacer) : Option (ClockReplacer × Option FrameID) :=
  if c.cList.size = 0 then some (c, none)
  else
    match deref c c.clockHand with
    | none => none
    | some currentNode => victimLoop currentNode 2 c

/-- `ClockReplacer.Unpin(id)`. -/
def Unpin (c : ClockReplacer) (id : FrameID) : Option ClockReplacer :=
  if hasKey c.cList id then some c
  else
    match insert c.nodes c.cList id true with
    | none => none
    | some (nodes1, l1) =>
      some { nodes := nodes1, cList := l1,
             clockHand := if l1.size = 1 then NodeRef.head else c.clockHand }

/-- `ClockReplacer.Pin(id)`. -/
def Pin (c : ClockReplacer) (id : FrameID) : Option ClockReplacer :=
  match c.cList.supportMap.lookup id with
  | none => some c
  | some p =>
    let hand1 := if deref c c.clockHand = some p then NodeRef.next p else c.clockHand
    match remove c.nodes c.cList id with
    | none => none
    | some (nodes1, l1) =>
      some { nodes := nodes1,
             cList := { l1 with supportMap := l1.supportMap.filter (fun e => e.1 ≠ id) },
             clockHand := hand1 }

/-- A call of the replacer. -/
inductive Call where
  | victim
  | unpin (id : FrameID)
  | pin (id : FrameID)
deriving DecidableEq, Repr

/-- A sequence of calls; the result holds what the `Victim` calls returned, in order. -/
def run : ClockReplacer → List Call → Option (ClockReplacer × List (Option FrameID))
  | c, [] => some (c, [])
  | c, Call.victim :: cs =>
    match Victim c with
    | none => none
    | some (c1, r) =>
      match run c1 cs with
      | none => none
      | some (c2, rs) => some (c2, r :: rs)
  | c, Call.unpin id :: cs =>
    match Unpin c id with
    | none => none
    | some c1 => run c1 cs
  | c, Call.pin id :: cs =>
    match Pin c id with
    | none => none
    | some c1 => run c1 cs

/-- The states of a replacer made by `NewClockReplacer` and used through its methods. -/
inductive Reachable : ClockReplacer → Prop where
  | fresh (poolSize : Nat) : Reachable (NewClockReplacer poolSize)
  | victim {c c1 : ClockReplacer} {r : Option FrameID} :
      Reachable c → Victim c = some (c1, r) → Reachable c1
  | unpin {c c1 : ClockReplacer} {id : FrameID} :
      Reachable c → Unpin c id = some c1 → Reachable c1
  | pin {c c1 : ClockReplacer} {id : FrameID} :
      Reachable c → Pin c id = some c1 → Reachable c1

end Clock
namespace Clock

/-- The field `p.next`. -/
def nextOf (nodes : List node) (p : Nat) : Option Nat :=
  match nodes[p]? with
  | none => none
  | some n => n.next

/-- The field `p.prev`. -/
def prevOf (nodes : List node) (p : Nat) : Option Nat :=
  match nodes[p]? with
  | none => none
  | some n => n.prev

/-- The field `p.key`. -/
def keyOf (nodes : List node) (p : Nat) : Option FrameID :=
  match nodes[p]? with
  | none => none
  | some n => some n.key

/-- Node `b` follows node `a` in the doubly-linked list. -/
def LinkR (nodes : List node) (a b : Nat) : Prop :=
  nextOf nodes a = some b ∧ prevOf nodes b = some a

/-- The nodes `l` are linked one to the next and the last one back to the first. -/
def Cyc (nodes : List node) (l : List Nat) : Prop :=
  List.Chain' (LinkR nodes) l ∧ ∀ a ∈ l.getLast?, ∀ b ∈ l.head?, LinkR nodes a b

/-- The nodes of the list, from head to tail. -/
def ringOf (l : circularList) : List Nat := l.supportMap.map Prod.snd

/-- The frame ids the replacer tracks. -/
def tracked (c : ClockReplacer) : List FrameID := c.cList.supportMap.map Prod.fst

/-- The well-formedness invariant of a circular list in an arena of nodes. -/
structure ListWF (nodes : List node) (l : circularList) : Prop where
  size_eq : l.size = l.supportMap.length
  keys_nodup : (l.supportMap.map Prod.fst).Nodup
  ptrs_nodup : (ringOf l).Nodup
  key_ok : ∀ e ∈ l.supportMap, keyOf nodes e.2 = some e.1
  ends : ringOf l ≠ [] → l.head = (ringOf l).head? ∧ l.tail = (ringOf l).getLast?
  cyc : Cyc nodes (ringOf l)

/-- The well-formedness invariant of a replacer: its list is well formed, the hand points
at a node of the list unless the list is empty, and a hand that is the address of a `next`
field is the address of the field of a node that has left the list. -/
structure WF (c : ClockReplacer) : Prop where
  list : ListWF c.nodes c.cList
  hand_live : ringOf c.cList ≠ [] → ∃ p, deref c c.clockHand = some p ∧ p ∈ ringOf c.cList
  hand_stale : ∀ x, c.clockHand = NodeRef.next x → x ∉ ringOf c.cList ∧ x < c.nodes.length

end Clock
namespace Clock

/-- A replacer with pool size 3 after `Unpin(1)` and `Unpin(2)`: both frames are tracked
with their reference bit set and the hand is at frame 1. -/
def sampleReplacer : ClockReplacer :=
  { nodes := [{ key := 1, value := true, next := some 1, prev := some 1 },
              { key := 2, value := true, next := some 0, prev := some 0 }],
    cList := { head := some 0, tail := some 1, size := 2, capacity := 3,
               supportMap := [(1, 0), (2, 1)] },
    clockHand := NodeRef.head }

/-- The replacer `sampleReplacer` with the reference bit of frame 2 cleared. -/
def sampleSecondChance : ClockReplacer :=
  { nodes := [{ key := 1, value := true, next := some 1, prev := some 1 },
              { key := 2, value := false, next := some 0, prev := some 0 }],
    cList := { head := some 0, tail := some 1, size := 2, capacity := 3,
               supportMap := [(1, 0), (2, 1)] },
    clockHand := NodeRef.head }

end Clock
namespace SkipListPage

/-- The constant `sizeOfHashTablePair`. -/
def sizeOfHashTablePair : Nat := 16

/-- The constant `BlockArraySize = 4 * 4096 / (4*sizeOfHashTablePair + 1)`, the number of
slots of a block page. -/
def BlockArraySize : Nat := 4 * 4096 / (4 * sizeOfHashTablePair + 1)

/-- The struct `SkipListPair`: two `uint32` fields. -/
structure SkipListPair where
  key : Nat
  value : Nat
deriving DecidableEq, Repr

/-- The struct `SkipListBlockPage`.  The arrays `[(BlockArraySize-1)/8 + 1]byte` and
`[BlockArraySize]SkipListPair` are lists; a byte is a natural number below 256. -/
structure SkipListBlockPage where
  occuppied : List Nat
  readable : List Nat
  array : List SkipListPair
deriving DecidableEq, Repr

/-- The lengths that the array types of `SkipListBlockPage` fix. -/
def Sized (page_ : SkipListBlockPage) : Prop :=
  page_.occuppied.length = (BlockArraySize - 1) / 8 + 1 ∧
  page_.readable.length = (BlockArraySize - 1) / 8 + 1 ∧
  page_.array.length = BlockArraySize

instance (page_ : SkipListBlockPage) : Decidable (Sized page_) := by
  unfold Sized
  exact inferInstance

/-- `SkipListBlockPage.KeyAt(index)`: the body is `return nil`, so the result is the nil
pointer (`none`) for every page and index. -/
def KeyAt (_page : SkipListBlockPage) (_index : Nat) : Option (SkipList.Value Int) := none

/-- `SkipListBlockPage.ValueAt(index)`; `none` is the index-out-of-range panic. -/
def ValueAt (page_ : SkipListBlockPage) (index : Nat) : Option Nat :=
  (page_.array[index]?).map (fun e => e.value)

/-- `SkipListBlockPage.IsOccupied(index)`.  The mask `1 << (index % 8)` is a byte, at most
128. -/
def IsOccupied (page_ : SkipListBlockPage) (index : Nat) : Option Bool :=
  match page_.occuppied[index / 8]? with
  | none => none
  | some b => some ((b &&& (1 <<< (index % 8))) != 0)

/-- `SkipListBlockPage.IsReadable(index)`. -/
def IsReadable (page_ : SkipListBlockPage) (index : Nat) : Option Bool :=
  match page_.readable[index / 8]? with
  | none => none
  | some b => some ((b &&& (1 <<< (index % 8))) != 0)

/-- `SkipListBlockPage.Insert(index, key, value)`: the page after the call and the returned
boolean. -/
def Insert (page_ : SkipListBlockPage) (index key value : Nat) :
    Option (SkipListBlockPage × Bool) :=
  match IsOccupied page_ index with
  | none => none
  | some true => some (page_, false)
  | some false =>
    if index < page_.array.length then
      match page_.occuppied[index / 8]?, page_.readable[index / 8]? with
      | some o, some r =>
        some ({ occuppied := page_.occuppied.set (index / 8) (o ||| (1 <<< (index % 8))),
                readable := page_.readable.set (index / 8) (r ||| (1 <<< (index % 8))),
                array := page_.array.set index { key := key, value := value } }, true)
      | _, _ => none
    else none

/-- `SkipListBlockPage.Remove(index)`.  The complement `^(1 << (index % 8))` is taken in a
byte. -/
def Remove (page_ : SkipListBlockPage) (index : Nat) : Option SkipListBlockPage :=
  match IsReadable page_ index with
  | none => none
  | some false => some page_
  | some true =>
    match page_.readable[index / 8]? with
    | none => none
    | some r =>
      some { page_ with
        readable := page_.readable.set (index / 8) (r &&& (255 ^^^ (1 <<< (index % 8)))) }

/-- A page of zero bytes, as a new page of the buffer pool is. -/
def zeroPage : SkipListBlockPage :=
  { occuppied := List.replicate ((BlockArraySize - 1) / 8 + 1) 0,
    readable := List.replicate ((BlockArraySize - 1) / 8 + 1) 0,
    array := List.replicate BlockArraySize { key := 0, value := 0 } }

/-- The block pages reached from a page of zero bytes through `Insert` and `Remove`. -/
inductive Reachable : SkipListBlockPage → Prop where
  | zero : Reachable zeroPage
  | insert {p p1 : SkipListBlockPage} {index key value : Nat} {b : Bool} :
      Reachable p → Insert p index key value = some (p1, b) → Reachable p1
  | remove {p p1 : SkipListBlockPage} {index : Nat} :
      Reachable p → Remove p index = some p1 → Reachable p1

/-- The page of `TestSkipListBlockPage` after its first two inserts and the removal of
slot 1. -/
def samplePage : SkipListBlockPage :=
  { occuppied := 3 :: List.replicate 31 0,
    readable := 1 :: List.replicate 31 0,
    array := [{ key := 0, value := 0 }, { key := 1, value := 1 }]
      ++ List.replicate 250 { key := 0, value := 0 } }

/-- The page of `TestSkipListBlockPage` after its first two inserts. -/
def sampleLive : SkipListBlockPage :=
  { occuppied := 3 :: List.replicate 31 0,
    readable := 3 :: List.replicate 31 0,
    array := [{ key := 0, value := 0 }, { key := 1, value := 1 }]
      ++ List.replicate 250 { key := 0, value := 0 } }

/-- The invariant of the bitmaps: the sizes of the page and, bit by bit, readable implies
occupied. -/
def BitsOk (p : SkipListBlockPage) : Prop :=
  Sized p ∧ ∀ (j o r : Nat), p.occuppied[j]? = some o → p.readable[j]? = some r →
    ∀ b, b < 8 → r.testBit b = true → o.testBit b = true

end SkipListPage
namespace SamehadaUtil

/-- Modelled from the spec: the struct `page.RID` (`rid.go` is not among the sources), the
"page-id/slot-number pair": `PageId` of type `types.PageID`, an `int32`, and `SlotNum` of
type `uint32`. -/
structure RID where
  PageId : Int
  SlotNum : Nat
deriving DecidableEq, Repr

/-- The values that the field types of `RID` admit. -/
def RID.InRange (r : RID) : Prop :=
  -2147483648 ≤ r.PageId ∧ r.PageId < 2147483648 ∧ r.SlotNum < 4294967296

instance (r : RID) : Decidable r.InRange := by
  unfold RID.InRange
  exact inferInstance

/-- The bytes that `binary.Write(buf, binary.LittleEndian, v)` appends for a `uint32`. -/
def putUint32 (v : Nat) : List Nat :=
  [v % 256, v / 256 % 256, v / 65536 % 256, v / 16777216 % 256]

/-- The bytes that `binary.Write(buf, binary.LittleEndian, v)` appends for an `int32`: those
of its two's complement. -/
def putInt32 (v : Int) : List Nat := putUint32 (v % 4294967296).toNat

/-- `binary.LittleEndian.Uint32(b)`; `none` is the panic on a slice of fewer than four
bytes. -/
def Uint32 (b : List Nat) : Option Nat :=
  match b with
  | b0 :: b1 :: b2 :: b3 :: _ => some (b0 + 256 * b1 + 65536 * b2 + 16777216 * b3)
  | _ => none

/-- `copy(dst[lo:hi], src)`: the buffer `dst` after the call.  As many bytes are copied as
the shorter of `dst[lo:hi]` and `src` has. -/
def copy (dst : List Nat) (lo hi : Nat) (src : List Nat) : List Nat :=
  dst.take lo ++ src.take (hi - lo) ++ dst.drop (lo + min (hi - lo) src.length)

/-- `PackRIDtoUint32(value)`. -/
def PackRIDtoUint32 (value : RID) : Option Nat :=
  let pack_buf := List.replicate 4 0
  let pageIdInBytes := putInt32 value.PageId
  let slotNumInBytes := putUint32 value.SlotNum
  let pack_buf := copy pack_buf 0 2 (pageIdInBytes.take 2)
  let pack_buf := copy pack_buf 2 4 (slotNumInBytes.take 2)
  Uint32 pack_buf

/-- `UnpackUint32toRID(value)`.  The conversion `types.PageID(...)` of a `uint32` wraps to
`int32`. -/
def UnpackUint32toRID (value : Nat) : Option RID :=
  let packedDataInBytes := putUint32 value
  let buf := List.replicate 4 0
  let buf := copy buf 0 2 (packedDataInBytes.take 2)
  match Uint32 buf with
  | none => none
  | some pageId =>
    let buf := copy buf 0 2 (packedDataInBytes.drop 2)
    match Uint32 buf with
    | none => none
    | some slotNum => some { PageId := SkipList.wrapInt32 (pageId : Int), SlotNum := slotNum }

end SamehadaUtil
namespace Storage

/-- The constant `common.PageSize` (4096; package `common` is not among the sources,
`page.go` names the value in a comment). -/
def PageSize : Nat := 4096

/-- The constant `SizePageHeader`. -/
def SizePageHeader : Nat := 8

/-- The constant `OffsetPageStart`. -/
def OffsetPageStart : Nat := 0

/-- The constant `OffsetLSN`. -/
def OffsetLSN : Nat := 4

/-- Modelled from the spec: the constant `types.SizeOfLSN` (package `types` is not among
the sources); the log-sequence-number is "4-byte". -/
def SizeOfLSN : Nat := 4

/-- Modelled from the spec: `types.LSN.Serialize()` (package `types` is not among the
sources), the "4-byte little-endian" encoding of the log-sequence-number, an `int32`. -/
def Serialize (lsn : Int) : List Nat := SamehadaUtil.putInt32 lsn

/-- Modelled from the spec: `types.NewLSNFromBytes(data)` (package `types` is not among the
sources), the log-sequence-number, an `int32`, that four little-endian bytes encode. -/
def NewLSNFromBytes (data : List Nat) : Option Int :=
  match SamehadaUtil.Uint32 data with
  | none => none
  | some v => some (SkipList.wrapInt32 (v : Int))

/-- The struct `Page` without its latch.  The field `data` is a pointer to an array of
`PageSize` bytes: `none` is the nil pointer. -/
structure Page where
  id : Int
  pinCount : Int
  isDirty : Bool
  data : Option (List Nat)
deriving DecidableEq, Repr

/-- `Page.IncPinCount()`: `atomic.AddInt32(&p.pinCount, 1)` wraps in `int32`. -/
def IncPinCount (p : Page) : Page :=
  { p with pinCount := SkipList.wrapInt32 (p.pinCount + 1) }

/-- `Page.DecPinCount()`. -/
def DecPinCount (p : Page) : Page :=
  if p.pinCount > 0 then { p with pinCount := SkipList.wrapInt32 (p.pinCount + -1) }
  else p

/-- `Page.PinCount()`. -/
def PinCount (p : Page) : Int := p.pinCount

/-- `page.New(id, isDirty, data)`. -/
def New (id : Int) (isDirty : Bool) (data : Option (List Nat)) : Page :=
  { id := id, pinCount := 1, isDirty := isDirty, data := data }

/-- `page.NewEmpty(id)`. -/
def NewEmpty (id : Int) : Page :=
  { id := id, pinCount := 1, isDirty := false, data := some (List.replicate PageSize 0) }

/-- `Page.GetData()`. -/
def GetData (p : Page) : Option (List Nat) := p.data

/-- `Page.GetLSN()`; `none` is the panic of slicing through a nil pointer or beyond the
array. -/
def GetLSN (p : Page) : Option Int :=
  match GetData p with
  | none => none
  | some d =>
    if OffsetLSN + SizeOfLSN ≤ d.length then
      NewLSNFromBytes ((d.drop OffsetLSN).take (OffsetLSN + SizeOfLSN - OffsetLSN))
    else none

/-- `Page.SetLSN(lsn)`. -/
def SetLSN (p : Page) (lsn : Int) : Option Page :=
  match p.data with
  | none => none
  | some d =>
    if OffsetLSN + SizeOfLSN ≤ d.length then
      some { p with
        data := some (SamehadaUtil.copy d OffsetLSN (OffsetLSN + SizeOfLSN) (Serialize lsn)) }
    else none

/-- A call of one of the two methods that change the pin count. -/
inductive PinCall where
  | inc
  | dec
deriving DecidableEq, Repr

/-- The page after a sequence of `IncPinCount` and `DecPinCount` calls. -/
def runPins (p : Page) : List PinCall → Page
  | [] => p
  | PinCall.inc :: rest => runPins (IncPinCount p) rest
  | PinCall.dec :: rest => runPins (DecPinCount p) rest

/-- No `IncPinCount` call of the sequence is made at the greatest `int32`. -/
def NoOverflow (p : Page) : List PinCall → Prop
  | [] => True
  | PinCall.inc :: rest => p.pinCount < 2147483647 ∧ NoOverflow (IncPinCount p) rest
  | PinCall.dec :: rest => NoOverflow (DecPinCount p) rest

/-- The predicate `NoOverflow` is decided by running the calls. -/
def decNoOverflow : (calls : List PinCall) → (p : Page) → Decidable (NoOverflow p calls)
  | [], _ => isTrue trivial
  | PinCall.inc :: rest, p =>
    match decNoOverflow rest (IncPinCount p) with
    | isTrue h =>
      if hlt : p.pinCount < 2147483647 then isTrue ⟨hlt, h⟩
      else isFalse (fun hc => hlt hc.1)
    | isFalse h => isFalse (fun hc => h hc.2)
  | PinCall.dec :: rest, p => decNoOverflow rest (DecPinCount p)

instance (p : Page) (calls : List PinCall) : Decidable (NoOverflow p calls) :=
  decNoOverflow calls p

end Storage
namespace DiskIndex

open SkipListPage

/-- Modelled from the spec: the struct `SkipListHeaderPage` (its file is not among the
sources), the directory of the index: "page id, size (int), ordered list of block-page
ids, LSN". -/
structure SkipListHeaderPage where
  pageId : Nat
  size : Int
  lsn : Nat
  blockPageIds : List Nat
deriving DecidableEq, Repr

/-- Modelled from the spec: `SkipListHeaderPage.NumBlocks()`, the number of block-page ids
of the directory. -/
def NumBlocks (headerPage : SkipListHeaderPage) : Nat := headerPage.blockPageIds.length

/-- Modelled from the spec: `SkipListHeaderPage.GetBlockPageId(index)`, the block-page id of
a bucket; `none` when the directory has no such bucket. -/
def GetBlockPageId (headerPage : SkipListHeaderPage) (index : Nat) : Option Nat :=
  headerPage.blockPageIds[index]?

/-- The bytes of a page of the pool, read through the layout they are cast to. -/
inductive PageData where
  | header (h : SkipListHeaderPage)
  | block (b : SkipListBlockPage)
deriving DecidableEq, Repr

/-- A page of the pool: its data, its pin count and its dirty flag. -/
structure Frame where
  data : PageData
  pinCount : Int
  isDirty : Bool
deriving DecidableEq, Repr

/-- Modelled from the spec: the `BufferPoolManager` (package `buffer` has only the clock
replacer among the sources).  The page with id `i` is `pages[i]`; the page that a fetch
returns is "stable ... for the duration between fetch and unpin", so eviction and disk
reads do not show. -/
structure BufferPoolManager where
  pages : List Frame
deriving DecidableEq, Repr

/-- Modelled from the spec: `BufferPoolManager.FetchPage(id)`, which "returns the page,
incrementing pin count"; `none` is the nil page, on which the caller's `.Data()` panics. -/
def FetchPage (bpm : BufferPoolManager) (id : Nat) : Option (BufferPoolManager × PageData) :=
  match bpm.pages[id]? with
  | none => none
  | some f =>
    some ({ pages := bpm.pages.set id { f with pinCount := f.pinCount + 1 } }, f.data)

/-- Modelled from the spec: `BufferPoolManager.UnpinPage(id, isDirty)`, which "decrements
pin count; ORs in the dirty flag". -/
def UnpinPage (bpm : BufferPoolManager) (id : Nat) (isDirty : Bool) : BufferPoolManager :=
  match bpm.pages[id]? with
  | none => bpm
  | some f =>
    { pages := bpm.pages.set id
        { f with pinCount := f.pinCount - 1, isDirty := f.isDirty || isDirty } }

/-- The functions of packages outside the repository sources that the index calls: the
128-bit murmur3 sum of the key bytes, as the number its first four bytes encode, and
`types.NewValueFromBytes(key, types.Integer)`, a pointer (`none` is nil). -/
structure External where
  murmur3 : List Nat → Nat
  NewValueFromBytes : List Nat → Option (SkipList.Value Int)

/-- The function `hash`: the `uint32` in the first four bytes of the murmur3 sum. -/
def hash (ext : External) (key : List Nat) : Nat := ext.murmur3 key % 4294967296

/-- The struct `SkipList`, the disk-backed index, without its latch. -/
structure SkipList where
  headerPageId : Nat
  bpm : BufferPoolManager
deriving DecidableEq, Repr

/-- The struct `skipListIterator`.  The fields `bpm`, `headerPage` and `blockPage` are
pointers into the pool: the functions below take the pool and the header page and read
the block page of `blockId` from the pool. -/
structure skipListIterator where
  bucket : Nat
  offset : Nat
  blockId : Nat
deriving DecidableEq, Repr

/-- The page of the pool with id `id` read as a header page, as the cast
`(*SkipListHeaderPage)(unsafe.Pointer(...))` does. -/
def headerOf (bpm : BufferPoolManager) (id : Nat) : Option SkipListHeaderPage :=
  match bpm.pages[id]? with
  | some { data := PageData.header h, .. } => some h
  | _ => none

/-- The page of the pool with id `id` read as a block page. -/
def blockOf (bpm : BufferPoolManager) (id : Nat) : Option SkipListBlockPage :=
  match bpm.pages[id]? with
  | some { data := PageData.block b, .. } => some b
  | _ => none

/-- A write through the `blockPage` pointer of the iterator: the block page of `id` in the
pool becomes `b`. -/
def storeBlock (bpm : BufferPoolManager) (id : Nat) (b : SkipListBlockPage) :
    BufferPoolManager :=
  match bpm.pages[id]? with
  | none => bpm
  | some f => { pages := bpm.pages.set id { f with data := PageData.block b } }

/-- `newSkipListIterator(bpm, header, bucket, offset)`. -/
def newSkipListIterator (bpm : BufferPoolManager) (header : SkipListHeaderPage)
    (bucket offset : Nat) : Option (BufferPoolManager × skipListIterator) :=
  match GetBlockPageId header bucket with
  | none => none
  | some blockPageId =>
    match FetchPage bpm blockPageId with
    | some (bpm1, PageData.block _) =>
      some (bpm1, { bucket := bucket, offset := offset, blockId := blockPageId })
    | _ => none

/-- `skipListIterator.next()`. -/
def next (bpm : BufferPoolManager) (headerPage : SkipListHeaderPage)
    (itr : skipListIterator) : Option (BufferPoolManager × skipListIterator) :=
  let offset := itr.offset + 1
  if offset ≥ BlockArraySize then
    let bucket := itr.bucket + 1
    let bucket := if bucket ≥ NumBlocks headerPage then 0 else bucket
    let bpm1 := UnpinPage bpm itr.blockId true
    match GetBlockPageId headerPage bucket with
    | none => none
    | some blockId =>
      match FetchPage bpm1 blockId with
      | some (bpm2, PageData.block _) =>
        some (bpm2, { bucket := bucket, offset := 0, blockId := blockId })
      | _ => none
  else some (bpm, { itr with offset := offset })

/-- The loop of `SkipList.GetValue`; the fuel bounds the number of rounds.  The comparison
`blockPage.KeyAt(offset).CompareEquals(...)` goes through the pointer that `KeyAt`
returns: on nil it panics. -/
def getValueLoop (ext : External) (key : List Nat) (headerPage : SkipListHeaderPage)
    (originalBucketIndex originalBucketOffset : Nat) :
    Nat → BufferPoolManager → skipListIterator → List Nat →
      Option (BufferPoolManager × skipListIterator × List Nat)
  | 0, _, _, _ => none
  | fuel + 1, bpm, iterator, result =>
    match blockOf bpm iterator.blockId with
    | none => none
    | some blockPage =>
      match IsOccupied blockPage iterator.offset with
      | none => none
      | some false => some (bpm, iterator, result)
      | some true =>
        let hit : Option Bool :=
          match IsReadable blockPage iterator.offset with
          | none => none
          | some false => some false
          | some true =>
            match KeyAt blockPage iterator.offset, ext.NewValueFromBytes key with
            | some k, some v => some (k.CompareEquals v)
            | _, _ => none
        match hit with
        | none => none
        | some c =>
          let result1 : Option (List Nat) :=
            if c then (ValueAt blockPage iterator.offset).map (fun v => result ++ [v])
            else some result
          match result1 with
          | none => none
          | some result1 =>
            match next bpm headerPage iterator with
            | none => none
            | some (bpm1, iterator1) =>
              if iterator1.bucket = originalBucketIndex ∧
                  iterator1.offset = originalBucketOffset then
                some (bpm1, iterator1, result1)
              else
                getValueLoop ext key headerPage originalBucketIndex originalBucketOffset
                  fuel bpm1 iterator1 result1

/-- `SkipList.GetValue(key)`: the index after the call (the pins and dirty flags of the
pool change) and the returned list.  `none` is a panic: the division by `NumBlocks() = 0`,
a nil page, or the nil dereference in the loop. -/
def GetValue (ext : External) (sl : SkipList) (key : List Nat) :
    Option (SkipList × List Nat) :=
  match FetchPage sl.bpm sl.headerPageId with
  | some (bpm1, PageData.header headerPage) =>
    let hash := hash ext key
    if NumBlocks headerPage = 0 then none
    else
      let originalBucketIndex := hash % NumBlocks headerPage
      let originalBucketOffset := hash % BlockArraySize
      match newSkipListIterator bpm1 headerPage originalBucketIndex originalBucketOffset with
      | none => none
      | some (bpm2, iterator) =>
        match getValueLoop ext key headerPage originalBucketIndex originalBucketOffset
            (NumBlocks headerPage * BlockArraySize) bpm2 iterator [] with
        | none => none
        | some (bpm3, iterator1, result) =>
          let bpm4 := UnpinPage bpm3 iterator1.blockId true
          let bpm5 := UnpinPage bpm4 sl.headerPageId false
          some ({ sl with bpm := bpm5 }, result)
  | _ => none

/-- The error value that `SkipList.Insert` makes with `errors.New`. -/
def duplicateError : String := "duplicated values on the same key are not allowed"

/-- The loop of `SkipList.Insert`; the fuel bounds the number of rounds.  The result holds
the value of `err` at the exit of the loop: its initial value is the one the function was
entered with. -/
def insertLoop (hash value : Nat) (headerPage : SkipListHeaderPage)
    (originalBucketIndex originalBucketOffset : Nat) :
    Nat → BufferPoolManager → skipListIterator → Option String →
      Option (BufferPoolManager × skipListIterator × Option String)
  | 0, _, _, _ => none
  | fuel + 1, bpm, iterator, err =>
    match blockOf bpm iterator.blockId with
    | none => none
    | some blockPage =>
      match IsOccupied blockPage iterator.offset with
      | none => none
      | some occupied =>
        let dup : Option Bool :=
          if occupied then (ValueAt blockPage iterator.offset).map (fun v => v == value)
          else some false
        match dup with
        | none => none
        | some true => some (bpm, iterator, some duplicateError)
        | some false =>
          if !occupied then
            match SkipListPage.Insert blockPage iterator.offset hash value with
            | none => none
            | some (blockPage1, _) =>
              some (storeBlock bpm iterator.blockId blockPage1, iterator, none)
          else
            match next bpm headerPage iterator with
            | none => none
            | some (bpm1, iterator1) =>
              if iterator1.bucket = originalBucketIndex ∧
                  iterator1.offset = originalBucketOffset then
                some (bpm1, iterator1, err)
              else
                insertLoop hash value headerPage originalBucketIndex originalBucketOffset
                  fuel bpm1 iterator1 err

/-- `SkipList.Insert(key, value)`: the index after the call and the returned `err` (`none`
is nil).  The named result `err` is nil when the loop is entered. -/
def Insert (ext : External) (sl : SkipList) (key : List Nat) (value : Nat) :
    Option (SkipList × Option String) :=
  match FetchPage sl.bpm sl.headerPageId with
  | some (bpm1, PageData.header headerPage) =>
    let hash := hash ext key
    if NumBlocks headerPage = 0 then none
    else
      let originalBucketIndex := hash % NumBlocks headerPage
      let originalBucketOffset := hash % BlockArraySize
      match newSkipListIterator bpm1 headerPage originalBucketIndex originalBucketOffset with
      | none => none
      | some (bpm2, iterator) =>
        match insertLoop hash value headerPage originalBucketIndex originalBucketOffset
            (NumBlocks headerPage * BlockArraySize) bpm2 iterator none with
        | none => none
        | some (bpm3, iterator1, err) =>
          let bpm4 := UnpinPage bpm3 iterator1.blockId true
          let bpm5 := UnpinPage bpm4 sl.headerPageId false
          some ({ sl with bpm := bpm5 }, err)
  | _ => none

/-- The loop of `SkipList.Remove`; the fuel bounds the number of rounds. -/
def removeLoop (ext : External) (key : List Nat) (value : Nat)
    (headerPage : SkipListHeaderPage) (originalBucketIndex originalBucketOffset : Nat) :
    Nat → BufferPoolManager → skipListIterator →
      Option (BufferPoolManager × skipListIterator)
  | 0, _, _ => none
  | fuel + 1, bpm, iterator =>
    match blockOf bpm iterator.blockId with
    | none => none
    | some blockPage =>
      match IsOccupied blockPage iterator.offset with
      | none => none
      | some false => some (bpm, iterator)
      | some true =>
        let hit : Option Bool :=
          match KeyAt blockPage iterator.offset, ext.NewValueFromBytes key with
          | some k, some v =>
            if k.CompareEquals v then
              (ValueAt blockPage iterator.offset).map (fun w => w == value)
            else some false
          | _, _ => none
        match hit with
        | none => none
        | some c =>
          let bpm0 : Option BufferPoolManager :=
            if c then
              (SkipListPage.Remove blockPage iterator.offset).map
                (fun b => storeBlock bpm iterator.blockId b)
            else some bpm
          match bpm0 with
          | none => none
          | some bpm0 =>
            match next bpm0 headerPage iterator with
            | none => none
            | some (bpm1, iterator1) =>
              if iterator1.bucket = originalBucketIndex ∧
                  iterator1.offset = originalBucketOffset then
                some (bpm1, iterator1)
              else
                removeLoop ext key value headerPage originalBucketIndex originalBucketOffset
                  fuel bpm1 iterator1

/-- `SkipList.Remove(key, value)`. -/
def Remove (ext : External) (sl : SkipList) (key : List Nat) (value : Nat) :
    Option SkipList :=
  match FetchPage sl.bpm sl.headerPageId with
  | some (bpm1, PageData.header headerPage) =>
    let hash := hash ext key
    if NumBlocks headerPage = 0 then none
    else
      let originalBucketIndex := hash % NumBlocks headerPage
      let originalBucketOffset := hash % BlockArraySize
      match newSkipListIterator bpm1 headerPage originalBucketIndex originalBucketOffset with
      | none => none
      | some (bpm2, iterator) =>
        match removeLoop ext key value headerPage originalBucketIndex originalBucketOffset
            (NumBlocks headerPage * BlockArraySize) bpm2 iterator with
        | none => none
        | some (bpm3, iterator1) =>
          let bpm4 := UnpinPage bpm3 iterator1.blockId true
          let bpm5 := UnpinPage bpm4 sl.headerPageId false
          some { sl with bpm := bpm5 }
  | _ => none

end DiskIndex
namespace DiskIndex

open SkipListPage

/-- An index of one block page of zero bytes: the header page has id 0 and its directory
names the block page with id 1; no page is pinned. -/
def sampleIndex : SkipList :=
  { headerPageId := 0,
    bpm := { pages :=
      [{ data := PageData.header { pageId := 0, size := 0, lsn := 0, blockPageIds := [1] },
         pinCount := 0, isDirty := false },
       { data := PageData.block zeroPage, pinCount := 0, isDirty := false }] } }

/-- The data of the pages of the pool, without pin counts and dirty flags. -/
def contents (bpm : BufferPoolManager) : List PageData := bpm.pages.map (fun f => f.data)

/-- The index `sampleIndex` after an `Insert` that stores into the page `p1`. -/
def storedIndex (p1 : SkipListBlockPage) : SkipList :=
  { headerPageId := 0,
    bpm := { pages :=
      [{ data := PageData.header { pageId := 0, size := 0, lsn := 0, blockPageIds := [1] },
         pinCount := 0, isDirty := false },
       { data := PageData.block p1, pinCount := 0, isDirty := true }] } }

/-- The directory of `hp` names block pages of the pool data `C`. -/
def Dir (C : List PageData) (hp : SkipListHeaderPage) : Prop :=
  ∀ b, b < NumBlocks hp → ∃ id p, GetBlockPageId hp b = some id ∧
    C[id]? = some (PageData.block p)

/-- The iterator stands on a slot of the directory. -/
def OnSlot (hp : SkipListHeaderPage) (itr : skipListIterator) : Prop :=
  itr.bucket < NumBlocks hp ∧ itr.offset < BlockArraySize ∧
    GetBlockPageId hp itr.bucket = some itr.blockId

/-- Every slot of every block page of the directory of `hp` is occupied and holds a value
other than `value`. -/
def Full (C : List PageData) (hp : SkipListHeaderPage) (value : Nat) : Prop :=
  ∀ b, b < NumBlocks hp → ∃ id p, GetBlockPageId hp b = some id ∧
    C[id]? = some (PageData.block p) ∧
    ∀ o, o < BlockArraySize →
      ∃ w, IsOccupied p o = some true ∧ ValueAt p o = some w ∧ w ≠ value

/-- A block page whose 252 slots are all occupied and readable and hold the value 1. -/
def fullPage : SkipListBlockPage :=
  { occuppied := List.replicate 31 255 ++ [15],
    readable := List.replicate 31 255 ++ [15],
    array := List.replicate BlockArraySize { key := 1, value := 1 } }

/-- An index of one block page, `fullPage`. -/
def fullIndex : SkipList :=
  { headerPageId := 0,
    bpm := { pages :=
      [{ data := PageData.header { pageId := 0, size := 0, lsn := 0, blockPageIds := [1] },
         pinCount := 0, isDirty := false },
       { data := PageData.block fullPage, pinCount := 0, isDirty := true }] } }

/-- A stand-in for the functions of `External`, to run the index on concrete keys: a
polynomial hash of the key bytes, and a nil pointer for the decoded key. -/
def sampleExternal : External :=
  { murmur3 := fun key => key.foldl (fun a b => 31 * a + b) 7,
    NewValueFromBytes := fun _ => none }

end DiskIndex
namespace SkipList

variable {K : Type} [LinearOrder K] [Inhabited K]

/-- The fresh list of the tests after `InsertOnMem(5, 50)` with no successful coin flip:
the list has grown to level 2 and the node of key 5 is linked at the levels 0 and 1. -/
def sampleOne : Heap Int := (InsertOnMem sampleFresh 0 (Value.key 5) 50 0).getD []

/-- The list `sampleOne` after `RemoveOnMem(5, 50)`. -/
def sampleEmptied : Heap Int := (RemoveOnMem sampleOne 0 (Value.key 5) 50).getD []

end SkipList
namespace Clock

/-- Every frame that the replacer tracks has its reference bit set. -/
def AllReferenced (c : ClockReplacer) : Prop :=
  ∀ e ∈ c.cList.supportMap, (c.nodes[e.2]?).map (fun n => n.value) = some true

end Clock
namespace SkipList

variable {K : Type} [LinearOrder K] [Inhabited K]

/-- Every node has an assigned level within 1..20, the length of a `Forward` array. -/
def LevelsOk (h : Heap K) : Prop :=
  ∀ (q : Nat) (n : SkipListOnMem K), h[q]? = some n → 1 ≤ n.Level ∧ n.Level ≤ 20

/-- Twenty insertions of the keys 1, ..., 20, each with nineteen successful coin flips. -/
def climbOps : List (Int × Nat × Nat) :=
  (List.range 20).map (fun i => ((i : Int) + 1, 0, 19))

/-- The fresh list of the tests after the first nineteen insertions of `climbOps`. -/
def sampleTall : Heap Int := (insertAll sampleFresh (climbOps.take 19)).getD []

end SkipList
namespace DiskIndex

open SkipListPage

/-- The result of `n` successive calls of `skipListIterator.next()`. -/
def nextN (headerPage : SkipListHeaderPage) :
    Nat → BufferPoolManager → skipListIterator → Option (BufferPoolManager × skipListIterator)
  | 0, bpm, itr => some (bpm, itr)
  | n + 1, bpm, itr =>
    match next bpm headerPage itr with
    | none => none
    | some (bpm1, itr1) => nextN headerPage n bpm1 itr1

/-- The probe order in the words of the specification: the slots of the directory are
taken block after block, slot after slot, and the order goes on from the last slot of the
last block to slot 0 of block 0.  The result is the (bucket, offset) that stands `j` places
after (`bucket`, `offset`) in a directory of `numBlocks` blocks. -/
def probeOrder (numBlocks bucket offset j : Nat) : Nat × Nat :=
  let lin := (bucket * BlockArraySize + offset + j) % (numBlocks * BlockArraySize)
  (lin / BlockArraySize, lin % BlockArraySize)

/-- The block page of a bucket of the directory, read from the pool. -/
def bucketPage (bpm : BufferPoolManager) (headerPage : SkipListHeaderPage) (bucket : Nat) :
    Option SkipListBlockPage :=
  match GetBlockPageId headerPage bucket with
  | none => none
  | some id => blockOf bpm id

/-- `IsOccupied` of the slot (bucket, offset) of the directory. -/
def slotOccupied (bpm : BufferPoolManager) (headerPage : SkipListHeaderPage)
    (slot : Nat × Nat) : Option Bool :=
  match bucketPage bpm headerPage slot.1 with
  | none => none
  | some p => IsOccupied p slot.2

/-- `ValueAt` of the slot (bucket, offset) of the directory. -/
def slotValue (bpm : BufferPoolManager) (headerPage : SkipListHeaderPage)
    (slot : Nat × Nat) : Option Nat :=
  match bucketPage bpm headerPage slot.1 with
  | none => none
  | some p => ValueAt p slot.2

/-- `IsReadable` of the slot (bucket, offset) of the directory. -/
def slotReadable (bpm : BufferPoolManager) (headerPage : SkipListHeaderPage)
    (slot : Nat × Nat) : Option Bool :=
  match bucketPage bpm headerPage slot.1 with
  | none => none
  | some p => IsReadable p slot.2

/-- An index state: the header page id names the header page `hp` in the pool, and every
bucket of its directory names a block page of the pool that has the lengths of its array
types. -/
def WellFormed (sl : SkipList) (hp : SkipListHeaderPage) : Prop :=
  headerOf sl.bpm sl.headerPageId = some hp ∧
  ∀ b, b < NumBlocks hp → ∃ id p, GetBlockPageId hp b = some id ∧
    blockOf sl.bpm id = some p ∧ Sized p

/-- The pin counts of the pages of the pool, by page id. -/
def pins (bpm : BufferPoolManager) : List Int := bpm.pages.map (fun f => f.pinCount)

/-- The pin count of the page with id `i`; 0 when the pool has no such page. -/
def pinAt (bpm : BufferPoolManager) (i : Nat) : Int := ((pins bpm)[i]?).getD 0

/-- Modelled from the spec: `BufferPoolManager.NewPage()`, which "allocates a fresh page
id, pins it at count 1".  The new page holds zero bytes; `d` is what these bytes are in
the layout through which the callers read the page.  The result is the pool and the id of
the new page. -/
def NewPage (bpm : BufferPoolManager) (d : PageData) : BufferPoolManager × Nat :=
  ({ pages := bpm.pages ++ [{ data := d, pinCount := 1, isDirty := false }] },
    bpm.pages.length)

/-- A header page of zero bytes. -/
def zeroHeader : SkipListHeaderPage := { pageId := 0, size := 0, lsn := 0, blockPageIds := [] }

/-- Modelled from the spec: `SkipListHeaderPage.SetPageId(id)`. -/
def SetPageId (headerPage : SkipListHeaderPage) (id : Nat) : SkipListHeaderPage :=
  { headerPage with pageId := id }

/-- Modelled from the spec: `SkipListHeaderPage.SetSize(size)`. -/
def SetSize (headerPage : SkipListHeaderPage) (size : Int) : SkipListHeaderPage :=
  { headerPage with size := size }

/-- Modelled from the spec: `SkipListHeaderPage.AddBlockPageId(id)`: "block-page
identities appended as buckets are provisioned". -/
def AddBlockPageId (headerPage : SkipListHeaderPage) (id : Nat) : SkipListHeaderPage :=
  { headerPage with blockPageIds := headerPage.blockPageIds ++ [id] }

/-- A write through the `headerPage` pointer: the header page of `id` in the pool becomes
`h`. -/
def storeHeader (bpm : BufferPoolManager) (id : Nat) (h : SkipListHeaderPage) :
    BufferPoolManager :=
  match bpm.pages[id]? with
  | none => bpm
  | some f => { pages := bpm.pages.set id { f with data := PageData.header h } }

/-- The loop of `NewSkipList` with `n` rounds to go; `header` is the id of the header
page, which `headerPage` points into. -/
def newSkipListLoop (header : Nat) : Nat → BufferPoolManager → Option BufferPoolManager
  | 0, bpm => some bpm
  | n + 1, bpm =>
    match NewPage bpm (PageData.block zeroPage) with
    | (bpm1, np) =>
      match headerOf bpm1 header with
      | none => none
      | some headerPage =>
        let bpm2 := storeHeader bpm1 header (AddBlockPageId headerPage np)
        newSkipListLoop header n (UnpinPage bpm2 np true)

/-- `NewSkipList(bpm, numBuckets)`; `numBuckets` is an `int`, and the loop
`for i := 0; i < numBuckets; i++` makes no round when it is not positive. -/
def NewSkipList (bpm : BufferPoolManager) (numBuckets : Int) : Option SkipList :=
  match NewPage bpm (PageData.header zeroHeader) with
  | (bpm1, header) =>
    match headerOf bpm1 header with
    | none => none
    | some headerPage =>
      let bpm2 := storeHeader bpm1 header (SetPageId headerPage header)
      match headerOf bpm2 header with
      | none => none
      | some headerPage =>
        let bpm3 := storeHeader bpm2 header (SetSize headerPage (numBuckets * BlockArraySize))
        match newSkipListLoop header numBuckets.toNat bpm3 with
        | none => none
        | some bpm4 => some { headerPageId := header, bpm := UnpinPage bpm4 header true }

/-- An index of one block page, the page `samplePage` of the block page test: slot 0 is
occupied and readable and holds the value 0, slot 1 is occupied but not readable and holds
the value 1, the other slots are not occupied. -/
def tombstoneIndex : SkipList :=
  { headerPageId := 0,
    bpm := { pages :=
      [{ data := PageData.header { pageId := 0, size := 252, lsn := 0, blockPageIds := [1] },
         pinCount := 0, isDirty := false },
       { data := PageData.block samplePage, pinCount := 0, isDirty := true }] } }

end DiskIndex
namespace DiskIndex

/-- The pins of `bpm1` are those of `bpm`, except that the pin that the iterator holds has
gone from the page `a` to the page `b`, a page of the pool. -/
def PinMoved (bpm bpm1 : BufferPoolManager) (a b : Nat) : Prop :=
  b < bpm1.pages.length ∧ bpm1.pages.length = bpm.pages.length ∧
  ∀ i, pinAt bpm1 i + (if i = a then 1 else 0) = pinAt bpm i + (if i = b then 1 else 0)

end DiskIndex
namespace SkipList

variable {K : Type} [LinearOrder K] [Inhabited K]

theorem writeForward_some {h h1 : Heap K} {p i : Nat} {v : Option Nat}
    (hw : writeForward h p i v = some h1) :
    ∃ n, h[p]? = some n ∧ i < n.Forward.length ∧
      h1 = h.set p { n with Forward := n.Forward.set i v } := by
  unfold writeForward at hw
  cases hp : h[p]? with
  | none => simp [hp] at hw
  | some n =>
    simp only [hp] at hw
    by_cases hi : i < n.Forward.length
    · simp only [hi, if_true, Option.some.injEq] at hw
      exact ⟨n, rfl, hi, hw.symm⟩
    · simp [hi] at hw

theorem writeForward_length {h h1 : Heap K} {p i : Nat} {v : Option Nat}
    (hw : writeForward h p i v = some h1) : h1.length = h.length := by
  obtain ⟨n, _, _, rfl⟩ := writeForward_some hw
  simp

theorem writeForward_get_ne {h h1 : Heap K} {p i : Nat} {v : Option Nat}
    (hw : writeForward h p i v = some h1) {q : Nat} (hq : q ≠ p) : h1[q]? = h[q]? := by
  obtain ⟨n, _, _, rfl⟩ := writeForward_some hw
  exact List.getElem?_set_ne (Ne.symm hq)

theorem readForward_writeForward {h h1 : Heap K} {p i : Nat} {v : Option Nat}
    (hw : writeForward h p i v = some h1) (q j : Nat) :
    readForward h1 q j = if q = p ∧ j = i then some v else readForward h q j := by
  obtain ⟨n, hn, hi, rfl⟩ := writeForward_some hw
  have hp : p < h.length := by
    rcases List.getElem?_eq_some.1 hn with ⟨hp, _⟩
    exact hp
  unfold readForward
  by_cases hq : q = p
  · subst hq
    rw [List.getElem?_set_self hp, hn]
    by_cases hj : j = i
    · subst hj
      simp [List.getElem?_set_self hi]
    · simp [hj, List.getElem?_set_ne (Ne.symm hj)]
  · rw [List.getElem?_set_ne (Ne.symm hq)]
    simp [hq]

theorem readKey_writeForward {h h1 : Heap K} {p i : Nat} {v : Option Nat}
    (hw : writeForward h p i v = some h1) (q : Option Nat) : readKey h1 q = readKey h q := by
  obtain ⟨n, hn, hi, rfl⟩ := writeForward_some hw
  have hp : p < h.length := by
    rcases List.getElem?_eq_some.1 hn with ⟨hp, _⟩
    exact hp
  cases q with
  | none => rfl
  | some q =>
    unfold readKey
    by_cases hq : q = p
    · subst hq
      simp [List.getElem?_set_self hp, hn]
    · simp [List.getElem?_set_ne (Ne.symm hq)]

end SkipList
namespace SkipList

variable {K : Type} [LinearOrder K] [Inhabited K]

theorem length_le_of_nodup_bounded (l : List Nat) (a n : Nat) (hn : l.Nodup)
    (hb : ∀ q ∈ l, a ≤ q ∧ q < n) : l.length ≤ n - a := by
  have h1 : l.toFinset ⊆ Finset.Ico a n := by
    intro q hq
    rw [List.mem_toFinset] at hq
    rw [Finset.mem_Ico]
    exact hb q hq
  have h2 := Finset.card_le_card h1
  rw [List.toFinset_card_of_nodup hn, Nat.card_Ico] at h2
  exact h2

theorem sorted_split (h : Heap K) (k : K) (l : List Nat)
    (hs : l.Pairwise (fun a b => keyAt h a < keyAt h b)) :
    l = pre h k l ++ post h k l := by
  induction l with
  | nil => rfl
  | cons a t ih =>
    rw [List.pairwise_cons] at hs
    have ih1 := ih hs.2
    unfold pre post at *
    by_cases ha : keyAt h a < k
    · simp only [List.filter_cons, ha, decide_True, if_true, Bool.not_true, Bool.false_eq_true,
        if_false, List.cons_append]
      rw [← ih1]
    · have hall : ∀ b ∈ t, ¬ keyAt h b < k := by
        intro b hb
        have := hs.1 b hb
        exact fun hb1 => ha (lt_trans this hb1)
      have e1 : List.filter (fun p => decide (keyAt h p < k)) t = [] := by
        rw [List.filter_eq_nil_iff]
        intro b hb
        simp [hall b hb]
      have e2 : List.filter (fun p => !decide (keyAt h p < k)) t = t := by
        rw [List.filter_eq_self]
        intro b hb
        simp [hall b hb]
      simp [List.filter_cons, ha, e1, e2]

theorem advance_chain (h : Heap K) (k : K) (i : Nat) :
    ∀ (r1 : List Nat) (x t : Nat) (r2 : List Nat) (fuel : Nat),
      List.Chain' (Link h i) (x :: r1 ++ t :: r2) →
      (∀ q ∈ r1, ∃ kq, readKey h (some q) = some (Value.key kq) ∧ kq < k) →
      (∃ kt, readKey h (some t) = some kt ∧ kt.CompareLessThan (Value.key k) = false) →
      r1.length < fuel →
      advance h (Value.key k) i fuel x = some (r1.getLastD x) := by
  intro r1
  induction r1 with
  | nil =>
    intro x t r2 fuel hc _ ht hf
    obtain ⟨kt, hkt, hlt⟩ := ht
    cases fuel with
    | zero => omega
    | succ f =>
      have hl : Link h i x t := by
        simp only [List.cons_append, List.nil_append, List.chain'_cons] at hc
        exact hc.1
      unfold Link at hl
      simp [advance, hl, hkt, hlt]
  | cons y r ih =>
    intro x t r2 fuel hc hk ht hf
    cases fuel with
    | zero => simp at hf
    | succ f =>
      have hl : Link h i x y := by
        simp only [List.cons_append, List.chain'_cons] at hc
        exact hc.1
      have hc2 : List.Chain' (Link h i) (y :: r ++ t :: r2) := by
        simp only [List.cons_append, List.chain'_cons] at hc
        simp only [List.cons_append]
        exact hc.2
      obtain ⟨ky, hky, hlt⟩ := hk y (List.mem_cons_self _ _)
      unfold Link at hl
      have hf2 : r.length < f := by simp at hf; omega
      have := ih y t r2 f hc2 (fun q hq => hk q (List.mem_cons_of_mem _ hq)) ht hf2
      have e : (y :: r).getLastD x = r.getLastD y := by
        cases r <;> rfl
      rw [e]
      simp [advance, hl, hky, Value.CompareLessThan, hlt, this]

end SkipList
namespace SkipList

variable {K : Type} [LinearOrder K] [Inhabited K]

theorem getLastD_eq_or_mem (l : List Nat) (d : Nat) : l.getLastD d = d ∨ l.getLastD d ∈ l := by
  induction l generalizing d with
  | nil => left; rfl
  | cons a t ih =>
    right
    rw [List.getLastD_cons]
    rcases ih a with h1 | h1
    · rw [h1]; exact List.mem_cons_self _ _
    · exact List.mem_cons_of_mem _ h1

theorem getLastD_append_cons (a : List Nat) (x : Nat) (r : List Nat) (d : Nat) :
    (a ++ x :: r).getLastD d = r.getLastD x := by
  induction a generalizing d with
  | nil => rw [List.nil_append, List.getLastD_cons]
  | cons b t ih =>
    rw [List.cons_append, List.getLastD_cons]
    exact ih b

theorem Inv.key_of_mem {h : Heap K} {lv : Nat → List Nat} {L : Nat} (hi : Inv h lv L)
    {i q : Nat} (hq : q ∈ lv i) : readKey h (some q) = some (Value.key (keyAt h q)) := by
  obtain ⟨h2, hlt⟩ := hi.mem i q hq
  obtain ⟨k, hk⟩ := hi.keys q h2 hlt
  unfold keyAt
  rw [hk]

theorem Inv.nodup {h : Heap K} {lv : Nat → List Nat} {L : Nat} (hi : Inv h lv L) (i : Nat) :
    (lv i).Nodup := by
  have := hi.sorted i
  exact List.Pairwise.imp (fun hab heq => by subst heq; exact lt_irrefl _ hab) this

theorem Inv.length_lt {h : Heap K} {lv : Nat → List Nat} {L : Nat} (hi : Inv h lv L) (i : Nat) :
    (lv i).length + 2 ≤ h.length := by
  have h1 := length_le_of_nodup_bounded (lv i) 2 h.length (hi.nodup i) (hi.mem i)
  have h2 : 2 ≤ h.length := by
    have := hi.curMax
    cases h0 : h[0]? with
    | none => simp [h0] at this
    | some n =>
      have hs := hi.senKey
      unfold readKey at hs
      cases h1 : h[1]? with
      | none => simp [h1] at hs
      | some m =>
        rcases List.getElem?_eq_some.1 h1 with ⟨hlt, _⟩
        omega
  omega

theorem pre_sublist (h : Heap K) (k : K) (l : List Nat) : (pre h k l).Sublist l :=
  List.filter_sublist l

theorem post_sublist (h : Heap K) (k : K) (l : List Nat) : (post h k l).Sublist l :=
  List.filter_sublist l

theorem mem_pre {h : Heap K} {k : K} {l : List Nat} {q : Nat} :
    q ∈ pre h k l ↔ q ∈ l ∧ keyAt h q < k := by
  simp [pre, List.mem_filter]

theorem mem_post {h : Heap K} {k : K} {l : List Nat} {q : Nat} :
    q ∈ post h k l ↔ q ∈ l ∧ ¬ keyAt h q < k := by
  simp [post, List.mem_filter]

theorem pred_eq_or_mem (h : Heap K) (k : K) (l : List Nat) :
    pred h k l = 0 ∨ pred h k l ∈ pre h k l := by
  exact getLastD_eq_or_mem _ _

theorem succ_eq_or_mem (h : Heap K) (k : K) (l : List Nat) :
    (succ h k l = 1 ∧ post h k l = []) ∨ succ h k l ∈ post h k l := by
  unfold succ
  cases hp : post h k l with
  | nil => left; exact ⟨rfl, rfl⟩
  | cons a t => right; simp

theorem post_append_head (h : Heap K) (k : K) (l : List Nat) :
    ∃ r2, post h k l ++ [1] = succ h k l :: r2 := by
  unfold succ
  cases hp : post h k l with
  | nil => exact ⟨[], rfl⟩
  | cons a t => exact ⟨t ++ [1], by simp⟩

theorem Inv.succ_key {h : Heap K} {lv : Nat → List Nat} {L : Nat} (hi : Inv h lv L)
    (k : K) (i : Nat) :
    ∃ kt, readKey h (some (succ h k (lv i))) = some kt ∧
      kt.CompareLessThan (Value.key k) = false := by
  rcases succ_eq_or_mem h k (lv i) with ⟨h1, _⟩ | hm
  · rw [h1]
    exact ⟨Value.inf, hi.senKey, rfl⟩
  · rw [mem_post] at hm
    refine ⟨Value.key (keyAt h (succ h k (lv i))), hi.key_of_mem hm.1, ?_⟩
    simp [Value.CompareLessThan, hm.2]

theorem Inv.pre_keys {h : Heap K} {lv : Nat → List Nat} {L : Nat} (hi : Inv h lv L)
    (k : K) (i : Nat) :
    ∀ q ∈ pre h k (lv i), ∃ kq, readKey h (some q) = some (Value.key kq) ∧ kq < k := by
  intro q hq
  rw [mem_pre] at hq
  exact ⟨keyAt h q, hi.key_of_mem hq.1, hq.2⟩

theorem Inv.chain_split {h : Heap K} {lv : Nat → List Nat} {L : Nat} (hi : Inv h lv L)
    (k : K) {i : Nat} (hlt : i < 20) :
    ∃ r2, post h k (lv i) ++ [1] = succ h k (lv i) :: r2 ∧
      List.Chain' (Link h i) (0 :: pre h k (lv i) ++ succ h k (lv i) :: r2) := by
  obtain ⟨r2, hr2⟩ := post_append_head h k (lv i)
  refine ⟨r2, hr2, ?_⟩
  have hp := hi.path i hlt
  unfold Path at hp
  rw [sorted_split h k (lv i) (hi.sorted i)] at hp
  rw [← hr2]
  simpa [List.append_assoc] using hp

theorem Inv.advance {h : Heap K} {lv : Nat → List Nat} {L : Nat} (hi : Inv h lv L)
    (k : K) {i : Nat} (hlt : i < 20) {x : Nat} (hx : x = 0 ∨ x ∈ pre h k (lv i)) :
    advance h (Value.key k) i h.length x = some (pred h k (lv i)) := by
  obtain ⟨r2, _, hc⟩ := hi.chain_split k hlt
  have hlen : (pre h k (lv i)).length < h.length := by
    have := (pre_sublist h k (lv i)).length_le
    have := hi.length_lt i
    omega
  rcases hx with rfl | hx
  · exact advance_chain h k i (pre h k (lv i)) 0 _ r2 h.length hc (hi.pre_keys k i)
      (hi.succ_key k i) hlen
  · obtain ⟨a, r1, har⟩ := List.append_of_mem hx
    have hc2 : List.Chain' (Link h i) (x :: r1 ++ succ h k (lv i) :: r2) := by
      rw [har] at hc
      have : 0 :: (a ++ x :: r1) ++ succ h k (lv i) :: r2
          = (0 :: a) ++ x :: (r1 ++ succ h k (lv i) :: r2) := by simp
      rw [this, List.chain'_split] at hc
      simpa using hc.2
    have hk : ∀ q ∈ r1, ∃ kq, readKey h (some q) = some (Value.key kq) ∧ kq < k := by
      intro q hq
      apply hi.pre_keys k i
      rw [har]
      simp [hq]
    have hl2 : r1.length < h.length := by
      rw [har] at hlen
      simp at hlen
      omega
    have := advance_chain h k i r1 x _ r2 h.length hc2 hk (hi.succ_key k i) hl2
    rw [this]
    unfold pred
    rw [har]
    rw [getLastD_append_cons]

end SkipList
namespace SkipList

variable {K : Type} [LinearOrder K] [Inhabited K]

theorem getLast?_cons_getLastD (l : List Nat) (d : Nat) :
    (d :: l).getLast? = some (l.getLastD d) := by
  induction l generalizing d with
  | nil => rfl
  | cons a t ih => rw [List.getLast?_cons_cons, ih a, List.getLastD_cons]

theorem Inv.descend {h : Heap K} {lv : Nat → List Nat} {L : Nat} (hi : Inv h lv L) (k : K) :
    ∀ n, n ≤ 20 →
      descend h (Value.key k) n (pred h k (lv n)) = some (pred h k (lv 0)) := by
  intro n
  induction n with
  | zero => intro _; rfl
  | succ n ih =>
    intro hn
    have hx : pred h k (lv (n + 1)) = 0 ∨ pred h k (lv (n + 1)) ∈ pre h k (lv n) := by
      rcases pred_eq_or_mem h k (lv (n + 1)) with h0 | hm
      · exact Or.inl h0
      · exact Or.inr (((hi.sub n).filter _).subset hm)
    have ha := hi.advance k (show n < 20 by omega) hx
    simp only [SkipList.descend, ha]
    exact ih (by omega)

theorem Inv.header {h : Heap K} {lv : Nat → List Nat} {L : Nat} (hi : Inv h lv L) :
    ∃ hd, h[0]? = some hd ∧ hd.CurMaxLevel = (L : Int) ∧ hd.Forward.length = 20 := by
  have hc := hi.curMax
  cases h0 : h[0]? with
  | none => simp [h0] at hc
  | some hd =>
    refine ⟨hd, rfl, ?_, ?_⟩
    · simpa [h0] using hc
    · have hlt : 0 < h.length := by
        rcases List.getElem?_eq_some.1 h0 with ⟨hlt, _⟩
        exact hlt
      have := hi.fwdLen 0 hlt
      simpa [h0] using this

theorem pred_top {h : Heap K} {lv : Nat → List Nat} {L : Nat} (hi : Inv h lv L) (k : K)
    {i : Nat} (hL : L ≤ i) : pred h k (lv i) = 0 := by
  unfold pred pre
  rw [hi.top i hL]
  rfl

theorem Inv.inner {h : Heap K} {lv : Nat → List Nat} {L : Nat} (hi : Inv h lv L) (k : K) :
    getValueOnMemInner h 0 (Value.key k) = some (pred h k (lv 0)) := by
  obtain ⟨hd, h0, hL, _⟩ := hi.header
  unfold getValueOnMemInner
  simp only [h0, hL, Int.toNat_ofNat]
  have := hi.descend k L hi.Lle
  rwa [pred_top hi k (le_refl L)] at this

theorem Inv.pred_link {h : Heap K} {lv : Nat → List Nat} {L : Nat} (hi : Inv h lv L) (k : K)
    {i : Nat} (hlt : i < 20) :
    readForward h (pred h k (lv i)) i = some (some (succ h k (lv i))) := by
  obtain ⟨r2, _, hc⟩ := hi.chain_split k hlt
  have : 0 :: pre h k (lv i) ++ succ h k (lv i) :: r2
      = (0 :: pre h k (lv i)) ++ succ h k (lv i) :: r2 := by simp
  rw [this, List.chain'_append] at hc
  have h3 := hc.2.2 (pred h k (lv i)) (by
    unfold pred
    rw [getLast?_cons_getLastD]
    exact rfl) (succ h k (lv i)) (by simp)
  exact h3

theorem lookup_none_of_forall (m : List (K × Nat)) (k : K) (hne : ∀ e ∈ m, e.1 ≠ k) :
    m.lookup k = none := by
  induction m with
  | nil => rfl
  | cons e t ih =>
    obtain ⟨a, b⟩ := e
    have h1 : a ≠ k := hne (a, b) (List.mem_cons_self _ _)
    have h2 : (k == a) = false := by simpa using (Ne.symm h1)
    rw [List.lookup_cons, h2]
    exact ih (fun e he => hne e (List.mem_cons_of_mem _ he))

theorem lookup_entries (h : Heap K) (k : K) (l : List Nat)
    (hs : l.Pairwise (fun a b => keyAt h a < keyAt h b)) :
    (entries h l).lookup k =
      if succ h k l ∈ post h k l ∧ keyAt h (succ h k l) = k
      then some (valAt h (succ h k l)) else none := by
  induction l with
  | nil => simp [entries, succ, post]
  | cons a t ih =>
    rw [List.pairwise_cons] at hs
    by_cases ha : keyAt h a < k
    · have e1 : post h k (a :: t) = post h k t := by simp [post, List.filter_cons, ha]
      have e2 : succ h k (a :: t) = succ h k t := by unfold succ; rw [e1]
      have h2 : (k == keyAt h a) = false := by
        simp only [beq_eq_false_iff_ne, ne_eq]; exact ne_of_gt ha
      rw [e1, e2, ← ih hs.2]
      simp only [entries, List.map_cons, List.lookup_cons, h2]
    · have e1 : post h k (a :: t) = a :: post h k t := by simp [post, List.filter_cons, ha]
      have e2 : succ h k (a :: t) = a := by unfold succ; rw [e1]; rfl
      rw [e1, e2]
      by_cases hk : keyAt h a = k
      · have h2 : (k == keyAt h a) = true := by simp [hk]
        simp [entries, List.lookup_cons, h2, hk]
      · have h2 : (k == keyAt h a) = false := by
          simp only [beq_eq_false_iff_ne, ne_eq]; exact fun e => hk e.symm
        have h3 : (entries h t).lookup k = none := by
          apply lookup_none_of_forall
          intro e he
          simp only [entries, List.mem_map] at he
          obtain ⟨q, hq, rfl⟩ := he
          have := hs.1 q hq
          simp only
          intro e
          rw [e] at this
          exact ha this
        simp only [entries, List.map_cons, List.lookup_cons, h2]
        simp only [entries] at h3
        rw [h3]
        simp [hk]

theorem Inv.getValue {h : Heap K} {lv : Nat → List Nat} {L : Nat} (hi : Inv h lv L) (k : K) :
    GetValueOnMem h 0 (Value.key k) = some (lookupD (entries h (lv 0)) k) := by
  unfold GetValueOnMem lookupD
  simp only [hi.inner k, hi.pred_link k (by norm_num : 0 < 20)]
  rw [lookup_entries h k (lv 0) (hi.sorted 0)]
  rcases succ_eq_or_mem h k (lv 0) with ⟨h1, h2⟩ | hm
  · rw [h2, h1]
    simp [hi.senKey, Value.CompareEquals]
  · have hm2 := mem_post.1 hm
    have hkey := hi.key_of_mem hm2.1
    obtain ⟨_, hlt⟩ := hi.mem 0 _ hm2.1
    simp only [hkey, hm, true_and]
    by_cases hk : keyAt h (succ h k (lv 0)) = k
    · simp [Value.CompareEquals, hk, valAt, List.getElem?_eq_getElem hlt]
    · simp [Value.CompareEquals, hk]

end SkipList
namespace SkipList

variable {K : Type} [LinearOrder K] [Inhabited K]

theorem Inv.descendUpdate {h : Heap K} {lv : Nat → List Nat} {L : Nat} (hi : Inv h lv L)
    (k : K) :
    ∀ n (upd : List (Option Nat)), n ≤ 20 → n ≤ upd.length →
      ∃ upd1, descendUpdate h (Value.key k) n (pred h k (lv n)) upd
          = some (pred h k (lv 0), upd1) ∧
        upd1.length = upd.length ∧
        (∀ j, j < n → upd1[j]? = some (some (pred h k (lv j)))) ∧
        (∀ j, n ≤ j → upd1[j]? = upd[j]?) := by
  intro n
  induction n with
  | zero =>
    intro upd _ _
    exact ⟨upd, rfl, rfl, fun j hj => by omega, fun j _ => rfl⟩
  | succ n ih =>
    intro upd hn hlen
    have hx : pred h k (lv (n + 1)) = 0 ∨ pred h k (lv (n + 1)) ∈ pre h k (lv n) := by
      rcases pred_eq_or_mem h k (lv (n + 1)) with h0 | hm
      · exact Or.inl h0
      · exact Or.inr (((hi.sub n).filter _).subset hm)
    have ha := hi.advance k (show n < 20 by omega) hx
    have hlt : n < upd.length := by omega
    obtain ⟨upd1, h1, h2, h3, h4⟩ :=
      ih (upd.set n (some (pred h k (lv n)))) (by omega) (by simp; omega)
    refine ⟨upd1, ?_, ?_, ?_, ?_⟩
    · simp only [SkipList.descendUpdate, ha, hlt, if_true]
      exact h1
    · simpa using h2
    · intro j hj
      by_cases hjn : j < n
      · exact h3 j hjn
      · have : j = n := by omega
        subst this
        rw [h4 j (le_refl _), List.getElem?_set_self hlt]
    · intro j hj
      rw [h4 j (by omega), List.getElem?_set_ne (by omega)]

theorem shape_writeForward {h h1 : Heap K} {p i : Nat} {v : Option Nat}
    (hw : writeForward h p i v = some h1) : h1.map shape = h.map shape := by
  obtain ⟨n, hn, hi, rfl⟩ := writeForward_some hw
  apply List.ext_getElem?
  intro q
  rw [List.getElem?_map, List.getElem?_map]
  by_cases hq : p = q
  · subst hq
    have hp : p < h.length := by
      rcases List.getElem?_eq_some.1 hn with ⟨hp, _⟩
      exact hp
    rw [List.getElem?_set_self hp, hn]
    simp [shape]
  · rw [List.getElem?_set_ne hq]

theorem shape_get {h h1 : Heap K} (hs : h1.map shape = h.map shape) (q : Nat) :
    (h1[q]?).map shape = (h[q]?).map shape := by
  rw [← List.getElem?_map, ← List.getElem?_map, hs]

theorem shape_length {h h1 : Heap K} (hs : h1.map shape = h.map shape) : h1.length = h.length := by
  have := congrArg List.length hs
  simpa using this

theorem shape_readKey {h h1 : Heap K} (hs : h1.map shape = h.map shape) (q : Option Nat) :
    readKey h1 q = readKey h q := by
  cases q with
  | none => rfl
  | some q =>
    have := shape_get hs q
    unfold readKey
    cases e1 : h1[q]? <;> cases e2 : h[q]? <;> simp [e1, e2, shape] at this ⊢
    exact this.2.1

theorem shape_keyAt {h h1 : Heap K} (hs : h1.map shape = h.map shape) (q : Nat) :
    keyAt h1 q = keyAt h q := by
  unfold keyAt
  rw [shape_readKey hs]

theorem shape_valAt {h h1 : Heap K} (hs : h1.map shape = h.map shape) (q : Nat) :
    valAt h1 q = valAt h q := by
  have := shape_get hs q
  unfold valAt
  cases e1 : h1[q]? <;> cases e2 : h[q]? <;> simp [e1, e2, shape] at this ⊢
  exact this.2.2.1

theorem shape_curMax {h h1 : Heap K} (hs : h1.map shape = h.map shape) (q : Nat) :
    (h1[q]?).map (fun n => n.CurMaxLevel) = (h[q]?).map (fun n => n.CurMaxLevel) := by
  have := shape_get hs q
  cases e1 : h1[q]? <;> cases e2 : h[q]? <;> simp [e1, e2, shape] at this ⊢
  exact this.2.2.2.2.1

theorem shape_fwdLen {h h1 : Heap K} (hs : h1.map shape = h.map shape) (q : Nat) :
    (h1[q]?).map (fun n => n.Forward.length) = (h[q]?).map (fun n => n.Forward.length) := by
  have := shape_get hs q
  cases e1 : h1[q]? <;> cases e2 : h[q]? <;> simp [e1, e2, shape] at this ⊢
  exact this.2.2.2.2.2

theorem writeForward_isSome {h : Heap K} {p i : Nat} {f : Option Nat}
    (hr : readForward h p i = some f) (v : Option Nat) :
    ∃ h1, writeForward h p i v = some h1 := by
  unfold readForward at hr
  unfold writeForward
  cases hp : h[p]? with
  | none => simp [hp] at hr
  | some n =>
    simp only [hp] at hr ⊢
    have : i < n.Forward.length := by
      rcases List.getElem?_eq_some.1 hr with ⟨hlt, _⟩
      exact hlt
    simp [this]

theorem chain_congr {R S : Nat → Nat → Prop} :
    ∀ (l : List Nat) (e : Nat), List.Chain' R (l ++ [e]) →
      (∀ a ∈ l, ∀ b, R a b → S a b) → List.Chain' S (l ++ [e]) := by
  intro l
  induction l with
  | nil => intro e _ _; simp
  | cons a t ih =>
    intro e hc hrs
    rw [List.cons_append, List.chain'_cons'] at hc ⊢
    refine ⟨?_, ih e hc.2 (fun a ha => hrs a (List.mem_cons_of_mem _ ha))⟩
    intro y hy
    exact hrs a (List.mem_cons_self _ _) y (hc.1 y hy)

end SkipList
namespace SkipList

variable {K : Type} [LinearOrder K] [Inhabited K]

theorem chain_link_congr {h h1 : Heap K} {i : Nat} {l : List Nat}
    (hf : ∀ q, readForward h1 q i = readForward h q i) (hc : List.Chain' (Link h i) l) :
    List.Chain' (Link h1 i) l := by
  refine List.Chain'.imp ?_ hc
  intro a b hab
  unfold Link at *
  rw [hf a]
  exact hab

theorem cons_eq_concat (a : Nat) (l : List Nat) :
    ∃ ini, a :: l = ini ++ [l.getLastD a] := by
  induction l generalizing a with
  | nil => exact ⟨[], rfl⟩
  | cons b t ih =>
    obtain ⟨ini, hini⟩ := ih b
    refine ⟨a :: ini, ?_⟩
    rw [List.getLastD_cons, List.cons_append, ← hini]

theorem splice_step {hc : Heap K} {x p i : Nat} {A B : List Nat}
    (hchain : List.Chain' (Link hc i) (0 :: A ++ B ++ [1]))
    (hp : p = A.getLastD 0)
    (hnd : (0 :: A ++ B).Nodup)
    (hx : x ∉ (0 :: A ++ B))
    (hxf : ∃ g, readForward hc x i = some g) :
    ∃ t h1 h2, readForward hc p i = some (some t) ∧
      writeForward hc x i (some t) = some h1 ∧
      writeForward h1 p i (some x) = some h2 ∧
      List.Chain' (Link h2 i) (0 :: A ++ x :: B ++ [1]) ∧
      h2.map shape = hc.map shape ∧
      (∀ q j, j ≠ i → readForward h2 q j = readForward hc q j) := by
  obtain ⟨ini, hini⟩ := cons_eq_concat 0 A
  rw [← hp] at hini
  obtain ⟨t, r2, hB⟩ : ∃ t r2, B ++ [1] = t :: r2 := by
    cases B with
    | nil => exact ⟨1, [], rfl⟩
    | cons b s => exact ⟨b, s ++ [1], by simp⟩
  have hpm : p ∈ 0 :: A := by rw [hini]; simp
  have hpx : p ≠ x := by
    intro e
    apply hx
    rw [← e]
    simp only [List.cons_append, List.mem_cons, List.mem_append] at hpm ⊢
    tauto
  have hsplit : List.Chain' (Link hc i) ((ini ++ [p]) ++ (B ++ [1])) := by
    rw [← hini]
    simpa [List.append_assoc] using hchain
  rw [List.chain'_append] at hsplit
  obtain ⟨hcA, hcB, hlink⟩ := hsplit
  have hpt : readForward hc p i = some (some t) := by
    have := hlink p (by simp) t (by rw [hB]; simp)
    exact this
  obtain ⟨g, hg⟩ := hxf
  obtain ⟨h1, hw1⟩ := writeForward_isSome hg (some t)
  have hr1 : readForward h1 p i = some (some t) := by
    rw [readForward_writeForward hw1]
    simp [hpx, hpt]
  obtain ⟨h2, hw2⟩ := writeForward_isSome hr1 (some x)
  have hread : ∀ a, readForward h2 a i =
      if a = p then some (some x) else if a = x then some (some t) else readForward hc a i := by
    intro a
    rw [readForward_writeForward hw2, readForward_writeForward hw1]
    simp
  refine ⟨t, h1, h2, hpt, hw1, hw2, ?_, ?_, ?_⟩
  · have hnd2 : (ini ++ [p] ++ B).Nodup := by
      rw [← hini]; exact hnd
    have hx2 : x ∉ ini ++ [p] ++ B := by
      rw [← hini]; exact hx
    have e : 0 :: A ++ x :: B ++ [1] = (ini ++ [p]) ++ (x :: (B ++ [1])) := by
      rw [← hini]; simp
    rw [e, List.chain'_append]
    refine ⟨?_, ?_, ?_⟩
    · apply chain_congr ini p hcA
      intro a ha b hab
      have hap : a ≠ p := by
        intro e2
        subst e2
        rw [List.append_assoc, List.nodup_append] at hnd2
        exact hnd2.2.2 ha (by simp)
      have hax : a ≠ x := by
        intro e2
        subst e2
        apply hx2
        simp [ha]
      unfold Link at *
      rw [hread a]
      simp [hap, hax, hab]
    · rw [List.chain'_cons']
      constructor
      · intro y hy
        rw [hB] at hy
        simp only [List.head?_cons, Option.mem_def, Option.some.injEq] at hy
        subst hy
        unfold Link
        rw [hread x]
        simp [Ne.symm hpx]
      · apply chain_congr B 1 hcB
        intro a ha b hab
        have hap : a ≠ p := by
          intro e2
          subst e2
          rw [List.nodup_append] at hnd2
          exact hnd2.2.2 (by simp) ha
        have hax : a ≠ x := by
          intro e2
          subst e2
          apply hx2
          simp [ha]
        unfold Link at *
        rw [hread a]
        simp [hap, hax, hab]
    · intro a ha y hy
      have ea : a = p := by
        simp at ha
        exact ha.symm
      have ey : y = x := by
        simp at hy
        exact hy.symm
      subst ea
      subst ey
      unfold Link
      rw [hread a]
      simp
  · rw [shape_writeForward hw2, shape_writeForward hw1]
  · intro q j hj
    rw [readForward_writeForward hw2, readForward_writeForward hw1]
    simp [hj]

end SkipList
namespace SkipList

variable {K : Type} [LinearOrder K] [Inhabited K]

theorem spliceLoop_spec (x : Nat) (update : List (Option Nat)) (A B : Nat → List Nat) :
    ∀ (n ii : Nat) (hc : Heap K),
      (∀ j, ii ≤ j → j < ii + n → update[j]? = some (some ((A j).getLastD 0))) →
      (∀ j, ii ≤ j → j < ii + n → List.Chain' (Link hc j) (0 :: A j ++ B j ++ [1])) →
      (∀ j, ii ≤ j → j < ii + n → (0 :: A j ++ B j).Nodup ∧ x ∉ (0 :: A j ++ B j)) →
      (∀ j, ii ≤ j → j < ii + n → ∃ g, readForward hc x j = some g) →
      ∃ h1, spliceLoop x update n ii hc = some h1 ∧ h1.map shape = hc.map shape ∧
        (∀ j, ii ≤ j → j < ii + n → List.Chain' (Link h1 j) (0 :: A j ++ x :: B j ++ [1])) ∧
        (∀ q j, ¬ (ii ≤ j ∧ j < ii + n) → readForward h1 q j = readForward hc q j) := by
  intro n
  induction n with
  | zero =>
    intro ii hc _ _ _ _
    exact ⟨hc, rfl, rfl, fun j h1 h2 => by omega, fun q j _ => rfl⟩
  | succ n ih =>
    intro ii hc hup hch hnd hxf
    obtain ⟨hnd1, hx1⟩ := hnd ii (le_refl _) (by omega)
    obtain ⟨t, h1, h2, hpt, hw1, hw2, hc2, hs2, hfr2⟩ :=
      splice_step (hch ii (le_refl _) (by omega)) rfl hnd1 hx1 (hxf ii (le_refl _) (by omega))
    obtain ⟨h3, hrun, hs3, hc3, hfr3⟩ := ih (ii + 1) h2
      (fun j hj1 hj2 => hup j (by omega) (by omega))
      (fun j hj1 hj2 => chain_link_congr (fun q => hfr2 q j (by omega))
        (hch j (by omega) (by omega)))
      (fun j hj1 hj2 => hnd j (by omega) (by omega))
      (fun j hj1 hj2 => by
        rw [hfr2 x j (by omega)]
        exact hxf j (by omega) (by omega))
    refine ⟨h3, ?_, ?_, ?_, ?_⟩
    · simp only [spliceLoop, hup ii (le_refl _) (by omega), hpt, hw1, hw2]
      exact hrun
    · rw [hs3, hs2]
    · intro j hj1 hj2
      by_cases hj : j = ii
      · subst hj
        exact chain_link_congr (fun q => hfr3 q j (by omega)) hc2
      · exact hc3 j (by omega) (by omega)
    · intro q j hj
      by_cases hji : j = ii
      · omega
      · rw [hfr3 q j (by omega), hfr2 q j hji]

theorem spliceLoop_add (x : Nat) (update : List (Option Nat)) :
    ∀ (n m ii : Nat) (hc : Heap K),
      spliceLoop x update (n + m) ii hc =
        (spliceLoop x update n ii hc).bind (spliceLoop x update m (ii + n)) := by
  intro n
  induction n with
  | zero => intro m ii hc; simp [spliceLoop]
  | succ n ih =>
    intro m ii hc
    have e : n + 1 + m = (n + m) + 1 := by omega
    rw [e]
    simp only [spliceLoop]
    split
    · rename_i p hp
      cases hr : readForward hc p ii with
      | none => simp
      | some f =>
        simp only
        cases hw1 : writeForward hc x ii f with
        | none => simp
        | some h1 =>
          simp only
          cases hw2 : writeForward h1 p ii (some x) with
          | none => simp
          | some h2 =>
            simp only
            rw [ih m (ii + 1) h2]
            have : ii + 1 + n = ii + (n + 1) := by omega
            rw [this]
    · simp

end SkipList
namespace SkipList

variable {K : Type} [LinearOrder K] [Inhabited K]

theorem readForward_append_old (h : Heap K) (nd : SkipListOnMem K) {q : Nat} (hq : q < h.length)
    (j : Nat) : readForward (h ++ [nd]) q j = readForward h q j := by
  unfold readForward
  rw [List.getElem?_append_left hq]

theorem readForward_append_new (h : Heap K) (nd : SkipListOnMem K) (j : Nat) :
    readForward (h ++ [nd]) h.length j = nd.Forward[j]? := by
  unfold readForward
  rw [List.getElem?_append_right (le_refl _)]
  simp

theorem readKey_append_old (h : Heap K) (nd : SkipListOnMem K) {q : Nat} (hq : q < h.length) :
    readKey (h ++ [nd]) (some q) = readKey h (some q) := by
  simp only [readKey]
  rw [List.getElem?_append_left hq]

theorem readKey_append_new (h : Heap K) (nd : SkipListOnMem K) :
    readKey (h ++ [nd]) (some h.length) = nd.Key := by
  simp only [readKey]
  rw [List.getElem?_append_right (le_refl _)]
  simp

theorem keyAt_append_old (h : Heap K) (nd : SkipListOnMem K) {q : Nat} (hq : q < h.length) :
    keyAt (h ++ [nd]) q = keyAt h q := by
  unfold keyAt
  rw [readKey_append_old h nd hq]

theorem valAt_append_old (h : Heap K) (nd : SkipListOnMem K) {q : Nat} (hq : q < h.length) :
    valAt (h ++ [nd]) q = valAt h q := by
  unfold valAt
  rw [List.getElem?_append_left hq]

theorem valAt_append_new (h : Heap K) (nd : SkipListOnMem K) :
    valAt (h ++ [nd]) h.length = nd.Val := by
  unfold valAt
  rw [List.getElem?_append_right (le_refl _)]
  simp

theorem readForward_lt {h : Heap K} {q j : Nat} {f : Option Nat}
    (hr : readForward h q j = some f) : q < h.length := by
  unfold readForward at hr
  cases hq : h[q]? with
  | none => simp [hq] at hr
  | some n =>
    rcases List.getElem?_eq_some.1 hq with ⟨hlt, _⟩
    exact hlt

theorem readForward_set_same {h : Heap K} {q : Nat} {n : SkipListOnMem K} (n1 : SkipListOnMem K)
    (hq : h[q]? = some n) (hf : n1.Forward = n.Forward) (a j : Nat) :
    readForward (h.set q n1) a j = readForward h a j := by
  have hlt : q < h.length := by
    rcases List.getElem?_eq_some.1 hq with ⟨hlt, _⟩
    exact hlt
  unfold readForward
  by_cases e : q = a
  · subst e
    rw [List.getElem?_set_self hlt, hq]
    simp [hf]
  · rw [List.getElem?_set_ne e]

theorem readKey_set_same {h : Heap K} {q : Nat} {n : SkipListOnMem K} (n1 : SkipListOnMem K)
    (hq : h[q]? = some n) (hf : n1.Key = n.Key) (a : Option Nat) :
    readKey (h.set q n1) a = readKey h a := by
  have hlt : q < h.length := by
    rcases List.getElem?_eq_some.1 hq with ⟨hlt, _⟩
    exact hlt
  cases a with
  | none => rfl
  | some a =>
    simp only [readKey]
    by_cases e : q = a
    · subst e
      rw [List.getElem?_set_self hlt, hq]
      simp [hf]
    · rw [List.getElem?_set_ne e]

theorem fwdLen_set_same {h : Heap K} {q : Nat} {n : SkipListOnMem K} (n1 : SkipListOnMem K)
    (hq : h[q]? = some n) (hf : n1.Forward = n.Forward) (a : Nat) :
    ((h.set q n1)[a]?).map (fun n => n.Forward.length)
      = (h[a]?).map (fun n => n.Forward.length) := by
  have hlt : q < h.length := by
    rcases List.getElem?_eq_some.1 hq with ⟨hlt, _⟩
    exact hlt
  by_cases e : q = a
  · subst e
    rw [List.getElem?_set_self hlt, hq]
    simp [hf]
  · rw [List.getElem?_set_ne e]

theorem valAt_set_ne {h : Heap K} {q a : Nat} (n1 : SkipListOnMem K) (e : q ≠ a) :
    valAt (h.set q n1) a = valAt h a := by
  unfold valAt
  rw [List.getElem?_set_ne e]

theorem keyAt_congr {h h1 : Heap K} {q : Nat} (e : readKey h1 (some q) = readKey h (some q)) :
    keyAt h1 q = keyAt h q := by
  unfold keyAt
  rw [e]

theorem Inv.absent {h : Heap K} {lv : Nat → List Nat} {L : Nat} (hi : Inv h lv L) {k : K}
    (hne : ¬ (succ h k (lv 0) ∈ post h k (lv 0) ∧ keyAt h (succ h k (lv 0)) = k)) :
    ∀ i, ∀ q ∈ lv i, keyAt h q ≠ k := by
  have h0 : ∀ q ∈ lv 0, keyAt h q ≠ k := by
    intro q hq hk
    have hqp : q ∈ post h k (lv 0) := mem_post.2 ⟨hq, by rw [hk]; exact lt_irrefl _⟩
    rcases succ_eq_or_mem h k (lv 0) with ⟨_, h2⟩ | hm
    · rw [h2] at hqp
      simp at hqp
    · apply hne
      refine ⟨hm, ?_⟩
      have h1 := (mem_post.1 hm).2
      have hps : (post h k (lv 0)).Pairwise (fun a b => keyAt h a < keyAt h b) :=
        (hi.sorted 0).sublist (post_sublist h k (lv 0))
      unfold succ at hm h1 ⊢
      cases hp : post h k (lv 0) with
      | nil => rw [hp] at hqp; simp at hqp
      | cons a t =>
        rw [hp] at hqp hps h1
        simp only [List.head?_cons, Option.getD_some] at h1 ⊢
        rw [List.pairwise_cons] at hps
        rcases List.mem_cons.1 hqp with e | e
        · rw [← e]; exact hk
        · have := hps.1 q e
          rw [hk] at this
          exact absurd this h1
  have hsub : ∀ i, (lv i).Sublist (lv 0) := by
    intro i
    induction i with
    | zero => exact List.Sublist.refl _
    | succ i ih => exact (hi.sub i).trans ih
  intro i q hq
  exact h0 q ((hsub i).subset hq)

end SkipList
namespace SkipList

variable {K : Type} [LinearOrder K] [Inhabited K]

theorem Inv.not_mem_small {h : Heap K} {lv : Nat → List Nat} {L : Nat} (hi : Inv h lv L)
    (j : Nat) {x : Nat} (hx : x < 2 ∨ h.length ≤ x) : x ∉ lv j := by
  intro hm
  have := hi.mem j x hm
  omega

theorem Inv.two_le {h : Heap K} {lv : Nat → List Nat} {L : Nat} (hi : Inv h lv L) :
    2 ≤ h.length := by
  have := hi.length_lt 0
  omega

theorem insert_new_core {h : Heap K} {lv : Nat → List Nat} {L : Nat} (hi : Inv h lv L) (k : K)
    (habs : ∀ i, ∀ q ∈ lv i, keyAt h q ≠ k)
    (hbase : Heap K) (nd : SkipListOnMem K) (m : Nat) (update : List (Option Nat))
    (hlen : hbase.length = h.length)
    (hrf : ∀ q j, readForward hbase q j = readForward h q j)
    (hrk : ∀ q, readKey hbase q = readKey h q)
    (hfl : ∀ q : Nat, (hbase[q]?).map (fun n : SkipListOnMem K => n.Forward.length)
      = (h[q]?).map (fun n : SkipListOnMem K => n.Forward.length))
    (hva : ∀ q, valAt hbase q = valAt h q)
    (hm20 : m ≤ 20)
    (hup : ∀ j, j < m → update[j]? = some (some (pred h k (lv j))))
    (hndF : nd.Forward = List.replicate 20 none) (hndK : nd.Key = some (Value.key k)) :
    ∃ h3, spliceLoop h.length update m 0 (hbase ++ [nd]) = some h3 ∧
      (∀ L1 : Nat, (hbase[0]?).map (fun n => n.CurMaxLevel) = some (L1 : Int) →
        L1 ≤ 20 → L ≤ L1 → m ≤ L1 → Inv h3 (spliced h k h.length m lv) L1) ∧
      h3.map shape = (hbase ++ [nd]).map shape ∧
      h3.length = h.length + 1 ∧
      (∀ q, q < h.length → valAt h3 q = valAt h q ∧ keyAt h3 q = keyAt h q) ∧
      valAt h3 h.length = nd.Val ∧ keyAt h3 h.length = k := by
  have h2le := hi.two_le
  have hxnot : ∀ j, h.length ∉ (0 :: pre h k (lv j) ++ post h k (lv j)) := by
    intro j hmem
    rw [List.cons_append, ← sorted_split h k (lv j) (hi.sorted j)] at hmem
    rcases List.mem_cons.1 hmem with e | e
    · omega
    · exact hi.not_mem_small j (Or.inr (le_refl _)) e
  have hnd : ∀ j, (0 :: pre h k (lv j) ++ post h k (lv j)).Nodup := by
    intro j
    rw [List.cons_append, ← sorted_split h k (lv j) (hi.sorted j), List.nodup_cons]
    exact ⟨hi.not_mem_small j (Or.inl (by omega)), hi.nodup j⟩
  have hold : ∀ q j, q < h.length → readForward (hbase ++ [nd]) q j = readForward h q j := by
    intro q j hq
    rw [readForward_append_old hbase nd (by omega), hrf]
  have hch2 : ∀ j, j < 20 → List.Chain' (Link (hbase ++ [nd]) j) (0 :: lv j ++ [1]) := by
    intro j hj
    apply chain_congr (0 :: lv j) 1 (hi.path j hj)
    intro a ha b hab
    have halt : a < h.length := by
      rcases List.mem_cons.1 ha with e | e
      · omega
      · exact (hi.mem j a e).2
    unfold Link at *
    rw [hold a j halt]
    exact hab
  have hxf : ∀ j, j < 20 → readForward (hbase ++ [nd]) h.length j = some none := by
    intro j hj
    rw [← hlen, readForward_append_new, hndF, List.getElem?_replicate]
    simp [hj]
  obtain ⟨h3, hrun, hs3, hc3, hfr3⟩ :=
    spliceLoop_spec h.length update (fun j => pre h k (lv j)) (fun j => post h k (lv j)) m 0
      (hbase ++ [nd])
      (fun j _ hj => hup j (by omega))
      (fun j _ hj => by
        have := hch2 j (by omega)
        rw [sorted_split h k (lv j) (hi.sorted j)] at this
        simpa [List.append_assoc] using this)
      (fun j _ hj => ⟨hnd j, hxnot j⟩)
      (fun j _ hj => ⟨none, hxf j (by omega)⟩)
  have hlen3 : h3.length = h.length + 1 := by
    rw [shape_length hs3]
    simp [hlen]
  have hkey_old : ∀ q, q < h.length → readKey h3 (some q) = readKey h (some q) := by
    intro q hq
    rw [shape_readKey hs3, readKey_append_old hbase nd (by omega), hrk]
  have hkey_new : readKey h3 (some h.length) = some (Value.key k) := by
    rw [shape_readKey hs3, ← hlen, readKey_append_new, hndK]
  have hki_old : ∀ q, q < h.length → keyAt h3 q = keyAt h q :=
    fun q hq => keyAt_congr (hkey_old q hq)
  have hki_new : keyAt h3 h.length = k := by
    unfold keyAt
    rw [hkey_new]
  have hsorted_old : ∀ (l : List Nat), (∀ q ∈ l, q < h.length) →
      l.Pairwise (fun a b => keyAt h a < keyAt h b) →
      l.Pairwise (fun a b => keyAt h3 a < keyAt h3 b) := by
    intro l hl hp
    refine List.Pairwise.imp_of_mem ?_ hp
    intro a b ha hb hab
    rw [hki_old a (hl a ha), hki_old b (hl b hb)]
    exact hab
  refine ⟨h3, hrun, ?_, hs3, hlen3, ?_, ?_, hki_new⟩
  · intro L1 hcm hL1 hLL hm
    constructor
    · rw [shape_curMax hs3, List.getElem?_append_left (by omega)]
      exact hcm
    · exact hL1
    · intro q hq
      rw [shape_fwdLen hs3]
      by_cases hq2 : q < h.length
      · rw [List.getElem?_append_left (by omega), hfl]
        exact hi.fwdLen q hq2
      · have : q = hbase.length := by omega
        subst this
        rw [List.getElem?_append_right (le_refl _)]
        simp [hndF]
    · rw [hkey_old 1 (by omega)]
      exact hi.senKey
    · intro q hq2 hq
      by_cases hq3 : q < h.length
      · rw [hkey_old q hq3]
        exact hi.keys q hq2 hq3
      · have : q = h.length := by omega
        subst this
        exact ⟨k, hkey_new⟩
    · intro i hi20
      unfold Path spliced
      by_cases him : i < m
      · simp only [him, if_true]
        have := hc3 i (by omega) (by omega)
        simpa [List.append_assoc] using this
      · simp only [him, if_false]
        exact chain_link_congr (fun q => hfr3 q i (by omega)) (hch2 i hi20)
    · intro i q hq
      unfold spliced at hq
      by_cases him : i < m
      · simp only [him, if_true, List.mem_append, List.mem_cons] at hq
        rcases hq with hq | hq | hq
        · have := hi.mem i q ((pre_sublist h k (lv i)).subset hq)
          omega
        · omega
        · have := hi.mem i q ((post_sublist h k (lv i)).subset hq)
          omega
      · simp only [him, if_false] at hq
        have := hi.mem i q hq
        omega
    · intro i
      unfold spliced
      by_cases him : i < m
      · simp only [him, if_true]
        have hsp := hi.sorted i
        rw [sorted_split h k (lv i) (hi.sorted i), List.pairwise_append] at hsp
        have hpre_lt : ∀ q ∈ pre h k (lv i), q < h.length :=
          fun q hq => (hi.mem i q ((pre_sublist h k (lv i)).subset hq)).2
        have hpost_lt : ∀ q ∈ post h k (lv i), q < h.length :=
          fun q hq => (hi.mem i q ((post_sublist h k (lv i)).subset hq)).2
        rw [List.pairwise_append]
        refine ⟨hsorted_old _ hpre_lt hsp.1, ?_, ?_⟩
        · rw [List.pairwise_cons]
          refine ⟨?_, hsorted_old _ hpost_lt hsp.2.1⟩
          intro b hb
          rw [hki_new, hki_old b (hpost_lt b hb)]
          have h1 := (mem_post.1 hb)
          have h2 := habs i b h1.1
          exact lt_of_le_of_ne (not_lt.1 h1.2) (Ne.symm h2)
        · intro a ha b hb
          rw [hki_old a (hpre_lt a ha)]
          have h1 := (mem_pre.1 ha).2
          rcases List.mem_cons.1 hb with e | e
          · rw [e, hki_new]
            exact h1
          · rw [hki_old b (hpost_lt b e)]
            have h2 := (mem_post.1 e).2
            exact lt_of_lt_of_le h1 (not_lt.1 h2)
      · simp only [him, if_false]
        exact hsorted_old _ (fun q hq => (hi.mem i q hq).2) (hi.sorted i)
    · intro i
      unfold spliced
      by_cases h1 : i + 1 < m
      · have h2 : i < m := by omega
        simp only [h1, h2, if_true]
        exact List.Sublist.append ((hi.sub i).filter _)
          (List.Sublist.cons₂ _ ((hi.sub i).filter _))
      · by_cases h2 : i < m
        · simp only [h1, h2, if_true, if_false]
          refine (hi.sub i).trans ?_
          conv_lhs => rw [sorted_split h k (lv i) (hi.sorted i)]
          exact List.Sublist.append (List.Sublist.refl _)
            (List.Sublist.cons _ (List.Sublist.refl _))
        · simp only [h1, h2, if_false]
          exact hi.sub i
    · intro i hiL
      unfold spliced
      have : ¬ i < m := by omega
      simp only [this, if_false]
      exact hi.top i (by omega)
  · intro q hq
    refine ⟨?_, hki_old q hq⟩
    rw [shape_valAt hs3, valAt_append_old hbase nd (by omega), hva]
  · rw [shape_valAt hs3, ← hlen, valAt_append_new]

end SkipList
namespace SkipList

variable {K : Type} [LinearOrder K] [Inhabited K]

theorem wrapInt32_small {n : Int} (h1 : -2147483648 ≤ n) (h2 : n < 2147483648) :
    wrapInt32 n = n := by
  unfold wrapInt32
  omega

theorem Inv.set_val {h : Heap K} {lv : Nat → List Nat} {L : Nat} (hi : Inv h lv L)
    {q : Nat} {n : SkipListOnMem K} (hq : h[q]? = some n) (v : Nat) :
    Inv (h.set q { n with Val := v }) lv L := by
  have hlt : q < h.length := by
    rcases List.getElem?_eq_some.1 hq with ⟨hlt, _⟩
    exact hlt
  have hk : ∀ a, readKey (h.set q { n with Val := v }) a = readKey h a :=
    fun a => readKey_set_same { n with Val := v } hq rfl a
  have hki : ∀ a, keyAt (h.set q { n with Val := v }) a = keyAt h a :=
    fun a => keyAt_congr (hk (some a))
  constructor
  · by_cases e : q = 0
    · subst e
      rw [List.getElem?_set_self hlt]
      have := hi.curMax
      rw [hq] at this
      simpa using this
    · rw [List.getElem?_set_ne e]
      exact hi.curMax
  · exact hi.Lle
  · intro a ha
    rw [fwdLen_set_same { n with Val := v } hq rfl a]
    exact hi.fwdLen a (by simpa using ha)
  · rw [hk]; exact hi.senKey
  · intro a h2 ha
    rw [hk]
    exact hi.keys a h2 (by simpa using ha)
  · intro i hi20
    exact chain_link_congr
      (fun a => readForward_set_same { n with Val := v } hq rfl a i) (hi.path i hi20)
  · intro i a ha
    have := hi.mem i a ha
    simpa using this
  · intro i
    refine List.Pairwise.imp ?_ (hi.sorted i)
    intro a b hab
    rw [hki a, hki b]
    exact hab
  · exact hi.sub
  · exact hi.top

theorem entries_congr {h h1 : Heap K} {l : List Nat}
    (hk : ∀ q ∈ l, keyAt h1 q = keyAt h q ∧ valAt h1 q = valAt h q) :
    entries h1 l = entries h l := by
  unfold entries
  apply List.map_congr_left
  intro q hq
  rw [(hk q hq).1, (hk q hq).2]

theorem entries_filter_lt (h : Heap K) (k : K) (l : List Nat) :
    (entries h l).filter (fun e => decide (e.1 < k)) = entries h (pre h k l) := by
  unfold entries pre
  rw [List.filter_map]
  rfl

theorem entries_filter_gt (h : Heap K) (k : K) (l : List Nat)
    (habs : ∀ q ∈ l, keyAt h q ≠ k) :
    (entries h l).filter (fun e => decide (k < e.1)) = entries h (post h k l) := by
  unfold entries post
  rw [List.filter_map]
  congr 1
  apply List.filter_congr
  intro q hq
  have := habs q hq
  simp only [Function.comp]
  by_cases hlt : keyAt h q < k
  · have : ¬ k < keyAt h q := lt_asymm hlt
    simp [hlt, this]
  · have : k < keyAt h q := lt_of_le_of_ne (not_lt.1 hlt) (Ne.symm this)
    simp [hlt, this]

theorem upsert_absent (h : Heap K) (k : K) (v : Nat) (l : List Nat)
    (habs : ∀ q ∈ l, keyAt h q ≠ k) :
    upsert (entries h l) k v = entries h (pre h k l) ++ (k, v) :: entries h (post h k l) := by
  unfold upsert
  rw [entries_filter_lt, entries_filter_gt h k l habs]

theorem upsert_present (h : Heap K) (k : K) (v : Nat) (l : List Nat)
    (hs : l.Pairwise (fun a b => keyAt h a < keyAt h b)) (q : Nat) (hq : q ∈ l)
    (hk : keyAt h q = k) :
    l.map (fun p => (keyAt h p, if p = q then v else valAt h p))
      = upsert (entries h l) k v := by
  induction l with
  | nil => simp at hq
  | cons a t ih =>
    rw [List.pairwise_cons] at hs
    by_cases e : a = q
    · subst e
      have hall : ∀ b ∈ t, k < keyAt h b := by
        intro b hb
        have := hs.1 b hb
        rw [hk] at this
        exact this
      have hne : ∀ b ∈ t, b ≠ a := by
        intro b hb e
        have := hall b hb
        rw [e, hk] at this
        exact lt_irrefl _ this
      have e1 : List.filter (fun e : K × Nat => decide (e.1 < k)) (entries h t) = [] := by
        rw [List.filter_eq_nil_iff]
        intro e he
        simp only [entries, List.mem_map] at he
        obtain ⟨b, hb, rfl⟩ := he
        have := hall b hb
        simp only [decide_eq_true_eq, not_lt]
        exact le_of_lt this
      have e2 : List.filter (fun e : K × Nat => decide (k < e.1)) (entries h t)
          = entries h t := by
        rw [List.filter_eq_self]
        intro e he
        simp only [entries, List.mem_map] at he
        obtain ⟨b, hb, rfl⟩ := he
        have := hall b hb
        simpa using this
      have e3 : t.map (fun p => (keyAt h p, if p = a then v else valAt h p)) = entries h t := by
        unfold entries
        apply List.map_congr_left
        intro b hb
        simp [hne b hb]
      unfold upsert
      simp only [entries, List.map_cons, List.filter_cons, hk, lt_self_iff_false, decide_False,
        Bool.false_eq_true, if_false, if_true]
      simp only [entries] at e1 e2 e3
      rw [e1, e2, e3]
      rfl
    · have hqt : q ∈ t := by
        rcases List.mem_cons.1 hq with e2 | e2
        · exact absurd e2.symm e
        · exact e2
      have hlt : keyAt h a < k := by
        have := hs.1 q hqt
        rw [hk] at this
        exact this
      have hgt : ¬ k < keyAt h a := lt_asymm hlt
      have iht := ih hs.2 hqt
      unfold upsert at iht ⊢
      simp only [entries, List.map_cons, List.filter_cons, hlt, hgt, decide_True, decide_False,
        if_true, Bool.false_eq_true, if_false, List.cons_append, e]
      simp only [entries] at iht
      rw [iht]

theorem Inv.present_iff {h : Heap K} {lv : Nat → List Nat} {L : Nat} (hi : Inv h lv L) (k : K) :
    k ∈ (entries h (lv 0)).map Prod.fst ↔
      (succ h k (lv 0) ∈ post h k (lv 0) ∧ keyAt h (succ h k (lv 0)) = k) := by
  constructor
  · intro hk
    by_contra hne
    have := hi.absent hne 0
    simp only [entries, List.map_map, List.mem_map, Function.comp] at hk
    obtain ⟨q, hq, hqk⟩ := hk
    exact this q hq hqk
  · rintro ⟨hm, hk⟩
    simp only [entries, List.map_map, List.mem_map, Function.comp]
    exact ⟨_, (mem_post.1 hm).1, hk⟩

end SkipList
namespace SkipList

variable {K : Type} [LinearOrder K] [Inhabited K]

theorem Inv.succ_lt {h : Heap K} {lv : Nat → List Nat} {L : Nat} (hi : Inv h lv L)
    (k : K) (i : Nat) : succ h k (lv i) < h.length := by
  rcases succ_eq_or_mem h k (lv i) with ⟨h1, _⟩ | hm
  · rw [h1]
    have := hi.two_le
    omega
  · exact (hi.mem i _ (mem_post.1 hm).1).2

theorem Inv.insert_unfold {h : Heap K} {lv : Nat → List Nat} {L : Nat} (hi : Inv h lv L)
    (k : K) (v s : Nat) :
    ∃ hd upd kt n, h[0]? = some hd ∧ hd.CurMaxLevel = (L : Int) ∧
      upd.length = L + 1 ∧ (∀ j, j < L → upd[j]? = some (some (pred h k (lv j)))) ∧
      readKey h (some (succ h k (lv 0))) = some kt ∧
      h[succ h k (lv 0)]? = some n ∧
      (kt.CompareEquals (Value.key k) = true ↔ k ∈ (entries h (lv 0)).map Prod.fst) ∧
      InsertOnMem h 0 (Value.key k) v s =
        if kt.CompareEquals (Value.key k) then
          some (h.set (succ h k (lv 0)) { n with Val := v })
        else
          if (L : Int) ≤ GetNodeLevel L s then
            if L + 1 ≤ upd.length then
              spliceLoop (h.set 0 { hd with CurMaxLevel := (L : Int) + 1 }).length
                (upd.set L (some 0)) (L + 1) 0
                ((h.set 0 { hd with CurMaxLevel := (L : Int) + 1 })
                  ++ [newNode ((L : Int) + 1) (some (Value.key k)) v])
            else none
          else
            spliceLoop h.length upd (GetNodeLevel L s).toNat 0
              (h ++ [newNode (GetNodeLevel L s) (some (Value.key k)) v]) := by
  obtain ⟨hd, h0, hL, _⟩ := hi.header
  have hLle := hi.Lle
  have hw : wrapInt32 ((L : Int) + 1) = (L : Int) + 1 := wrapInt32_small (by omega) (by omega)
  obtain ⟨upd, hdu, hulen, hup, _⟩ := hi.descendUpdate k L (List.replicate (L + 1) none) hLle
    (by simp)
  rw [pred_top hi k (le_refl L)] at hdu
  obtain ⟨kt, hkt, _⟩ := hi.succ_key k 0
  have hslt := hi.succ_lt k 0
  refine ⟨hd, upd, kt, h[succ h k (lv 0)], h0, hL, by simpa using hulen, hup, hkt,
    List.getElem?_eq_getElem hslt, ?_, ?_⟩
  · rw [hi.present_iff k]
    rcases succ_eq_or_mem h k (lv 0) with ⟨h1, h2⟩ | hm
    · rw [h1, hi.senKey] at hkt
      have : kt = Value.inf := (Option.some.inj hkt).symm
      subst this
      simp [Value.CompareEquals, h2]
    · rw [hi.key_of_mem (mem_post.1 hm).1] at hkt
      have : kt = Value.key (keyAt h (succ h k (lv 0))) := (Option.some.inj hkt).symm
      subst this
      simp [Value.CompareEquals, hm]
  · have hnl : ¬ ((L : Int) + 1 < 0) := by omega
    have e1 : ((L : Int) + 1).toNat = L + 1 := by omega
    have e2 : ((L : Int) + 1 - 1).toNat = L := by omega
    have e3 : (0 : Int) ≤ (L : Int) + 1 - 1 := by omega
    unfold InsertOnMem
    simp only [h0, hL, hw, hnl, if_false, Int.toNat_ofNat, e1, hdu,
      hi.pred_link k (by norm_num : 0 < 20), hkt, List.getElem?_eq_getElem hslt, Option.map_some',
      NewSkipListOnMem, e2, e3, true_and, List.length_set, Bool.false_eq_true, if_false]
    rfl

end SkipList
namespace SkipList

variable {K : Type} [LinearOrder K] [Inhabited K]

theorem compareEquals_key {kt : Value K} {k : K}
    (h : kt.CompareEquals (Value.key k) = true) : kt = Value.key k := by
  cases kt with
  | inf => simp [Value.CompareEquals] at h
  | key a =>
    simp only [Value.CompareEquals, decide_eq_true_eq] at h
    rw [h]

theorem valAt_set_self {h : Heap K} {q : Nat} (hq : q < h.length) (n1 : SkipListOnMem K) :
    valAt (h.set q n1) q = n1.Val := by
  unfold valAt
  rw [List.getElem?_set_self hq]

theorem readForward_none_of_fwdLen {h : Heap K} {q j : Nat}
    (hf : (h[q]?).map (fun n => n.Forward.length) = some 20) (hj : 20 ≤ j) :
    readForward h q j = none := by
  unfold readForward
  cases hq : h[q]? with
  | none => rfl
  | some n =>
    rw [hq] at hf
    simp only [Option.map_some', Option.some.injEq] at hf
    simp only
    exact List.getElem?_eq_none (by omega)

theorem entries_spliced {h h3 : Heap K} {k : K} {v x : Nat} {a b : List Nat}
    (hk : keyAt h3 x = k) (hv : valAt h3 x = v)
    (ha : ∀ q ∈ a, valAt h3 q = valAt h q ∧ keyAt h3 q = keyAt h q)
    (hb : ∀ q ∈ b, valAt h3 q = valAt h q ∧ keyAt h3 q = keyAt h q) :
    entries h3 (a ++ x :: b) = entries h a ++ (k, v) :: entries h b := by
  have e1 : entries h3 a = entries h a :=
    entries_congr (fun q hq => ⟨(ha q hq).2, (ha q hq).1⟩)
  have e2 : entries h3 b = entries h b :=
    entries_congr (fun q hq => ⟨(hb q hq).2, (hb q hq).1⟩)
  rw [← e1, ← e2]
  unfold entries
  rw [List.map_append, List.map_cons, hk, hv]

theorem Inv.insert {h : Heap K} {lv : Nat → List Nat} {L : Nat} (hi : Inv h lv L)
    (k : K) (v s : Nat) :
    (InsertOnMem h 0 (Value.key k) v s = none ∧ L = 20 ∧
        (L : Int) ≤ wrapInt32 (1 + (s : Int)) ∧ k ∉ (entries h (lv 0)).map Prod.fst) ∨
    ∃ h1 lv1 L1, InsertOnMem h 0 (Value.key k) v s = some h1 ∧ Inv h1 lv1 L1 ∧
      L ≤ L1 ∧ L1 ≤ L + 1 ∧
      (entries h1 (lv1 0) = upsert (entries h (lv 0)) k v ∨
        (entries h1 (lv1 0) = entries h (lv 0) ∧ wrapInt32 (1 + (s : Int)) ≤ 0 ∧
          k ∉ (entries h (lv 0)).map Prod.fst)) ∧
      (k ∈ (entries h (lv 0)).map Prod.fst →
        ∃ q n, h[q]? = some n ∧ n.Key = some (Value.key k) ∧
          h1 = h.set q { n with Val := v }) ∧
      (k ∉ (entries h (lv 0)).map Prod.fst → h1.length = h.length + 1) := by
  obtain ⟨hd, upd, kt, n, h0, hL, hulen, hup, hkt, hn, hpres, hins⟩ := hi.insert_unfold k v s
  have hLle := hi.Lle
  have hslt := hi.succ_lt k 0
  by_cases hp : k ∈ (entries h (lv 0)).map Prod.fst
  · -- the key is present: the value is overwritten in place
    right
    have hce := hpres.2 hp
    rw [if_pos hce] at hins
    have hsm := (hi.present_iff k).1 hp
    have hnk : n.Key = some (Value.key k) := by
      have := hkt
      simp only [readKey, hn] at this
      rw [this, compareEquals_key hce]
    refine ⟨_, lv, L, hins, hi.set_val hn v, le_refl _, by omega, Or.inl ?_, ?_, ?_⟩
    · rw [← upsert_present h k v (lv 0) (hi.sorted 0) _ (mem_post.1 hsm.1).1 hsm.2]
      unfold entries
      apply List.map_congr_left
      intro p _
      rw [keyAt_congr (readKey_set_same { n with Val := v } hn rfl (some p))]
      by_cases e : p = succ h k (lv 0)
      · rw [e, valAt_set_self hslt]
        simp
      · rw [valAt_set_ne _ (Ne.symm e)]
        simp [e]
    · intro _
      exact ⟨_, n, hn, hnk, rfl⟩
    · intro hnp
      exact absurd hp hnp
  · -- the key is absent: a node is allocated and spliced in
    have hce : ¬ kt.CompareEquals (Value.key k) = true := fun hc => hp (hpres.1 hc)
    rw [if_neg hce] at hins
    have habs : ∀ i, ∀ q ∈ lv i, keyAt h q ≠ k :=
      hi.absent (fun hc => hp ((hi.present_iff k).2 hc))
    by_cases hg : (L : Int) ≤ GetNodeLevel L s
    · -- the list grows by one level
      rw [if_pos hg, if_pos (by omega)] at hins
      have hr : (L : Int) ≤ wrapInt32 (1 + (s : Int)) := by
        unfold GetNodeLevel at hg
        omega
      have hset0 : (h.set 0 { hd with CurMaxLevel := (L : Int) + 1 })[0]?
          = some { hd with CurMaxLevel := (L : Int) + 1 } :=
        List.getElem?_set_self (by have := hi.two_le; omega)
      have hupd : ∀ j, j < L + 1 → (upd.set L (some 0))[j]? = some (some (pred h k (lv j))) := by
        intro j hj
        by_cases e : j = L
        · subst e
          rw [List.getElem?_set_self (by omega), pred_top hi k (le_refl _)]
        · rw [List.getElem?_set_ne (Ne.symm e)]
          exact hup j (by omega)
      have hcore := fun (m : Nat) (hm : m ≤ 20) (hm2 : m ≤ L + 1) =>
        insert_new_core hi k habs (h.set 0 { hd with CurMaxLevel := (L : Int) + 1 })
          (newNode ((L : Int) + 1) (some (Value.key k)) v) m (upd.set L (some 0))
          (by simp)
          (fun q j => readForward_set_same { hd with CurMaxLevel := (L : Int) + 1 }
            h0 rfl q j)
          (fun q => readKey_set_same { hd with CurMaxLevel := (L : Int) + 1 } h0 rfl q)
          (fun q => fwdLen_set_same { hd with CurMaxLevel := (L : Int) + 1 } h0 rfl q)
          (fun q => by
            unfold valAt
            by_cases e : 0 = q
            · subst e
              rw [hset0, h0]
            · rw [List.getElem?_set_ne e])
          hm (fun j hj => hupd j (by omega)) rfl rfl
      rw [List.length_set] at hins
      by_cases hL20 : L = 20
      · left
        refine ⟨?_, hL20, hr, hp⟩
        obtain ⟨h3, hrun, _, hs3, _⟩ := hcore 20 (le_refl _) (by omega)
        rw [hins, hL20, show 20 + 1 = 20 + 1 from rfl, spliceLoop_add _ _ 20 1 0]
        rw [hL20] at hrun
        rw [hrun]
        have hf0 : readForward h3 0 20 = none := by
          apply readForward_none_of_fwdLen _ (le_refl _)
          rw [shape_fwdLen hs3, List.getElem?_append_left (by
            rw [List.length_set]; have := hi.two_le; omega),
            fwdLen_set_same { hd with CurMaxLevel := (L : Int) + 1 } h0 rfl 0]
          exact hi.fwdLen 0 (by have := hi.two_le; omega)
        have hu20 : (upd.set 20 (some 0))[20]? = some (some 0) :=
          List.getElem?_set_self (by omega)
        simp [spliceLoop, hu20, hf0]
      · right
        obtain ⟨h3, hrun, hinv, _, hlen3, hold, hvnew, hknew⟩ := hcore (L + 1) (by omega)
          (le_refl _)
        have hinv1 := hinv (L + 1) (by rw [hset0]; simp) (by omega) (by omega) (le_refl _)
        refine ⟨h3, _, L + 1, by rw [hins]; exact hrun, hinv1, by omega, le_refl _,
          Or.inl ?_, fun hc => absurd hc hp, fun _ => hlen3⟩
        rw [upsert_absent h k v (lv 0) (habs 0)]
        have e : spliced h k h.length (L + 1) lv 0
            = pre h k (lv 0) ++ h.length :: post h k (lv 0) := by
          unfold spliced
          simp
        rw [e]
        exact entries_spliced hknew hvnew
          (fun q hq => hold q (hi.mem 0 q ((pre_sublist h k (lv 0)).subset hq)).2)
          (fun q hq => hold q (hi.mem 0 q ((post_sublist h k (lv 0)).subset hq)).2)
    · -- the drawn level is below the level of the list
      rw [if_neg hg] at hins
      right
      have hr : GetNodeLevel L s = wrapInt32 (1 + (s : Int)) ∧
          wrapInt32 (1 + (s : Int)) < (L : Int) := by
        unfold GetNodeLevel at hg ⊢
        omega
      have hm : (GetNodeLevel L s).toNat ≤ L := by omega
      obtain ⟨h3, hrun, hinv, _, hlen3, hold, hvnew, hknew⟩ :=
        insert_new_core hi k habs h (newNode (GetNodeLevel L s) (some (Value.key k)) v)
          (GetNodeLevel L s).toNat upd rfl (fun _ _ => rfl) (fun _ => rfl) (fun _ => rfl)
          (fun _ => rfl) (by omega) (fun j hj => hup j (by omega)) rfl rfl
      have hinv1 := hinv L (by rw [h0]; simp [hL]) hLle (le_refl _) hm
      refine ⟨h3, _, L, by rw [hins]; exact hrun, hinv1, le_refl _, by omega, ?_,
        fun hc => absurd hc hp, fun _ => hlen3⟩
      by_cases hpos : 0 < (GetNodeLevel L s).toNat
      · left
        rw [upsert_absent h k v (lv 0) (habs 0)]
        have e : spliced h k h.length (GetNodeLevel L s).toNat lv 0
            = pre h k (lv 0) ++ h.length :: post h k (lv 0) := by
          unfold spliced
          simp [hpos]
        rw [e]
        exact entries_spliced hknew hvnew
          (fun q hq => hold q (hi.mem 0 q ((pre_sublist h k (lv 0)).subset hq)).2)
          (fun q hq => hold q (hi.mem 0 q ((post_sublist h k (lv 0)).subset hq)).2)
      · right
        refine ⟨?_, by omega, hp⟩
        have e : spliced h k h.length (GetNodeLevel L s).toNat lv 0 = lv 0 := by
          unfold spliced
          simp [hpos]
        rw [e]
        apply entries_congr
        intro q hq
        have := hold q (hi.mem 0 q hq).2
        exact ⟨this.2, this.1⟩

end SkipList
namespace SkipList

variable {K : Type} [LinearOrder K] [Inhabited K]

theorem unsplice_step {hc : Heap K} {x p i : Nat} {A B2 : List Nat}
    (hchain : List.Chain' (Link hc i) (0 :: A ++ (x :: B2) ++ [1]))
    (hp : p = A.getLastD 0)
    (hnd : (0 :: A ++ (x :: B2)).Nodup) :
    ∃ t2 h1, readForward hc p i = some (some x) ∧
      readForward hc x i = some (some t2) ∧
      writeForward hc p i (some t2) = some h1 ∧
      List.Chain' (Link h1 i) (0 :: A ++ B2 ++ [1]) ∧
      h1.map shape = hc.map shape ∧
      (∀ q j, j ≠ i → readForward h1 q j = readForward hc q j) := by
  obtain ⟨ini, hini⟩ := cons_eq_concat 0 A
  rw [← hp] at hini
  obtain ⟨t2, r2, hB⟩ : ∃ t2 r2, B2 ++ [1] = t2 :: r2 := by
    cases B2 with
    | nil => exact ⟨1, [], rfl⟩
    | cons b s => exact ⟨b, s ++ [1], by simp⟩
  have hsplit : List.Chain' (Link hc i) ((ini ++ [p]) ++ (x :: (B2 ++ [1]))) := by
    rw [← hini]
    simpa [List.append_assoc] using hchain
  rw [List.chain'_append] at hsplit
  obtain ⟨hcA, hcB, hlink⟩ := hsplit
  have hpx : readForward hc p i = some (some x) := hlink p (by simp) x (by simp)
  rw [List.chain'_cons'] at hcB
  have hxt : readForward hc x i = some (some t2) := hcB.1 t2 (by rw [hB]; simp)
  obtain ⟨h1, hw1⟩ := writeForward_isSome hpx (some t2)
  have hread : ∀ a, readForward h1 a i =
      if a = p then some (some t2) else readForward hc a i := by
    intro a
    rw [readForward_writeForward hw1]
    simp
  have hnd2 : (ini ++ [p] ++ (x :: B2)).Nodup := by
    rw [← hini]; exact hnd
  refine ⟨t2, h1, hpx, hxt, hw1, ?_, shape_writeForward hw1, ?_⟩
  · have e : 0 :: A ++ B2 ++ [1] = (ini ++ [p]) ++ (B2 ++ [1]) := by
      rw [← hini]; simp
    rw [e, List.chain'_append]
    refine ⟨?_, ?_, ?_⟩
    · apply chain_congr ini p hcA
      intro a ha b hab
      have hap : a ≠ p := by
        intro e2
        subst e2
        rw [List.append_assoc, List.nodup_append] at hnd2
        exact hnd2.2.2 ha (by simp)
      unfold Link at *
      rw [hread a]
      simp [hap, hab]
    · apply chain_congr B2 1 hcB.2
      intro a ha b hab
      have hap : a ≠ p := by
        intro e2
        subst e2
        rw [List.nodup_append] at hnd2
        exact hnd2.2.2 (by simp) (List.mem_cons_of_mem _ ha)
      unfold Link at *
      rw [hread a]
      simp [hap, hab]
    · intro a ha y hy
      have ea : a = p := by
        simp at ha
        exact ha.symm
      have ey : y = t2 := by
        rw [hB] at hy
        simp at hy
        exact hy.symm
      subst ea
      subst ey
      unfold Link
      rw [hread a]
      simp
  · intro q j hj
    rw [readForward_writeForward hw1]
    simp [hj]

theorem unspliceLoop_spec (x : Nat) (hx1 : x ≠ 1) (update : List (Option Nat))
    (A B : Nat → List Nat) :
    ∀ (n ii : Nat) (hc : Heap K),
      (∀ j, ii ≤ j → j < ii + n → update[j]? = some (some ((A j).getLastD 0))) →
      (∀ j, ii ≤ j → j < ii + n → List.Chain' (Link hc j) (0 :: A j ++ B j ++ [1])) →
      (∀ j, ii ≤ j → j < ii + n → (0 :: A j ++ B j).Nodup) →
      (∀ j, (B j).head? ≠ some x → (B (j + 1)).head? ≠ some x) →
      ∃ h1, unspliceLoop x update n ii hc = some h1 ∧ h1.map shape = hc.map shape ∧
        (∀ j, ii ≤ j → j < ii + n →
          List.Chain' (Link h1 j) (0 :: A j ++ dropHead x (B j) ++ [1])) ∧
        (∀ q j, ¬ (ii ≤ j ∧ j < ii + n) → readForward h1 q j = readForward hc q j) := by
  intro n
  induction n with
  | zero =>
    intro ii hc _ _ _ _
    exact ⟨hc, rfl, rfl, fun j h1 h2 => by omega, fun q j _ => rfl⟩
  | succ n ih =>
    intro ii hc hup hch hnd hmono
    have hmono2 : ∀ d j, (B j).head? ≠ some x → (B (j + d)).head? ≠ some x := by
      intro d
      induction d with
      | zero => intro j hj; exact hj
      | succ d ihd =>
        intro j hj
        have := hmono (j + d) (ihd j hj)
        rwa [Nat.add_assoc] at this
    by_cases hhead : (B ii).head? = some x
    · obtain ⟨B2, hB2⟩ : ∃ B2, B ii = x :: B2 := by
        cases hb : B ii with
        | nil => rw [hb] at hhead; simp at hhead
        | cons b s =>
          rw [hb] at hhead
          simp only [List.head?_cons, Option.some.injEq] at hhead
          exact ⟨s, by rw [hhead]⟩
      have hch0 := hch ii (le_refl _) (by omega)
      have hnd0 := hnd ii (le_refl _) (by omega)
      rw [hB2] at hch0 hnd0
      obtain ⟨t2, h1, hpx, hxt, hw1, hc1, hs1, hfr1⟩ := unsplice_step hch0 rfl hnd0
      obtain ⟨h3, hrun, hs3, hc3, hfr3⟩ := ih (ii + 1) h1
        (fun j hj1 hj2 => hup j (by omega) (by omega))
        (fun j hj1 hj2 => chain_link_congr (fun q => hfr1 q j (by omega))
          (hch j (by omega) (by omega)))
        (fun j hj1 hj2 => hnd j (by omega) (by omega))
        hmono
      refine ⟨h3, ?_, ?_, ?_, ?_⟩
      · simp only [unspliceLoop, hup ii (le_refl _) (by omega), hpx, hxt, hw1, ne_eq,
          not_true_eq_false, if_false]
        exact hrun
      · rw [hs3, hs1]
      · intro j hj1 hj2
        by_cases hj : j = ii
        · subst hj
          have e : dropHead x (B j) = B2 := by
            unfold dropHead
            rw [if_pos hhead, hB2]
            rfl
          rw [e]
          exact chain_link_congr (fun q => hfr3 q j (by omega)) hc1
        · exact hc3 j (by omega) (by omega)
      · intro q j hj
        by_cases hji : j = ii
        · omega
        · rw [hfr3 q j (by omega), hfr1 q j hji]
    · have hch0 := hch ii (le_refl _) (by omega)
      obtain ⟨t, r2, hB⟩ : ∃ t r2, B ii ++ [1] = t :: r2 ∧ t ≠ x := by
        cases hb : B ii with
        | nil => exact ⟨1, [], rfl, Ne.symm hx1⟩
        | cons b s =>
          rw [hb] at hhead
          simp only [List.head?_cons, Option.some.injEq] at hhead
          exact ⟨b, s ++ [1], by simp, hhead⟩
      obtain ⟨ini, hini⟩ := cons_eq_concat 0 (A ii)
      have hsplit : List.Chain' (Link hc ii) ((ini ++ [(A ii).getLastD 0]) ++ (t :: r2)) := by
        rw [← hini, ← hB.1]
        simpa [List.append_assoc] using hch0
      rw [List.chain'_append] at hsplit
      have hpt : readForward hc ((A ii).getLastD 0) ii = some (some t) :=
        hsplit.2.2 _ (by simp) t (by simp)
      refine ⟨hc, ?_, rfl, ?_, fun q j _ => rfl⟩
      · have hne : some t ≠ some x := by
          intro e
          exact hB.2 (Option.some.inj e)
        simp only [unspliceLoop, hup ii (le_refl _) (by omega), hpt, ne_eq, hne,
          not_false_eq_true, if_true]
      · intro j hj1 hj2
        have hj : (B j).head? ≠ some x := by
          have := hmono2 (j - ii) ii hhead
          rwa [show ii + (j - ii) = j by omega] at this
        have e : dropHead x (B j) = B j := by
          unfold dropHead
          rw [if_neg hj]
        rw [e]
        exact hch j hj1 hj2

end SkipList
namespace SkipList

variable {K : Type} [LinearOrder K] [Inhabited K]

theorem Inv.key_inj {h : Heap K} {lv : Nat → List Nat} {L : Nat} (hi : Inv h lv L) (i : Nat)
    {a b : Nat} (ha : a ∈ lv i) (hb : b ∈ lv i) (hk : keyAt h a = keyAt h b) : a = b := by
  have hnd : ((lv i).map (keyAt h)).Nodup := by
    rw [List.Nodup, List.pairwise_map]
    exact List.Pairwise.imp (fun hab => ne_of_lt hab) (hi.sorted i)
  exact List.inj_on_of_nodup_map hnd ha hb hk

theorem Inv.post_head {h : Heap K} {lv : Nat → List Nat} {L : Nat} (hi : Inv h lv L)
    {k : K} {x : Nat} (hk : keyAt h x = k) {j : Nat} (hx : x ∈ lv j) :
    ∃ t, post h k (lv j) = x :: t ∧ x ∉ t := by
  have hxp : x ∈ post h k (lv j) := mem_post.2 ⟨hx, by rw [hk]; exact lt_irrefl _⟩
  have hps : (post h k (lv j)).Pairwise (fun a b => keyAt h a < keyAt h b) :=
    (hi.sorted j).sublist (post_sublist h k (lv j))
  have hnd : (post h k (lv j)).Nodup := (hi.nodup j).sublist (post_sublist h k (lv j))
  cases hp : post h k (lv j) with
  | nil => rw [hp] at hxp; simp at hxp
  | cons a t =>
    rw [hp] at hxp hps hnd
    have ha : a ∈ post h k (lv j) := by rw [hp]; simp
    have hak := (mem_post.1 ha).2
    rw [List.pairwise_cons] at hps
    rcases List.mem_cons.1 hxp with e | e
    · subst e
      exact ⟨t, rfl, (List.nodup_cons.1 hnd).1⟩
    · have := hps.1 x e
      rw [hk] at this
      exact absurd this hak

theorem Inv.filter_ne {h : Heap K} {lv : Nat → List Nat} {L : Nat} (hi : Inv h lv L)
    {k : K} {x : Nat} (hk : keyAt h x = k) (j : Nat) :
    (lv j).filter (fun q => decide (q ≠ x))
      = pre h k (lv j) ++ dropHead x (post h k (lv j)) := by
  conv_lhs => rw [sorted_split h k (lv j) (hi.sorted j)]
  rw [List.filter_append]
  have e1 : (pre h k (lv j)).filter (fun q => decide (q ≠ x)) = pre h k (lv j) := by
    rw [List.filter_eq_self]
    intro q hq
    have := (mem_pre.1 hq).2
    simp only [ne_eq, decide_not, Bool.not_eq_true', decide_eq_false_iff_not]
    intro e
    subst e
    rw [hk] at this
    exact lt_irrefl _ this
  rw [e1]
  congr 1
  by_cases hx : x ∈ lv j
  · obtain ⟨t, ht, hxt⟩ := hi.post_head hk hx
    rw [ht]
    unfold dropHead
    simp only [List.head?_cons, if_true, List.tail_cons, List.filter_cons, ne_eq,
      not_true_eq_false, decide_False, Bool.false_eq_true, if_false]
    rw [List.filter_eq_self]
    intro q hq
    simp only [decide_not, Bool.not_eq_true', decide_eq_false_iff_not]
    intro e
    subst e
    exact hxt hq
  · have hne : (post h k (lv j)).head? ≠ some x := by
      intro e
      apply hx
      have : x ∈ post h k (lv j) := by
        cases hp : post h k (lv j) with
        | nil => rw [hp] at e; simp at e
        | cons a t =>
          rw [hp] at e
          simp only [List.head?_cons, Option.some.injEq] at e
          rw [e]
          simp
      exact (mem_post.1 this).1
    unfold dropHead
    rw [if_neg hne, List.filter_eq_self]
    intro q hq
    simp only [ne_eq, decide_not, Bool.not_eq_true', decide_eq_false_iff_not]
    intro e
    subst e
    exact hx (mem_post.1 hq).1

theorem Inv.head_ne_zero {h : Heap K} {lv : Nat → List Nat} {L : Nat} (hi : Inv h lv L)
    {i : Nat} (hlt : i < 20) : ∃ t, readForward h 0 i = some (some t) ∧ t ≠ 0 := by
  have hp := hi.path i hlt
  unfold Path at hp
  cases hl : lv i with
  | nil =>
    rw [hl] at hp
    simp only [List.cons_append, List.nil_append, List.chain'_cons, List.chain'_singleton,
      and_true] at hp
    exact ⟨1, hp, by norm_num⟩
  | cons a t =>
    rw [hl] at hp
    simp only [List.cons_append, List.chain'_cons] at hp
    have := hi.mem i a (by rw [hl]; simp)
    exact ⟨a, hp.1, by omega⟩

theorem Inv.shrink {h : Heap K} {lv : Nat → List Nat} {L : Nat} (hi : Inv h lv L) (n : Nat) :
    shrinkLoop 0 n h = some h := by
  cases n with
  | zero => rfl
  | succ n =>
    obtain ⟨hd, h0, hL, _⟩ := hi.header
    simp only [shrinkLoop, h0, hL]
    by_cases h1 : (1 : Int) < (L : Int)
    · have hlt : (L - 1 : Nat) < 20 := by have := hi.Lle; omega
      obtain ⟨t, ht, hne⟩ := hi.head_ne_zero hlt
      have e : ((L : Int) - 1).toNat = L - 1 := by omega
      simp only [readForward, h0] at ht
      have hne2 : ¬ (some t = some 0) := by
        intro e2
        exact hne (Option.some.inj e2)
      simp [h1, e, ht, hne2]
    · simp [h1]

end SkipList
namespace SkipList

variable {K : Type} [LinearOrder K] [Inhabited K]

theorem Inv.remove {h : Heap K} {lv : Nat → List Nat} {L : Nat} (hi : Inv h lv L)
    (k : K) (v : Nat) :
    ∃ h1 lv1, RemoveOnMem h 0 (Value.key k) v = some h1 ∧ Inv h1 lv1 L ∧
      entries h1 (lv1 0) = (entries h (lv 0)).filter (fun e => decide (e.1 ≠ k)) ∧
      h1.map shape = h.map shape ∧
      (k ∉ (entries h (lv 0)).map Prod.fst → h1 = h) := by
  obtain ⟨hd, h0, hL, _⟩ := hi.header
  have hLle := hi.Lle
  obtain ⟨upd, hdu, hulen, hup, _⟩ := hi.descendUpdate k L (List.replicate L none) hLle
    (by simp)
  rw [pred_top hi k (le_refl L)] at hdu
  obtain ⟨kt, hkt, _⟩ := hi.succ_key k 0
  have hslt := hi.succ_lt k 0
  have hnl : ¬ ((L : Int) < 0) := by omega
  have hrem : RemoveOnMem h 0 (Value.key k) v =
      if kt.CompareEquals (Value.key k) then
        match unspliceLoop (succ h k (lv 0)) upd L 0 h with
        | none => none
        | some h1 => shrinkLoop 0 L h1
      else some h := by
    unfold RemoveOnMem
    simp only [h0, hL, hnl, if_false, Int.toNat_ofNat, hdu,
      hi.pred_link k (by norm_num : 0 < 20), hkt]
  have hpres : kt.CompareEquals (Value.key k) = true ↔
      k ∈ (entries h (lv 0)).map Prod.fst := by
    rw [hi.present_iff k]
    rcases succ_eq_or_mem h k (lv 0) with ⟨h1, h2⟩ | hm
    · rw [h1, hi.senKey] at hkt
      have : kt = Value.inf := (Option.some.inj hkt).symm
      subst this
      simp [Value.CompareEquals, h2]
    · rw [hi.key_of_mem (mem_post.1 hm).1] at hkt
      have : kt = Value.key (keyAt h (succ h k (lv 0))) := (Option.some.inj hkt).symm
      subst this
      simp [Value.CompareEquals, hm]
  by_cases hp : k ∈ (entries h (lv 0)).map Prod.fst
  · have hce := hpres.2 hp
    rw [if_pos hce] at hrem
    obtain ⟨hsm, hsk⟩ := (hi.present_iff k).1 hp
    have hx0 : succ h k (lv 0) ∈ lv 0 := (mem_post.1 hsm).1
    have hx2 := (hi.mem 0 _ hx0).1
    have hsubs : ∀ j, (lv (j + 1)).Sublist (lv j) := hi.sub
    obtain ⟨h1, hrun, hs1, hc1, hfr1⟩ :=
      unspliceLoop_spec (succ h k (lv 0)) (by omega) upd
        (fun j => pre h k (lv j)) (fun j => post h k (lv j)) L 0 h
        (fun j _ hj => hup j (by omega))
        (fun j _ hj => by
          have := hi.path j (by omega)
          unfold Path at this
          rw [sorted_split h k (lv j) (hi.sorted j)] at this
          simpa [List.append_assoc] using this)
        (fun j _ hj => by
          rw [List.cons_append, ← sorted_split h k (lv j) (hi.sorted j), List.nodup_cons]
          exact ⟨hi.not_mem_small j (Or.inl (by omega)), hi.nodup j⟩)
        (fun j hj e => by
          beta_reduce at hj e
          apply hj
          have hxm : succ h k (lv 0) ∈ post h k (lv (j + 1)) := by
            cases hpp : post h k (lv (j + 1)) with
            | nil => rw [hpp] at e; simp at e
            | cons a t =>
              rw [hpp] at e
              simp only [List.head?_cons, Option.some.injEq] at e
              rw [e]
              simp
          have hxj : succ h k (lv 0) ∈ lv j := (hsubs j).subset (mem_post.1 hxm).1
          obtain ⟨t, ht, _⟩ := hi.post_head hsk hxj
          rw [ht]
          rfl)
    have hinv1 : Inv h1 (fun j => (lv j).filter (fun q => decide (q ≠ succ h k (lv 0)))) L := by
      constructor
      · rw [shape_curMax hs1]
        exact hi.curMax
      · exact hLle
      · intro q hq
        rw [shape_fwdLen hs1]
        exact hi.fwdLen q (by rwa [shape_length hs1] at hq)
      · rw [shape_readKey hs1]
        exact hi.senKey
      · intro q hq2 hq
        rw [shape_readKey hs1]
        exact hi.keys q hq2 (by rwa [shape_length hs1] at hq)
      · intro i hi20
        unfold Path
        by_cases hiL : i < L
        · rw [hi.filter_ne hsk i]
          have := hc1 i (by omega) (by omega)
          simpa [List.append_assoc] using this
        · rw [hi.top i (by omega)]
          have := hi.path i hi20
          unfold Path at this
          rw [hi.top i (by omega)] at this
          exact chain_link_congr (fun q => hfr1 q i (by omega)) this
      · intro i q hq
        have := hi.mem i q (List.mem_of_mem_filter hq)
        rw [shape_length hs1]
        exact this
      · intro i
        have := (hi.sorted i).sublist
          (List.filter_sublist (lv i) (p := fun q => decide (q ≠ succ h k (lv 0))))
        refine List.Pairwise.imp ?_ this
        intro a b hab
        rw [shape_keyAt hs1, shape_keyAt hs1]
        exact hab
      · intro i
        exact (hi.sub i).filter _
      · intro i hiL
        rw [hi.top i hiL]
        rfl
    refine ⟨h1, _, ?_, hinv1, ?_, hs1, fun hc => absurd hp hc⟩
    · rw [hrem, hrun]
      exact hinv1.shrink L
    · rw [entries_congr (h := h) (fun q _ => ⟨shape_keyAt hs1 q, shape_valAt hs1 q⟩)]
      unfold entries
      rw [List.filter_map]
      congr 1
      apply List.filter_congr
      intro q hq
      simp only [Function.comp, ne_eq, decide_not, Bool.not_eq_eq_eq_not, Bool.not_not]
      by_cases e : q = succ h k (lv 0)
      · rw [e]
        simp [hsk]
      · have : keyAt h q ≠ k := by
          intro hk
          apply e
          exact hi.key_inj 0 hq hx0 (by rw [hk, hsk])
        simp [e, this]
  · have hce : ¬ kt.CompareEquals (Value.key k) = true := fun hc => hp (hpres.1 hc)
    rw [if_neg hce] at hrem
    refine ⟨h, lv, hrem, hi, ?_, rfl, fun _ => rfl⟩
    symm
    rw [List.filter_eq_self]
    intro e he
    simp only [ne_eq, decide_not, Bool.not_eq_true', decide_eq_false_iff_not]
    intro hk
    apply hp
    rw [List.mem_map]
    exact ⟨e, he, hk⟩

end SkipList
namespace SkipList

variable {K : Type} [LinearOrder K] [Inhabited K]

theorem iterate_chain (h : Heap K) (s : Option (Value K)) (hi : Option K)
    (hsen : readKey h (some 1) = some Value.inf) :
    ∀ (rest : List Nat) (c fuel : Nat),
      List.Chain' (Link h 0) (c :: rest ++ [1]) →
      (∀ q ∈ rest, readKey h (some q) = some (Value.key (keyAt h q)) ∧ q < h.length) →
      rest.length < fuel →
      iterate h fuel { curNode := c, rangeStartKey := s, rangeEndKey := hi.map Value.key }
        = some (asValues (entries h (rest.takeWhile (fun q => inRange none hi (keyAt h q))))) := by
  intro rest
  induction rest with
  | nil =>
    intro c fuel hc _ hf
    cases fuel with
    | zero => simp at hf
    | succ f =>
      have hl : readForward h c 0 = some (some 1) := by
        simp only [List.cons_append, List.nil_append, List.chain'_cons, List.chain'_singleton,
          and_true] at hc
        exact hc
      simp [iterate, Next, hl, hsen, Value.IsInf, asValues, entries]
  | cons t r ih =>
    intro c fuel hc hk hf
    cases fuel with
    | zero => simp at hf
    | succ f =>
      have hl : readForward h c 0 = some (some t) := by
        simp only [List.cons_append, List.chain'_cons] at hc
        exact hc.1
      have hc2 : List.Chain' (Link h 0) (t :: r ++ [1]) := by
        simp only [List.cons_append, List.chain'_cons] at hc
        simp only [List.cons_append]
        exact hc.2
      obtain ⟨hkt, htlt⟩ := hk t (List.mem_cons_self _ _)
      have hf2 : r.length < f := by simp at hf; omega
      have ih2 := ih t f hc2 (fun q hq => hk q (List.mem_cons_of_mem _ hq)) hf2
      have hget : h[t]? = some h[t] := List.getElem?_eq_getElem htlt
      have hval : valAt h t = h[t].Val := by
        unfold valAt
        rw [hget]
      cases hi with
      | none =>
        simp only [Option.map_none'] at ih2 ⊢
        simp only [iterate, Next, hl, hkt, Value.IsInf, Bool.or_self, Bool.false_eq_true,
          if_false, hget, Option.map_some', ih2]
        simp [inRange, asValues, entries, hval]
      | some b =>
        simp only [Option.map_some'] at ih2 ⊢
        by_cases hover : b < keyAt h t
        · have hnot : ¬ keyAt h t ≤ b := not_le.2 hover
          simp [iterate, Next, hl, hkt, Value.IsInf, Value.CompareGreaterThan, hover, inRange,
            hnot, asValues, entries]
        · have hle : keyAt h t ≤ b := not_lt.1 hover
          simp only [iterate, Next, hl, hkt, Value.IsInf, Value.CompareGreaterThan, hover,
            decide_False, Bool.or_self, Bool.false_eq_true, if_false, hget, Option.map_some',
            ih2]
          simp [inRange, hle, asValues, entries, hval]

theorem takeWhile_eq_filter (h : Heap K) (hi : Option K) (l : List Nat)
    (hs : l.Pairwise (fun a b => keyAt h a < keyAt h b)) :
    l.takeWhile (fun q => inRange none hi (keyAt h q))
      = l.filter (fun q => inRange none hi (keyAt h q)) := by
  induction l with
  | nil => rfl
  | cons a t ih =>
    rw [List.pairwise_cons] at hs
    by_cases hp : inRange none hi (keyAt h a) = true
    · simp only [List.takeWhile_cons, List.filter_cons, hp, if_true]
      rw [ih hs.2]
    · simp only [List.takeWhile_cons, List.filter_cons, hp, if_false, Bool.false_eq_true]
      symm
      rw [List.filter_eq_nil_iff]
      intro b hb
      have hab := hs.1 b hb
      cases hi with
      | none => simp [inRange] at hp
      | some e =>
        simp only [inRange, Bool.true_and, decide_eq_true_eq, not_le] at hp ⊢
        exact lt_trans hp hab

end SkipList
namespace SkipList

variable {K : Type} [LinearOrder K] [Inhabited K]

theorem entries_filter (h : Heap K) (p : K → Bool) (l : List Nat) :
    entries h (l.filter (fun q => p (keyAt h q))) = (entries h l).filter (fun e => p e.1) := by
  unfold entries
  rw [List.filter_map]
  rfl

theorem Inv.chain_from_pred {h : Heap K} {lv : Nat → List Nat} {L : Nat} (hi : Inv h lv L)
    (k : K) {i : Nat} (hlt : i < 20) :
    List.Chain' (Link h i) (pred h k (lv i) :: post h k (lv i) ++ [1]) := by
  obtain ⟨r2, hr2, hc⟩ := hi.chain_split k hlt
  obtain ⟨ini, hini⟩ := cons_eq_concat 0 (pre h k (lv i))
  have e : 0 :: pre h k (lv i) ++ succ h k (lv i) :: r2
      = ini ++ (pred h k (lv i) :: post h k (lv i) ++ [1]) := by
    rw [hini, ← hr2]
    unfold pred
    simp
  rw [e, List.chain'_append] at hc
  exact hc.2.1

theorem Inv.scan {h : Heap K} {lv : Nat → List Nat} {L : Nat} (hi : Inv h lv L)
    (lo hb : Option K) :
    scan h 0 (lo.map Value.key) (hb.map Value.key)
      = some (asValues ((entries h (lv 0)).filter (fun e => inRange lo hb e.1))) := by
  have hkeys : ∀ (l : List Nat), l.Sublist (lv 0) →
      ∀ q ∈ l, readKey h (some q) = some (Value.key (keyAt h q)) ∧ q < h.length :=
    fun l hl q hq => ⟨hi.key_of_mem (hl.subset hq), (hi.mem 0 q (hl.subset hq)).2⟩
  have hlen := hi.length_lt 0
  cases lo with
  | none =>
    have hp := hi.path 0 (by norm_num)
    unfold Path at hp
    have := iterate_chain h none hb hi.senKey (lv 0) 0 h.length hp
      (hkeys _ (List.Sublist.refl _)) (by omega)
    simp only [SkipList.scan, IteratorOnMem, Option.map_none']
    rw [this, takeWhile_eq_filter h hb (lv 0) (hi.sorted 0),
      entries_filter h (fun k => inRange none hb k)]
  | some a =>
    have hc := hi.chain_from_pred a (by norm_num : 0 < 20)
    have hsl := post_sublist h a (lv 0)
    have := iterate_chain h (some (Value.key a)) hb hi.senKey (post h a (lv 0))
      (pred h a (lv 0)) h.length hc (hkeys _ hsl) (by have := hsl.length_le; omega)
    simp only [SkipList.scan, IteratorOnMem, Option.map_some', GetEqualOrNearestSmallerNodeOnMem,
      hi.inner a]
    rw [this, takeWhile_eq_filter h hb _ ((hi.sorted 0).sublist hsl),
      entries_filter h (fun k => inRange none hb k)]
    congr 2
    unfold post
    rw [entries_filter h (fun k => !decide (k < a)), List.filter_filter]
    apply List.filter_congr
    intro e _
    cases hb with
    | none =>
      simp only [inRange, Bool.and_true, Bool.true_and]
      by_cases hlt : e.1 < a
      · have : ¬ a ≤ e.1 := not_le.2 hlt
        simp [hlt, this]
      · have : a ≤ e.1 := not_lt.1 hlt
        simp [hlt, this]
    | some b =>
      simp only [inRange, Bool.true_and]
      by_cases hlt : e.1 < a
      · have : ¬ a ≤ e.1 := not_le.2 hlt
        simp [hlt, this]
      · have : a ≤ e.1 := not_lt.1 hlt
        simp [hlt, this]

end SkipList
namespace SkipList

variable {K : Type} [LinearOrder K] [Inhabited K]

theorem fresh_inv {level : Int} {key : Value K} {value : Nat} {h : Heap K}
    (hf : NewSkipListOnMem [] level (some key) value true = some (h, 0))
    (h0 : 0 ≤ level) (h20 : level ≤ 20) :
    Inv h (fun _ => []) level.toNat := by
  simp only [NewSkipListOnMem, if_true, List.length_nil, List.nil_append, Option.some.injEq,
    Prod.mk.injEq, and_true] at hf
  subst hf
  constructor
  · simp [newNode]
    omega
  · omega
  · intro q hq
    simp only [List.length_cons, List.length_nil] at hq
    have : q = 0 ∨ q = 1 := by omega
    rcases this with rfl | rfl <;> simp [newNode]
  · simp [readKey]
  · intro q h2 hq
    simp only [List.length_cons, List.length_nil] at hq
    omega
  · intro i hi
    unfold Path
    simp only [List.nil_append, List.cons_append, List.chain'_cons, List.chain'_singleton,
      and_true]
    unfold Link readForward
    simp only [List.getElem?_cons_zero, List.length_nil]
    rw [List.getElem?_replicate]
    simp [hi]
  · intro i q hq
    simp at hq
  · intro i
    exact List.Pairwise.nil
  · intro i
    exact List.Sublist.refl _
  · intro i _
    rfl

theorem Reachable.inv {h : Heap K} (hr : Reachable h) : ∃ lv L, Inv h lv L := by
  induction hr with
  | fresh hf h0 h20 => exact ⟨_, _, fresh_inv hf h0 h20⟩
  | insert _ hins ih =>
    obtain ⟨lv, L, hi⟩ := ih
    rcases hi.insert _ _ _ with ⟨hnone, _⟩ | ⟨h1, lv1, L1, hsome, hi1, _⟩
    · rw [hnone] at hins
      exact absurd hins (by simp)
    · rw [hsome] at hins
      cases hins
      exact ⟨lv1, L1, hi1⟩
  | remove _ hrem ih =>
    obtain ⟨lv, L, hi⟩ := ih
    obtain ⟨h1, lv1, hsome, hi1, _⟩ := hi.remove _ _
    rw [hsome] at hrem
    cases hrem
    exact ⟨lv1, L, hi1⟩

theorem lookup_filter_pos (m : List (K × Nat)) (p : K → Bool) (k : K) (hp : p k = true) :
    (m.filter (fun e => p e.1)).lookup k = m.lookup k := by
  induction m with
  | nil => rfl
  | cons e t ih =>
    obtain ⟨a, b⟩ := e
    by_cases hk : k = a
    · subst hk
      simp [List.filter_cons, hp, List.lookup_cons]
    · have h2 : (k == a) = false := by simpa using hk
      by_cases hpa : p a = true
      · simp [List.filter_cons, hpa, List.lookup_cons, h2, ih]
      · simp [List.filter_cons, hpa, List.lookup_cons, h2, ih]

theorem lookup_filter_neg (m : List (K × Nat)) (p : K → Bool) (k : K) (hp : p k = false) :
    (m.filter (fun e => p e.1)).lookup k = none := by
  apply lookup_none_of_forall
  intro e he hk
  rw [List.mem_filter] at he
  rw [hk, hp] at he
  exact absurd he.2 (by simp)

theorem lookupD_upsert_self (m : List (K × Nat)) (k : K) (v : Nat) :
    lookupD (upsert m k v) k = v := by
  unfold lookupD upsert
  rw [List.lookup_append, lookup_filter_neg m (fun a => decide (a < k)) k (by simp)]
  simp [List.lookup_cons]

theorem lookupD_upsert_other (m : List (K × Nat)) (k k1 : K) (v : Nat) (hne : k1 ≠ k) :
    lookupD (upsert m k v) k1 = lookupD m k1 := by
  unfold lookupD upsert
  have h2 : (k1 == k) = false := by simpa using hne
  rw [List.lookup_append, List.lookup_cons, h2]
  by_cases hlt : k1 < k
  · rw [lookup_filter_pos m (fun a => decide (a < k)) k1 (by simpa using hlt)]
    rw [lookup_filter_neg m (fun a => decide (k < a)) k1 (by simp; exact le_of_lt hlt)]
    cases List.lookup k1 m <;> rfl
  · rw [lookup_filter_neg m (fun a => decide (a < k)) k1 (by simpa using hlt)]
    rw [lookup_filter_pos m (fun a => decide (k < a)) k1
      (by simp; exact lt_of_le_of_ne (not_lt.1 hlt) (Ne.symm hne))]
    rfl

theorem lookupD_erase_self (m : List (K × Nat)) (k : K) :
    lookupD (m.filter (fun e => decide (e.1 ≠ k))) k = maxUint32 := by
  unfold lookupD
  rw [lookup_filter_neg m (fun a => decide (a ≠ k)) k (by simp)]
  rfl

theorem lookupD_erase_other (m : List (K × Nat)) (k k1 : K) (hne : k1 ≠ k) :
    lookupD (m.filter (fun e => decide (e.1 ≠ k))) k1 = lookupD m k1 := by
  unfold lookupD
  rw [lookup_filter_pos m (fun a => decide (a ≠ k)) k1 (by simpa using hne)]

end SkipList
namespace SkipList

variable {K : Type} [LinearOrder K] [Inhabited K]

theorem insertAll_spec :
    ∀ (ops : List (K × Nat × Nat)) (h : Heap K) (lv : Nat → List Nat) (L : Nat),
      Inv h lv L →
      ((∀ op ∈ ops, 0 < wrapInt32 (1 + (op.2.2 : Int))) →
        ∀ h1, insertAll h ops = some h1 →
          ∃ lv1 L1, Inv h1 lv1 L1 ∧
            ∀ k, lookupD (entries h1 (lv1 0)) k
              = (lastValue ops k).getD (lookupD (entries h (lv 0)) k)) ∧
      (L + ops.length ≤ 20 → ∃ h1, insertAll h ops = some h1) := by
  intro ops
  induction ops with
  | nil =>
    intro h lv L hi
    refine ⟨?_, fun _ => ⟨h, rfl⟩⟩
    intro _ h1 hrun
    simp only [insertAll, Option.some.injEq] at hrun
    subst hrun
    exact ⟨lv, L, hi, fun k => rfl⟩
  | cons op ops ih =>
    obtain ⟨k1, v, s⟩ := op
    intro h lv L hi
    rcases hi.insert k1 v s with ⟨hnone, hL20, _⟩ | ⟨h1, lv1, L1, hsome, hi1, _, hL1, hent, _⟩
    · refine ⟨?_, ?_⟩
      · intro _ h1 hrun
        simp [insertAll, hnone] at hrun
      · intro hlen
        simp only [List.length_cons] at hlen
        omega
    · obtain ⟨ih1, ih2⟩ := ih h1 lv1 L1 hi1
      refine ⟨?_, ?_⟩
      · intro hdraw h2 hrun
        simp only [insertAll, hsome] at hrun
        have hd0 : 0 < wrapInt32 (1 + (s : Int)) := hdraw (k1, v, s) (List.mem_cons_self _ _)
        obtain ⟨lv2, L2, hi2, hlook⟩ :=
          ih1 (fun op hop => hdraw op (List.mem_cons_of_mem _ hop)) h2 hrun
        refine ⟨lv2, L2, hi2, ?_⟩
        intro k
        rw [hlook k]
        have he : entries h1 (lv1 0) = upsert (entries h (lv 0)) k1 v := by
          rcases hent with he | ⟨_, hle, _⟩
          · exact he
          · omega
        rw [he]
        simp only [lastValue]
        cases hlv : lastValue ops k with
        | some w => rfl
        | none =>
          simp only [Option.getD_none]
          by_cases hk : k1 = k
          · subst hk
            simp [lookupD_upsert_self]
          · simp [hk, lookupD_upsert_other _ _ _ _ (Ne.symm hk)]
      · intro hlen
        simp only [List.length_cons] at hlen
        obtain ⟨h2, hrun⟩ := ih2 (by omega)
        exact ⟨h2, by simp only [insertAll, hsome]; exact hrun⟩

theorem Inv.entries_sorted {h : Heap K} {lv : Nat → List Nat} {L : Nat} (hi : Inv h lv L) :
    (entries h (lv 0)).Pairwise (fun a b => a.1 < b.1) := by
  unfold entries
  rw [List.pairwise_map]
  exact hi.sorted 0

theorem Inv.scan_all {h : Heap K} {lv : Nat → List Nat} {L : Nat} (hi : Inv h lv L) :
    SkipList.scan h 0 none none = some (asValues (entries h (lv 0))) := by
  have := hi.scan none none
  simp only [Option.map_none'] at this
  rw [this]
  congr 2
  rw [List.filter_eq_self]
  intro e _
  rfl

theorem count_key_of_sorted (m : List (K × Nat)) (k : K)
    (hs : m.Pairwise (fun a b => a.1 < b.1)) (hk : k ∈ m.map Prod.fst) :
    ((asValues m).map Prod.fst).count (Value.key k) = 1 := by
  have hnd : (m.map Prod.fst).Nodup := by
    rw [List.Nodup, List.pairwise_map]
    exact List.Pairwise.imp (fun hab => ne_of_lt hab) hs
  have e : (asValues m).map Prod.fst = (m.map Prod.fst).map Value.key := by
    unfold asValues
    simp [List.map_map, Function.comp]
  rw [e]
  apply List.count_eq_one_of_mem
  · exact hnd.map (fun a b hab => by injection hab)
  · exact List.mem_map_of_mem _ hk

end SkipList
namespace SkipList

variable {K : Type} [LinearOrder K] [Inhabited K]

/-- Lookup after a sequence of insertions into a fresh list, for keys of any linearly
ordered type. -/
theorem lookup_after_inserts (level : Int) (key : Value K) (value : Nat) (h0 : Heap K)
    (ops : List (K × Nat × Nat))
    (hfresh : NewSkipListOnMem [] level (some key) value true = some (h0, 0))
    (hlo : 0 ≤ level) (hhi : level ≤ 20) :
    ((∀ op ∈ ops, 0 < wrapInt32 (1 + (op.2.2 : Int))) →
      ∀ h, insertAll h0 ops = some h →
        ∀ k v, lastValue ops k = some v → GetValueOnMem h 0 (Value.key k) = some v) ∧
    (level + ops.length ≤ 20 → ∃ h, insertAll h0 ops = some h) := by
  have hi := fresh_inv hfresh hlo hhi
  obtain ⟨h1, h2⟩ := insertAll_spec ops h0 _ _ hi
  refine ⟨?_, ?_⟩
  · intro hdraw h hrun k v hlast
    obtain ⟨lv1, L1, hi1, hlook⟩ := h1 hdraw h hrun
    rw [hi1.getValue k, hlook k, hlast]
    rfl
  · intro hlen
    exact h2 (by omega)

/-- C1 (amended): on a fresh list whose level fits the forward array, after any sequence of
`InsertOnMem` calls that all return and in which every coin-flip run leaves the `int32` level
counter of `GetNodeLevel` positive, `GetValueOnMem(k)` returns the value of the most recent
insertion of `k`; and the calls all return when the level cannot pass 20.  The keys are those
of any declared scalar type `t`: integer, float or string. -/
theorem insert_then_lookup (t : TypeID) (level : Int) (key : Value (KeyOf t)) (value : Nat)
    (h0 : Heap (KeyOf t))
    (ops : List (KeyOf t × Nat × Nat))
    (hfresh : NewSkipListOnMem [] level (some key) value true = some (h0, 0))
    (hlo : 0 ≤ level) (hhi : level ≤ 20) :
    ((∀ op ∈ ops, 0 < wrapInt32 (1 + (op.2.2 : Int))) →
      ∀ h, insertAll h0 ops = some h →
        ∀ k v, lastValue ops k = some v → GetValueOnMem h 0 (Value.key k) = some v) ∧
    (level + ops.length ≤ 20 → ∃ h, insertAll h0 ops = some h) :=
  lookup_after_inserts level key value h0 ops hfresh hlo hhi

/-- The instance of C1 for the fresh list of the tests and `sampleOps`. -/
theorem insert_then_lookup_witness :
    NewSkipListOnMem [] 1 (some (Value.key 0)) maxUint32 true = some (sampleFresh, 0) ∧
    (∀ op ∈ sampleOps, 0 < wrapInt32 (1 + (op.2.2 : Int))) ∧
    insertAll sampleFresh sampleOps = some sampleList ∧
    lastValue sampleOps 5 = some 55 ∧
    GetValueOnMem sampleList 0 (Value.key 5) = some 55 :=
  ⟨rfl, by decide, rfl, rfl,
    (insert_then_lookup TypeID.Integer 1 (Value.key 0) maxUint32 sampleFresh sampleOps rfl
      (by decide) (by decide)).1 (by decide) sampleList rfl 5 55 rfl⟩

/-- C1 as stated fails: when the coin flips of `GetNodeLevel` succeed 2147483647 times in a
row, the `int32` counter wraps to -2147483648, the node is linked at no level and the
lookup of the inserted key reports not-found, although the level of the list stays 1. -/
theorem level_counter_wraps_lookup_fails :
    ∃ h, NewSkipListOnMem [] 1 (some (Value.key 0)) maxUint32 true
        = some (sampleFresh, 0) ∧
      insertAll sampleFresh [(5, 7, 2147483647)] = some h ∧
      lastValue [(5, 7, 2147483647)] 5 = some 7 ∧
      GetValueOnMem h 0 (Value.key 5) = some maxUint32 ∧
      GetValueOnMem h 0 (Value.key 5) ≠ some 7 ∧
      (h[0]?).map (fun n => n.CurMaxLevel) = some 1 :=
  ⟨_, rfl, rfl, rfl, rfl, by decide, rfl⟩

end SkipList
namespace SkipList

variable {K : Type} [LinearOrder K] [Inhabited K]

theorem sampleList_reachable : Reachable sampleList :=
  @Reachable.insert Int _ _ _ 5 55 0
    (@Reachable.insert Int _ _ _ 3 30 1
      (@Reachable.insert Int _ _ _ 5 50 0
        (@Reachable.fresh Int _ 1 (Value.key 0) maxUint32 sampleFresh rfl (by decide)
          (by decide))
        rfl)
      rfl)
    rfl

theorem sampleFloats_reachable : Reachable sampleFloats :=
  @Reachable.insert (KeyOf TypeID.Float) _ sampleFloatOne sampleFloats
    (floatKey ⟨1, 2, by decide, by decide⟩) 5 1
    (@Reachable.insert (KeyOf TypeID.Float) _ sampleFreshFloat sampleFloatOne
      (floatKey ⟨5, 2, by decide, by decide⟩) 25 0
      (@Reachable.fresh (KeyOf TypeID.Float) _ 1 (Value.key (floatKey 0)) maxUint32
        sampleFreshFloat rfl (by decide) (by decide))
      (by decide))
    (by decide)

theorem sampleVarchar_reachable : Reachable sampleVarchar :=
  @Reachable.insert (KeyOf TypeID.Varchar) _ _ _ "pear" 7 0
    (@Reachable.fresh (KeyOf TypeID.Varchar) _ 1 (Value.key "") maxUint32 sampleFreshVarchar
      rfl (by decide) (by decide))
    rfl

/-- Lookup after a removal, for keys of any linearly ordered type. -/
theorem lookup_after_remove (h : Heap K) (hr : Reachable h) (k : K) (v : Nat) :
    ∃ h1, RemoveOnMem h 0 (Value.key k) v = some h1 ∧
      GetValueOnMem h1 0 (Value.key k) = some maxUint32 ∧
      ∀ k1, k1 ≠ k →
        GetValueOnMem h1 0 (Value.key k1) = GetValueOnMem h 0 (Value.key k1) := by
  obtain ⟨lv, L, hi⟩ := hr.inv
  obtain ⟨h1, lv1, hrem, hi1, hent, _⟩ := hi.remove k v
  refine ⟨h1, hrem, ?_, ?_⟩
  · rw [hi1.getValue k, hent, lookupD_erase_self]
  · intro k1 hne
    rw [hi1.getValue k1, hi.getValue k1, hent, lookupD_erase_other _ _ _ hne]

/-- C2: on every list built through the interface, `RemoveOnMem(k, v)` returns, afterwards
`GetValueOnMem(k)` reports not-found (`math.MaxUint32`), and the lookup of every other key
gives what it gave before the removal.  The keys are those of any declared scalar type `t`:
integer, float or string. -/
theorem remove_then_lookup (t : TypeID) (h : Heap (KeyOf t)) (hr : Reachable h) (k : KeyOf t)
    (v : Nat) :
    ∃ h1, RemoveOnMem h 0 (Value.key k) v = some h1 ∧
      GetValueOnMem h1 0 (Value.key k) = some maxUint32 ∧
      ∀ k1, k1 ≠ k →
        GetValueOnMem h1 0 (Value.key k1) = GetValueOnMem h 0 (Value.key k1) :=
  lookup_after_remove h hr k v

/-- The instance of C2 for the list of string keys `sampleVarchar` and the key "pear". -/
theorem remove_then_lookup_witness :
    Reachable sampleVarchar ∧
    ∃ h1, RemoveOnMem sampleVarchar 0 (Value.key "pear") 7 = some h1 ∧
      GetValueOnMem h1 0 (Value.key "pear") = some maxUint32 ∧
      ∀ k1 : String, k1 ≠ "pear" →
        GetValueOnMem h1 0 (Value.key k1)
          = GetValueOnMem sampleVarchar 0 (Value.key k1) :=
  ⟨sampleVarchar_reachable,
    remove_then_lookup TypeID.Varchar sampleVarchar sampleVarchar_reachable "pear" 7⟩

/-- The second insertion of a key overwrites, for keys of any linearly ordered type. -/
theorem overwrite_on_reinsert (h h1 : Heap K) (hr : Reachable h) (k : K)
    (v1 v2 s1 s2 : Nat)
    (hfirst : InsertOnMem h 0 (Value.key k) v1 s1 = some h1)
    (hdraw : 0 < wrapInt32 (1 + (s1 : Int))) :
    ∃ h2 q n, InsertOnMem h1 0 (Value.key k) v2 s2 = some h2 ∧
      GetValueOnMem h2 0 (Value.key k) = some v2 ∧
      h1[q]? = some n ∧ n.Key = some (Value.key k) ∧
      h2 = h1.set q { n with Val := v2 } ∧
      ∃ l, scan h2 0 none none = some l ∧ (l.map Prod.fst).count (Value.key k) = 1 := by
  obtain ⟨lv, L, hi⟩ := hr.inv
  rcases hi.insert k v1 s1 with ⟨hnone, _⟩ | ⟨h1', lv1, L1, hsome, hi1, _, _, hent, _⟩
  · rw [hnone] at hfirst
    exact absurd hfirst (by simp)
  · rw [hsome] at hfirst
    cases hfirst
    have he : entries h1 (lv1 0) = upsert (entries h (lv 0)) k v1 := by
      rcases hent with he | ⟨_, hle, _⟩
      · exact he
      · omega
    have hmem : k ∈ (entries h1 (lv1 0)).map Prod.fst := by
      rw [he]
      simp [upsert]
    rcases hi1.insert k v2 s2 with ⟨_, _, _, habs⟩ | ⟨h2, lv2, L2, hsome2, hi2, _, _, hent2, hset, _⟩
    · exact absurd hmem habs
    · obtain ⟨q, n, hq, hnk, hh2⟩ := hset hmem
      have he2 : entries h2 (lv2 0) = upsert (entries h1 (lv1 0)) k v2 := by
        rcases hent2 with he2 | ⟨_, _, habs⟩
        · exact he2
        · exact absurd hmem habs
      refine ⟨h2, q, n, hsome2, ?_, hq, hnk, hh2, _, hi2.scan_all, ?_⟩
      · rw [hi2.getValue k, he2, lookupD_upsert_self]
      · apply count_key_of_sorted _ _ hi2.entries_sorted
        rw [he2]
        simp [upsert]

/-- C3 (amended): on every list built through the interface, when `InsertOnMem(k, v1)` returns
after a coin-flip run that leaves the `int32` level counter positive, a following
`InsertOnMem(k, v2)` returns, `GetValueOnMem(k)` is then `v2`, the second insertion changes
nothing but the `Val` field of one node with key `k`, and a full scan meets `k` once.  The keys
are those of any declared scalar type `t`: integer, float or string. -/
theorem insert_twice_overwrites (t : TypeID) (h h1 : Heap (KeyOf t)) (hr : Reachable h)
    (k : KeyOf t)
    (v1 v2 s1 s2 : Nat)
    (hfirst : InsertOnMem h 0 (Value.key k) v1 s1 = some h1)
    (hdraw : 0 < wrapInt32 (1 + (s1 : Int))) :
    ∃ h2 q n, InsertOnMem h1 0 (Value.key k) v2 s2 = some h2 ∧
      GetValueOnMem h2 0 (Value.key k) = some v2 ∧
      h1[q]? = some n ∧ n.Key = some (Value.key k) ∧
      h2 = h1.set q { n with Val := v2 } ∧
      ∃ l, scan h2 0 none none = some l ∧ (l.map Prod.fst).count (Value.key k) = 1 :=
  overwrite_on_reinsert h h1 hr k v1 v2 s1 s2 hfirst hdraw

/-- The instance of C3 for `sampleList` and key 7. -/
theorem insert_twice_overwrites_witness :
    Reachable sampleList ∧
    InsertOnMem sampleList 0 (Value.key 7) 70 2 = some sampleInserted ∧
    0 < wrapInt32 (1 + ((2 : Nat) : Int)) ∧
    ∃ h2 q n, InsertOnMem sampleInserted 0 (Value.key 7) 71 0 = some h2 ∧
      GetValueOnMem h2 0 (Value.key 7) = some 71 ∧
      sampleInserted[q]? = some n ∧ n.Key = some (Value.key 7) ∧
      h2 = sampleInserted.set q { n with Val := 71 } ∧
      ∃ l, scan h2 0 none none = some l ∧ (l.map Prod.fst).count (Value.key 7) = 1 :=
  ⟨sampleList_reachable, rfl, by decide,
    insert_twice_overwrites TypeID.Integer sampleList sampleInserted sampleList_reachable
      7 70 71 2 0 rfl
      (by decide)⟩

/-- C3 as stated fails: after a first `InsertOnMem(5, 1)` whose coin flips succeed
2147483647 times in a row the node is linked at no level, so the second `InsertOnMem(5, 2)`
does not find the key and allocates another node. -/
theorem second_insert_allocates_after_wrap :
    ∃ h1 h2, NewSkipListOnMem [] 1 (some (Value.key 0)) maxUint32 true
        = some (sampleFresh, 0) ∧
      InsertOnMem sampleFresh 0 (Value.key 5) 1 2147483647 = some h1 ∧
      InsertOnMem h1 0 (Value.key 5) 2 0 = some h2 ∧
      h2.length = h1.length + 1 :=
  ⟨_, _, rfl, rfl, rfl, rfl⟩

/-- A scan is sorted and within its bounds, for keys of any linearly ordered type. -/
theorem scan_within_bounds (h : Heap K) (hr : Reachable h) (lo hi : Option K) :
    ∃ m : List (K × Nat),
      scan h 0 (lo.map Value.key) (hi.map Value.key) = some (asValues m) ∧
      m.Pairwise (fun a b => a.1 < b.1) ∧
      (∀ e ∈ m, (∀ a, lo = some a → a ≤ e.1) ∧ (∀ b, hi = some b → e.1 ≤ b)) ∧
      (∀ p ∈ asValues m, p.1.IsInf = false) := by
  obtain ⟨lv, L, hinv⟩ := hr.inv
  refine ⟨_, hinv.scan lo hi, ?_, ?_, ?_⟩
  · exact hinv.entries_sorted.sublist (List.filter_sublist _)
  · intro e he
    rw [List.mem_filter] at he
    have hin := he.2
    constructor
    · intro a ha
      subst ha
      simp only [inRange, Bool.and_eq_true, decide_eq_true_eq] at hin
      exact hin.1
    · intro b hb
      subst hb
      cases lo <;> simp only [inRange, Bool.and_eq_true, decide_eq_true_eq] at hin <;>
        exact hin.2
  · intro p hp
    simp only [asValues, List.mem_map] at hp
    obtain ⟨e, _, rfl⟩ := hp
    rfl

/-- C4: on every list built through the interface and for all optional bounds `lo`, `hi`, the
scan with `IteratorOnMem(lo, hi)` ends, the keys that `Next` returns before it reports done are
strictly increasing, each lies within the given bounds, and none of them is the infinite key of
the sentinel.  The keys are those of any declared scalar type `t`: integer, float or string. -/
theorem scan_sorted_in_range (t : TypeID) (h : Heap (KeyOf t)) (hr : Reachable h)
    (lo hi : Option (KeyOf t)) :
    ∃ m : List (KeyOf t × Nat),
      scan h 0 (lo.map Value.key) (hi.map Value.key) = some (asValues m) ∧
      m.Pairwise (fun a b => a.1 < b.1) ∧
      (∀ e ∈ m, (∀ a, lo = some a → a ≤ e.1) ∧ (∀ b, hi = some b → e.1 ≤ b)) ∧
      (∀ p ∈ asValues m, p.1.IsInf = false) :=
  scan_within_bounds h hr lo hi

/-- The instance of C4 for the list of float keys `sampleFloats`, which holds 0.5 and 2.5,
and the lower bound 1.0. -/
theorem scan_sorted_in_range_witness :
    Reachable sampleFloats ∧
    ∃ m : List (KeyOf TypeID.Float × Nat),
      scan sampleFloats 0 ((some (floatKey 1) : Option (KeyOf TypeID.Float)).map Value.key)
        ((none : Option (KeyOf TypeID.Float)).map Value.key) = some (asValues m) ∧
      m.Pairwise (fun a b => a.1 < b.1) ∧
      (∀ e ∈ m, (∀ a, (some (floatKey 1) : Option (KeyOf TypeID.Float)) = some a → a ≤ e.1) ∧
        (∀ b, (none : Option (KeyOf TypeID.Float)) = some b → e.1 ≤ b)) ∧
      (∀ p ∈ asValues m, p.1.IsInf = false) :=
  ⟨sampleFloats_reachable,
    scan_sorted_in_range TypeID.Float sampleFloats sampleFloats_reachable (some (floatKey 1))
      none⟩

end SkipList
namespace SkipList

variable {K : Type} [LinearOrder K] [Inhabited K]

/-- A scan yields every pair within its bounds once, for keys of any linearly ordered type. -/
theorem scan_yields_all (h : Heap K) (hr : Reachable h) :
    ∃ l : List Nat, Path h 0 l ∧
      (entries h l).Pairwise (fun a b => a.1 < b.1) ∧
      (∀ k, GetValueOnMem h 0 (Value.key k) = some (lookupD (entries h l) k)) ∧
      (∀ lo hi : Option K, scan h 0 (lo.map Value.key) (hi.map Value.key)
        = some (asValues ((entries h l).filter (fun e => inRange lo hi e.1)))) ∧
      (∃ r, scan h 0 none none = some r ∧ r.length = l.length) := by
  obtain ⟨lv, L, hinv⟩ := hr.inv
  refine ⟨lv 0, hinv.path 0 (by norm_num), hinv.entries_sorted, hinv.getValue, hinv.scan,
    _, hinv.scan_all, ?_⟩
  simp [asValues, entries]

/-- C5: on every list built through the interface, with `l` the nodes of the level-0 chain from
the header to the sentinel: their keys are strictly increasing (each key once), `GetValueOnMem`
looks up exactly their pairs, the scan with `IteratorOnMem(lo, hi)` yields exactly the pairs
whose key lies within the bounds, each once, in order and with the stored value, and the scan
without bounds yields as many pairs as the chain has nodes.  The keys are those of any declared
scalar type `t`: integer, float or string. -/
theorem scan_complete (t : TypeID) (h : Heap (KeyOf t)) (hr : Reachable h) :
    ∃ l : List Nat, Path h 0 l ∧
      (entries h l).Pairwise (fun a b => a.1 < b.1) ∧
      (∀ k, GetValueOnMem h 0 (Value.key k) = some (lookupD (entries h l) k)) ∧
      (∀ lo hi : Option (KeyOf t), scan h 0 (lo.map Value.key) (hi.map Value.key)
        = some (asValues ((entries h l).filter (fun e => inRange lo hi e.1)))) ∧
      (∃ r, scan h 0 none none = some r ∧ r.length = l.length) :=
  scan_yields_all h hr

theorem scan_complete_witness :
    Reachable sampleList ∧
    ∃ l : List Nat, Path sampleList 0 l ∧
      (entries sampleList l).Pairwise (fun a b => a.1 < b.1) ∧
      (∀ k, GetValueOnMem sampleList 0 (Value.key k)
        = some (lookupD (entries sampleList l) k)) ∧
      (∀ lo hi : Option Int,
        scan sampleList 0 (lo.map Value.key) (hi.map Value.key)
          = some (asValues ((entries sampleList l).filter (fun e => inRange lo hi e.1)))) ∧
      (∃ r, scan sampleList 0 none none = some r ∧ r.length = l.length) :=
  ⟨sampleList_reachable, scan_complete TypeID.Integer sampleList sampleList_reachable⟩

/-- The chain of every level is ordered and ends at the sentinel, for keys of any linearly
ordered type. -/
theorem ordered_chains (h : Heap K) (hr : Reachable h) :
    ∃ L : Nat, (h[0]?).map (fun n => n.CurMaxLevel) = some (L : Int) ∧ L ≤ 20 ∧
      readKey h (some 1) = some Value.inf ∧
      ∀ i, i < 20 → ∃ l, Path h i l ∧
        ∀ n ∈ l, ∃ m a, readForward h n i = some (some m) ∧
          readKey h (some n) = some (Value.key a) ∧
          (m = 1 ∨ ∃ b, readKey h (some m) = some (Value.key b) ∧ a < b) := by
  obtain ⟨lv, L, hinv⟩ := hr.inv
  refine ⟨L, hinv.curMax, hinv.Lle, hinv.senKey, ?_⟩
  intro i hi
  refine ⟨lv i, hinv.path i hi, ?_⟩
  intro n hn
  obtain ⟨a, r, har⟩ := List.append_of_mem hn
  have hp := hinv.path i hi
  unfold Path at hp
  have hs := hinv.sorted i
  rw [har] at hp hs
  have hc : List.Chain' (Link h i) (n :: (r ++ [1])) := by
    have e : 0 :: (a ++ n :: r) ++ [1] = (0 :: a) ++ n :: (r ++ [1]) := by simp
    rw [e, List.chain'_split] at hp
    exact hp.2
  cases r with
  | nil =>
    refine ⟨1, keyAt h n, ?_, hinv.key_of_mem hn, Or.inl rfl⟩
    simp only [List.nil_append, List.chain'_cons, List.chain'_singleton, and_true] at hc
    exact hc
  | cons b r1 =>
    have hb : b ∈ lv i := by rw [har]; simp
    refine ⟨b, keyAt h n, ?_, hinv.key_of_mem hn, Or.inr ⟨keyAt h b, hinv.key_of_mem hb, ?_⟩⟩
    · simp only [List.cons_append, List.chain'_cons] at hc
      exact hc.1
    · rw [List.pairwise_append] at hs
      have := hs.2.1
      rw [List.pairwise_cons] at this
      exact this.1 b (List.mem_cons_self _ _)

/-- C6: in every state reached from a fresh header through `InsertOnMem` and `RemoveOnMem`,
`CurMaxLevel` is at most 20 and, at each of the twenty levels, the chain from the header ends
at the sentinel and every node of the chain points either to the sentinel or to a node with a
strictly greater key.  The keys are those of any declared scalar type `t`: integer, float or
string. -/
theorem chains_ordered (t : TypeID) (h : Heap (KeyOf t)) (hr : Reachable h) :
    ∃ L : Nat, (h[0]?).map (fun n => n.CurMaxLevel) = some (L : Int) ∧ L ≤ 20 ∧
      readKey h (some 1) = some Value.inf ∧
      ∀ i, i < 20 → ∃ l, Path h i l ∧
        ∀ n ∈ l, ∃ m a, readForward h n i = some (some m) ∧
          readKey h (some n) = some (Value.key a) ∧
          (m = 1 ∨ ∃ b, readKey h (some m) = some (Value.key b) ∧ a < b) :=
  ordered_chains h hr

theorem chains_ordered_witness :
    Reachable sampleList ∧
    ∃ L : Nat, (sampleList[0]?).map (fun n => n.CurMaxLevel) = some (L : Int) ∧ L ≤ 20 ∧
      readKey sampleList (some 1) = some Value.inf ∧
      ∀ i, i < 20 → ∃ l, Path sampleList i l ∧
        ∀ n ∈ l, ∃ m a, readForward sampleList n i = some (some m) ∧
          readKey sampleList (some n) = some (Value.key a) ∧
          (m = 1 ∨ ∃ b, readKey sampleList (some m) = some (Value.key b) ∧ a < b) :=
  ⟨sampleList_reachable, chains_ordered TypeID.Integer sampleList sampleList_reachable⟩

end SkipList
namespace Clock

theorem getLast?_cons_ne_nil (x : Nat) {t : List Nat} (h : t ≠ []) :
    (x :: t).getLast? = t.getLast? := by
  cases t with
  | nil => exact absurd rfl h
  | cons y s => exact List.getLast?_cons_cons

theorem chain_congr_nodup {R S : Nat → Nat → Prop} :
    ∀ (l : List Nat), l.Nodup → List.Chain' R l →
      (∀ a b, a ∈ l → b ∈ l → some a ≠ l.getLast? → some b ≠ l.head? → R a b → S a b) →
      List.Chain' S l := by
  intro l
  induction l with
  | nil => intro _ _ _; exact List.chain'_nil
  | cons x t ih =>
    intro hnd hc hrs
    rw [List.nodup_cons] at hnd
    rw [List.chain'_cons'] at hc ⊢
    refine ⟨?_, ?_⟩
    · intro y hy
      have hyt : y ∈ t := by
        cases t with
        | nil => simp at hy
        | cons z t1 =>
          simp only [List.head?_cons, Option.mem_def, Option.some.injEq] at hy
          rw [← hy]; simp
      apply hrs x y (List.mem_cons_self _ _) (List.mem_cons_of_mem _ hyt) ?_ ?_ (hc.1 y hy)
      · intro e
        have hne : t ≠ [] := List.ne_nil_of_mem hyt
        rw [getLast?_cons_ne_nil x hne] at e
        have := List.mem_of_getLast?_eq_some e.symm
        exact hnd.1 this
      · intro e
        simp only [List.head?_cons, Option.some.injEq] at e
        rw [e] at hyt
        exact hnd.1 hyt
    · apply ih hnd.2 hc.2
      intro a b ha hb hal _ hab
      have hne : t ≠ [] := List.ne_nil_of_mem ha
      apply hrs a b (List.mem_cons_of_mem _ ha) (List.mem_cons_of_mem _ hb) ?_ ?_ hab
      · rw [getLast?_cons_ne_nil x hne]
        exact hal
      · intro e
        simp only [List.head?_cons, Option.some.injEq] at e
        rw [e] at hb
        exact hnd.1 hb

end Clock
namespace Clock

theorem lt_of_getElem?_some {α : Type} {l : List α} {p : Nat} {n : α} (h : l[p]? = some n) :
    p < l.length := by
  rcases List.getElem?_eq_some.1 h with ⟨hlt, _⟩
  exact hlt

theorem setNext_some (nodes : List node) (p : Nat) (hp : p < nodes.length) (v : Option Nat) :
    ∃ nodes1, setNext nodes p v = some nodes1 ∧ nodes1.length = nodes.length ∧
      (∀ a, nextOf nodes1 a = if a = p then v else nextOf nodes a) ∧
      (∀ a, prevOf nodes1 a = prevOf nodes a) ∧
      (∀ a, keyOf nodes1 a = keyOf nodes a) ∧
      (∀ a, a ≠ p → nodes1[a]? = nodes[a]?) := by
  have hget : nodes[p]? = some nodes[p] := List.getElem?_eq_getElem hp
  refine ⟨nodes.set p { nodes[p] with next := v }, by simp only [setNext, hget], by simp,
    ?_, ?_, ?_, ?_⟩
  · intro a
    unfold nextOf
    by_cases e : a = p
    · subst e
      simp [List.getElem?_set_self hp]
    · rw [List.getElem?_set_ne (Ne.symm e)]
      simp [e]
  · intro a
    unfold prevOf
    by_cases e : a = p
    · subst e
      simp [List.getElem?_set_self hp, hget]
    · rw [List.getElem?_set_ne (Ne.symm e)]
  · intro a
    unfold keyOf
    by_cases e : a = p
    · subst e
      simp [List.getElem?_set_self hp, hget]
    · rw [List.getElem?_set_ne (Ne.symm e)]
  · intro a e
    exact List.getElem?_set_ne (Ne.symm e)

theorem setPrev_some (nodes : List node) (p : Nat) (hp : p < nodes.length) (v : Option Nat) :
    ∃ nodes1, setPrev nodes p v = some nodes1 ∧ nodes1.length = nodes.length ∧
      (∀ a, prevOf nodes1 a = if a = p then v else prevOf nodes a) ∧
      (∀ a, nextOf nodes1 a = nextOf nodes a) ∧
      (∀ a, keyOf nodes1 a = keyOf nodes a) ∧
      (∀ a, a ≠ p → nodes1[a]? = nodes[a]?) := by
  have hget : nodes[p]? = some nodes[p] := List.getElem?_eq_getElem hp
  refine ⟨nodes.set p { nodes[p] with prev := v }, by simp only [setPrev, hget], by simp,
    ?_, ?_, ?_, ?_⟩
  · intro a
    unfold prevOf
    by_cases e : a = p
    · subst e
      simp [List.getElem?_set_self hp]
    · rw [List.getElem?_set_ne (Ne.symm e)]
      simp [e]
  · intro a
    unfold nextOf
    by_cases e : a = p
    · subst e
      simp [List.getElem?_set_self hp, hget]
    · rw [List.getElem?_set_ne (Ne.symm e)]
  · intro a
    unfold keyOf
    by_cases e : a = p
    · subst e
      simp [List.getElem?_set_self hp, hget]
    · rw [List.getElem?_set_ne (Ne.symm e)]
  · intro a e
    exact List.getElem?_set_ne (Ne.symm e)

theorem nextOf_lt {nodes : List node} {a b : Nat} (h : nextOf nodes a = some b) :
    a < nodes.length := by
  unfold nextOf at h
  cases ha : nodes[a]? with
  | none => simp [ha] at h
  | some n => exact lt_of_getElem?_some ha

theorem prevOf_lt {nodes : List node} {a b : Nat} (h : prevOf nodes a = some b) :
    a < nodes.length := by
  unfold prevOf at h
  cases ha : nodes[a]? with
  | none => simp [ha] at h
  | some n => exact lt_of_getElem?_some ha

theorem keyOf_lt {nodes : List node} {a : Nat} {k : FrameID} (h : keyOf nodes a = some k) :
    a < nodes.length := by
  unfold keyOf at h
  cases ha : nodes[a]? with
  | none => simp [ha] at h
  | some n => exact lt_of_getElem?_some ha

theorem cyc_rotate {R : Nat → Nat → Prop} (A B : List Nat)
    (h : List.Chain' R (A ++ B) ∧ ∀ a ∈ (A ++ B).getLast?, ∀ b ∈ (A ++ B).head?, R a b) :
    List.Chain' R (B ++ A) ∧ ∀ a ∈ (B ++ A).getLast?, ∀ b ∈ (B ++ A).head?, R a b := by
  by_cases hA : A = []
  · subst hA
    simpa using h
  by_cases hB : B = []
  · subst hB
    simpa using h
  obtain ⟨hc, hcl⟩ := h
  rw [List.chain'_append] at hc ⊢
  rw [List.getLast?_append_of_ne_nil _ hB, List.head?_append_of_ne_nil _ hA] at hcl
  rw [List.getLast?_append_of_ne_nil _ hA, List.head?_append_of_ne_nil _ hB]
  exact ⟨⟨hc.2.1, hc.1, hcl⟩, hc.2.2⟩

theorem lookup_split :
    ∀ (sm : List (FrameID × Nat)) (id : FrameID) (p : Nat), sm.lookup id = some p →
      (sm.map Prod.fst).Nodup →
      ∃ a b, sm = a ++ (id, p) :: b ∧ sm.filter (fun e => e.1 ≠ id) = a ++ b ∧
        id ∉ a.map Prod.fst ∧ id ∉ b.map Prod.fst := by
  intro sm
  induction sm with
  | nil => intro id p h; simp at h
  | cons e t ih =>
    intro id p h hnd
    obtain ⟨k, q⟩ := e
    simp only [List.map_cons, List.nodup_cons] at hnd
    by_cases hk : id = k
    · subst hk
      simp only [List.lookup_cons, beq_self_eq_true, Option.some.injEq] at h
      subst h
      refine ⟨[], t, rfl, ?_, by simp, hnd.1⟩
      simp only [List.filter_cons, ne_eq, not_true_eq_false, decide_False, Bool.false_eq_true,
        if_false, List.nil_append]
      rw [List.filter_eq_self]
      intro e he
      simp only [decide_not, Bool.not_eq_true', decide_eq_false_iff_not]
      intro e2
      apply hnd.1
      rw [← e2]
      exact List.mem_map_of_mem _ he
    · have h2 : (id == k) = false := by simpa using hk
      rw [List.lookup_cons, h2] at h
      obtain ⟨a, b, hab, hf, ha, hb⟩ := ih id p h hnd.2
      refine ⟨(k, q) :: a, b, by rw [hab]; rfl, ?_, ?_, hb⟩
      · simp only [List.filter_cons, ne_eq, decide_not, List.cons_append]
        have : ¬ k = id := fun e => hk e.symm
        simp only [this, decide_False, Bool.not_false, if_true]
        simp only [ne_eq, decide_not] at hf
        rw [hf]
      · simp only [List.map_cons, List.mem_cons, not_or]
        exact ⟨hk, ha⟩

end Clock
namespace Clock

theorem lookup_mem {sm : List (FrameID × Nat)} {id : FrameID} {p : Nat}
    (h : sm.lookup id = some p) : (id, p) ∈ sm := by
  induction sm with
  | nil => simp at h
  | cons e t ih =>
    obtain ⟨k, q⟩ := e
    by_cases hk : id = k
    · subst hk
      simp only [List.lookup_cons, beq_self_eq_true, Option.some.injEq] at h
      subst h
      exact List.mem_cons_self _ _
    · have h2 : (id == k) = false := by simpa using hk
      rw [List.lookup_cons, h2] at h
      exact List.mem_cons_of_mem _ (ih h)

theorem lookup_none_iff {sm : List (FrameID × Nat)} {id : FrameID} :
    sm.lookup id = none ↔ id ∉ sm.map Prod.fst := by
  induction sm with
  | nil => simp
  | cons e t ih =>
    obtain ⟨k, q⟩ := e
    by_cases hk : id = k
    · subst hk
      simp [List.lookup_cons]
    · have h2 : (id == k) = false := by simpa using hk
      rw [List.lookup_cons, h2]
      simp only [List.map_cons, List.mem_cons, not_or]
      rw [ih]
      exact ⟨fun h => ⟨hk, h⟩, fun h => h.2⟩

theorem remove_spec {nodes : List node} {l : circularList} (hw : ListWF nodes l)
    {id : FrameID} {p : Nat} (hl : l.supportMap.lookup id = some p) :
    ∃ nodes1 l1, remove nodes l id = some (nodes1, l1) ∧ ListWF nodes1 l1 ∧
      l1.supportMap = l.supportMap.filter (fun e => e.1 ≠ id) ∧
      l1.size + 1 = l.size ∧ l1.capacity = l.capacity ∧
      nodes1.length = nodes.length ∧
      p ∈ ringOf l ∧ p ∉ ringOf l1 ∧ (∀ q ∈ ringOf l, q ≠ p → q ∈ ringOf l1) ∧
      keyOf nodes p = some id ∧
      (∀ x, x ∉ ringOf l → nodes1[x]? = nodes[x]?) ∧
      nextOf nodes1 p = nextOf nodes p ∧
      (ringOf l1 ≠ [] → ∃ nx, nextOf nodes p = some nx ∧ nx ∈ ringOf l1) ∧
      (l.head ≠ some p → l1.head = l.head) ∧
      (∀ x : Nat, (nodes1[x]?).map (fun n : node => n.value)
        = (nodes[x]?).map (fun n : node => n.value)) := by
  obtain ⟨a, b, hab, hf, hia, hib⟩ := lookup_split _ _ _ hl hw.keys_nodup
  have hring : ringOf l = a.map Prod.snd ++ p :: b.map Prod.snd := by
    unfold ringOf
    rw [hab]
    simp
  have hring1 : (l.supportMap.filter (fun e => e.1 ≠ id)).map Prod.snd
      = a.map Prod.snd ++ b.map Prod.snd := by
    rw [hf]
    simp
  have hnd := hw.ptrs_nodup
  rw [hring] at hnd
  have hpA : p ∉ a.map Prod.snd := by
    intro h
    rw [List.nodup_append] at hnd
    exact hnd.2.2 h (List.mem_cons_self _ _)
  have hpB : p ∉ b.map Prod.snd := by
    rw [List.nodup_append] at hnd
    exact (List.nodup_cons.1 hnd.2.1).1
  have hndAB : (a.map Prod.snd ++ b.map Prod.snd).Nodup := by
    rw [List.nodup_append] at hnd ⊢
    exact ⟨hnd.1, (List.nodup_cons.1 hnd.2.1).2,
      fun x hx hy => hnd.2.2 hx (List.mem_cons_of_mem _ hy)⟩
  have hpring : p ∈ ringOf l := by rw [hring]; simp
  have hkey : keyOf nodes p = some id := hw.key_ok (id, p) (lookup_mem hl)
  have hsize : l.size = a.length + b.length + 1 := by
    rw [hw.size_eq, hab]
    simp
    omega
  have hmemAB : ∀ q ∈ ringOf l, q ≠ p → q ∈ a.map Prod.snd ++ b.map Prod.snd := by
    intro q hq hne
    rw [hring] at hq
    simp only [List.mem_append, List.mem_cons] at hq ⊢
    tauto
  have hkeys1 : ((l.supportMap.filter (fun e => e.1 ≠ id)).map Prod.fst).Nodup :=
    hw.keys_nodup.sublist ((List.filter_sublist _).map _)
  by_cases h1 : l.size = 1
  · -- the last node leaves the list
    have ha : a = [] := by
      cases a with
      | nil => rfl
      | cons _ _ => simp at hsize; omega
    have hb : b = [] := by
      cases b with
      | nil => rfl
      | cons _ _ => simp at hsize; omega
    subst ha
    subst hb
    have hring1' : (l.supportMap.filter (fun e => e.1 ≠ id)).map Prod.snd = [] := by
      rw [hring1]; rfl
    have hhead : l.head = some p := by
      have := (hw.ends (by rw [hring]; simp)).1
      rw [this, hring]
      rfl
    refine ⟨nodes, circularList.mk none none (l.size - 1) l.capacity
        (l.supportMap.filter (fun e => e.1 ≠ id)),
      by simp only [remove, hl, h1, if_true], ?_, rfl, ?_, rfl, rfl, hpring, ?_,
      ?_, hkey, fun _ _ => rfl, rfl, ?_, fun hne => absurd hhead hne, fun _ => rfl⟩
    · constructor
      · simp only [hf, List.nil_append, List.length_nil]
        omega
      · exact hkeys1
      · unfold ringOf
        simp only [hring1']
        exact List.nodup_nil
      · intro e he
        exact hw.key_ok e (List.mem_of_mem_filter he)
      · intro hne
        unfold ringOf at hne
        simp only [hring1'] at hne
        exact absurd rfl hne
      · unfold ringOf
        simp only [hring1']
        exact ⟨List.chain'_nil, by simp⟩
    · simp only
      omega
    · unfold ringOf
      simp only [hring1']
      exact List.not_mem_nil _
    · intro q hq hne
      have := hmemAB q hq hne
      simp at this
    · intro hne
      unfold ringOf at hne
      simp only [hring1'] at hne
      exact absurd rfl hne
  · -- the node is unlinked from its neighbours
    have hCne : b.map Prod.snd ++ a.map Prod.snd ≠ [] := by
      intro e
      have := congrArg List.length e
      simp only [List.length_append, List.length_map, List.length_nil] at this
      omega
    have hcyc := hw.cyc
    unfold Cyc at hcyc
    rw [hring] at hcyc
    have hrot := cyc_rotate (a.map Prod.snd) (p :: b.map Prod.snd) hcyc
    rw [List.cons_append] at hrot
    obtain ⟨hchain, hclose⟩ := hrot
    rw [getLast?_cons_ne_nil p hCne] at hclose
    rw [List.chain'_cons'] at hchain
    obtain ⟨nx, hnx⟩ : ∃ nx, (b.map Prod.snd ++ a.map Prod.snd).head? = some nx := by
      cases hc : b.map Prod.snd ++ a.map Prod.snd with
      | nil => exact absurd hc hCne
      | cons x t => exact ⟨x, rfl⟩
    obtain ⟨pv, hpv⟩ : ∃ pv, (b.map Prod.snd ++ a.map Prod.snd).getLast? = some pv := by
      rw [List.getLast?_eq_getLast _ hCne]
      exact ⟨_, rfl⟩
    have hRpn : LinkR nodes p nx := hchain.1 nx hnx
    have hRvp : LinkR nodes pv p := hclose pv hpv p (by simp)
    have hnxC : nx ∈ b.map Prod.snd ++ a.map Prod.snd := List.mem_of_mem_head? hnx
    have hpvC : pv ∈ b.map Prod.snd ++ a.map Prod.snd := List.mem_of_mem_getLast? hpv
    have hnxAB : nx ∈ a.map Prod.snd ++ b.map Prod.snd := by
      simp only [List.mem_append] at hnxC ⊢
      tauto
    have hpvp : pv ≠ p := by
      intro e
      rw [e] at hpvC
      simp only [List.mem_append] at hpvC
      tauto
    have hnxp : nx ≠ p := by
      intro e
      rw [e] at hnxC
      simp only [List.mem_append] at hnxC
      tauto
    obtain ⟨nodes1, hs1, hlen1, hprev1, hnext1, hkey1, hget1⟩ :=
      setPrev_some nodes nx (prevOf_lt hRpn.2) (some pv)
    obtain ⟨nodes2, hs2, hlen2, hnext2, hprev2, hkey2, hget2⟩ :=
      setNext_some nodes1 pv (by rw [hlen1]; exact nextOf_lt hRvp.1) (some nx)
    have hnextF : ∀ x, nextOf nodes2 x = if x = pv then some nx else nextOf nodes x := by
      intro x
      rw [hnext2, hnext1]
    have hprevF : ∀ x, prevOf nodes2 x = if x = nx then some pv else prevOf nodes x := by
      intro x
      rw [hprev2, hprev1]
    obtain ⟨n, hgetp⟩ : ∃ n, nodes[p]? = some n :=
      ⟨_, List.getElem?_eq_getElem (nextOf_lt hRpn.1)⟩
    have hpn : n.next = some nx := by
      have := hRpn.1
      simp only [nextOf, hgetp] at this
      exact this
    have hpp : n.prev = some pv := by
      have := hRvp.2
      simp only [prevOf, hgetp] at this
      exact this
    have hcycC : List.Chain' (LinkR nodes2) (b.map Prod.snd ++ a.map Prod.snd) ∧
        ∀ x ∈ (b.map Prod.snd ++ a.map Prod.snd).getLast?,
          ∀ y ∈ (b.map Prod.snd ++ a.map Prod.snd).head?, LinkR nodes2 x y := by
      have hndC : (b.map Prod.snd ++ a.map Prod.snd).Nodup := by
        rw [List.nodup_append] at hndAB ⊢
        exact ⟨hndAB.2.1, hndAB.1, fun x hx hy => hndAB.2.2 hy hx⟩
      refine ⟨chain_congr_nodup _ hndC hchain.2 ?_, ?_⟩
      · intro x y _ _ hx hy hxy
        have hxv : x ≠ pv := by
          intro e
          apply hx
          rw [e, hpv]
        have hyn : y ≠ nx := by
          intro e
          apply hy
          rw [e, hnx]
        unfold LinkR at hxy ⊢
        rw [hnextF, hprevF]
        simp only [hxv, hyn, if_false]
        exact hxy
      · intro x hx y hy
        rw [hpv] at hx
        rw [hnx] at hy
        simp only [Option.mem_def, Option.some.injEq] at hx hy
        subst hx
        subst hy
        unfold LinkR
        rw [hnextF, hprevF]
        simp
    have hcycAB := cyc_rotate _ _ hcycC
    have hends := hw.ends (by rw [hring]; simp)
    rw [hring] at hends
    refine ⟨nodes2, circularList.mk (if l.head = some p then some nx else l.head)
        (if l.tail = some p then some pv else l.tail) (l.size - 1) l.capacity
        (l.supportMap.filter (fun e => e.1 ≠ id)), ?_, ?_, rfl, ?_, rfl, ?_,
      hpring, ?_, ?_, hkey, ?_, ?_, ?_, ?_, ?_⟩
    · simp only [remove, hl, h1, if_false, hgetp, hpn, hpp, hs1, hs2]
    · constructor
      · simp only [hf, List.length_append]
        omega
      · exact hkeys1
      · unfold ringOf
        simp only [hring1]
        exact hndAB
      · intro e he
        rw [hkey2, hkey1]
        exact hw.key_ok e (List.mem_of_mem_filter he)
      · intro _
        unfold ringOf
        simp only [hring1]
        constructor
        · by_cases hA : a.map Prod.snd = []
          · -- the node was the head
            have hh : l.head = some p := by rw [hends.1, hA]; rfl
            rw [if_pos hh, hA, List.nil_append]
            rw [hA, List.append_nil] at hnx
            exact hnx.symm
          · have hh : l.head ≠ some p := by
              rw [hends.1, List.head?_append_of_ne_nil _ hA]
              intro e
              exact hpA (List.mem_of_mem_head? e)
            rw [if_neg hh, hends.1, List.head?_append_of_ne_nil _ hA,
              List.head?_append_of_ne_nil _ hA]
        · by_cases hB : b.map Prod.snd = []
          · -- the node was the tail
            have ht : l.tail = some p := by
              rw [hends.2, hB]
              simp
            rw [if_pos ht, hB, List.append_nil]
            rw [hB, List.nil_append] at hpv
            exact hpv.symm
          · have ht : l.tail ≠ some p := by
              rw [hends.2, List.getLast?_append_of_ne_nil _ (by simp),
                getLast?_cons_ne_nil p hB]
              intro e
              exact hpB (List.mem_of_mem_getLast? e)
            rw [if_neg ht, hends.2, List.getLast?_append_of_ne_nil _ (by simp),
              getLast?_cons_ne_nil p hB, List.getLast?_append_of_ne_nil _ hB]
      · unfold Cyc ringOf
        simp only [hring1]
        exact hcycAB
    · simp only
      omega
    · rw [hlen2, hlen1]
    · unfold ringOf
      simp only [hring1, List.mem_append]
      tauto
    · intro q hq hne
      unfold ringOf
      simp only [hring1]
      exact hmemAB q hq hne
    · intro x hx
      have hxv : x ≠ pv := by
        intro e
        apply hx
        rw [e, hring]
        simp only [List.mem_append, List.mem_cons] at hpvC ⊢
        tauto
      have hxn : x ≠ nx := by
        intro e
        apply hx
        rw [e, hring]
        simp only [List.mem_append, List.mem_cons] at hnxC ⊢
        tauto
      rw [hget2 x hxv, hget1 x hxn]
    · rw [hnextF]
      simp [Ne.symm hpvp]
    · intro _
      exact ⟨nx, hRpn.1, by unfold ringOf; simp only [hring1]; exact hnxAB⟩
    · intro hne
      simp only [hne, if_false]
    · intro x
      have e1 : ∀ (ns ns1 : List node) (q : Nat) (v : Option Nat),
          setPrev ns q v = some ns1 →
          (ns1[x]?).map (fun n => n.value) = (ns[x]?).map (fun n => n.value) := by
        intro ns ns1 q v hs
        unfold setPrev at hs
        cases hq : ns[q]? with
        | none => simp [hq] at hs
        | some n =>
          simp only [hq, Option.some.injEq] at hs
          subst hs
          by_cases e : q = x
          · subst e
            rw [List.getElem?_set_self (lt_of_getElem?_some hq), hq]
            rfl
          · rw [List.getElem?_set_ne e]
      have e2 : ∀ (ns ns1 : List node) (q : Nat) (v : Option Nat),
          setNext ns q v = some ns1 →
          (ns1[x]?).map (fun n => n.value) = (ns[x]?).map (fun n => n.value) := by
        intro ns ns1 q v hs
        unfold setNext at hs
        cases hq : ns[q]? with
        | none => simp [hq] at hs
        | some n =>
          simp only [hq, Option.some.injEq] at hs
          subst hs
          by_cases e : q = x
          · subst e
            rw [List.getElem?_set_self (lt_of_getElem?_some hq), hq]
            rfl
          · rw [List.getElem?_set_ne e]
      rw [e2 _ _ _ _ hs2, e1 _ _ _ _ hs1]

end Clock
namespace Clock

theorem ListWF.lt {nodes : List node} {l : circularList} (hw : ListWF nodes l) {p : Nat}
    (hp : p ∈ ringOf l) : p < nodes.length := by
  unfold ringOf at hp
  rw [List.mem_map] at hp
  obtain ⟨e, he, rfl⟩ := hp
  exact keyOf_lt (hw.key_ok e he)

theorem nextOf_append_old (nodes : List node) (nd : node) {a : Nat} (ha : a < nodes.length) :
    nextOf (nodes ++ [nd]) a = nextOf nodes a := by
  unfold nextOf
  rw [List.getElem?_append_left ha]

theorem prevOf_append_old (nodes : List node) (nd : node) {a : Nat} (ha : a < nodes.length) :
    prevOf (nodes ++ [nd]) a = prevOf nodes a := by
  unfold prevOf
  rw [List.getElem?_append_left ha]

theorem keyOf_append_old (nodes : List node) (nd : node) {a : Nat} (ha : a < nodes.length) :
    keyOf (nodes ++ [nd]) a = keyOf nodes a := by
  unfold keyOf
  rw [List.getElem?_append_left ha]

theorem get_append_new (nodes : List node) (nd : node) :
    (nodes ++ [nd])[nodes.length]? = some nd := by
  rw [List.getElem?_append_right (le_refl _)]
  simp

theorem insert_spec {nodes : List node} {l : circularList} (hw : ListWF nodes l)
    {id : FrameID} (v : Bool) (hl : l.supportMap.lookup id = none)
    (hcap : l.size ≠ l.capacity) :
    ∃ nodes1 l1, insert nodes l id v = some (nodes1, l1) ∧ ListWF nodes1 l1 ∧
      l1.supportMap = l.supportMap ++ [(id, nodes.length)] ∧
      l1.size = l.size + 1 ∧ l1.capacity = l.capacity ∧
      nodes1.length = nodes.length + 1 ∧
      (∀ x, x ∉ ringOf l → x < nodes.length → nodes1[x]? = nodes[x]?) ∧
      (ringOf l ≠ [] → l1.head = l.head) ∧
      (ringOf l = [] → l1.head = some nodes.length) := by
  have hidk : id ∉ l.supportMap.map Prod.fst := lookup_none_iff.1 hl
  have hnew : nodes.length ∉ ringOf l := fun h => absurd (hw.lt h) (lt_irrefl _)
  have hkeys1 : ((l.supportMap ++ [(id, nodes.length)]).map Prod.fst).Nodup := by
    rw [List.map_append, List.nodup_append]
    refine ⟨hw.keys_nodup, by simp, ?_⟩
    intro x hx hy
    simp only [List.map_cons, List.map_nil, List.mem_singleton] at hy
    subst hy
    exact hidk hx
  have hring1 : (l.supportMap ++ [(id, nodes.length)]).map Prod.snd
      = ringOf l ++ [nodes.length] := by
    unfold ringOf
    simp
  have hptrs1 : (ringOf l ++ [nodes.length]).Nodup := by
    rw [List.nodup_append]
    refine ⟨hw.ptrs_nodup, by simp, ?_⟩
    intro x hx hy
    simp only [List.mem_singleton] at hy
    subst hy
    exact hnew hx
  by_cases h0 : l.size = 0
  · -- the list is empty
    have hsm : l.supportMap = [] := by
      have := hw.size_eq
      rw [h0] at this
      exact List.length_eq_zero.1 this.symm
    have hr : ringOf l = [] := by unfold ringOf; rw [hsm]; rfl
    refine ⟨nodes ++ [node.mk id v (some nodes.length) (some nodes.length)],
      circularList.mk (some nodes.length) (some nodes.length) (l.size + 1) l.capacity
        (l.supportMap ++ [(id, nodes.length)]), ?_, ?_, rfl, rfl, rfl, by simp, ?_,
      fun hne => absurd hr hne, fun _ => rfl⟩
    · unfold insert
      rw [if_neg hcap]
      simp only [hl]
      rw [if_pos h0]
    · constructor
      · simp only [List.length_append, List.length_singleton]
        rw [hw.size_eq]
      · exact hkeys1
      · unfold ringOf
        simp only [hring1]
        exact hptrs1
      · intro e he
        simp only [hsm, List.nil_append, List.mem_singleton] at he
        subst he
        unfold keyOf
        simp only [get_append_new]
      · intro _
        unfold ringOf
        simp only [hring1, hr]
        exact ⟨rfl, rfl⟩
      · unfold Cyc ringOf
        simp only [hring1, hr, List.nil_append]
        refine ⟨List.chain'_singleton _, ?_⟩
        intro a ha b hb
        simp only [List.getLast?_singleton, Option.mem_def, Option.some.injEq] at ha
        simp only [List.head?_cons, Option.mem_def, Option.some.injEq] at hb
        subst ha
        subst hb
        simp [LinkR, nextOf, prevOf, get_append_new]
    · intro x _ hx
      exact List.getElem?_append_left hx
  · -- the node is linked in after the tail
    have hrne : ringOf l ≠ [] := by
      intro e
      unfold ringOf at e
      have := congrArg List.length e
      simp only [List.length_map, List.length_nil] at this
      rw [← hw.size_eq] at this
      exact h0 this
    obtain ⟨hhead, htail⟩ := hw.ends hrne
    obtain ⟨hd, hhd⟩ : ∃ hd, (ringOf l).head? = some hd := by
      cases hc : ringOf l with
      | nil => exact absurd hc hrne
      | cons x t => exact ⟨x, rfl⟩
    obtain ⟨tl, htl⟩ : ∃ tl, (ringOf l).getLast? = some tl := by
      rw [List.getLast?_eq_getLast _ hrne]
      exact ⟨_, rfl⟩
    have hhdm : hd ∈ ringOf l := List.mem_of_mem_head? hhd
    have htlm : tl ∈ ringOf l := List.mem_of_mem_getLast? htl
    have hhdlt := hw.lt hhdm
    have htllt := hw.lt htlm
    obtain ⟨nodes2, hs2, hlen2, hnext2, hprev2, hkey2, hget2⟩ :=
      setNext_some (nodes ++ [node.mk id v (some hd) (some tl)]) tl
        (by simp; omega) (some nodes.length)
    obtain ⟨nodes3, hs3, hlen3, hprev3, hnext3, hkey3, hget3⟩ :=
      setPrev_some nodes2 hd (by rw [hlen2]; simp; omega) (some nodes.length)
    have hnextF : ∀ a, a < nodes.length →
        nextOf nodes3 a = if a = tl then some nodes.length else nextOf nodes a := by
      intro a ha
      rw [hnext3, hnext2, nextOf_append_old _ _ ha]
    have hprevF : ∀ a, a < nodes.length →
        prevOf nodes3 a = if a = hd then some nodes.length else prevOf nodes a := by
      intro a ha
      rw [hprev3, hprev2, prevOf_append_old _ _ ha]
    have hnextN : nextOf nodes3 nodes.length = some hd := by
      rw [hnext3, hnext2]
      have : nodes.length ≠ tl := by omega
      simp only [this, if_false]
      unfold nextOf
      simp only [get_append_new]
    have hprevN : prevOf nodes3 nodes.length = some tl := by
      rw [hprev3, hprev2]
      have : nodes.length ≠ hd := by omega
      simp only [this, if_false]
      unfold prevOf
      simp only [get_append_new]
    refine ⟨nodes3, circularList.mk l.head (some nodes.length) (l.size + 1) l.capacity
        (l.supportMap ++ [(id, nodes.length)]), ?_, ?_, rfl, rfl, rfl, ?_, ?_,
      fun _ => rfl, fun he => absurd he hrne⟩
    · unfold insert
      rw [if_neg hcap]
      simp only [hl]
      rw [if_neg h0]
      simp only [hhead, htail, hhd, htl, hs2, hs3]
    · constructor
      · simp only [List.length_append, List.length_singleton]
        rw [hw.size_eq]
      · exact hkeys1
      · unfold ringOf
        simp only [hring1]
        exact hptrs1
      · intro e he
        rw [hkey3, hkey2]
        simp only [List.mem_append, List.mem_singleton] at he
        rcases he with he | he
        · have hlt : e.2 < nodes.length := keyOf_lt (hw.key_ok e he)
          rw [keyOf_append_old _ _ hlt]
          exact hw.key_ok e he
        · subst he
          unfold keyOf
          simp only [get_append_new]
      · intro _
        unfold ringOf
        simp only [hring1]
        rw [List.head?_append_of_ne_nil _ hrne, List.getLast?_concat]
        exact ⟨hhead, rfl⟩
      · unfold Cyc ringOf
        simp only [hring1]
        have hcyc := hw.cyc
        unfold Cyc at hcyc
        refine ⟨?_, ?_⟩
        · rw [List.chain'_append]
          refine ⟨chain_congr_nodup _ hw.ptrs_nodup hcyc.1 ?_, List.chain'_singleton _, ?_⟩
          · intro a b ha hb hal hbh hab
            have hat : a ≠ tl := by
              intro e
              apply hal
              rw [e, htl]
            have hbd : b ≠ hd := by
              intro e
              apply hbh
              rw [e, hhd]
            unfold LinkR at hab ⊢
            rw [hnextF a (hw.lt ha), hprevF b (hw.lt hb)]
            simp only [hat, hbd, if_false]
            exact hab
          · intro a ha b hb
            rw [htl] at ha
            have ea : tl = a := by simpa using ha
            have eb : nodes.length = b := by simpa using hb
            rw [← ea, ← eb]
            unfold LinkR
            rw [hnextF tl htllt, hprevN]
            simp
        · intro a ha b hb
          rw [List.getLast?_concat] at ha
          rw [List.head?_append_of_ne_nil _ hrne, hhd] at hb
          have ea : nodes.length = a := by simpa using ha
          have eb : hd = b := by simpa using hb
          rw [← ea, ← eb]
          unfold LinkR
          rw [hnextN, hprevF hd hhdlt]
          simp
    · rw [hlen3, hlen2]
      simp
    · intro x hx hxlt
      have hxh : x ≠ hd := fun e => hx (e ▸ hhdm)
      have hxt : x ≠ tl := fun e => hx (e ▸ htlm)
      rw [hget3 x hxh, hget2 x hxt]
      exact List.getElem?_append_left hxlt

end Clock
namespace Clock

theorem lookup_of_mem {sm : List (FrameID × Nat)} {k : FrameID} {p : Nat}
    (hm : (k, p) ∈ sm) (hnd : (sm.map Prod.fst).Nodup) : sm.lookup k = some p := by
  induction sm with
  | nil => simp at hm
  | cons e t ih =>
    obtain ⟨k1, q⟩ := e
    simp only [List.map_cons, List.nodup_cons] at hnd
    rcases List.mem_cons.1 hm with e1 | e1
    · cases e1
      simp [List.lookup_cons]
    · have hk : k ≠ k1 := by
        intro e2
        subst e2
        exact hnd.1 (List.mem_map_of_mem Prod.fst e1)
      have h2 : (k == k1) = false := by simpa using hk
      rw [List.lookup_cons, h2]
      exact ih e1 hnd.2

theorem hasKey_iff (l : circularList) (id : FrameID) :
    hasKey l id = true ↔ id ∈ l.supportMap.map Prod.fst := by
  unfold hasKey
  cases h : l.supportMap.lookup id with
  | none =>
    have := lookup_none_iff.1 h
    simp [this]
  | some p =>
    have := lookup_mem h
    simp only [Option.isSome_some, true_iff]
    exact List.mem_map_of_mem Prod.fst this

theorem fresh_wf (poolSize : Nat) : WF (NewClockReplacer poolSize) := by
  constructor
  · constructor
    · rfl
    · exact List.nodup_nil
    · exact List.nodup_nil
    · intro e he
      simp [NewClockReplacer, newCircularList] at he
    · intro hne
      exact absurd rfl hne
    · exact ⟨List.chain'_nil, by simp [ringOf, NewClockReplacer, newCircularList]⟩
  · intro hne
    exact absurd rfl hne
  · intro x hx
    simp [NewClockReplacer] at hx

theorem ListWF.set_value {nodes : List node} {l : circularList} (hw : ListWF nodes l)
    {p : Nat} {n : node} (hp : nodes[p]? = some n) (v : Bool) :
    ListWF (nodes.set p { n with value := v }) l := by
  have hlt := lt_of_getElem?_some hp
  have hnext : ∀ a, nextOf (nodes.set p { n with value := v }) a = nextOf nodes a := by
    intro a
    unfold nextOf
    by_cases e : p = a
    · subst e
      rw [List.getElem?_set_self hlt, hp]
    · rw [List.getElem?_set_ne e]
  have hprev : ∀ a, prevOf (nodes.set p { n with value := v }) a = prevOf nodes a := by
    intro a
    unfold prevOf
    by_cases e : p = a
    · subst e
      rw [List.getElem?_set_self hlt, hp]
    · rw [List.getElem?_set_ne e]
  have hkey : ∀ a, keyOf (nodes.set p { n with value := v }) a = keyOf nodes a := by
    intro a
    unfold keyOf
    by_cases e : p = a
    · subst e
      rw [List.getElem?_set_self hlt, hp]
    · rw [List.getElem?_set_ne e]
  constructor
  · exact hw.size_eq
  · exact hw.keys_nodup
  · exact hw.ptrs_nodup
  · intro e he
    rw [hkey]
    exact hw.key_ok e he
  · exact hw.ends
  · have hc := hw.cyc
    unfold Cyc at hc ⊢
    have himp : ∀ a b, LinkR nodes a b → LinkR (nodes.set p { n with value := v }) a b := by
      intro a b hab
      unfold LinkR at hab ⊢
      rw [hnext, hprev]
      exact hab
    exact ⟨hc.1.imp himp, fun a ha b hb => himp a b (hc.2 a ha b hb)⟩

/-- What `remove` makes of a well-formed replacer whose hand is moved to `&p.next` for the
node `p` about to leave. -/
theorem remove_at_hand {nodes : List node} {l : circularList} (hw : ListWF nodes l)
    {id : FrameID} {p : Nat} (hl : l.supportMap.lookup id = some p) :
    ∃ nodes1 l1, remove nodes l id = some (nodes1, l1) ∧
      WF { nodes := nodes1, cList := l1, clockHand := NodeRef.next p } ∧
      l1.supportMap = l.supportMap.filter (fun e => e.1 ≠ id) ∧
      l1.size + 1 = l.size ∧ l1.capacity = l.capacity ∧
      (∀ x : Nat, (nodes1[x]?).map (fun n : node => n.value)
        = (nodes[x]?).map (fun n : node => n.value)) := by
  obtain ⟨nodes1, l1, hrem, hw1, hsm, hsize, hcap, hlen, hp, hp1, _, _, _, hnext, hlive, _,
    hval⟩ := remove_spec hw hl
  refine ⟨nodes1, l1, hrem, ?_, hsm, hsize, hcap, hval⟩
  constructor
  · exact hw1
  · intro hne
    obtain ⟨nx, hnx, hmem⟩ := hlive hne
    refine ⟨nx, ?_, hmem⟩
    have : nextOf nodes1 p = some nx := by rw [hnext, hnx]
    simpa [deref, nextOf] using this
  · intro x hx
    cases hx
    exact ⟨hp1, by rw [hlen]; exact hw.lt hp⟩

/-- What `remove` makes of a well-formed replacer whose hand does not point at the node
about to leave. -/
theorem remove_off_hand {c : ClockReplacer} (hw : WF c) {id : FrameID} {p : Nat}
    (hl : c.cList.supportMap.lookup id = some p) (hh : deref c c.clockHand ≠ some p) :
    ∃ nodes1 l1, remove c.nodes c.cList id = some (nodes1, l1) ∧
      WF { nodes := nodes1, cList := l1, clockHand := c.clockHand } ∧
      l1.supportMap = c.cList.supportMap.filter (fun e => e.1 ≠ id) ∧
      l1.size + 1 = c.cList.size ∧ l1.capacity = c.cList.capacity ∧
      (∀ x : Nat, (nodes1[x]?).map (fun n : node => n.value)
        = (c.nodes[x]?).map (fun n : node => n.value)) := by
  obtain ⟨nodes1, l1, hrem, hw1, hsm, hsize, hcap, hlen, hp, hp1, hkeep, _, hframe, _, _,
    hhead, hval⟩ := remove_spec hw.list hl
  refine ⟨nodes1, l1, hrem, ?_, hsm, hsize, hcap, hval⟩
  have hrne : ringOf c.cList ≠ [] := List.ne_nil_of_mem hp
  obtain ⟨q, hq, hqm⟩ := hw.hand_live hrne
  have hqp : q ≠ p := by
    intro e
    apply hh
    rw [hq, e]
  constructor
  · exact hw1
  · intro _
    refine ⟨q, ?_, hkeep q hqm hqp⟩
    cases hc : c.clockHand with
    | head =>
      rw [hc] at hq hh
      simp only [deref] at hq hh ⊢
      rw [hhead hh]
      exact hq
    | next x =>
      rw [hc] at hq
      simp only [deref] at hq ⊢
      rw [hframe x (hw.hand_stale x hc).1]
      exact hq
  · intro x hx
    have := hw.hand_stale x hx
    refine ⟨fun hm => this.1 ?_, by rw [hlen]; exact this.2⟩
    unfold ringOf at hm ⊢
    rw [hsm] at hm
    rw [List.mem_map] at hm ⊢
    obtain ⟨e, he, hex⟩ := hm
    exact ⟨e, List.mem_of_mem_filter he, hex⟩

end Clock
namespace Clock

theorem WF.unpin {c : ClockReplacer} (hw : WF c) (id : FrameID) :
    ∃ c1, Unpin c id = some c1 ∧ WF c1 ∧ c1.cList.capacity = c.cList.capacity ∧
      (id ∈ tracked c → c1 = c) ∧
      (id ∉ tracked c → c.cList.size ≠ c.cList.capacity →
        Size c1 = Size c + 1 ∧ tracked c1 = tracked c ++ [id]) ∧
      (id ∉ tracked c → c.cList.size = c.cList.capacity →
        Size c1 = Size c ∧ tracked c1 = tracked c) := by
  by_cases hk : id ∈ tracked c
  · have : hasKey c.cList id = true := (hasKey_iff _ _).2 hk
    refine ⟨c, by simp only [Unpin, this, if_true], hw, rfl, fun _ => rfl,
      fun h => absurd hk h, fun h => absurd hk h⟩
  · have hnk : ¬ hasKey c.cList id = true := fun h => hk ((hasKey_iff _ _).1 h)
    have hl : c.cList.supportMap.lookup id = none := lookup_none_iff.2 hk
    by_cases hcap : c.cList.size = c.cList.capacity
    · -- the list is full: nothing is inserted
      have hins : insert c.nodes c.cList id true = some (c.nodes, c.cList) := by
        simp only [insert, hcap, if_true]
      refine ⟨{ nodes := c.nodes, cList := c.cList,
                clockHand := if c.cList.size = 1 then NodeRef.head else c.clockHand },
        by simp [Unpin, hnk, hins], ?_, rfl, fun h => absurd h hk,
        fun _ h => absurd hcap h, fun _ _ => ⟨rfl, rfl⟩⟩
      by_cases h1 : c.cList.size = 1
      · simp only [h1, if_true]
        have hrne : ringOf c.cList ≠ [] := by
          intro e
          have := congrArg List.length e
          unfold ringOf at this
          simp only [List.length_map, List.length_nil] at this
          rw [← hw.list.size_eq] at this
          omega
        constructor
        · exact hw.list
        · intro _
          have hh := (hw.list.ends hrne).1
          cases hr : ringOf c.cList with
          | nil => exact absurd hr hrne
          | cons x t =>
            refine ⟨x, ?_, List.mem_cons_self _ _⟩
            simp only [deref, hh, hr, List.head?_cons]
        · intro x hx
          cases hx
      · simp only [h1, if_false]
        exact hw
    · obtain ⟨nodes1, l1, hins, hw1, hsm, hsize, hcap1, hlen, hframe, hhead, hhead0⟩ :=
        insert_spec hw.list true hl hcap
      have hring1 : ringOf l1 = ringOf c.cList ++ [c.nodes.length] := by
        unfold ringOf
        rw [hsm]
        simp
      refine ⟨{ nodes := nodes1, cList := l1,
                clockHand := if l1.size = 1 then NodeRef.head else c.clockHand },
        by simp [Unpin, hnk, hins], ?_, hcap1, fun h => absurd h hk,
        fun _ _ => ⟨hsize, by unfold tracked; simp only [hsm]; simp⟩,
        fun _ h => absurd h hcap⟩
      by_cases h1 : l1.size = 1
      · simp only [h1, if_true]
        have hr0 : ringOf c.cList = [] := by
          have h0 : c.cList.supportMap.length = 0 := by
            have := hw.list.size_eq
            omega
          unfold ringOf
          rw [List.length_eq_zero.1 h0]
          rfl
        constructor
        · exact hw1
        · intro _
          refine ⟨c.nodes.length, ?_, by rw [hring1]; simp⟩
          simp only [deref]
          exact hhead0 hr0
        · intro x hx
          cases hx
      · simp only [h1, if_false]
        have hrne : ringOf c.cList ≠ [] := by
          intro e
          have := congrArg List.length e
          unfold ringOf at this
          simp only [List.length_map, List.length_nil] at this
          rw [← hw.list.size_eq] at this
          omega
        constructor
        · exact hw1
        · intro _
          obtain ⟨q, hq, hqm⟩ := hw.hand_live hrne
          refine ⟨q, ?_, by rw [hring1]; simp [hqm]⟩
          cases hc : c.clockHand with
          | head =>
            rw [hc] at hq
            simp only [deref] at hq ⊢
            rw [hhead hrne]
            exact hq
          | next x =>
            rw [hc] at hq
            simp only [deref] at hq ⊢
            rw [hframe x (hw.hand_stale x hc).1 (hw.hand_stale x hc).2]
            exact hq
        · intro x hx
          have := hw.hand_stale x hx
          refine ⟨?_, by rw [hlen]; omega⟩
          rw [hring1]
          simp only [List.mem_append, List.mem_singleton, not_or]
          exact ⟨this.1, by omega⟩

theorem filter_filter_same (sm : List (FrameID × Nat)) (id : FrameID) :
    (sm.filter (fun e => e.1 ≠ id)).filter (fun e => e.1 ≠ id)
      = sm.filter (fun e => e.1 ≠ id) := by
  rw [List.filter_filter]
  apply List.filter_congr
  intro e _
  simp

theorem tracked_filter (sm : List (FrameID × Nat)) (id : FrameID) :
    (sm.filter (fun e => e.1 ≠ id)).map Prod.fst
      = (sm.map Prod.fst).filter (fun k => k ≠ id) := by
  rw [List.filter_map]
  rfl

theorem WF.pin {c : ClockReplacer} (hw : WF c) (id : FrameID) :
    ∃ c1, Pin c id = some c1 ∧ WF c1 ∧ c1.cList.capacity = c.cList.capacity ∧
      (id ∉ tracked c → c1 = c) ∧
      (id ∈ tracked c → Size c1 + 1 = Size c) ∧
      tracked c1 = (tracked c).filter (fun k => k ≠ id) := by
  cases hl : c.cList.supportMap.lookup id with
  | none =>
    have hk : id ∉ tracked c := lookup_none_iff.1 hl
    refine ⟨c, by simp only [Pin, hl], hw, rfl, fun _ => rfl, fun h => absurd h hk, ?_⟩
    symm
    rw [List.filter_eq_self]
    intro k hk2
    simp only [ne_eq, decide_not, Bool.not_eq_true', decide_eq_false_iff_not]
    intro e
    exact hk (e ▸ hk2)
  | some p =>
    have hk : id ∈ tracked c := List.mem_map_of_mem Prod.fst (lookup_mem hl)
    by_cases hh : deref c c.clockHand = some p
    · obtain ⟨nodes1, l1, hrem, hw1, hsm, hsize, hcap, _⟩ := remove_at_hand hw.list hl
      have hl1 : ({ l1 with supportMap := l1.supportMap.filter (fun e => e.1 ≠ id) }
          : circularList) = l1 := by
        cases l1
        simp only at hsm
        simp only [hsm, filter_filter_same]
      refine ⟨{ nodes := nodes1, cList := l1, clockHand := NodeRef.next p }, ?_, hw1, hcap,
        fun h => absurd hk h, fun _ => hsize, ?_⟩
      · simp only [Pin, hl, hh, if_true, hrem, hl1]
      · unfold tracked
        simp only [hsm]
        exact tracked_filter _ _
    · obtain ⟨nodes1, l1, hrem, hw1, hsm, hsize, hcap, _⟩ := remove_off_hand hw hl hh
      have hl1 : ({ l1 with supportMap := l1.supportMap.filter (fun e => e.1 ≠ id) }
          : circularList) = l1 := by
        cases l1
        simp only at hsm
        simp only [hsm, filter_filter_same]
      refine ⟨{ nodes := nodes1, cList := l1, clockHand := c.clockHand }, ?_, hw1, hcap,
        fun h => absurd hk h, fun _ => hsize, ?_⟩
      · simp only [Pin, hl, hh, if_false, hrem, hl1]
      · unfold tracked
        simp only [hsm]
        exact tracked_filter _ _

theorem WF.victim {c : ClockReplacer} (hw : WF c) :
    ∃ c1 r, Victim c = some (c1, r) ∧ WF c1 ∧ c1.cList.capacity = c.cList.capacity ∧
      (Size c = 0 → c1 = c ∧ r = none) ∧
      (0 < Size c → ∃ f p, r = some f ∧ f ∈ tracked c ∧ Size c1 + 1 = Size c ∧
        tracked c1 = (tracked c).filter (fun k => k ≠ f) ∧
        deref c c.clockHand = some p ∧ keyOf c.nodes p = some f) := by
  by_cases h0 : c.cList.size = 0
  · exact ⟨c, none, by simp only [Victim, h0, if_true], hw, rfl, fun _ => ⟨rfl, rfl⟩,
      fun h => by unfold Size at h; omega⟩
  · have hrne : ringOf c.cList ≠ [] := by
      intro e
      have := congrArg List.length e
      unfold ringOf at this
      simp only [List.length_map, List.length_nil] at this
      rw [← hw.list.size_eq] at this
      exact h0 this
    obtain ⟨cur, hcur, hcm⟩ := hw.hand_live hrne
    have hcm2 := hcm
    unfold ringOf at hcm2
    rw [List.mem_map] at hcm2
    obtain ⟨e, he, hecur⟩ := hcm2
    obtain ⟨f, q⟩ := e
    simp only at hecur
    subst hecur
    have hkey := hw.list.key_ok (f, q) he
    simp only at hkey
    have hl : c.cList.supportMap.lookup f = some q := lookup_of_mem he hw.list.keys_nodup
    have hft : f ∈ tracked c := List.mem_map_of_mem Prod.fst he
    obtain ⟨n, hn⟩ : ∃ n, c.nodes[q]? = some n :=
      ⟨_, List.getElem?_eq_getElem (keyOf_lt hkey)⟩
    have hnk : n.key = f := by
      simp only [keyOf, hn, Option.some.injEq] at hkey
      exact hkey
    subst hnk
    by_cases hv : n.value = true
    · have hw2 := hw.list.set_value hn false
      obtain ⟨nodes1, l1, hrem, hw1, hsm, hsize, hcap, _⟩ := remove_at_hand hw2 hl
      have hget : (c.nodes.set q { n with value := false })[q]?
          = some { n with value := false } :=
        List.getElem?_set_self (lt_of_getElem?_some hn)
      refine ⟨{ nodes := nodes1, cList := l1, clockHand := NodeRef.next q }, some n.key, ?_,
        hw1, hcap, fun h => absurd h h0, fun _ => ⟨n.key, q, rfl, hft, hsize, ?_, hcur, hkey⟩⟩
      · simp only [Victim, h0, if_false, hcur, victimLoop, hn, hv, if_true, hget,
          Bool.false_eq_true, hrem]
      · unfold tracked
        simp only [hsm]
        exact tracked_filter _ _
    · obtain ⟨nodes1, l1, hrem, hw1, hsm, hsize, hcap, _⟩ := remove_at_hand hw.list hl
      refine ⟨{ nodes := nodes1, cList := l1, clockHand := NodeRef.next q }, some n.key, ?_,
        hw1, hcap, fun h => absurd h h0, fun _ => ⟨n.key, q, rfl, hft, hsize, ?_, hcur, hkey⟩⟩
      · simp only [Victim, h0, if_false, hcur, victimLoop, hn, hv, Bool.false_eq_true, hrem]
      · unfold tracked
        simp only [hsm]
        exact tracked_filter _ _

theorem Reachable.wf {c : ClockReplacer} (hr : Reachable c) : WF c := by
  induction hr with
  | fresh n => exact fresh_wf n
  | victim _ hv ih =>
    obtain ⟨c1, r, h1, hw1, _⟩ := ih.victim
    rw [h1] at hv
    cases hv
    exact hw1
  | unpin _ hu ih =>
    obtain ⟨c1, h1, hw1, _⟩ := ih.unpin _
    rw [h1] at hu
    cases hu
    exact hw1
  | pin _ hp ih =>
    obtain ⟨c1, h1, hw1, _⟩ := ih.pin _
    rw [h1] at hp
    cases hp
    exact hw1

end Clock
namespace Clock

theorem run_unpins {c : ClockReplacer} (hw : WF c) :
    ∀ (ids : List FrameID), ((tracked c ++ ids).toFinset).card ≤ c.cList.capacity →
      ∃ c1, run c (ids.map Call.unpin) = some (c1, []) ∧ WF c1 ∧
        c1.cList.capacity = c.cList.capacity ∧
        (∀ k, k ∈ tracked c1 ↔ k ∈ tracked c ∨ k ∈ ids) := by
  intro ids
  induction ids generalizing c with
  | nil =>
    intro _
    exact ⟨c, rfl, hw, rfl, fun k => by simp⟩
  | cons id rest ih =>
    intro hcard
    obtain ⟨c1, hun, hw1, hcap1, hsame, hnew, _⟩ := hw.unpin id
    by_cases hk : id ∈ tracked c
    · have e := hsame hk
      subst e
      have hcard2 : ((tracked c1 ++ rest).toFinset).card ≤ c1.cList.capacity := by
        refine le_trans (Finset.card_le_card ?_) hcard
        intro x hx
        simp only [List.toFinset_append, Finset.mem_union, List.mem_toFinset,
          List.mem_cons] at hx ⊢
        tauto
      obtain ⟨c2, hrun, hw2, hcap2, hmem⟩ := ih hw1 hcard2
      refine ⟨c2, by simp only [List.map_cons, run, hun, hrun], hw2, hcap2, ?_⟩
      intro k
      rw [hmem k]
      simp only [List.mem_cons]
      constructor
      · tauto
      · rintro (h | h | h)
        · exact Or.inl h
        · exact Or.inl (h ▸ hk)
        · exact Or.inr h
    · have hsz : c.cList.size ≠ c.cList.capacity := by
        have h1 : (tracked c).toFinset.card = c.cList.size := by
          unfold tracked
          rw [List.toFinset_card_of_nodup hw.list.keys_nodup, hw.list.size_eq]
          simp
        have h2 : (Insert.insert id (tracked c).toFinset).card
            ≤ ((tracked c ++ id :: rest).toFinset).card := by
          apply Finset.card_le_card
          intro x hx
          simp only [Finset.mem_insert, List.mem_toFinset] at hx
          simp only [List.toFinset_append, Finset.mem_union, List.mem_toFinset, List.mem_cons]
          tauto
        have h3 : id ∉ (tracked c).toFinset := by
          rw [List.mem_toFinset]
          exact hk
        rw [Finset.card_insert_of_not_mem h3] at h2
        omega
      obtain ⟨_, htr⟩ := hnew hk hsz
      have hcard2 : ((tracked c1 ++ rest).toFinset).card ≤ c1.cList.capacity := by
        rw [hcap1, htr]
        refine le_trans (Finset.card_le_card ?_) hcard
        intro x hx
        simp only [List.toFinset_append, Finset.mem_union, List.mem_toFinset, List.mem_append,
          List.mem_singleton, List.mem_cons] at hx ⊢
        tauto
      obtain ⟨c2, hrun, hw2, hcap2, hmem⟩ := ih hw1 hcard2
      refine ⟨c2, by simp only [List.map_cons, run, hun, hrun], hw2, by rw [hcap2, hcap1], ?_⟩
      intro k
      rw [hmem k, htr]
      simp only [List.mem_append, List.mem_singleton, List.mem_cons]
      tauto

theorem run_untracked (f : FrameID) :
    ∀ (calls : List Call) (c : ClockReplacer), WF c → f ∉ tracked c → Call.unpin f ∉ calls →
      ∃ c2 rs, run c calls = some (c2, rs) ∧ some f ∉ rs := by
  intro calls
  induction calls with
  | nil =>
    intro c _ _ _
    exact ⟨c, [], rfl, by simp⟩
  | cons call rest ih =>
    intro c hw hf hnot
    have hrest : Call.unpin f ∉ rest := fun h => hnot (List.mem_cons_of_mem _ h)
    cases call with
    | victim =>
      obtain ⟨c1, r, hv, hw1, _, hzero, hpos⟩ := hw.victim
      have hf1 : f ∉ tracked c1 ∧ r ≠ some f := by
        by_cases h0 : Size c = 0
        · obtain ⟨e1, e2⟩ := hzero h0
          subst e1
          subst e2
          exact ⟨hf, by simp⟩
        · obtain ⟨g, p, hr, hg, _, htr, _⟩ := hpos (by omega)
          subst hr
          refine ⟨?_, ?_⟩
          · rw [htr]
            intro hm
            exact hf (List.mem_of_mem_filter hm)
          · intro e
            simp only [Option.some.injEq] at e
            exact hf (e ▸ hg)
      obtain ⟨c2, rs, hrun, hnr⟩ := ih c1 hw1 hf1.1 hrest
      refine ⟨c2, r :: rs, by simp only [run, hv, hrun], ?_⟩
      simp only [List.mem_cons, not_or]
      exact ⟨fun e => hf1.2 e.symm, hnr⟩
    | unpin id =>
      have hid : id ≠ f := by
        intro e
        apply hnot
        rw [e]
        exact List.mem_cons_self _ _
      obtain ⟨c1, hu, hw1, _, hsame, hnew, hfull⟩ := hw.unpin id
      have hf1 : f ∉ tracked c1 := by
        by_cases hk : id ∈ tracked c
        · rw [hsame hk]
          exact hf
        · by_cases hcap : c.cList.size = c.cList.capacity
          · rw [(hfull hk hcap).2]
            exact hf
          · rw [(hnew hk hcap).2]
            simp only [List.mem_append, List.mem_singleton, not_or]
            exact ⟨hf, fun e => hid e.symm⟩
      obtain ⟨c2, rs, hrun, hnr⟩ := ih c1 hw1 hf1 hrest
      exact ⟨c2, rs, by simp only [run, hu, hrun], hnr⟩
    | pin id =>
      obtain ⟨c1, hp, hw1, _, _, _, htr⟩ := hw.pin id
      have hf1 : f ∉ tracked c1 := by
        rw [htr]
        intro hm
        exact hf (List.mem_of_mem_filter hm)
      obtain ⟨c2, rs, hrun, hnr⟩ := ih c1 hw1 hf1 hrest
      exact ⟨c2, rs, by simp only [run, hp, hrun], hnr⟩

/-- C7 fails on the code: `Victim` reads the node under the hand once and never moves on.
After `Unpin(1)`, `Unpin(2)` it returns frame 1 and leaves the reference bit of frame 2
set, where a walk round the list would have cleared it; and in the state where frame 1
under the hand has its bit set and frame 2 has its bit clear, it returns frame 1. -/
theorem victim_evicts_frame_under_hand :
    run (NewClockReplacer 3) [Call.unpin 1, Call.unpin 2] = some (sampleReplacer, []) ∧
    (∃ c1, Victim sampleReplacer = some (c1, some 1) ∧
      (c1.nodes[1]?).map (fun n => (n.key, n.value)) = some (2, true)) ∧
    (∃ c1, Victim sampleSecondChance = some (c1, some 1)) :=
  ⟨rfl, ⟨_, rfl, rfl⟩, ⟨_, rfl⟩⟩

/-- C8: after `Unpin` calls on a fresh replacer whose ids number, without repetition, at
most the pool size, `Size()` is the number of distinct ids; a further `Unpin` of one of
them leaves the replacer as it is, and a further `Unpin` of another id, while there is
room, raises `Size()` by one. -/
theorem unpin_size (poolSize : Nat) (ids : List FrameID)
    (hcap : ids.dedup.length ≤ poolSize) :
    ∃ c, run (NewClockReplacer poolSize) (ids.map Call.unpin) = some (c, []) ∧
      Size c = ids.dedup.length ∧
      (∀ id, id ∈ ids → Unpin c id = some c) ∧
      (∀ id, id ∉ ids → ids.dedup.length < poolSize →
        ∃ c1, Unpin c id = some c1 ∧ Size c1 = Size c + 1) := by
  have hw0 := fresh_wf poolSize
  have hcard : ((tracked (NewClockReplacer poolSize) ++ ids).toFinset).card
      ≤ (NewClockReplacer poolSize).cList.capacity := by
    have : tracked (NewClockReplacer poolSize) = [] := rfl
    rw [this, List.nil_append, List.card_toFinset]
    exact hcap
  obtain ⟨c, hrun, hw, hcapc, hmem⟩ := run_unpins hw0 ids hcard
  have hmem2 : ∀ k, k ∈ tracked c ↔ k ∈ ids := by
    intro k
    rw [hmem k]
    have : tracked (NewClockReplacer poolSize) = [] := rfl
    simp [this]
  have hsize : Size c = ids.dedup.length := by
    unfold Size
    rw [hw.list.size_eq, ← List.card_toFinset]
    have h1 : (tracked c).toFinset = ids.toFinset := by
      ext k
      simp only [List.mem_toFinset]
      exact hmem2 k
    rw [← h1]
    unfold tracked
    rw [List.toFinset_card_of_nodup hw.list.keys_nodup]
    simp
  refine ⟨c, hrun, hsize, ?_, ?_⟩
  · intro id hid
    obtain ⟨c1, hu, _, _, hsame, _⟩ := hw.unpin id
    rw [hu, hsame ((hmem2 id).2 hid)]
  · intro id hid hroom
    obtain ⟨c1, hu, _, _, _, hnew, _⟩ := hw.unpin id
    have hk : id ∉ tracked c := fun h => hid ((hmem2 id).1 h)
    have hne : c.cList.size ≠ c.cList.capacity := by
      have : c.cList.capacity = poolSize := hcapc
      unfold Size at hsize
      omega
    exact ⟨c1, hu, (hnew hk hne).1⟩

theorem unpin_size_witness :
    [1, 2, 1].dedup.length ≤ 3 ∧
    ∃ c, run (NewClockReplacer 3) ([1, 2, 1].map Call.unpin) = some (c, []) ∧
      Size c = [1, 2, 1].dedup.length ∧
      (∀ id, id ∈ [1, 2, 1] → Unpin c id = some c) ∧
      (∀ id, id ∉ [1, 2, 1] → [1, 2, 1].dedup.length < 3 →
        ∃ c1, Unpin c id = some c1 ∧ Size c1 = Size c + 1) :=
  ⟨by decide, unpin_size 3 [1, 2, 1] (by decide)⟩

theorem sampleReplacer_reachable : Reachable sampleReplacer :=
  @Reachable.unpin _ _ 2 (@Reachable.unpin _ _ 1 (Reachable.fresh 3) rfl) rfl

/-- C9: in every state of a replacer used through its methods, `Pin(f)` of a tracked frame
lowers `Size()` by one, and whatever calls follow, as long as none of them is `Unpin(f)`,
they all return and no `Victim` among them returns `f`; `Pin(f)` of a frame that is not
tracked leaves the replacer as it is. -/
theorem pin_untracks (c : ClockReplacer) (hr : Reachable c) (f : FrameID) :
    (hasKey c.cList f = true →
      ∃ c1, Pin c f = some c1 ∧ Size c1 + 1 = Size c ∧
        ∀ calls, Call.unpin f ∉ calls →
          ∃ c2 rs, run c1 calls = some (c2, rs) ∧ some f ∉ rs) ∧
    (hasKey c.cList f = false → Pin c f = some c) := by
  have hw := hr.wf
  obtain ⟨c1, hp, hw1, _, hsame, hsize, htr⟩ := hw.pin f
  refine ⟨?_, ?_⟩
  · intro hk
    have hk2 := (hasKey_iff _ _).1 hk
    refine ⟨c1, hp, hsize hk2, ?_⟩
    intro calls hnot
    apply run_untracked f calls c1 hw1 ?_ hnot
    rw [htr]
    intro hm
    have := (List.mem_filter.1 hm).2
    simp at this
  · intro hk
    have hk2 : f ∉ tracked c := by
      intro h
      have := (hasKey_iff _ _).2 h
      rw [hk] at this
      exact absurd this (by simp)
    rw [hp, hsame hk2]

theorem pin_untracks_witness :
    Reachable sampleReplacer ∧ hasKey sampleReplacer.cList 1 = true ∧
    hasKey sampleReplacer.cList 5 = false ∧
    (∃ c1, Pin sampleReplacer 1 = some c1 ∧ Size c1 + 1 = Size sampleReplacer ∧
      ∀ calls, Call.unpin 1 ∉ calls →
        ∃ c2 rs, run c1 calls = some (c2, rs) ∧ some 1 ∉ rs) ∧
    Pin sampleReplacer 5 = some sampleReplacer :=
  ⟨sampleReplacer_reachable, rfl, rfl,
    (pin_untracks sampleReplacer sampleReplacer_reachable 1).1 rfl,
    (pin_untracks sampleReplacer sampleReplacer_reachable 5).2 rfl⟩

/-- C10: `Victim()` on a replacer with `Size() = 0` returns nil and leaves the replacer as
it is; in every state of a replacer used through its methods with `Size() > 0` it returns
a frame id that was tracked, which is no longer tracked afterwards, and `Size()` is lower
by one. -/
theorem victim_result (c : ClockReplacer) :
    (Size c = 0 → Victim c = some (c, none)) ∧
    (Reachable c → 0 < Size c →
      ∃ c1 f, Victim c = some (c1, some f) ∧ hasKey c.cList f = true ∧
        hasKey c1.cList f = false ∧ Size c1 + 1 = Size c) := by
  refine ⟨?_, ?_⟩
  · intro h0
    unfold Size at h0
    simp only [Victim, h0, if_true]
  · intro hr hpos
    have hw := hr.wf
    obtain ⟨c1, r, hv, hw1, _, _, hsome⟩ := hw.victim
    obtain ⟨f, p, hrf, hft, hsize, htr, _⟩ := hsome hpos
    subst hrf
    refine ⟨c1, f, hv, (hasKey_iff _ _).2 hft, ?_, hsize⟩
    cases hk : hasKey c1.cList f with
    | false => rfl
    | true =>
      have hm : f ∈ tracked c1 := (hasKey_iff _ _).1 hk
      rw [htr] at hm
      have := (List.mem_filter.1 hm).2
      simp at this

theorem victim_result_witness :
    Size (NewClockReplacer 3) = 0 ∧ Reachable sampleReplacer ∧ 0 < Size sampleReplacer ∧
    Victim (NewClockReplacer 3) = some (NewClockReplacer 3, none) ∧
    ∃ c1 f, Victim sampleReplacer = some (c1, some f) ∧
      hasKey sampleReplacer.cList f = true ∧ hasKey c1.cList f = false ∧
      Size c1 + 1 = Size sampleReplacer :=
  ⟨rfl, sampleReplacer_reachable, by decide,
    (victim_result (NewClockReplacer 3)).1 rfl,
    (victim_result sampleReplacer).2 sampleReplacer_reachable (by decide)⟩

end Clock
namespace SkipListPage

theorem blockArraySize_eq : BlockArraySize = 252 := by decide

theorem mask_test (b k : Nat) : ((b &&& (1 <<< k)) != 0) = b.testBit k := by
  rw [Nat.one_shiftLeft]
  cases hb : b.testBit k with
  | true =>
    have h1 : (b &&& 2 ^ k).testBit k = true := by
      rw [Nat.testBit_and, hb, Nat.testBit_two_pow_self]
      rfl
    have h2 : b &&& 2 ^ k ≠ 0 := by
      intro e
      rw [e, Nat.zero_testBit] at h1
      exact absurd h1 (by simp)
    simpa using h2
  | false =>
    have h2 : b &&& 2 ^ k = 0 := by
      apply Nat.eq_of_testBit_eq
      intro j
      rw [Nat.testBit_and, Nat.testBit_two_pow, Nat.zero_testBit]
      by_cases e : k = j
      · subst e
        simp [hb]
      · simp [e]
    simp [h2]

theorem testBit_set (b k j : Nat) :
    (b ||| (1 <<< k)).testBit j = (b.testBit j || decide (k = j)) := by
  rw [Nat.one_shiftLeft, Nat.testBit_or, Nat.testBit_two_pow]

theorem testBit_clear (b k j : Nat) (hj : j < 8) :
    (b &&& (255 ^^^ (1 <<< k))).testBit j = (b.testBit j && !decide (k = j)) := by
  rw [Nat.one_shiftLeft, Nat.testBit_and, Nat.testBit_xor, Nat.testBit_two_pow]
  have h255 : Nat.testBit 255 j = true := by
    interval_cases j <;> rfl
  rw [h255]
  cases decide (k = j) <;> simp

end SkipListPage
namespace SkipListPage

theorem isOccupied_eq (p : SkipListBlockPage) (i : Nat) :
    IsOccupied p i = (p.occuppied[i / 8]?).map (fun b => b.testBit (i % 8)) := by
  unfold IsOccupied
  cases p.occuppied[i / 8]? with
  | none => rfl
  | some b => simp only [Option.map_some', mask_test]

theorem isReadable_eq (p : SkipListBlockPage) (i : Nat) :
    IsReadable p i = (p.readable[i / 8]?).map (fun b => b.testBit (i % 8)) := by
  unfold IsReadable
  cases p.readable[i / 8]? with
  | none => rfl
  | some b => simp only [Option.map_some', mask_test]

theorem Sized.get {p : SkipListBlockPage} (hs : Sized p) {i : Nat} (hi : i < BlockArraySize) :
    ∃ o r e, p.occuppied[i / 8]? = some o ∧ p.readable[i / 8]? = some r ∧
      p.array[i]? = some e := by
  obtain ⟨h1, h2, h3⟩ := hs
  rw [blockArraySize_eq] at hi h1 h2 h3
  have hj : i / 8 < 32 := by omega
  have ho : i / 8 < p.occuppied.length := by rw [h1]; exact hj
  have hr : i / 8 < p.readable.length := by rw [h2]; exact hj
  have ha : i < p.array.length := by rw [h3]; exact hi
  exact ⟨_, _, _, List.getElem?_eq_getElem ho, List.getElem?_eq_getElem hr,
    List.getElem?_eq_getElem ha⟩

/-- What `Insert` does on a slot that is not occupied. -/
theorem insert_free {p : SkipListBlockPage} {i : Nat} {o r : Nat} (k v : Nat)
    (ho : p.occuppied[i / 8]? = some o) (hr : p.readable[i / 8]? = some r)
    (ha : i < p.array.length) (hfree : o.testBit (i % 8) = false) :
    Insert p i k v =
      some ({ occuppied := p.occuppied.set (i / 8) (o ||| (1 <<< (i % 8))),
              readable := p.readable.set (i / 8) (r ||| (1 <<< (i % 8))),
              array := p.array.set i { key := k, value := v } }, true) := by
  have h1 : IsOccupied p i = some false := by
    rw [isOccupied_eq, ho, Option.map_some', hfree]
  simp only [Insert, h1, ha, if_true, ho, hr]

/-- What `Insert` does on a slot that is occupied. -/
theorem insert_occupied {p : SkipListBlockPage} {i : Nat} (k v : Nat)
    (h : IsOccupied p i = some true) : Insert p i k v = some (p, false) := by
  simp only [Insert, h]

/-- What `Remove` does on a slot that is readable. -/
theorem remove_readable {p : SkipListBlockPage} {i : Nat} {r : Nat}
    (hr : p.readable[i / 8]? = some r) (hread : r.testBit (i % 8) = true) :
    Remove p i =
      some { p with readable := p.readable.set (i / 8) (r &&& (255 ^^^ (1 <<< (i % 8)))) } := by
  have h1 : IsReadable p i = some true := by
    rw [isReadable_eq, hr, Option.map_some', hread]
  simp only [Remove, h1, hr]

theorem remove_not_readable {p : SkipListBlockPage} {i : Nat}
    (h : IsReadable p i = some false) : Remove p i = some p := by
  simp only [Remove, h]

theorem getElem?_set_self_of_some {α : Type} {l : List α} {j : Nat} {a : α} (b : α)
    (h : l[j]? = some a) : (l.set j b)[j]? = some b := by
  have hlt : j < l.length := by
    by_contra hc
    rw [List.getElem?_eq_none (by omega)] at h
    exact absurd h (by simp)
  rw [List.getElem?_set_self hlt]

end SkipListPage
namespace SkipListPage

theorem zeroPage_bitsOk : BitsOk zeroPage := by
  refine ⟨⟨List.length_replicate _ _, List.length_replicate _ _, List.length_replicate _ _⟩, ?_⟩
  intro j o r _ hr b _ hb
  have h0 : r = 0 := by
    simp only [zeroPage] at hr
    rw [List.getElem?_replicate] at hr
    split at hr
    · exact (Option.some.inj hr).symm
    · exact absurd hr (by simp)
  rw [h0, Nat.zero_testBit] at hb
  exact absurd hb (by simp)

theorem BitsOk.after_insert {p p1 : SkipListBlockPage} {i k v : Nat} {b : Bool}
    (hp : BitsOk p) (h : Insert p i k v = some (p1, b)) : BitsOk p1 := by
  unfold Insert at h
  cases ho : IsOccupied p i with
  | none => rw [ho] at h; exact absurd h (by simp)
  | some occ =>
    rw [ho] at h
    cases occ with
    | true =>
      simp only [Option.some.injEq, Prod.mk.injEq] at h
      rw [← h.1]
      exact hp
    | false =>
      simp only at h
      split at h
      · rename_i ha
        cases hoo : p.occuppied[i / 8]? with
        | none => rw [hoo] at h; exact absurd h (by simp)
        | some o =>
          cases hrr : p.readable[i / 8]? with
          | none => rw [hoo, hrr] at h; exact absurd h (by simp)
          | some r =>
            rw [hoo, hrr] at h
            simp only [Option.some.injEq, Prod.mk.injEq] at h
            rw [← h.1]
            obtain ⟨⟨s1, s2, s3⟩, hbits⟩ := hp
            refine ⟨⟨by simpa using s1, by simpa using s2, by simpa using s3⟩, ?_⟩
            intro j o1 r1 ho1 hr1 bit hbit hset
            simp only at ho1 hr1
            by_cases e : i / 8 = j
            · subst e
              rw [getElem?_set_self_of_some _ hoo] at ho1
              rw [getElem?_set_self_of_some _ hrr] at hr1
              cases ho1
              cases hr1
              rw [testBit_set] at hset ⊢
              rcases Bool.or_eq_true _ _ ▸ hset with h1 | h1
              · rw [hbits _ o r hoo hrr bit hbit h1]
                rfl
              · rw [h1]
                simp
            · rw [List.getElem?_set_ne e] at ho1 hr1
              exact hbits j o1 r1 ho1 hr1 bit hbit hset
      · exact absurd h (by simp)

theorem BitsOk.after_remove {p p1 : SkipListBlockPage} {i : Nat}
    (hp : BitsOk p) (h : Remove p i = some p1) : BitsOk p1 := by
  unfold Remove at h
  cases hr : IsReadable p i with
  | none => rw [hr] at h; exact absurd h (by simp)
  | some rd =>
    rw [hr] at h
    cases rd with
    | false =>
      simp only [Option.some.injEq] at h
      rw [← h]
      exact hp
    | true =>
      simp only at h
      cases hrr : p.readable[i / 8]? with
      | none => rw [hrr] at h; exact absurd h (by simp)
      | some r =>
        rw [hrr] at h
        simp only [Option.some.injEq] at h
        rw [← h]
        obtain ⟨⟨s1, s2, s3⟩, hbits⟩ := hp
        refine ⟨⟨s1, by simpa using s2, s3⟩, ?_⟩
        intro j o1 r1 ho1 hr1 bit hbit hset
        simp only at ho1 hr1
        by_cases e : i / 8 = j
        · subst e
          rw [getElem?_set_self_of_some _ hrr] at hr1
          cases hr1
          rw [testBit_clear _ _ _ hbit] at hset
          have h1 : r.testBit bit = true := by
            cases hb : r.testBit bit with
            | true => rfl
            | false => rw [hb] at hset; exact absurd hset (by simp)
          exact hbits _ o1 r ho1 hrr bit hbit h1
        · rw [List.getElem?_set_ne e] at hr1
          exact hbits j o1 r1 ho1 hr1 bit hbit hset

theorem Reachable.bitsOk {p : SkipListBlockPage} (hr : Reachable p) : BitsOk p := by
  induction hr with
  | zero => exact zeroPage_bitsOk
  | insert _ h ih => exact ih.after_insert h
  | remove _ h ih => exact ih.after_remove h

set_option maxRecDepth 100000 in
theorem samplePage_reachable : Reachable samplePage :=
  @Reachable.remove _ _ 1
    (@Reachable.insert _ _ 1 1 1 true
      (@Reachable.insert _ _ 0 0 0 true Reachable.zero rfl) rfl) rfl

end SkipListPage
namespace SkipListPage

theorem Reachable.readable_occupied {p : SkipListBlockPage} (hr : Reachable p) {i : Nat}
    (hi : i < BlockArraySize) :
    ∃ o r, IsOccupied p i = some o ∧ IsReadable p i = some r ∧ (r = true → o = true) := by
  obtain ⟨hs, hbits⟩ := hr.bitsOk
  obtain ⟨o, r, _, ho, hrd, _⟩ := hs.get hi
  refine ⟨o.testBit (i % 8), r.testBit (i % 8), ?_, ?_, ?_⟩
  · rw [isOccupied_eq, ho]
    rfl
  · rw [isReadable_eq, hrd]
    rfl
  · exact hbits _ o r ho hrd (i % 8) (Nat.mod_lt _ (by norm_num))

/-- C14: in every block page reached from a page of zero bytes through `Insert` and
`Remove`, for every slot index below `BlockArraySize` both bitmap tests return, and
`IsReadable(i)` implies `IsOccupied(i)`. -/
theorem readable_implies_occupied (p : SkipListBlockPage) (hr : Reachable p) (i : Nat)
    (hi : i < BlockArraySize) :
    ∃ o r, IsOccupied p i = some o ∧ IsReadable p i = some r ∧ (r = true → o = true) :=
  hr.readable_occupied hi

/-- The instance of C14 for `samplePage` and the tombstone slot 1. -/
theorem readable_implies_occupied_witness :
    Reachable samplePage ∧ 1 < BlockArraySize ∧
    ∃ o r, IsOccupied samplePage 1 = some o ∧ IsReadable samplePage 1 = some r ∧
      (r = true → o = true) :=
  ⟨samplePage_reachable, by decide,
    readable_implies_occupied samplePage samplePage_reachable 1 (by decide)⟩

/-- C15: `Remove(i)` of a readable slot returns a page in which slot `i` is not readable
and whose occupied bitmap and pairs are those of before; when the slot was occupied, as it
is in every page reached from a page of zero bytes, it is still occupied and a following
`Insert(i, k, v)` returns false and leaves the page as it is.  `Remove(i)` of a slot that
is not readable leaves the page as it is. -/
theorem remove_leaves_tombstone (p : SkipListBlockPage) (i k v : Nat)
    (hi : i < BlockArraySize) :
    (IsReadable p i = some true →
      ∃ p1, Remove p i = some p1 ∧ IsReadable p1 i = some false ∧
        p1.occuppied = p.occuppied ∧ p1.array = p.array ∧
        (IsOccupied p i = some true →
          IsOccupied p1 i = some true ∧ Insert p1 i k v = some (p1, false))) ∧
    (Reachable p → IsReadable p i = some true → IsOccupied p i = some true) ∧
    (IsReadable p i = some false → Remove p i = some p) := by
  refine ⟨?_, ?_, remove_not_readable⟩
  · intro hrd
    rw [isReadable_eq] at hrd
    cases hrr : p.readable[i / 8]? with
    | none => rw [hrr] at hrd; exact absurd hrd (by simp)
    | some r =>
      rw [hrr] at hrd
      have hbit : r.testBit (i % 8) = true := by simpa using hrd
      refine ⟨_, remove_readable hrr hbit, ?_, rfl, rfl, ?_⟩
      · rw [isReadable_eq]
        simp only
        rw [getElem?_set_self_of_some _ hrr, Option.map_some',
          testBit_clear _ _ _ (Nat.mod_lt _ (by norm_num))]
        simp
      · intro hocc
        exact ⟨hocc, insert_occupied k v hocc⟩
  · intro hr hrd
    obtain ⟨o, r, ho, hr1, himp⟩ := hr.readable_occupied hi
    rw [hr1] at hrd
    rw [ho, himp (Option.some.inj hrd)]

/-- The instance of C15 for the page of the test after its first two inserts: the readable
slot 1. -/
theorem remove_leaves_tombstone_witness :
    1 < BlockArraySize ∧
    IsReadable sampleLive 1 = some true ∧
    ∃ p1, Remove sampleLive 1 = some p1 ∧ IsReadable p1 1 = some false ∧
      p1.occuppied = sampleLive.occuppied ∧ p1.array = sampleLive.array ∧
      (IsOccupied sampleLive 1 = some true →
        IsOccupied p1 1 = some true ∧ Insert p1 1 9 9 = some (p1, false)) :=
  ⟨by decide, by decide,
    (remove_leaves_tombstone sampleLive 1 9 9 (by decide)).1 (by decide)⟩

end SkipListPage
namespace SkipListPage

/-- C16: on a block page with the sizes of its array types and for a slot index below
`BlockArraySize`, the occupancy test returns; when the slot is not occupied,
`Insert(i, k, v)` returns true and afterwards the slot holds the pair, `ValueAt(i)` is `v`
and `IsOccupied(i)` and `IsReadable(i)` hold; when the slot is occupied, `Insert(i, k, v)`
returns false and the page, pairs and bitmaps, is the same. -/
theorem insert_into_slot (p : SkipListBlockPage) (hs : Sized p) (i k v : Nat)
    (hi : i < BlockArraySize) :
    (∃ b, IsOccupied p i = some b) ∧
    (IsOccupied p i = some false →
      ∃ p1, Insert p i k v = some (p1, true) ∧
        p1.array[i]? = some { key := k, value := v } ∧ ValueAt p1 i = some v ∧
        IsOccupied p1 i = some true ∧ IsReadable p1 i = some true) ∧
    (IsOccupied p i = some true → Insert p i k v = some (p, false)) := by
  obtain ⟨o, r, e, ho, hr, ha⟩ := hs.get hi
  have hlt : i < p.array.length := by rw [hs.2.2]; exact hi
  refine ⟨⟨_, by rw [isOccupied_eq, ho]; rfl⟩, ?_, insert_occupied k v⟩
  intro hfree
  rw [isOccupied_eq, ho] at hfree
  have hbit : o.testBit (i % 8) = false := by simpa using hfree
  refine ⟨_, insert_free k v ho hr hlt hbit, ?_, ?_, ?_, ?_⟩
  · exact getElem?_set_self_of_some _ ha
  · simp only [ValueAt]
    rw [getElem?_set_self_of_some _ ha]
    rfl
  · rw [isOccupied_eq]
    simp only
    rw [getElem?_set_self_of_some _ ho, Option.map_some', testBit_set]
    simp
  · rw [isReadable_eq]
    simp only
    rw [getElem?_set_self_of_some _ hr, Option.map_some', testBit_set]
    simp

theorem sampleLive_sized : Sized sampleLive := by
  refine ⟨?_, ?_, ?_⟩ <;>
    simp only [sampleLive, List.length_cons, List.length_append, List.length_replicate,
      List.length_nil] <;> decide

/-- The instance of C16 for the page of the test after two inserts: slot 2 is free and
slot 1 is occupied. -/
theorem insert_into_slot_witness :
    Sized sampleLive ∧ 2 < BlockArraySize ∧ IsOccupied sampleLive 2 = some false ∧
    IsOccupied sampleLive 1 = some true ∧
    (∃ p1, Insert sampleLive 2 7 9 = some (p1, true) ∧
      p1.array[2]? = some { key := 7, value := 9 } ∧ ValueAt p1 2 = some 9 ∧
      IsOccupied p1 2 = some true ∧ IsReadable p1 2 = some true) ∧
    Insert sampleLive 1 7 9 = some (sampleLive, false) :=
  ⟨sampleLive_sized, by decide, by decide, by decide,
    (insert_into_slot sampleLive sampleLive_sized 2 7 9 (by decide)).2.1 (by decide),
    (insert_into_slot sampleLive sampleLive_sized 1 7 9 (by decide)).2.2 (by decide)⟩

end SkipListPage
namespace SkipList

variable {K : Type} [LinearOrder K] [Inhabited K]

/-- The removal of an absent key changes nothing, for keys of any linearly ordered type. -/
theorem absent_remove_noop (h : Heap K) (hr : Reachable h) (k : K) (v : Nat)
    (r : List (Value K × Nat)) (hscan : scan h 0 none none = some r)
    (habs : Value.key k ∉ r.map Prod.fst) :
    RemoveOnMem h 0 (Value.key k) v = some h := by
  obtain ⟨lv, L, hi⟩ := hr.inv
  obtain ⟨h1, lv1, hrem, _, _, _, hsame⟩ := hi.remove k v
  rw [hi.scan_all] at hscan
  have hr2 : r = asValues (entries h (lv 0)) := (Option.some.inj hscan).symm
  have hk : k ∉ (entries h (lv 0)).map Prod.fst := by
    intro hm
    apply habs
    rw [hr2]
    simp only [asValues, List.map_map, List.mem_map, Function.comp] at hm ⊢
    obtain ⟨e, he, hek⟩ := hm
    exact ⟨e, he, by rw [← hek]⟩
  rw [hrem, hsame hk]

/-- C17: on every list built through the interface, when the key `k` is not among the keys that
a scan of the whole list yields, `RemoveOnMem(k, v)` returns and the heap afterwards is the
heap of before: every node, forward pointer, value and `CurMaxLevel`.  The keys are those of
any declared scalar type `t`: integer, float or string. -/
theorem remove_absent_unchanged (t : TypeID) (h : Heap (KeyOf t)) (hr : Reachable h) (k : KeyOf t)
    (v : Nat)
    (r : List (Value (KeyOf t) × Nat)) (hscan : scan h 0 none none = some r)
    (habs : Value.key k ∉ r.map Prod.fst) :
    RemoveOnMem h 0 (Value.key k) v = some h :=
  absent_remove_noop h hr k v r hscan habs

/-- The instance of C17 for `sampleList`, which holds the keys 3 and 5, and the key 4. -/
theorem remove_absent_unchanged_witness :
    Reachable sampleList ∧
    scan sampleList 0 none none = some [(Value.key 3, 30), (Value.key 5, 55)] ∧
    Value.key 4 ∉ [(Value.key 3, 30), (Value.key 5, 55)].map Prod.fst ∧
    RemoveOnMem sampleList 0 (Value.key 4) 0 = some sampleList :=
  ⟨sampleList_reachable, rfl, by decide,
    remove_absent_unchanged TypeID.Integer sampleList sampleList_reachable 4 0 _ rfl (by decide)⟩

end SkipList
namespace SamehadaUtil

theorem low_two_bytes (n : Nat) : n % 256 + 256 * (n / 256 % 256) = n % 65536 := by omega

theorem high_two_bytes (n : Nat) :
    n / 65536 % 256 + 256 * (n / 16777216 % 256) = n / 65536 % 65536 := by omega

theorem pack_eq (r : RID) :
    PackRIDtoUint32 r = some ((r.PageId % 4294967296).toNat % 65536
      + 65536 * (r.SlotNum % 65536)) := by
  have h : PackRIDtoUint32 r = some ((r.PageId % 4294967296).toNat % 256
      + 256 * ((r.PageId % 4294967296).toNat / 256 % 256)
      + 65536 * (r.SlotNum % 256) + 16777216 * (r.SlotNum / 256 % 256)) := rfl
  rw [h, low_two_bytes, ← low_two_bytes r.SlotNum]
  congr 1
  omega

theorem unpack_eq (w : Nat) :
    UnpackUint32toRID w = some
      { PageId := SkipList.wrapInt32 ((w % 65536 : Nat) : Int),
        SlotNum := w / 65536 % 65536 } := by
  have h : UnpackUint32toRID w = some
      { PageId := SkipList.wrapInt32
          ((w % 256 + 256 * (w / 256 % 256) + 65536 * 0 + 16777216 * 0 : Nat) : Int),
        SlotNum := w / 65536 % 256 + 256 * (w / 16777216 % 256) + 65536 * 0
          + 16777216 * 0 } := rfl
  rw [h]
  simp only [Nat.mul_zero, Nat.add_zero, low_two_bytes, high_two_bytes]

theorem wrap_small (n : Nat) (h : n < 65536) : SkipList.wrapInt32 (n : Int) = n := by
  simp only [SkipList.wrapInt32]
  omega

end SamehadaUtil
namespace SamehadaUtil

/-- C18: for every `RID` whose fields are an `int32` and a `uint32`, `PackRIDtoUint32`
returns the word with the low 16 bits of `PageId` in bits 0..15 and the low 16 bits of
`SlotNum` in bits 16..31, and `UnpackUint32toRID` of that word is the `RID` exactly when
`0 <= PageId < 65536` and `SlotNum < 65536`; and for every `uint32` word `w`,
`UnpackUint32toRID(w)` returns and packing its result gives `w`. -/
theorem rid_pack_roundtrip (r : RID) (hr : r.InRange) (w : Nat) (hw : w < 4294967296) :
    (∃ p, PackRIDtoUint32 r = some p ∧
      (p : Int) = r.PageId % 65536 + 65536 * ((r.SlotNum : Int) % 65536) ∧
      (UnpackUint32toRID p = some r ↔
        (0 ≤ r.PageId ∧ r.PageId < 65536 ∧ r.SlotNum < 65536))) ∧
    (∃ r1, UnpackUint32toRID w = some r1 ∧ r1.InRange ∧ PackRIDtoUint32 r1 = some w) := by
  obtain ⟨pid, slot⟩ := r
  obtain ⟨h1, h2, h3⟩ := hr
  simp only at h1 h2 h3
  have hlow : (pid % 4294967296).toNat % 65536 < 65536 := Nat.mod_lt _ (by norm_num)
  have hpid : (((pid % 4294967296).toNat % 65536 : Nat) : Int) = pid % 65536 := by omega
  have hw1 : w % 65536 < 65536 := Nat.mod_lt _ (by norm_num)
  have hw2 : w / 65536 % 65536 < 65536 := Nat.mod_lt _ (by norm_num)
  have hs1 : slot % 65536 < 65536 := Nat.mod_lt _ (by norm_num)
  refine ⟨⟨_, pack_eq _, ?_, ?_⟩, ⟨_, unpack_eq w, ?_, ?_⟩⟩
  · simp only
    push_cast
    rw [← hpid]
    push_cast
    rfl
  · rw [unpack_eq]
    simp only [Option.some.injEq, RID.mk.injEq]
    have e1 : ((pid % 4294967296).toNat % 65536 + 65536 * (slot % 65536)) % 65536
        = (pid % 4294967296).toNat % 65536 := by omega
    have e2 : ((pid % 4294967296).toNat % 65536 + 65536 * (slot % 65536)) / 65536 % 65536
        = slot % 65536 := by omega
    rw [e1, e2, wrap_small _ hlow, hpid]
    constructor
    · rintro ⟨e3, e4⟩
      omega
    · rintro ⟨e3, e4, e5⟩
      omega
  · simp only [RID.InRange]
    rw [wrap_small _ hw1]
    omega
  · rw [pack_eq]
    simp only [Option.some.injEq]
    rw [wrap_small _ hw1]
    have e3 : (((w % 65536 : Nat) : Int) % 4294967296).toNat = w % 65536 := by omega
    rw [e3]
    omega

/-- The instance of C18 for the row identifier (3, 5) and the word 327683. -/
theorem rid_pack_roundtrip_witness :
    RID.InRange { PageId := 3, SlotNum := 5 } ∧ 327683 < 4294967296 ∧
    PackRIDtoUint32 { PageId := 3, SlotNum := 5 } = some 327683 ∧
    (∃ p, PackRIDtoUint32 { PageId := 3, SlotNum := 5 } = some p ∧
      (p : Int) = (3 : Int) % 65536 + 65536 * (((5 : Nat) : Int) % 65536) ∧
      (UnpackUint32toRID p = some { PageId := 3, SlotNum := 5 } ↔
        (0 ≤ (3 : Int) ∧ (3 : Int) < 65536 ∧ 5 < 65536))) ∧
    (∃ r1, UnpackUint32toRID 327683 = some r1 ∧ r1.InRange ∧
      PackRIDtoUint32 r1 = some 327683) :=
  ⟨by decide, by decide, by decide,
    (rid_pack_roundtrip { PageId := 3, SlotNum := 5 } (by decide) 327683 (by decide)).1,
    (rid_pack_roundtrip { PageId := 3, SlotNum := 5 } (by decide) 327683 (by decide)).2⟩

end SamehadaUtil
namespace Storage

theorem copy_length (d : List Nat) (lo hi : Nat) (src : List Nat) (h1 : lo ≤ hi)
    (h2 : hi ≤ d.length) (h3 : src.length = hi - lo) :
    (SamehadaUtil.copy d lo hi src).length = d.length := by
  simp only [SamehadaUtil.copy, List.length_append, List.length_take, List.length_drop]
  omega

theorem copy_get_lt (d : List Nat) (lo hi : Nat) (src : List Nat) (h2 : lo ≤ d.length)
    (i : Nat) (hi1 : i < lo) : (SamehadaUtil.copy d lo hi src)[i]? = d[i]? := by
  simp only [SamehadaUtil.copy, List.append_assoc]
  rw [List.getElem?_append_left (by simp only [List.length_take]; omega)]
  rw [List.getElem?_take_of_lt hi1]

theorem copy_get_ge (d : List Nat) (lo hi : Nat) (src : List Nat) (h1 : lo ≤ hi)
    (h2 : hi ≤ d.length) (h3 : src.length = hi - lo)
    (i : Nat) (hi1 : hi ≤ i) : (SamehadaUtil.copy d lo hi src)[i]? = d[i]? := by
  simp only [SamehadaUtil.copy]
  rw [List.getElem?_append_right (by simp only [List.length_append, List.length_take]; omega)]
  rw [List.getElem?_drop]
  congr 1
  simp only [List.length_append, List.length_take]
  omega

theorem copy_get_mid (d : List Nat) (lo hi : Nat) (src : List Nat) (h1 : lo ≤ hi)
    (h2 : hi ≤ d.length) (h3 : src.length = hi - lo)
    (j : Nat) (hj : j < hi - lo) : (SamehadaUtil.copy d lo hi src)[lo + j]? = src[j]? := by
  simp only [SamehadaUtil.copy]
  rw [List.getElem?_append_left (by simp only [List.length_append, List.length_take]; omega)]
  rw [List.getElem?_append_right (by simp only [List.length_take]; omega)]
  rw [List.getElem?_take_of_lt (by simp only [List.length_take]; omega)]
  congr 1
  simp only [List.length_take]
  omega

end Storage
namespace Storage

/-- C19: on a page whose buffer has `PageSize` bytes and for every LSN `l` (an `int32`),
`SetLSN(l)` returns; afterwards the bytes at the offsets 4, 5, 6 and 7 are the four bytes,
lowest first, of the two's complement of `l`, every other byte of the buffer and the other
fields of the page are those of before, and `GetLSN()` returns `l`. -/
theorem set_lsn_then_get (p : Page) (d : List Nat) (l : Int) (hd : p.data = some d)
    (hlen : d.length = PageSize) (hl : -2147483648 ≤ l ∧ l < 2147483648) :
    ∃ p1 d1, SetLSN p l = some p1 ∧ p1.data = some d1 ∧ d1.length = PageSize ∧
      d1[4]? = some ((l % 4294967296).toNat % 256) ∧
      d1[5]? = some ((l % 4294967296).toNat / 256 % 256) ∧
      d1[6]? = some ((l % 4294967296).toNat / 65536 % 256) ∧
      d1[7]? = some ((l % 4294967296).toNat / 16777216 % 256) ∧
      (∀ i, i < 4 ∨ 8 ≤ i → d1[i]? = d[i]?) ∧
      p1.id = p.id ∧ p1.pinCount = p.pinCount ∧ p1.isDirty = p.isDirty ∧
      GetLSN p1 = some l := by
  have hlen8 : OffsetLSN + SizeOfLSN ≤ d.length := by rw [hlen]; decide
  have hsl : (Serialize l).length = OffsetLSN + SizeOfLSN - OffsetLSN := rfl
  have hle : OffsetLSN ≤ OffsetLSN + SizeOfLSN := by decide
  have hmid := copy_get_mid d OffsetLSN (OffsetLSN + SizeOfLSN) (Serialize l) hle hlen8 hsl
  have h4 := hmid 0 (by decide)
  have h5 := hmid 1 (by decide)
  have h6 := hmid 2 (by decide)
  have h7 := hmid 3 (by decide)
  have hl1 := copy_length d OffsetLSN (OffsetLSN + SizeOfLSN) (Serialize l) hle hlen8 hsl
  refine ⟨Page.mk p.id p.pinCount p.isDirty
      (some (SamehadaUtil.copy d OffsetLSN (OffsetLSN + SizeOfLSN) (Serialize l))),
    SamehadaUtil.copy d OffsetLSN (OffsetLSN + SizeOfLSN) (Serialize l),
    by simp only [SetLSN, hd, hlen8, if_true], rfl, by rw [hl1, hlen],
    h4, h5, h6, h7, ?_, rfl, rfl, rfl, ?_⟩
  · intro i hi
    rcases hi with hi | hi
    · exact copy_get_lt d _ _ _ (by rw [hlen]; decide) i hi
    · exact copy_get_ge d _ _ _ hle hlen8 hsl i hi
  · have hlen8b : OffsetLSN + SizeOfLSN ≤
        (SamehadaUtil.copy d OffsetLSN (OffsetLSN + SizeOfLSN) (Serialize l)).length := by
      rw [hl1]; exact hlen8
    simp only [GetLSN, GetData, hlen8b, if_true]
    have hb : ((SamehadaUtil.copy d OffsetLSN (OffsetLSN + SizeOfLSN) (Serialize l)).drop
        OffsetLSN).take (OffsetLSN + SizeOfLSN - OffsetLSN) = Serialize l := by
      apply List.ext_getElem?
      intro j
      by_cases hj : j < 4
      · have hj2 : j < OffsetLSN + SizeOfLSN - OffsetLSN := hj
        rw [List.getElem?_take_of_lt hj2, List.getElem?_drop]
        exact hmid j hj2
      · rw [List.getElem?_eq_none (by simp only [List.length_take]; change min 4 _ ≤ j; omega),
          List.getElem?_eq_none (by change 4 ≤ j; omega)]
    rw [hb]
    simp only [NewLSNFromBytes, Serialize, SamehadaUtil.putInt32, SamehadaUtil.putUint32,
      SamehadaUtil.Uint32, Option.map_some', Option.some.injEq, SkipList.wrapInt32]
    omega

/-- The instance of C19 for a new empty page and the LSN 258. -/
theorem set_lsn_then_get_witness :
    (NewEmpty 0).data = some (List.replicate PageSize 0) ∧
    (List.replicate PageSize 0).length = PageSize ∧
    (-2147483648 ≤ (258 : Int) ∧ (258 : Int) < 2147483648) ∧
    ∃ p1 d1, SetLSN (NewEmpty 0) 258 = some p1 ∧ p1.data = some d1 ∧ d1.length = PageSize ∧
      d1[4]? = some (((258 : Int) % 4294967296).toNat % 256) ∧
      d1[5]? = some (((258 : Int) % 4294967296).toNat / 256 % 256) ∧
      d1[6]? = some (((258 : Int) % 4294967296).toNat / 65536 % 256) ∧
      d1[7]? = some (((258 : Int) % 4294967296).toNat / 16777216 % 256) ∧
      (∀ i, i < 4 ∨ 8 ≤ i → d1[i]? = (List.replicate PageSize 0)[i]?) ∧
      p1.id = (NewEmpty 0).id ∧ p1.pinCount = (NewEmpty 0).pinCount ∧
      p1.isDirty = (NewEmpty 0).isDirty ∧
      GetLSN p1 = some 258 :=
  ⟨rfl, List.length_replicate _ _, by decide,
    set_lsn_then_get (NewEmpty 0) (List.replicate PageSize 0) 258 rfl
      (List.length_replicate _ _) (by decide)⟩

end Storage
namespace Storage

theorem runPins_nonneg (calls : List PinCall) :
    ∀ p : Page, 0 ≤ p.pinCount ∧ p.pinCount < 2147483648 → NoOverflow p calls →
      0 ≤ (runPins p calls).pinCount := by
  induction calls with
  | nil => intro p h _; exact h.1
  | cons c rest ih =>
    intro p h hno
    cases c with
    | inc =>
      obtain ⟨hlt, hrest⟩ := hno
      apply ih _ _ hrest
      simp only [IncPinCount, SkipList.wrapInt32]
      omega
    | dec =>
      have hrest : NoOverflow (DecPinCount p) rest := hno
      apply ih _ _ hrest
      unfold DecPinCount
      split
      · rename_i hpos
        simp only [SkipList.wrapInt32]
        omega
      · exact h

/-- C20: on a page whose pin count is an `int32`, `DecPinCount` lowers the pin count by one
when it is greater than 0 and leaves the page as it is when the pin count is 0; and after
any sequence of `IncPinCount` and `DecPinCount` calls on a new page, none of the
`IncPinCount` calls being made at the greatest `int32`, the pin count is not negative. -/
theorem dec_pin_count_floor (p : Page)
    (hp : -2147483648 ≤ p.pinCount ∧ p.pinCount < 2147483648)
    (id : Int) (isDirty : Bool) (data : Option (List Nat)) (calls : List PinCall)
    (hno : NoOverflow (New id isDirty data) calls) :
    (0 < PinCount p → PinCount (DecPinCount p) = PinCount p - 1) ∧
    (PinCount p = 0 → DecPinCount p = p) ∧
    PinCount (New id isDirty data) = 1 ∧
    0 ≤ PinCount (runPins (New id isDirty data) calls) := by
  refine ⟨?_, ?_, rfl, ?_⟩
  · intro hpos
    simp only [PinCount] at hpos ⊢
    simp only [DecPinCount, gt_iff_lt, hpos, if_true, SkipList.wrapInt32]
    omega
  · intro h0
    simp only [PinCount] at h0
    simp only [DecPinCount, h0, gt_iff_lt, lt_self_iff_false, if_false]
  · exact runPins_nonneg calls _ ⟨by simp [New], by simp [New]⟩ hno

/-- The instance of C20 for a new empty page and the calls dec, dec, inc, dec, dec. -/
theorem dec_pin_count_floor_witness :
    (-2147483648 ≤ (NewEmpty 0).pinCount ∧ (NewEmpty 0).pinCount < 2147483648) ∧
    NoOverflow (New 0 false none)
      [PinCall.dec, PinCall.dec, PinCall.inc, PinCall.dec, PinCall.dec] ∧
    PinCount (DecPinCount (NewEmpty 0)) = 0 ∧
    PinCount (DecPinCount (DecPinCount (NewEmpty 0))) = 0 ∧
    0 ≤ PinCount (runPins (New 0 false none)
      [PinCall.dec, PinCall.dec, PinCall.inc, PinCall.dec, PinCall.dec]) :=
  ⟨by decide, by decide, by decide, by decide,
    (dec_pin_count_floor (NewEmpty 0) (by decide) 0 false none
      [PinCall.dec, PinCall.dec, PinCall.inc, PinCall.dec, PinCall.dec] (by decide)).2.2.2⟩

end Storage
namespace DiskIndex

open SkipListPage

theorem zeroPage_occ (o : Nat) (ho : o < BlockArraySize) :
    zeroPage.occuppied[o / 8]? = some 0 := by
  rw [blockArraySize_eq] at ho
  simp only [zeroPage]
  rw [List.getElem?_replicate, if_pos (by rw [blockArraySize_eq]; omega)]

theorem zeroPage_rd (o : Nat) (ho : o < BlockArraySize) :
    zeroPage.readable[o / 8]? = some 0 := zeroPage_occ o ho

theorem zeroPage_isOccupied (o : Nat) (ho : o < BlockArraySize) :
    IsOccupied zeroPage o = some false := by
  rw [isOccupied_eq, zeroPage_occ o ho]
  simp

/-- The zero page after `Insert(o, k, v)`. -/
theorem zeroPage_insert (o k v : Nat) (ho : o < BlockArraySize) :
    ∃ p1, SkipListPage.Insert zeroPage o k v = some (p1, true) ∧
      IsOccupied p1 o = some true ∧ IsReadable p1 o = some true ∧ ValueAt p1 o = some v ∧
      p1.array[o]? = some { key := k, value := v } := by
  have hs : Sized zeroPage :=
    ⟨List.length_replicate _ _, List.length_replicate _ _, List.length_replicate _ _⟩
  obtain ⟨_, r, e, _, hr, ha⟩ := hs.get ho
  have hlt : o < zeroPage.array.length := by rw [hs.2.2]; exact ho
  refine ⟨_, insert_free k v (zeroPage_occ o ho) hr hlt (by simp), ?_, ?_, ?_,
    getElem?_set_self_of_some _ ha⟩
  · rw [isOccupied_eq]
    simp only
    rw [getElem?_set_self_of_some _ (zeroPage_occ o ho), Option.map_some', testBit_set]
    simp
  · rw [isReadable_eq]
    simp only
    rw [getElem?_set_self_of_some _ hr, Option.map_some', testBit_set]
    simp
  · simp only [ValueAt]
    rw [getElem?_set_self_of_some _ ha]
    rfl

theorem fuel_one_block : NumBlocks
    { pageId := 0, size := 0, lsn := 0, blockPageIds := [1] } * BlockArraySize = 251 + 1 := by
  decide

end DiskIndex
namespace DiskIndex

open SkipListPage

theorem insert_sample (ext : External) (key : List Nat) (value : Nat)
    (p1 : SkipListBlockPage)
    (h1 : SkipListPage.Insert zeroPage (hash ext key % BlockArraySize) (hash ext key) value
      = some (p1, true)) :
    Insert ext sampleIndex key value = some (storedIndex p1, none) := by
  have ho : hash ext key % BlockArraySize < BlockArraySize := Nat.mod_lt _ (by decide)
  have hocc := zeroPage_isOccupied _ ho
  simp [Insert, sampleIndex, FetchPage, NumBlocks, newSkipListIterator, GetBlockPageId,
    fuel_one_block, insertLoop, blockOf, hocc, h1, storeBlock, UnpinPage, storedIndex,
    Nat.mod_one]

end DiskIndex
namespace DiskIndex

open SkipListPage

theorem getValue_stored (ext : External) (key : List Nat) (p1 : SkipListBlockPage)
    (hocc : IsOccupied p1 (hash ext key % BlockArraySize) = some true)
    (hrd : IsReadable p1 (hash ext key % BlockArraySize) = some true) :
    GetValue ext (storedIndex p1) key = none := by
  simp [GetValue, storedIndex, FetchPage, NumBlocks, newSkipListIterator, GetBlockPageId,
    fuel_one_block, getValueLoop, blockOf, hocc, hrd, KeyAt, Nat.mod_one]

theorem insert_stored_dup (ext : External) (key : List Nat) (value : Nat)
    (p1 : SkipListBlockPage)
    (hocc : IsOccupied p1 (hash ext key % BlockArraySize) = some true)
    (hval : ValueAt p1 (hash ext key % BlockArraySize) = some value) :
    Insert ext (storedIndex p1) key value = some (storedIndex p1, some duplicateError) := by
  simp [Insert, storedIndex, FetchPage, NumBlocks, newSkipListIterator, GetBlockPageId,
    fuel_one_block, insertLoop, blockOf, hocc, hval, UnpinPage, Nat.mod_one]

/-- The loop of `GetValue` returns the list it was entered with: nothing is ever
appended, since the comparison through the nil pointer of `KeyAt` never returns. -/
theorem getValueLoop_result (ext : External) (key : List Nat) (hp : SkipListHeaderPage)
    (ob oo : Nat) :
    ∀ (fuel : Nat) (bpm : BufferPoolManager) (itr : skipListIterator) (res : List Nat)
      (bpm1 : BufferPoolManager) (itr1 : skipListIterator) (res1 : List Nat),
      getValueLoop ext key hp ob oo fuel bpm itr res = some (bpm1, itr1, res1) →
      res1 = res := by
  intro fuel
  induction fuel with
  | zero =>
    intro bpm itr res bpm1 itr1 res1 h
    simp [getValueLoop] at h
  | succ n ih =>
    intro bpm itr res bpm1 itr1 res1 h
    unfold getValueLoop at h
    cases hb : blockOf bpm itr.blockId with
    | none => rw [hb] at h; exact absurd h (by simp)
    | some bp =>
      rw [hb] at h
      simp only at h
      cases hocc : IsOccupied bp itr.offset with
      | none => rw [hocc] at h; exact absurd h (by simp)
      | some occ =>
        rw [hocc] at h
        cases occ with
        | false =>
          simp only [Option.some.injEq, Prod.mk.injEq] at h
          exact h.2.2.symm
        | true =>
          simp only at h
          cases hrd : IsReadable bp itr.offset with
          | none => rw [hrd] at h; exact absurd h (by simp)
          | some rd =>
            rw [hrd] at h
            cases rd with
            | true => simp [KeyAt] at h
            | false =>
              simp only [Bool.false_eq_true, if_false] at h
              cases hn : next bpm hp itr with
              | none => rw [hn] at h; exact absurd h (by simp)
              | some r =>
                obtain ⟨bpm2, itr2⟩ := r
                rw [hn] at h
                simp only at h
                split at h
                · simp only [Option.some.injEq, Prod.mk.injEq] at h
                  exact h.2.2.symm
                · exact ih _ _ _ _ _ _ h

theorem getValue_result (ext : External) (sl sl1 : SkipList) (key : List Nat)
    (res : List Nat) (h : GetValue ext sl key = some (sl1, res)) : res = [] := by
  unfold GetValue at h
  split at h
  · simp only at h
    split at h
    · exact absurd h (by simp)
    · split at h
      · exact absurd h (by simp)
      · split at h
        · exact absurd h (by simp)
        · rename_i hl
          simp only [Option.some.injEq, Prod.mk.injEq] at h
          rw [← h.2]
          exact getValueLoop_result _ _ _ _ _ _ _ _ _ _ _ _ hl
  · exact absurd h (by simp)

end DiskIndex
namespace DiskIndex

open SkipListPage

theorem contents_get (bpm : BufferPoolManager) (id : Nat) :
    (contents bpm)[id]? = (bpm.pages[id]?).map (fun f => f.data) := by
  simp only [contents, List.getElem?_map]

theorem contents_set_same (bpm : BufferPoolManager) (id : Nat) (f g : Frame)
    (hf : bpm.pages[id]? = some f) (hg : g.data = f.data) :
    contents { pages := bpm.pages.set id g } = contents bpm := by
  apply List.ext_getElem?
  intro j
  simp only [contents, List.getElem?_map]
  by_cases e : id = j
  · subst e
    rw [getElem?_set_self_of_some _ hf, hf]
    simp only [Option.map_some', hg]
  · rw [List.getElem?_set_ne e]

theorem fetch_of_contents {bpm : BufferPoolManager} {id : Nat} {d : PageData}
    (h : (contents bpm)[id]? = some d) :
    ∃ bpm1, FetchPage bpm id = some (bpm1, d) ∧ contents bpm1 = contents bpm := by
  rw [contents_get] at h
  cases hf : bpm.pages[id]? with
  | none => rw [hf] at h; exact absurd h (by simp)
  | some f =>
    rw [hf] at h
    simp only [Option.map_some', Option.some.injEq] at h
    subst h
    exact ⟨BufferPoolManager.mk (bpm.pages.set id (Frame.mk f.data (f.pinCount + 1) f.isDirty)),
      by simp only [FetchPage, hf], contents_set_same bpm id f _ hf rfl⟩

theorem contents_unpin (bpm : BufferPoolManager) (id : Nat) (dirty : Bool) :
    contents (UnpinPage bpm id dirty) = contents bpm := by
  unfold UnpinPage
  cases hf : bpm.pages[id]? with
  | none => rfl
  | some f => exact contents_set_same bpm id f _ hf rfl

theorem blockOf_of_contents {bpm : BufferPoolManager} {id : Nat} {p : SkipListBlockPage}
    (h : (contents bpm)[id]? = some (PageData.block p)) : blockOf bpm id = some p := by
  rw [contents_get] at h
  cases hf : bpm.pages[id]? with
  | none => rw [hf] at h; exact absurd h (by simp)
  | some f =>
    rw [hf] at h
    simp only [Option.map_some', Option.some.injEq] at h
    obtain ⟨d, pc, dr⟩ := f
    simp only at h
    subst h
    simp only [blockOf, hf]

theorem contents_of_blockOf {bpm : BufferPoolManager} {id : Nat} {p : SkipListBlockPage}
    (h : blockOf bpm id = some p) : (contents bpm)[id]? = some (PageData.block p) := by
  rw [contents_get]
  unfold blockOf at h
  split at h
  · rename_i hf
    simp only [Option.some.injEq] at h
    rw [hf, h]
    rfl
  · exact absurd h (by simp)

theorem contents_of_headerOf {bpm : BufferPoolManager} {id : Nat} {hp : SkipListHeaderPage}
    (h : headerOf bpm id = some hp) : (contents bpm)[id]? = some (PageData.header hp) := by
  rw [contents_get]
  unfold headerOf at h
  split at h
  · rename_i hf
    simp only [Option.some.injEq] at h
    rw [hf, h]
    rfl
  · exact absurd h (by simp)

/-- One call of `next` on a well-formed directory: the pool data stay, and the iterator
moves to the next slot of the probe order. -/
theorem next_spec {C : List PageData} {hp : SkipListHeaderPage} (hd : Dir C hp)
    {bpm : BufferPoolManager} (hc : contents bpm = C) {itr : skipListIterator}
    (hs : OnSlot hp itr) :
    ∃ bpm1 itr1, next bpm hp itr = some (bpm1, itr1) ∧ contents bpm1 = C ∧
      OnSlot hp itr1 ∧
      ((itr.offset + 1 < BlockArraySize ∧ itr1.bucket = itr.bucket ∧
          itr1.offset = itr.offset + 1) ∨
       (itr.offset + 1 = BlockArraySize ∧ itr.bucket + 1 < NumBlocks hp ∧
          itr1.bucket = itr.bucket + 1 ∧ itr1.offset = 0) ∨
       (itr.offset + 1 = BlockArraySize ∧ itr.bucket + 1 = NumBlocks hp ∧
          itr1.bucket = 0 ∧ itr1.offset = 0)) := by
  obtain ⟨hb, ho, hid⟩ := hs
  by_cases hlt : itr.offset + 1 < BlockArraySize
  · refine ⟨bpm, { itr with offset := itr.offset + 1 }, ?_, hc, ⟨hb, hlt, hid⟩,
      Or.inl ⟨hlt, rfl, rfl⟩⟩
    simp only [next, ge_iff_le, Nat.not_le.2 hlt, if_false]
  · have heq : itr.offset + 1 = BlockArraySize := by omega
    have hge : itr.offset + 1 ≥ BlockArraySize := by omega
    have hpos : 0 < NumBlocks hp := by omega
    by_cases hbl : itr.bucket + 1 < NumBlocks hp
    · obtain ⟨id, p, hg, hcid⟩ := hd _ hbl
      have hc1 : (contents (UnpinPage bpm itr.blockId true))[id]? =
          some (PageData.block p) := by rw [contents_unpin, hc]; exact hcid
      obtain ⟨bpm2, hf, hc2⟩ := fetch_of_contents hc1
      refine ⟨bpm2, { bucket := itr.bucket + 1, offset := 0, blockId := id }, ?_,
        by rw [hc2, contents_unpin, hc], ⟨hbl, (by decide : 0 < BlockArraySize), hg⟩, Or.inr (Or.inl ⟨heq, hbl, rfl, rfl⟩)⟩
      simp only [next, hge, if_true, ge_iff_le, Nat.not_le.2 hbl, if_false, hg, hf]
    · have hbe : itr.bucket + 1 = NumBlocks hp := by omega
      have hge2 : itr.bucket + 1 ≥ NumBlocks hp := by omega
      obtain ⟨id, p, hg, hcid⟩ := hd 0 hpos
      have hc1 : (contents (UnpinPage bpm itr.blockId true))[id]? =
          some (PageData.block p) := by rw [contents_unpin, hc]; exact hcid
      obtain ⟨bpm2, hf, hc2⟩ := fetch_of_contents hc1
      refine ⟨bpm2, { bucket := 0, offset := 0, blockId := id }, ?_,
        by rw [hc2, contents_unpin, hc], ⟨hpos, (by decide : 0 < BlockArraySize), hg⟩,
        Or.inr (Or.inr ⟨heq, hbe, rfl, rfl⟩)⟩
      simp only [next, hge, if_true, hge2, hg, hf]

end DiskIndex
namespace DiskIndex

open SkipListPage

theorem Full.dir {C : List PageData} {hp : SkipListHeaderPage} {value : Nat}
    (hf : Full C hp value) : Dir C hp := by
  intro b hb
  obtain ⟨id, p, h1, h2, _⟩ := hf b hb
  exact ⟨id, p, h1, h2⟩

/-- On a full directory without the value, the loop of `Insert` goes once round the
directory and leaves with `err` as it was on entry; the pool data are not written. -/
theorem insertLoop_full {C : List PageData} {hp : SkipListHeaderPage} {value : Nat}
    (hf : Full C hp value) (hash ob oo : Nat) (hob : ob < NumBlocks hp)
    (hoo : oo < BlockArraySize) :
    ∀ (f : Nat) (bpm : BufferPoolManager) (itr : skipListIterator) (err : Option String),
      contents bpm = C → OnSlot hp itr → 1 ≤ f →
      (252 * itr.bucket + itr.offset + f = 252 * ob + oo + 252 * NumBlocks hp ∨
        252 * itr.bucket + itr.offset + f = 252 * ob + oo) →
      ∃ bpm1 itr1, insertLoop hash value hp ob oo f bpm itr err = some (bpm1, itr1, err) ∧
        contents bpm1 = C := by
  intro f
  induction f with
  | zero =>
    intro _ _ _ _ _ h1
    omega
  | succ n ih =>
    intro bpm itr err hc hs _ hinv
    obtain ⟨id, p, hg, hcid, hslots⟩ := hf itr.bucket hs.1
    have hid : itr.blockId = id := by
      have := hs.2.2
      rw [hg] at this
      exact (Option.some.inj this).symm
    obtain ⟨w, hocc, hval, hne⟩ := hslots itr.offset hs.2.1
    have hblock : blockOf bpm itr.blockId = some p := by
      apply blockOf_of_contents
      rw [hc, hid]
      exact hcid
    obtain ⟨bpm1, itr1, hn, hc1, hs1, hmove⟩ := next_spec hf.dir hc hs
    have hw : (w == value) = false := by simpa using hne
    have ho1 := hs1.2.1
    have ho := hs.2.1
    rw [blockArraySize_eq] at hoo ho1 ho hmove
    by_cases hwrap : itr1.bucket = ob ∧ itr1.offset = oo
    · refine ⟨bpm1, itr1, ?_, hc1⟩
      simp only [insertLoop, hblock, hocc, hval, Option.map_some', hw, if_true,
        Bool.not_true, Bool.false_eq_true, if_false, hn, hwrap, and_self]
    · have hn1 : 1 ≤ n := by
        have := hs1.1
        have := hs.1
        omega
      have hinv1 : 252 * itr1.bucket + itr1.offset + n = 252 * ob + oo + 252 * NumBlocks hp ∨
          252 * itr1.bucket + itr1.offset + n = 252 * ob + oo := by
        have := hs1.1
        have := hs.1
        omega
      obtain ⟨bpm2, itr2, hrec, hc2⟩ := ih bpm1 itr1 err hc1 hs1 hn1 hinv1
      refine ⟨bpm2, itr2, ?_, hc2⟩
      simp only [insertLoop, hblock, hocc, hval, Option.map_some', hw, if_true,
        Bool.not_true, Bool.false_eq_true, if_false, hn, hwrap, hrec]

end DiskIndex
namespace DiskIndex

open SkipListPage

theorem fullPage_slot (o : Nat) (ho : o < BlockArraySize) :
    IsOccupied fullPage o = some true ∧ ValueAt fullPage o = some 1 := by
  rw [blockArraySize_eq] at ho
  constructor
  · rw [isOccupied_eq]
    simp only [fullPage]
    by_cases h : o / 8 < 31
    · rw [List.getElem?_append_left (by simpa using h), List.getElem?_replicate, if_pos h]
      have hm : o % 8 < 8 := Nat.mod_lt _ (by norm_num)
      simp only [Option.map_some', Option.some.injEq]
      interval_cases (o % 8) <;> rfl
    · have h31 : o / 8 = 31 := by omega
      have hm : o % 8 < 4 := by omega
      rw [h31, List.getElem?_append_right (by simp)]
      simp only [List.length_replicate, Nat.sub_self, List.getElem?_cons_zero,
        Option.map_some', Option.some.injEq]
      interval_cases (o % 8) <;> rfl
  · simp only [ValueAt, fullPage]
    rw [List.getElem?_replicate, if_pos (by rw [blockArraySize_eq]; exact ho)]
    rfl

/-- C12 fails on the code: on an index with at least one block page in which every slot of
every block page of the directory is occupied and holds a value other than `value`,
`Insert(key, value)` returns the nil error, as it does after storing a pair; the pool data
are those of before. -/
theorem insert_on_full_directory_returns_nil (ext : External) (sl : SkipList)
    (hp : SkipListHeaderPage) (key : List Nat) (value : Nat)
    (hh : headerOf sl.bpm sl.headerPageId = some hp) (hnb : 0 < NumBlocks hp)
    (hfull : ∀ b, b < NumBlocks hp → ∃ id p, GetBlockPageId hp b = some id ∧
      blockOf sl.bpm id = some p ∧
      ∀ o, o < BlockArraySize →
        ∃ w, IsOccupied p o = some true ∧ ValueAt p o = some w ∧ w ≠ value) :
    ∃ sl1, Insert ext sl key value = some (sl1, none) ∧
      sl1.headerPageId = sl.headerPageId ∧ contents sl1.bpm = contents sl.bpm := by
  have hf : Full (contents sl.bpm) hp value := by
    intro b hb
    obtain ⟨id, p, h1, h2, h3⟩ := hfull b hb
    exact ⟨id, p, h1, contents_of_blockOf h2, h3⟩
  obtain ⟨bpm1, hfetch, hc1⟩ := fetch_of_contents (contents_of_headerOf hh)
  have hob : hash ext key % NumBlocks hp < NumBlocks hp := Nat.mod_lt _ hnb
  have hoo : hash ext key % BlockArraySize < BlockArraySize := Nat.mod_lt _ (by decide)
  obtain ⟨id, p, hg, hcid, _⟩ := hf _ hob
  obtain ⟨bpm2, hfetch2, hc2⟩ := fetch_of_contents (hc1 ▸ hcid)
  have hfuel : 1 ≤ NumBlocks hp * BlockArraySize := by
    rw [blockArraySize_eq]
    omega
  obtain ⟨bpm3, itr3, hloop, hc3⟩ := insertLoop_full hf (hash ext key) _ _ hob hoo
    (NumBlocks hp * BlockArraySize) bpm2
    { bucket := hash ext key % NumBlocks hp, offset := hash ext key % BlockArraySize,
      blockId := id } none (by rw [hc2, hc1]) ⟨hob, hoo, hg⟩ hfuel
    (by left; simp only; rw [blockArraySize_eq]; omega)
  refine ⟨{ sl with bpm := UnpinPage (UnpinPage bpm3 itr3.blockId true) sl.headerPageId false },
    ?_, rfl, ?_⟩
  · have hne : ¬ (NumBlocks hp = 0) := by omega
    simp only [Insert, hfetch, hne, if_false, newSkipListIterator, hg, hfetch2, hloop]
  · simp only [contents_unpin, hc3]

/-- The instance of C12 for `fullIndex`, whose slots all hold the value 1, and the value
2. -/
theorem insert_on_full_directory_returns_nil_witness :
    headerOf fullIndex.bpm fullIndex.headerPageId
      = some { pageId := 0, size := 0, lsn := 0, blockPageIds := [1] } ∧
    blockOf fullIndex.bpm 1 = some fullPage ∧
    (∀ o, o < BlockArraySize → IsOccupied fullPage o = some true ∧
      ValueAt fullPage o = some 1) ∧
    ∃ sl1, Insert sampleExternal fullIndex [1] 2 = some (sl1, none) ∧
      sl1.headerPageId = fullIndex.headerPageId ∧
      contents sl1.bpm = contents fullIndex.bpm :=
  ⟨rfl, rfl, fullPage_slot,
    insert_on_full_directory_returns_nil sampleExternal fullIndex
      { pageId := 0, size := 0, lsn := 0, blockPageIds := [1] } [1] 2 rfl (by decide)
      (fun b hb => ⟨1, fullPage, by
        have : b = 0 := by simpa [NumBlocks] using hb
        subst this
        rfl, rfl, fun o ho => ⟨1, (fullPage_slot o ho).1, (fullPage_slot o ho).2, by decide⟩⟩)⟩

end DiskIndex
namespace DiskIndex

open SkipListPage

/-- Whatever the hash function is, two of the 253 one-byte keys 0, ..., 252 start their
probe at the same offset. -/
theorem exists_colliding_keys (ext : External) :
    ∃ a b : Nat, a < 253 ∧ b < 253 ∧ a ≠ b ∧
      hash ext [a] % BlockArraySize = hash ext [b] % BlockArraySize := by
  have hcard : Fintype.card (Fin 252) < Fintype.card (Fin 253) := by
    simp only [Fintype.card_fin]
    norm_num
  obtain ⟨x, y, hne, heq⟩ := Fintype.exists_ne_map_eq_of_card_lt
    (fun i : Fin 253 => (⟨hash ext [i.val] % 252, Nat.mod_lt _ (by norm_num)⟩ : Fin 252))
    hcard
  refine ⟨x.val, y.val, x.isLt, y.isLt, fun e => hne (Fin.ext e), ?_⟩
  have := congrArg Fin.val heq
  simpa [blockArraySize_eq] using this

/-- C11 fails on the code: on an index of one block page of zero bytes, `Insert(key, value)`
returns nil and stores the pair in a readable slot, and the following `GetValue(key)` does
not return: the comparison goes through the nil pointer that `KeyAt` returns.  On no index
and for no key does `GetValue` return a list with an element. -/
theorem getValue_after_insert_panics (ext : External) (key : List Nat) (value : Nat) :
    (∃ sl1 b, Insert ext sampleIndex key value = some (sl1, none) ∧
      blockOf sl1.bpm 1 = some b ∧
      b.array[hash ext key % BlockArraySize]?
        = some { key := hash ext key, value := value } ∧
      IsReadable b (hash ext key % BlockArraySize) = some true ∧
      GetValue ext sl1 key = none) ∧
    (∀ (sl sl2 : SkipList) (res : List Nat), GetValue ext sl key = some (sl2, res) →
      res = []) := by
  have ho : hash ext key % BlockArraySize < BlockArraySize := Nat.mod_lt _ (by decide)
  obtain ⟨p1, hins, hocc, hrd, _, harr⟩ := zeroPage_insert _ (hash ext key) value ho
  exact ⟨⟨storedIndex p1, p1, insert_sample ext key value p1 hins, rfl, harr, hrd,
    getValue_stored ext key p1 hocc hrd⟩, fun sl sl2 res h => getValue_result ext sl sl2 key res h⟩

/-- C13 fails on the code: whatever the hash function is, there are two different keys
such that on an index of one block page of zero bytes, after `Insert(k1, value)` has
stored its pair, `Insert(k2, value)` returns the duplicate error although no pair with the
key `k2` was ever inserted: the loop compares the value of the slot alone. -/
theorem insert_rejects_value_of_other_key (ext : External) (value : Nat) :
    ∃ (k1 k2 : List Nat) (sl1 : SkipList), k1 ≠ k2 ∧
      Insert ext sampleIndex k1 value = some (sl1, none) ∧
      Insert ext sl1 k2 value = some (sl1, some duplicateError) := by
  obtain ⟨a, b, _, _, hne, hcol⟩ := exists_colliding_keys ext
  have ho : hash ext [a] % BlockArraySize < BlockArraySize := Nat.mod_lt _ (by decide)
  obtain ⟨p1, hins, hocc, _, hval, _⟩ := zeroPage_insert _ (hash ext [a]) value ho
  refine ⟨[a], [b], storedIndex p1, ?_, insert_sample ext [a] value p1 hins, ?_⟩
  · intro e
    exact hne (List.singleton_inj.1 e)
  · apply insert_stored_dup
    · rw [← hcol]; exact hocc
    · rw [← hcol]; exact hval

end DiskIndex
namespace SkipList

variable {K : Type} [LinearOrder K] [Inhabited K]

/-- C30 (amended): for every list level `L >= 1` and every run of coin flips with `s`
successes before the first failure, `s + 1` being an `int32`, `GetNodeLevel` returns
`min(s + 1, L)`, which lies in `1..L`. -/
theorem getNodeLevel_is_min (L : Int) (s : Nat) (hL : 1 ≤ L)
    (hs : (s : Int) + 1 ≤ 2147483647) :
    GetNodeLevel L s = min ((s : Int) + 1) L ∧ 1 ≤ GetNodeLevel L s ∧
      GetNodeLevel L s ≤ L := by
  have hw : wrapInt32 (1 + (s : Int)) = (s : Int) + 1 := by
    simp only [wrapInt32]
    omega
  unfold GetNodeLevel
  rw [hw]
  omega

/-- The instance of C30 for a list of level 3 and five successes. -/
theorem getNodeLevel_is_min_witness :
    (1 : Int) ≤ 3 ∧ ((5 : Nat) : Int) + 1 ≤ 2147483647 ∧
    GetNodeLevel 3 5 = min (((5 : Nat) : Int) + 1) 3 ∧ 1 ≤ GetNodeLevel 3 5 ∧
      GetNodeLevel 3 5 ≤ 3 :=
  ⟨by decide, by decide, getNodeLevel_is_min 3 5 (by decide) (by decide)⟩

/-- C30 as stated fails: after 2147483647 successes the `int32` counter has wrapped, and
`GetNodeLevel` on a list of level 1 returns -2147483648, which is neither `min(s + 1, L)`
nor within `1..L`. -/
theorem getNodeLevel_wraps_below_one :
    GetNodeLevel 1 2147483647 = -2147483648 ∧
    GetNodeLevel 1 2147483647 ≠ min (((2147483647 : Nat) : Int) + 1) 1 ∧
    ¬ (1 ≤ GetNodeLevel 1 2147483647) := by
  decide

end SkipList
namespace SkipList

variable {K : Type} [LinearOrder K] [Inhabited K]

theorem sampleOne_reachable : Reachable sampleOne :=
  @Reachable.insert Int _ _ _ 5 50 0
    (@Reachable.fresh Int _ 1 (Value.key 0) maxUint32 sampleFresh rfl (by decide) (by decide))
    rfl

/-- The value argument of a removal is ignored, for keys of any linearly ordered type. -/
theorem value_ignored_by_remove (h : Heap K) (k : K) (v1 v2 : Nat) :
    (∀ sl key, RemoveOnMem h sl key v1 = RemoveOnMem h sl key v2) ∧
    (Reachable h →
      ∃ h1, RemoveOnMem h 0 (Value.key k) v1 = some h1 ∧
        RemoveOnMem h 0 (Value.key k) v2 = some h1 ∧
        GetValueOnMem h1 0 (Value.key k) = some maxUint32) := by
  refine ⟨fun _ _ => rfl, ?_⟩
  intro hr
  obtain ⟨lv, L, hi⟩ := hr.inv
  obtain ⟨h1, lv1, hrem, hi1, hent, _⟩ := hi.remove k v1
  refine ⟨h1, hrem, hrem, ?_⟩
  rw [hi1.getValue k, hent, lookupD_erase_self]

/-- C28: `RemoveOnMem(k, v1)` and `RemoveOnMem(k, v2)` give the same result on every heap, list
and key; and on a list built through the interface `RemoveOnMem(k, v2)` returns a list in which
the lookup of `k` reports not-found, whatever value `k` was stored with.  The keys are those of
any declared scalar type `t`: integer, float or string. -/
theorem remove_ignores_value (t : TypeID) (h : Heap (KeyOf t)) (k : KeyOf t) (v1 v2 : Nat) :
    (∀ sl key, RemoveOnMem h sl key v1 = RemoveOnMem h sl key v2) ∧
    (Reachable h →
      ∃ h1, RemoveOnMem h 0 (Value.key k) v1 = some h1 ∧
        RemoveOnMem h 0 (Value.key k) v2 = some h1 ∧
        GetValueOnMem h1 0 (Value.key k) = some maxUint32) :=
  value_ignored_by_remove h k v1 v2

/-- The instance of C28 for `sampleList`, where key 5 is stored with the value 55, and the
values 55 and 7. -/
theorem remove_ignores_value_witness :
    Reachable sampleList ∧ GetValueOnMem sampleList 0 (Value.key 5) = some 55 ∧
    ∃ h1, RemoveOnMem sampleList 0 (Value.key 5) 55 = some h1 ∧
      RemoveOnMem sampleList 0 (Value.key 5) 7 = some h1 ∧
      GetValueOnMem h1 0 (Value.key 5) = some maxUint32 :=
  ⟨sampleList_reachable, rfl,
    (remove_ignores_value TypeID.Integer sampleList 5 55 7).2 sampleList_reachable⟩

/-- A removal leaves `CurMaxLevel` as it was, for keys of any linearly ordered type. -/
theorem level_kept_by_remove (h : Heap K) (hr : Reachable h) (k : K) (v : Nat) :
    ∃ h1, RemoveOnMem h 0 (Value.key k) v = some h1 ∧
      (h1[0]?).map (fun n => n.CurMaxLevel) = (h[0]?).map (fun n => n.CurMaxLevel) := by
  obtain ⟨lv, L, hi⟩ := hr.inv
  obtain ⟨h1, lv1, hrem, hi1, _⟩ := hi.remove k v
  exact ⟨h1, hrem, by rw [hi1.curMax, hi.curMax]⟩

/-- C22 fails on the code: on every list built through the interface `RemoveOnMem` returns a
list whose `CurMaxLevel` is the one of before; the loop that should lower it compares the top
forward pointer of the header with the header, and an empty level points at the sentinel.  The
keys are those of any declared scalar type `t`: integer, float or string. -/
theorem remove_keeps_level (t : TypeID) (h : Heap (KeyOf t)) (hr : Reachable h) (k : KeyOf t)
    (v : Nat) :
    ∃ h1, RemoveOnMem h 0 (Value.key k) v = some h1 ∧
      (h1[0]?).map (fun n => n.CurMaxLevel) = (h[0]?).map (fun n => n.CurMaxLevel) :=
  level_kept_by_remove h hr k v

/-- The instance of C22 for the list that holds the key 5 alone at level 2: after
`RemoveOnMem(5, 50)` both levels are empty, the header points at the sentinel at the levels
0 and 1, and `CurMaxLevel` is still 2. -/
theorem remove_keeps_level_witness :
    Reachable sampleOne ∧
    (sampleOne[0]?).map (fun n => n.CurMaxLevel) = some 2 ∧
    readForward sampleOne 0 1 = some (some 2) ∧
    RemoveOnMem sampleOne 0 (Value.key 5) 50 = some sampleEmptied ∧
    readForward sampleEmptied 0 0 = some (some 1) ∧
    readForward sampleEmptied 0 1 = some (some 1) ∧
    (sampleEmptied[0]?).map (fun n => n.CurMaxLevel) = some 2 ∧
    ∃ h1, RemoveOnMem sampleOne 0 (Value.key 5) 50 = some h1 ∧
      (h1[0]?).map (fun n => n.CurMaxLevel)
        = (sampleOne[0]?).map (fun n => n.CurMaxLevel) :=
  ⟨sampleOne_reachable, rfl, rfl, rfl, rfl, rfl, rfl,
    remove_keeps_level TypeID.Integer sampleOne sampleOne_reachable 5 50⟩

end SkipList
namespace SkipListPage

theorem other_bit {i j : Nat} (hij : i ≠ j) (hb : i / 8 = j / 8) : i % 8 ≠ j % 8 := by
  omega

/-- A write of bit `i % 8` of byte `i / 8` of a bitmap leaves the test of any other slot
as it was. -/
theorem bitmap_set_other {bm : List Nat} {i j b0 b1 : Nat}
    (hget : bm[i / 8]? = some b0)
    (hbit : b1.testBit (j % 8) = b0.testBit (j % 8) ∨ i / 8 ≠ j / 8) :
    ((bm.set (i / 8) b1)[j / 8]?).map (fun b => b.testBit (j % 8))
      = (bm[j / 8]?).map (fun b => b.testBit (j % 8)) := by
  by_cases hb : i / 8 = j / 8
  · rw [← hb, getElem?_set_self_of_some _ hget, hget]
    rcases hbit with h | h
    · simp only [Option.map_some', h]
    · exact absurd hb h
  · rw [List.getElem?_set_ne hb]

theorem insert_other_slot {p p1 : SkipListBlockPage} {i j k v : Nat} {b : Bool}
    (hij : i ≠ j) (h : Insert p i k v = some (p1, b)) :
    IsOccupied p1 j = IsOccupied p j ∧ IsReadable p1 j = IsReadable p j ∧
      ValueAt p1 j = ValueAt p j := by
  unfold Insert at h
  cases ho : IsOccupied p i with
  | none => rw [ho] at h; exact absurd h (by simp)
  | some occ =>
    rw [ho] at h
    cases occ with
    | true =>
      simp only [Option.some.injEq, Prod.mk.injEq] at h
      rw [← h.1]
      exact ⟨rfl, rfl, rfl⟩
    | false =>
      simp only at h
      split at h
      · cases hoo : p.occuppied[i / 8]? with
        | none => rw [hoo] at h; exact absurd h (by simp)
        | some o =>
          cases hrr : p.readable[i / 8]? with
          | none => rw [hoo, hrr] at h; exact absurd h (by simp)
          | some r =>
            rw [hoo, hrr] at h
            simp only [Option.some.injEq, Prod.mk.injEq] at h
            rw [← h.1]
            have hbit : ∀ x : Nat, (x ||| (1 <<< (i % 8))).testBit (j % 8)
                = x.testBit (j % 8) ∨ i / 8 ≠ j / 8 := by
              intro x
              by_cases hb : i / 8 = j / 8
              · left
                rw [testBit_set]
                have := other_bit hij hb
                simp [this]
              · exact Or.inr hb
            refine ⟨?_, ?_, ?_⟩
            · rw [isOccupied_eq, isOccupied_eq]
              exact bitmap_set_other hoo (hbit o)
            · rw [isReadable_eq, isReadable_eq]
              exact bitmap_set_other hrr (hbit r)
            · simp only [ValueAt]
              rw [List.getElem?_set_ne hij]
      · exact absurd h (by simp)

theorem remove_other_slot {p p1 : SkipListBlockPage} {i j : Nat}
    (hij : i ≠ j) (h : Remove p i = some p1) :
    IsOccupied p1 j = IsOccupied p j ∧ IsReadable p1 j = IsReadable p j ∧
      ValueAt p1 j = ValueAt p j := by
  unfold Remove at h
  cases hr : IsReadable p i with
  | none => rw [hr] at h; exact absurd h (by simp)
  | some rd =>
    rw [hr] at h
    cases rd with
    | false =>
      simp only [Option.some.injEq] at h
      rw [← h]
      exact ⟨rfl, rfl, rfl⟩
    | true =>
      simp only at h
      cases hrr : p.readable[i / 8]? with
      | none => rw [hrr] at h; exact absurd h (by simp)
      | some r =>
        rw [hrr] at h
        simp only [Option.some.injEq] at h
        rw [← h]
        refine ⟨rfl, ?_, rfl⟩
        rw [isReadable_eq, isReadable_eq]
        apply bitmap_set_other hrr
        by_cases hb : i / 8 = j / 8
        · left
          rw [testBit_clear _ _ _ (Nat.mod_lt _ (by norm_num))]
          have := other_bit hij hb
          simp [this]
        · exact Or.inr hb

theorem Sized.insert_returns {p : SkipListBlockPage} (hs : Sized p) {i : Nat}
    (hi : i < BlockArraySize) (k v : Nat) : ∃ p1 b, Insert p i k v = some (p1, b) := by
  obtain ⟨o, r, e, ho, hr, _⟩ := hs.get hi
  have hlt : i < p.array.length := by rw [hs.2.2]; exact hi
  cases hb : o.testBit (i % 8) with
  | false => exact ⟨_, true, insert_free k v ho hr hlt hb⟩
  | true =>
    refine ⟨p, false, insert_occupied k v ?_⟩
    rw [isOccupied_eq, ho, Option.map_some', hb]

theorem Sized.remove_returns {p : SkipListBlockPage} (hs : Sized p) {i : Nat}
    (hi : i < BlockArraySize) : ∃ p1, Remove p i = some p1 := by
  obtain ⟨o, r, e, ho, hr, _⟩ := hs.get hi
  cases hb : r.testBit (i % 8) with
  | true => exact ⟨_, remove_readable hr hb⟩
  | false =>
    refine ⟨p, remove_not_readable ?_⟩
    rw [isReadable_eq, hr, Option.map_some', hb]

/-- C29: `BlockArraySize` is 252, each bitmap has 32 bytes and the byte index `i / 8` of a
slot index below `BlockArraySize` is below 32; on a block page with the sizes of its array
types `Insert(i, k, v)` and `Remove(i)` return; and on every block page, whenever they
return, `IsOccupied(j)`, `IsReadable(j)` and `ValueAt(j)` of every other slot index `j`
are what they were. -/
theorem slot_independence (p : SkipListBlockPage) (i j k v : Nat) (hij : i ≠ j)
    (hi : i < BlockArraySize) :
    BlockArraySize = 252 ∧ (BlockArraySize - 1) / 8 + 1 = 32 ∧ i / 8 < 32 ∧
    (Sized p → (∃ p1 b, Insert p i k v = some (p1, b)) ∧ ∃ p1, Remove p i = some p1) ∧
    (∀ p1 b, Insert p i k v = some (p1, b) →
      IsOccupied p1 j = IsOccupied p j ∧ IsReadable p1 j = IsReadable p j ∧
        ValueAt p1 j = ValueAt p j) ∧
    (∀ p1, Remove p i = some p1 →
      IsOccupied p1 j = IsOccupied p j ∧ IsReadable p1 j = IsReadable p j ∧
        ValueAt p1 j = ValueAt p j) := by
  refine ⟨blockArraySize_eq, by decide, ?_, fun hs => ⟨hs.insert_returns hi k v,
    hs.remove_returns hi⟩, fun p1 b h => insert_other_slot hij h,
    fun p1 h => remove_other_slot hij h⟩
  rw [blockArraySize_eq] at hi
  omega

/-- The instance of C29 for the page of the test after two inserts and the slots 1 and 0:
`Remove(1)` and `Insert(1, 7, 9)` leave slot 0 as it is. -/
theorem slot_independence_witness :
    (1 : Nat) ≠ 0 ∧ 1 < BlockArraySize ∧ Sized sampleLive ∧
    Remove sampleLive 1 = some samplePage ∧
    IsReadable samplePage 1 = some false ∧
    (IsOccupied samplePage 0 = IsOccupied sampleLive 0 ∧
      IsReadable samplePage 0 = IsReadable sampleLive 0 ∧
      ValueAt samplePage 0 = ValueAt sampleLive 0) ∧
    ((∃ p1 b, Insert sampleLive 1 7 9 = some (p1, b)) ∧ ∃ p1, Remove sampleLive 1 = some p1) :=
  ⟨by decide, by decide, sampleLive_sized, rfl, by decide,
    (slot_independence sampleLive 1 0 7 9 (by decide) (by decide)).2.2.2.2.2 samplePage rfl,
    (slot_independence sampleLive 1 0 7 9 (by decide) (by decide)).2.2.2.1 sampleLive_sized⟩

end SkipListPage
namespace Clock

theorem setNext_value {nodes nodes1 : List node} {p : Nat} {v : Option Nat}
    (h : setNext nodes p v = some nodes1) (a : Nat) :
    (nodes1[a]?).map (fun n => n.value) = (nodes[a]?).map (fun n => n.value) := by
  unfold setNext at h
  cases hp : nodes[p]? with
  | none => rw [hp] at h; exact absurd h (by simp)
  | some n =>
    rw [hp] at h
    simp only [Option.some.injEq] at h
    rw [← h]
    by_cases e : p = a
    · subst e
      rw [List.getElem?_set_self (lt_of_getElem?_some hp), hp]
      rfl
    · rw [List.getElem?_set_ne e]

theorem setPrev_value {nodes nodes1 : List node} {p : Nat} {v : Option Nat}
    (h : setPrev nodes p v = some nodes1) (a : Nat) :
    (nodes1[a]?).map (fun n => n.value) = (nodes[a]?).map (fun n => n.value) := by
  unfold setPrev at h
  cases hp : nodes[p]? with
  | none => rw [hp] at h; exact absurd h (by simp)
  | some n =>
    rw [hp] at h
    simp only [Option.some.injEq] at h
    rw [← h]
    by_cases e : p = a
    · subst e
      rw [List.getElem?_set_self (lt_of_getElem?_some hp), hp]
      rfl
    · rw [List.getElem?_set_ne e]

/-- The reference bits after `insert` of a key that is not in the list: the old nodes keep
theirs and, when the list was not full, the new node has the bit it was inserted with. -/
theorem insert_values {nodes nodes1 : List node} {l l1 : circularList} {id : FrameID}
    {v : Bool} (hl : l.supportMap.lookup id = none)
    (h : insert nodes l id v = some (nodes1, l1)) :
    (∀ a, a < nodes.length →
      (nodes1[a]?).map (fun n => n.value) = (nodes[a]?).map (fun n => n.value)) ∧
    (l.size ≠ l.capacity → (nodes1[nodes.length]?).map (fun n => n.value) = some v) := by
  unfold insert at h
  by_cases hcap : l.size = l.capacity
  · rw [if_pos hcap] at h
    simp only [Option.some.injEq, Prod.mk.injEq] at h
    rw [← h.1]
    exact ⟨fun _ _ => rfl, fun hc => absurd hcap hc⟩
  · rw [if_neg hcap, hl] at h
    simp only at h
    by_cases h0 : l.size = 0
    · rw [if_pos h0] at h
      simp only [Option.some.injEq, Prod.mk.injEq] at h
      rw [← h.1]
      refine ⟨fun a ha => by rw [List.getElem?_append_left ha], fun _ => ?_⟩
      rw [List.getElem?_append_right (le_refl _)]
      simp
    · rw [if_neg h0] at h
      cases hh : l.head with
      | none => rw [hh] at h; exact absurd h (by simp)
      | some hd =>
        cases ht : l.tail with
        | none => rw [hh, ht] at h; exact absurd h (by simp)
        | some tl =>
          rw [hh, ht] at h
          simp only at h
          cases h1 : setNext (nodes ++ [node.mk id v (some hd) (some tl)]) tl
              (some nodes.length) with
          | none => rw [h1] at h; exact absurd h (by simp)
          | some nodes2 =>
            rw [h1] at h
            simp only at h
            cases h2 : setPrev nodes2 hd (some nodes.length) with
            | none => rw [h2] at h; exact absurd h (by simp)
            | some nodes3 =>
              rw [h2] at h
              simp only [Option.some.injEq, Prod.mk.injEq] at h
              rw [← h.1]
              refine ⟨fun a ha => ?_, fun _ => ?_⟩
              · rw [setPrev_value h2, setNext_value h1, List.getElem?_append_left ha]
              · rw [setPrev_value h2, setNext_value h1,
                  List.getElem?_append_right (le_refl _)]
                simp

end Clock
namespace Clock

theorem AllReferenced.keep_unpin {c c1 : ClockReplacer} (hw : WF c) (ha : AllReferenced c)
    {id : FrameID} (hu : Unpin c id = some c1) : AllReferenced c1 := by
  unfold Unpin at hu
  by_cases hk : hasKey c.cList id = true
  · rw [if_pos hk] at hu
    cases hu
    exact ha
  · rw [if_neg hk] at hu
    have hnt : id ∉ tracked c := fun h => hk ((hasKey_iff _ _).2 h)
    have hl : c.cList.supportMap.lookup id = none := lookup_none_iff.2 hnt
    cases hins : insert c.nodes c.cList id true with
    | none => rw [hins] at hu; exact absurd hu (by simp)
    | some r =>
      obtain ⟨nodes1, l1⟩ := r
      rw [hins] at hu
      simp only [Option.some.injEq] at hu
      rw [← hu]
      obtain ⟨hold, hnew⟩ := insert_values hl hins
      intro e he
      simp only at he ⊢
      by_cases hcap : c.cList.size = c.cList.capacity
      · have : insert c.nodes c.cList id true = some (c.nodes, c.cList) := by
          simp only [insert, hcap, if_true]
        rw [this] at hins
        simp only [Option.some.injEq, Prod.mk.injEq] at hins
        rw [← hins.1]
        rw [← hins.2] at he
        exact ha e he
      · obtain ⟨n2, l2, hins2, _, hsm, _⟩ := insert_spec hw.list true hl hcap
        rw [hins2] at hins
        simp only [Option.some.injEq, Prod.mk.injEq] at hins
        rw [← hins.2, hsm, List.mem_append, List.mem_singleton] at he
        rcases he with he | he
        · have hlt : e.2 < c.nodes.length :=
            hw.list.lt (List.mem_map_of_mem Prod.snd he)
          rw [hold _ hlt]
          exact ha e he
        · rw [he]
          exact hnew hcap

theorem AllReferenced.keep_pin {c c1 : ClockReplacer} (hw : WF c) (ha : AllReferenced c)
    {id : FrameID} (hp : Pin c id = some c1) : AllReferenced c1 := by
  unfold Pin at hp
  cases hl : c.cList.supportMap.lookup id with
  | none =>
    rw [hl] at hp
    cases hp
    exact ha
  | some p =>
    rw [hl] at hp
    simp only at hp
    obtain ⟨nodes1, l1, hrem, _, hsm, _, _, _, _, _, _, _, _, _, _, _, hval⟩ :=
      remove_spec hw.list hl
    rw [hrem] at hp
    simp only [Option.some.injEq] at hp
    rw [← hp]
    intro e he
    simp only at he ⊢
    have he1 : e ∈ l1.supportMap := List.mem_of_mem_filter he
    rw [hsm] at he1
    rw [hval]
    exact ha e (List.mem_of_mem_filter he1)

theorem AllReferenced.keep_victim {c c1 : ClockReplacer} {r : Option FrameID} (hw : WF c)
    (ha : AllReferenced c) (hv : Victim c = some (c1, r)) : AllReferenced c1 := by
  by_cases h0 : c.cList.size = 0
  · simp only [Victim, h0, if_true, Option.some.injEq, Prod.mk.injEq] at hv
    rw [← hv.1]
    exact ha
  · have hrne : ringOf c.cList ≠ [] := by
      intro e
      have := congrArg List.length e
      unfold ringOf at this
      simp only [List.length_map, List.length_nil] at this
      rw [← hw.list.size_eq] at this
      exact h0 this
    obtain ⟨cur, hcur, hcm⟩ := hw.hand_live hrne
    have hcm2 := hcm
    unfold ringOf at hcm2
    rw [List.mem_map] at hcm2
    obtain ⟨e, he, hecur⟩ := hcm2
    obtain ⟨f, q⟩ := e
    simp only at hecur
    subst hecur
    have hkey := hw.list.key_ok (f, q) he
    simp only at hkey
    have hl : c.cList.supportMap.lookup f = some q := lookup_of_mem he hw.list.keys_nodup
    obtain ⟨n, hn⟩ : ∃ n, c.nodes[q]? = some n :=
      ⟨_, List.getElem?_eq_getElem (keyOf_lt hkey)⟩
    have hnk : n.key = f := by
      simp only [keyOf, hn, Option.some.injEq] at hkey
      exact hkey
    subst hnk
    have hbit : n.value = true := by
      have := ha (n.key, q) he
      simpa [hn] using this
    have hw2 := hw.list.set_value hn false
    obtain ⟨nodes1, l1, hrem, _, hsm, _, _, _, _, _, _, _, _, _, _, _, hval⟩ :=
      remove_spec hw2 hl
    have hget : (c.nodes.set q { n with value := false })[q]?
        = some { n with value := false } :=
      List.getElem?_set_self (lt_of_getElem?_some hn)
    simp only [Victim, h0, if_false, hcur, victimLoop, hn, hbit, if_true, hget,
      Bool.false_eq_true, hrem, Option.some.injEq, Prod.mk.injEq] at hv
    rw [← hv.1]
    intro e he1
    simp only at he1 ⊢
    rw [hsm] at he1
    have he2 : e ∈ c.cList.supportMap := List.mem_of_mem_filter he1
    have hne : e.1 ≠ n.key := by
      have := (List.mem_filter.1 he1).2
      simpa using this
    have hq : q ≠ e.2 := by
      intro hc
      have h1 := hw.list.key_ok e he2
      rw [← hc, hkey] at h1
      exact hne (Option.some.inj h1).symm
    rw [hval, List.getElem?_set_ne hq]
    exact ha e he2

theorem Reachable.allReferenced {c : ClockReplacer} (hr : Reachable c) : AllReferenced c := by
  induction hr with
  | fresh n =>
    intro e he
    simp [NewClockReplacer, newCircularList] at he
  | victim hc hv ih => exact ih.keep_victim hc.wf hv
  | unpin hc hu ih => exact ih.keep_unpin hc.wf hu
  | pin hc hp ih => exact ih.keep_pin hc.wf hp

theorem sampleSecondChance_wf : WF sampleSecondChance := by
  have hw := sampleReplacer_reachable.wf
  have hn : sampleReplacer.nodes[1]?
      = some { key := 2, value := true, next := some 0, prev := some 0 } := rfl
  exact ⟨hw.list.set_value hn false, hw.hand_live, fun x hx => by cases hx⟩

/-- C24: on a well-formed replacer with at least one tracked frame, `Victim()` returns the
frame of the node under the clock hand, whatever its reference bit is; and in every state
of a replacer made by `NewClockReplacer` and used through `Unpin`, `Pin` and `Victim`,
every tracked frame has its reference bit set. -/
theorem victim_returns_hand_frame (c : ClockReplacer) (hw : WF c) (hpos : 0 < Size c) :
    (∃ c1 p n, Victim c = some (c1, some n.key) ∧ deref c c.clockHand = some p ∧
      c.nodes[p]? = some n ∧ hasKey c.cList n.key = true) ∧
    (Reachable c →
      ∀ e ∈ c.cList.supportMap, (c.nodes[e.2]?).map (fun n => n.value) = some true) := by
  refine ⟨?_, fun hr => hr.allReferenced⟩
  obtain ⟨c1, r, hv, _, _, _, hsome⟩ := hw.victim
  obtain ⟨f, p, hr, hft, _, _, hd, hk⟩ := hsome hpos
  subst hr
  obtain ⟨n, hn⟩ : ∃ n, c.nodes[p]? = some n := ⟨_, List.getElem?_eq_getElem (keyOf_lt hk)⟩
  have hnk : n.key = f := by
    simp only [keyOf, hn, Option.some.injEq] at hk
    exact hk
  subst hnk
  exact ⟨c1, p, n, hv, hd, hn, (hasKey_iff _ _).2 hft⟩

/-- The instance of C24 for `sampleSecondChance`, where frame 1 under the hand has its bit
set and frame 2 has its bit clear: frame 1 is returned. -/
theorem victim_returns_hand_frame_witness :
    WF sampleSecondChance ∧ 0 < Size sampleSecondChance ∧
    ∃ c1 p n, Victim sampleSecondChance = some (c1, some n.key) ∧
      deref sampleSecondChance sampleSecondChance.clockHand = some p ∧
      sampleSecondChance.nodes[p]? = some n ∧
      hasKey sampleSecondChance.cList n.key = true :=
  ⟨sampleSecondChance_wf, by decide,
    (victim_returns_hand_frame sampleSecondChance sampleSecondChance_wf (by decide)).1⟩

end Clock
namespace SkipList

variable {K : Type} [LinearOrder K] [Inhabited K]

theorem shape_level {h h1 : Heap K} (hs : h1.map shape = h.map shape) (q : Nat) :
    (h1[q]?).map (fun n => n.Level) = (h[q]?).map (fun n => n.Level) := by
  have := shape_get hs q
  cases e1 : h1[q]? <;> cases e2 : h[q]? <;> simp [e1, e2, shape] at this ⊢
  exact this.2.2.2.1

/-- `InsertOnMem` of a key that is absent, in full: when the drawn level reaches the level
of the list, the list grows by one level unless it has twenty, and the node is spliced into
all levels; otherwise the node is spliced into the lowest levels, as many as the drawn
level says. -/
theorem Inv.insert_absent {h : Heap K} {lv : Nat → List Nat} {L : Nat} (hi : Inv h lv L)
    (k : K) (v s : Nat) (hp : k ∉ (entries h (lv 0)).map Prod.fst) :
    ∃ hd, h[0]? = some hd ∧
      ((L : Int) ≤ GetNodeLevel L s → L < 20 →
        ∃ h3, InsertOnMem h 0 (Value.key k) v s = some h3 ∧
          Inv h3 (spliced h k h.length (L + 1) lv) (L + 1) ∧
          h3.map shape = ((h.set 0 { hd with CurMaxLevel := (L : Int) + 1 })
            ++ [newNode ((L : Int) + 1) (some (Value.key k)) v]).map shape) ∧
      (¬ (L : Int) ≤ GetNodeLevel L s →
        ∃ h3, InsertOnMem h 0 (Value.key k) v s = some h3 ∧
          Inv h3 (spliced h k h.length (GetNodeLevel L s).toNat lv) L ∧
          h3.map shape
            = (h ++ [newNode (GetNodeLevel L s) (some (Value.key k)) v]).map shape) ∧
      ((L : Int) ≤ GetNodeLevel L s → L = 20 →
        InsertOnMem h 0 (Value.key k) v s = none) := by
  obtain ⟨hd, upd, kt, n, h0, hL, hulen, hup, hkt, hn, hpres, hins⟩ := hi.insert_unfold k v s
  have hLle := hi.Lle
  have hce : ¬ kt.CompareEquals (Value.key k) = true := fun hc => hp (hpres.1 hc)
  rw [if_neg hce] at hins
  have habs : ∀ i, ∀ q ∈ lv i, keyAt h q ≠ k :=
    hi.absent (fun hc => hp ((hi.present_iff k).2 hc))
  refine ⟨hd, h0, ?_, ?_, ?_⟩
  · intro hg hL20
    rw [if_pos hg, if_pos (by omega)] at hins
    have hset0 : (h.set 0 { hd with CurMaxLevel := (L : Int) + 1 })[0]?
        = some { hd with CurMaxLevel := (L : Int) + 1 } :=
      List.getElem?_set_self (by have := hi.two_le; omega)
    have hupd : ∀ j, j < L + 1 → (upd.set L (some 0))[j]? = some (some (pred h k (lv j))) := by
      intro j hj
      by_cases e : j = L
      · subst e
        rw [List.getElem?_set_self (by omega), pred_top hi k (le_refl _)]
      · rw [List.getElem?_set_ne (Ne.symm e)]
        exact hup j (by omega)
    obtain ⟨h3, hrun, hinv, hs3, _⟩ :=
      insert_new_core hi k habs (h.set 0 { hd with CurMaxLevel := (L : Int) + 1 })
        (newNode ((L : Int) + 1) (some (Value.key k)) v) (L + 1) (upd.set L (some 0))
        (by simp)
        (fun q j => readForward_set_same { hd with CurMaxLevel := (L : Int) + 1 }
          h0 rfl q j)
        (fun q => readKey_set_same { hd with CurMaxLevel := (L : Int) + 1 } h0 rfl q)
        (fun q => fwdLen_set_same { hd with CurMaxLevel := (L : Int) + 1 } h0 rfl q)
        (fun q => by
          unfold valAt
          by_cases e : 0 = q
          · subst e
            rw [hset0, h0]
          · rw [List.getElem?_set_ne e])
        (by omega) (fun j hj => hupd j (by omega)) rfl rfl
    rw [List.length_set] at hins
    have hinv1 := hinv (L + 1) (by rw [hset0]; simp) (by omega) (by omega) (le_refl _)
    exact ⟨h3, by rw [hins]; exact hrun, hinv1, hs3⟩
  · intro hg
    rw [if_neg hg] at hins
    have hr : GetNodeLevel L s = wrapInt32 (1 + (s : Int)) ∧
        wrapInt32 (1 + (s : Int)) < (L : Int) := by
      unfold GetNodeLevel at hg ⊢
      omega
    have hm : (GetNodeLevel L s).toNat ≤ L := by omega
    obtain ⟨h3, hrun, hinv, hs3, _⟩ :=
      insert_new_core hi k habs h (newNode (GetNodeLevel L s) (some (Value.key k)) v)
        (GetNodeLevel L s).toNat upd rfl (fun _ _ => rfl) (fun _ => rfl) (fun _ => rfl)
        (fun _ => rfl) (by omega) (fun j hj => hup j (by omega)) rfl rfl
    have hinv1 := hinv L (by rw [h0]; simp [hL]) hLle (le_refl _) hm
    exact ⟨h3, by rw [hins]; exact hrun, hinv1, hs3⟩
  · intro hg hL20
    rcases hi.insert k v s with ⟨hnone, _⟩ | ⟨h1, lv1, L1, hsome, hi1, _, _, hent, _, hlen⟩
    · exact hnone
    · exfalso
      rw [if_pos hg, if_pos (by omega)] at hins
      have hset0 : (h.set 0 { hd with CurMaxLevel := (L : Int) + 1 })[0]?
          = some { hd with CurMaxLevel := (L : Int) + 1 } :=
        List.getElem?_set_self (by have := hi.two_le; omega)
      have hupd : ∀ j, j < L + 1 →
          (upd.set L (some 0))[j]? = some (some (pred h k (lv j))) := by
        intro j hj
        by_cases e : j = L
        · subst e
          rw [List.getElem?_set_self (by omega), pred_top hi k (le_refl _)]
        · rw [List.getElem?_set_ne (Ne.symm e)]
          exact hup j (by omega)
      obtain ⟨h3, hrun, _, hs3, _⟩ :=
        insert_new_core hi k habs (h.set 0 { hd with CurMaxLevel := (L : Int) + 1 })
          (newNode ((L : Int) + 1) (some (Value.key k)) v) 20 (upd.set L (some 0))
          (by simp)
          (fun q j => readForward_set_same { hd with CurMaxLevel := (L : Int) + 1 }
            h0 rfl q j)
          (fun q => readKey_set_same { hd with CurMaxLevel := (L : Int) + 1 } h0 rfl q)
          (fun q => fwdLen_set_same { hd with CurMaxLevel := (L : Int) + 1 } h0 rfl q)
          (fun q => by
            unfold valAt
            by_cases e : 0 = q
            · subst e
              rw [hset0, h0]
            · rw [List.getElem?_set_ne e])
          (le_refl _) (fun j hj => hupd j (by omega)) rfl rfl
      rw [List.length_set] at hins
      rw [hins, hL20, show 20 + 1 = 20 + 1 from rfl, spliceLoop_add _ _ 20 1 0] at hsome
      rw [hL20] at hrun
      rw [hrun] at hsome
      have hf0 : readForward h3 0 20 = none := by
        apply readForward_none_of_fwdLen _ (le_refl _)
        rw [shape_fwdLen hs3, List.getElem?_append_left (by
          rw [List.length_set]; have := hi.two_le; omega),
          fwdLen_set_same { hd with CurMaxLevel := (L : Int) + 1 } h0 rfl 0]
        exact hi.fwdLen 0 (by have := hi.two_le; omega)
      have hu20 : (upd.set 20 (some 0))[20]? = some (some 0) :=
        List.getElem?_set_self (by omega)
      simp [spliceLoop, hu20, hf0] at hsome

end SkipList
namespace SkipList

variable {K : Type} [LinearOrder K] [Inhabited K]

theorem absent_iff_scan {h : Heap K} {lv : Nat → List Nat} {L : Nat} (hi : Inv h lv L)
    {r : List (Value K × Nat)} (hscan : scan h 0 none none = some r) (k : K) :
    Value.key k ∉ r.map Prod.fst ↔ k ∉ (entries h (lv 0)).map Prod.fst := by
  rw [hi.scan_all] at hscan
  have hr2 : r = asValues (entries h (lv 0)) := (Option.some.inj hscan).symm
  rw [hr2]
  simp only [asValues, List.map_map, List.mem_map, Function.comp, not_iff_not]
  constructor
  · rintro ⟨e, he, hek⟩
    exact ⟨e, he, by injection hek⟩
  · rintro ⟨e, he, hek⟩
    exact ⟨e, he, by rw [hek]⟩

/-- The new node of an insertion, read off the shape of the heap. -/
theorem new_node_of_shape {h3 base : Heap K} {nd : SkipListOnMem K}
    (hs : h3.map shape = (base ++ [nd]).map shape) :
    ∃ nd3, h3[base.length]? = some nd3 ∧ nd3.Key = nd.Key ∧ nd3.Val = nd.Val ∧
      nd3.Level = nd.Level := by
  have := shape_get hs base.length
  rw [List.getElem?_append_right (le_refl _)] at this
  simp only [Nat.sub_self, List.getElem?_cons_zero, Option.map_some'] at this
  cases e : h3[base.length]? with
  | none => rw [e] at this; exact absurd this (by simp)
  | some nd3 =>
    rw [e] at this
    simp only [Option.map_some', Option.some.injEq, shape, SkipListOnMem.mk.injEq] at this
    exact ⟨nd3, rfl, this.2.1, this.2.2.1, this.2.2.2.1⟩

theorem curMax_set_val {h : Heap K} {q : Nat} {n : SkipListOnMem K} (hq : h[q]? = some n)
    (v : Nat) :
    ((h.set q { n with Val := v })[0]?).map (fun n => n.CurMaxLevel)
      = (h[0]?).map (fun n => n.CurMaxLevel) := by
  by_cases e : q = 0
  · subst e
    rw [List.getElem?_set_self (by
      rcases List.getElem?_eq_some.1 hq with ⟨hlt, _⟩
      exact hlt), hq]
    rfl
  · rw [List.getElem?_set_ne e]

theorem mem_spliced {h : Heap K} {k : K} {x m j : Nat} {lv : Nat → List Nat} (hj : j < m) :
    x ∈ spliced h k x m lv j := by
  unfold spliced
  rw [if_pos hj]
  simp

end SkipList
namespace SkipList

variable {K : Type} [LinearOrder K] [Inhabited K]

theorem level_set_curMax {h : Heap K} {hd : SkipListOnMem K} (h0 : h[0]? = some hd) (c : Int)
    (q : Nat) :
    ((h.set 0 { hd with CurMaxLevel := c })[q]?).map (fun n => n.Level)
      = (h[q]?).map (fun n => n.Level) := by
  by_cases e : 0 = q
  · subst e
    rw [List.getElem?_set_self (by
      rcases List.getElem?_eq_some.1 h0 with ⟨hlt, _⟩
      exact hlt), h0]
    rfl
  · rw [List.getElem?_set_ne e]

theorem level_set_val {h : Heap K} {p : Nat} {n : SkipListOnMem K} (hp : h[p]? = some n)
    (v : Nat) (q : Nat) :
    ((h.set p { n with Val := v })[q]?).map (fun n => n.Level)
      = (h[q]?).map (fun n => n.Level) := by
  by_cases e : p = q
  · subst e
    rw [List.getElem?_set_self (by
      rcases List.getElem?_eq_some.1 hp with ⟨hlt, _⟩
      exact hlt), hp]
    rfl
  · rw [List.getElem?_set_ne e]

theorem lt_toNat_of_cast_lt {j : Nat} {g : Int} (h : (j : Int) < g) : j < g.toNat := by
  omega

theorem toNat_le_of_not_le {L : Nat} {g : Int} (hg : ¬ (L : Int) ≤ g) : g.toNat ≤ L := by
  omega

/-- Everything that an `InsertOnMem` call that returns does to the level of the list and
to the level fields of the nodes. -/
theorem Inv.insert_levels {h : Heap K} {lv : Nat → List Nat} {L : Nat} (hi : Inv h lv L)
    (k : K) (v s : Nat) {h1 : Heap K}
    (hins : InsertOnMem h 0 (Value.key k) v s = some h1) :
    (k ∈ (entries h (lv 0)).map Prod.fst →
      (h1[0]?).map (fun n => n.CurMaxLevel) = some (L : Int) ∧ h1.length = h.length ∧
      ∀ q : Nat, (h1[q]?).map (fun n : SkipListOnMem K => n.Level)
        = (h[q]?).map (fun n : SkipListOnMem K => n.Level)) ∧
    (k ∉ (entries h (lv 0)).map Prod.fst →
      ∃ nd, h1[h.length]? = some nd ∧ nd.Key = some (Value.key k) ∧ nd.Val = v ∧
        nd.Level = (if (L : Int) ≤ GetNodeLevel L s then (L : Int) + 1
          else GetNodeLevel L s) ∧
        (h1[0]?).map (fun n => n.CurMaxLevel)
          = some (if (L : Int) ≤ GetNodeLevel L s then (L : Int) + 1 else (L : Int)) ∧
        ((L : Int) ≤ GetNodeLevel L s → L < 20) ∧
        h1.length = h.length + 1 ∧
        (∀ q, q < h.length →
          (h1[q]?).map (fun n => n.Level) = (h[q]?).map (fun n => n.Level)) ∧
        (∀ j : Nat, (j : Int) < nd.Level → ∃ l, Path h1 j l ∧ h.length ∈ l) ∧
        ((L : Int) ≤ GetNodeLevel L s →
          readForward h1 0 L = some (some h.length) ∧
          readForward h1 h.length L = some (some 1))) := by
  have hLle := hi.Lle
  constructor
  · intro hp
    rcases hi.insert k v s with ⟨hnone, _⟩ | ⟨h2, lv1, L1, hsome, _, _, _, _, hset, _⟩
    · rw [hnone] at hins
      exact absurd hins (by simp)
    · rw [hsome] at hins
      cases hins
      obtain ⟨q, n, hq, _, rfl⟩ := hset hp
      refine ⟨by rw [curMax_set_val hq, hi.curMax], by simp, level_set_val hq v⟩
  · intro hp
    obtain ⟨hd, h0, hgrow, hstay, hfail⟩ := hi.insert_absent k v s hp
    by_cases hg : (L : Int) ≤ GetNodeLevel L s
    · have hL20 : L < 20 := by
        by_contra hc
        have : L = 20 := by omega
        rw [hfail hg this] at hins
        exact absurd hins (by simp)
      obtain ⟨h3, hsome, hinv, hs3⟩ := hgrow hg hL20
      rw [hsome] at hins
      cases hins
      obtain ⟨nd3, hnd, hk3, hv3, hl3⟩ := new_node_of_shape hs3
      rw [List.length_set] at hnd
      have hlen : h1.length = h.length + 1 := by
        have := shape_length hs3
        simpa using this
      refine ⟨nd3, hnd, hk3, hv3, by rw [hl3, if_pos hg]; rfl, ?_, fun _ => hL20, hlen,
        ?_, ?_, ?_⟩
      · rw [if_pos hg, hinv.curMax]
        push_cast
        rfl
      · intro q hq
        rw [shape_level hs3, List.getElem?_append_left (by rw [List.length_set]; exact hq),
          level_set_curMax h0]
      · intro j hj
        have hj1 : j < L + 1 := by
          rw [hl3] at hj
          simp only [newNode] at hj
          omega
        exact ⟨_, hinv.path j (by omega), mem_spliced hj1⟩
      · intro _
        have hpath := hinv.path L (by omega)
        have e : spliced h k h.length (L + 1) lv L = [h.length] := by
          unfold spliced
          rw [if_pos (by omega), hi.top L (le_refl _)]
          rfl
        rw [e] at hpath
        unfold Path at hpath
        simp only [List.cons_append, List.nil_append, List.chain'_cons,
          List.chain'_singleton, and_true] at hpath
        exact hpath
    · obtain ⟨h3, hsome, hinv, hs3⟩ := hstay hg
      rw [hsome] at hins
      cases hins
      obtain ⟨nd3, hnd, hk3, hv3, hl3⟩ := new_node_of_shape hs3
      have hlen : h1.length = h.length + 1 := by
        have := shape_length hs3
        simpa using this
      refine ⟨nd3, hnd, hk3, hv3, by rw [hl3, if_neg hg]; rfl, ?_, fun hc => absurd hc hg,
        hlen, ?_, ?_, fun hc => absurd hc hg⟩
      · rw [if_neg hg, hinv.curMax]
      · intro q hq
        rw [shape_level hs3, List.getElem?_append_left hq]
      · intro j hj
        rw [hl3] at hj
        have hj1 : j < (GetNodeLevel L s).toNat := lt_toNat_of_cast_lt hj
        have hm : (GetNodeLevel L s).toNat ≤ L := toNat_le_of_not_le hg
        exact ⟨_, hinv.path j (lt_of_lt_of_le (lt_of_lt_of_le hj1 hm) hLle),
          mem_spliced hj1⟩

end SkipList
namespace SkipList

variable {K : Type} [LinearOrder K] [Inhabited K]

theorem LevelsOk.step_insert {h h1 : Heap K} {lv : Nat → List Nat} {L : Nat} (hi : Inv h lv L)
    (hL : 1 ≤ L) (hl : LevelsOk h) {k : K} {v s : Nat}
    (hdraw : 0 < wrapInt32 (1 + (s : Int)))
    (hins : InsertOnMem h 0 (Value.key k) v s = some h1) : LevelsOk h1 := by
  obtain ⟨hpres, habs⟩ := hi.insert_levels k v s hins
  have hLle := hi.Lle
  intro q n hq
  by_cases hp : k ∈ (entries h (lv 0)).map Prod.fst
  · obtain ⟨_, _, hlev⟩ := hpres hp
    have := hlev q
    rw [hq] at this
    cases e : h[q]? with
    | none => rw [e] at this; exact absurd this (by simp)
    | some n0 =>
      rw [e] at this
      simp only [Option.map_some', Option.some.injEq] at this
      rw [this]
      exact hl q n0 e
  · obtain ⟨nd, hnd, _, _, hlevel, _, hg20, hlen, hold, _⟩ := habs hp
    by_cases hlt : q < h.length
    · have := hold q hlt
      rw [hq] at this
      cases e : h[q]? with
      | none => rw [e] at this; exact absurd this (by simp)
      | some n0 =>
        rw [e] at this
        simp only [Option.map_some', Option.some.injEq] at this
        rw [this]
        exact hl q n0 e
    · have hqlt : q < h1.length := by
        rcases List.getElem?_eq_some.1 hq with ⟨hlt1, _⟩
        exact hlt1
      have hqe : q = h.length := by omega
      subst hqe
      rw [hnd] at hq
      cases hq
      rw [hlevel]
      split
      · rename_i hg
        have := hg20 hg
        omega
      · rename_i hg
        unfold GetNodeLevel at hg ⊢
        omega

theorem insertAll_levels :
    ∀ (ops : List (K × Nat × Nat)) (h : Heap K) (lv : Nat → List Nat) (L : Nat),
      Inv h lv L → 1 ≤ L → LevelsOk h →
      (∀ op ∈ ops, 0 < wrapInt32 (1 + (op.2.2 : Int))) →
      ∀ h1, insertAll h ops = some h1 →
        ∃ lv1 L1, Inv h1 lv1 L1 ∧ 1 ≤ L1 ∧ LevelsOk h1 := by
  intro ops
  induction ops with
  | nil =>
    intro h lv L hi hL hl _ h1 hrun
    simp only [insertAll, Option.some.injEq] at hrun
    subst hrun
    exact ⟨lv, L, hi, hL, hl⟩
  | cons op ops ih =>
    obtain ⟨k1, v, s⟩ := op
    intro h lv L hi hL hl hdraw h1 hrun
    rcases hi.insert k1 v s with ⟨hnone, _⟩ | ⟨h2, lv2, L2, hsome, hi2, hLL, _⟩
    · simp only [insertAll, hnone] at hrun
      exact absurd hrun (by simp)
    · simp only [insertAll, hsome] at hrun
      have hd1 : 0 < wrapInt32 (1 + (s : Int)) := hdraw (k1, v, s) (List.mem_cons_self _ _)
      exact ih h2 lv2 L2 hi2 (by omega) (hl.step_insert hi hL hd1 hsome)
        (fun op hop => hdraw op (List.mem_cons_of_mem _ hop)) h1 hrun

theorem fresh_levelsOk {level : Int} {key : Value K} {value : Nat} {h : Heap K}
    (hf : NewSkipListOnMem [] level (some key) value true = some (h, 0))
    (hlo : 1 ≤ level) (hhi : level ≤ 20) : LevelsOk h := by
  simp only [NewSkipListOnMem, if_true, List.nil_append, List.length_nil, Option.some.injEq,
    Prod.mk.injEq, and_true] at hf
  subst hf
  intro q n hq
  match q, hq with
  | 0, hq =>
    simp only [List.getElem?_cons_zero, Option.some.injEq] at hq
    subst hq
    exact ⟨hlo, hhi⟩
  | 1, hq =>
    simp only [List.getElem?_cons_succ, List.getElem?_cons_zero, Option.some.injEq] at hq
    subst hq
    exact ⟨hlo, hhi⟩
  | q + 2, hq =>
    simp at hq

end SkipList
namespace SkipList

variable {K : Type} [LinearOrder K] [Inhabited K]

/-- The part of the level bound that holds: on a fresh list with a level within 1..20,
after any sequence of `InsertOnMem` calls that all return and whose coin-flip runs leave the
`int32` level counter positive, `CurMaxLevel` and the assigned level of every node lie
within 1..20, every `Forward` array has twenty entries, and `GetValueOnMem` and
`RemoveOnMem` return for every key; a further `InsertOnMem` returns when `CurMaxLevel` is
below 20 or the drawn level is below `CurMaxLevel`. -/
theorem levels_within_bounds (level : Int) (key : Value K) (value : Nat) (h0 h : Heap K)
    (ops : List (K × Nat × Nat))
    (hfresh : NewSkipListOnMem [] level (some key) value true = some (h0, 0))
    (hlo : 1 ≤ level) (hhi : level ≤ 20)
    (hdraw : ∀ op ∈ ops, 0 < wrapInt32 (1 + (op.2.2 : Int)))
    (hrun : insertAll h0 ops = some h) :
    ∃ L : Nat, (h[0]?).map (fun n => n.CurMaxLevel) = some (L : Int) ∧ 1 ≤ L ∧ L ≤ 20 ∧
      (∀ (q : Nat) (n : SkipListOnMem K), h[q]? = some n →
        1 ≤ n.Level ∧ n.Level ≤ 20 ∧ n.Forward.length = 20) ∧
      (∀ k : K, ∃ x, GetValueOnMem h 0 (Value.key k) = some x) ∧
      (∀ (k : K) (v : Nat), ∃ h1, RemoveOnMem h 0 (Value.key k) v = some h1) ∧
      (∀ (k : K) (v s : Nat), L < 20 ∨ wrapInt32 (1 + (s : Int)) < (L : Int) →
        ∃ h1, InsertOnMem h 0 (Value.key k) v s = some h1) := by
  have hi0 := fresh_inv hfresh (by omega) hhi
  have hl0 := fresh_levelsOk hfresh hlo hhi
  obtain ⟨lv, L, hi, hL, hl⟩ := insertAll_levels ops h0 _ _ hi0 (by omega) hl0 hdraw h hrun
  refine ⟨L, hi.curMax, hL, hi.Lle, ?_, ?_, ?_, ?_⟩
  · intro q n hq
    obtain ⟨h1, h2⟩ := hl q n hq
    refine ⟨h1, h2, ?_⟩
    have hlt : q < h.length := by
      rcases List.getElem?_eq_some.1 hq with ⟨hlt, _⟩
      exact hlt
    have := hi.fwdLen q hlt
    rw [hq] at this
    simpa using this
  · intro k
    exact ⟨_, hi.getValue k⟩
  · intro k v
    obtain ⟨h1, _, hrem, _⟩ := hi.remove k v
    exact ⟨h1, hrem⟩
  · intro k v s hcond
    rcases hi.insert k v s with ⟨_, hL20, hge, _⟩ | ⟨h1, _, _, hsome, _⟩
    · omega
    · exact ⟨h1, hsome⟩

/-- The level bound on the fresh list of the tests after `sampleOps`. -/
theorem levels_within_bounds_witness :
    NewSkipListOnMem [] 1 (some (Value.key 0)) maxUint32 true = some (sampleFresh, 0) ∧
    (∀ op ∈ sampleOps, 0 < wrapInt32 (1 + (op.2.2 : Int))) ∧
    insertAll sampleFresh sampleOps = some sampleList ∧
    ∃ L : Nat, (sampleList[0]?).map (fun n => n.CurMaxLevel) = some (L : Int) ∧ 1 ≤ L ∧
      L ≤ 20 ∧
      (∀ (q : Nat) (n : SkipListOnMem Int), sampleList[q]? = some n →
        1 ≤ n.Level ∧ n.Level ≤ 20 ∧ n.Forward.length = 20) ∧
      (∀ k : Int, ∃ x, GetValueOnMem sampleList 0 (Value.key k) = some x) ∧
      (∀ (k : Int) (v : Nat), ∃ h1, RemoveOnMem sampleList 0 (Value.key k) v = some h1) ∧
      (∀ (k : Int) (v s : Nat), L < 20 ∨ wrapInt32 (1 + (s : Int)) < (L : Int) →
        ∃ h1, InsertOnMem sampleList 0 (Value.key k) v s = some h1) :=
  ⟨rfl, by decide, rfl,
    levels_within_bounds 1 (Value.key 0) maxUint32 sampleFresh sampleList sampleOps rfl
      (by decide) (by decide) (by decide) rfl⟩

/-- What an insertion does to the level of the list, for keys of any linearly ordered type. -/
theorem growth_of_level (h h1 : Heap K) (hr : Reachable h) (k : K) (v s : Nat)
    (r : List (Value K × Nat)) (hscan : scan h 0 none none = some r)
    (hins : InsertOnMem h 0 (Value.key k) v s = some h1) :
    ∃ L : Nat, (h[0]?).map (fun n => n.CurMaxLevel) = some (L : Int) ∧
      ((h1[0]?).map (fun n => n.CurMaxLevel) = some (L : Int) ∨
        (h1[0]?).map (fun n => n.CurMaxLevel) = some ((L : Int) + 1)) ∧
      ((h1[0]?).map (fun n => n.CurMaxLevel) = some ((L : Int) + 1) ↔
        (Value.key k ∉ r.map Prod.fst ∧ (L : Int) ≤ GetNodeLevel L s)) ∧
      (Value.key k ∉ r.map Prod.fst →
        ∃ nd, h1[h.length]? = some nd ∧ nd.Key = some (Value.key k) ∧
          (∀ j : Nat, (j : Int) < nd.Level → ∃ l, Path h1 j l ∧ h.length ∈ l) ∧
          ((L : Int) ≤ GetNodeLevel L s →
            nd.Level = (L : Int) + 1 ∧
            readForward h1 0 L = some (some h.length) ∧
            readForward h1 h.length L = some (some 1))) := by
  obtain ⟨lv, L, hi⟩ := hr.inv
  obtain ⟨hpres, habs⟩ := hi.insert_levels k v s hins
  have habsent := absent_iff_scan hi hscan k
  refine ⟨L, hi.curMax, ?_, ?_, ?_⟩
  · by_cases hp : k ∈ (entries h (lv 0)).map Prod.fst
    · exact Or.inl (hpres hp).1
    · obtain ⟨nd, _, _, _, _, hcm, _⟩ := habs hp
      rw [hcm]
      split
      · exact Or.inr rfl
      · exact Or.inl rfl
  · constructor
    · intro hgrew
      by_cases hp : k ∈ (entries h (lv 0)).map Prod.fst
      · rw [(hpres hp).1] at hgrew
        simp only [Option.some.injEq] at hgrew
        omega
      · obtain ⟨nd, _, _, _, _, hcm, _⟩ := habs hp
        refine ⟨habsent.2 hp, ?_⟩
        by_contra hg
        rw [hcm, if_neg hg] at hgrew
        simp only [Option.some.injEq] at hgrew
        omega
    · rintro ⟨hp, hg⟩
      obtain ⟨nd, _, _, _, _, hcm, _⟩ := habs (habsent.1 hp)
      rw [hcm, if_pos hg]
  · intro hp
    obtain ⟨nd, hnd, hk, _, hlevel, _, _, _, _, hlink, htop⟩ := habs (habsent.1 hp)
    refine ⟨nd, hnd, hk, hlink, fun hg => ⟨by rw [hlevel, if_pos hg], htop hg⟩⟩

/-- C23 (amended): on every list built through the interface, an `InsertOnMem` call that
returns leaves `CurMaxLevel` as it was or raises it by one; it raises it exactly when the key
was absent and the level that `GetNodeLevel` returns is not below `CurMaxLevel`; the new node
of an absent key is on the chain of every level below its assigned level; and when the list
grows, the node has the new level, the header points at it at the new top level and it points
at the sentinel there.  The keys are those of any declared scalar type `t`: integer, float or
string. -/
theorem insert_level_growth (t : TypeID) (h h1 : Heap (KeyOf t)) (hr : Reachable h) (k : KeyOf t)
    (v s : Nat)
    (r : List (Value (KeyOf t) × Nat)) (hscan : scan h 0 none none = some r)
    (hins : InsertOnMem h 0 (Value.key k) v s = some h1) :
    ∃ L : Nat, (h[0]?).map (fun n => n.CurMaxLevel) = some (L : Int) ∧
      ((h1[0]?).map (fun n => n.CurMaxLevel) = some (L : Int) ∨
        (h1[0]?).map (fun n => n.CurMaxLevel) = some ((L : Int) + 1)) ∧
      ((h1[0]?).map (fun n => n.CurMaxLevel) = some ((L : Int) + 1) ↔
        (Value.key k ∉ r.map Prod.fst ∧ (L : Int) ≤ GetNodeLevel L s)) ∧
      (Value.key k ∉ r.map Prod.fst →
        ∃ nd, h1[h.length]? = some nd ∧ nd.Key = some (Value.key k) ∧
          (∀ j : Nat, (j : Int) < nd.Level → ∃ l, Path h1 j l ∧ h.length ∈ l) ∧
          ((L : Int) ≤ GetNodeLevel L s →
            nd.Level = (L : Int) + 1 ∧
            readForward h1 0 L = some (some h.length) ∧
            readForward h1 h.length L = some (some 1))) :=
  growth_of_level h h1 hr k v s r hscan hins

/-- The instance of C23 for `sampleList` and the insertion of the absent key 7 with two
successful coin flips. -/
theorem insert_level_growth_witness :
    Reachable sampleList ∧
    scan sampleList 0 none none = some [((Value.key 3 : Value Int), 30), (Value.key 5, 55)] ∧
    InsertOnMem sampleList 0 (Value.key 7) 70 2 = some sampleInserted ∧
    ∃ L : Nat, (sampleList[0]?).map (fun n => n.CurMaxLevel) = some (L : Int) ∧
      ((sampleInserted[0]?).map (fun n => n.CurMaxLevel) = some (L : Int) ∨
        (sampleInserted[0]?).map (fun n => n.CurMaxLevel) = some ((L : Int) + 1)) ∧
      ((sampleInserted[0]?).map (fun n => n.CurMaxLevel) = some ((L : Int) + 1) ↔
        ((Value.key 7 : Value Int) ∉ [((Value.key 3 : Value Int), 30), (Value.key 5, 55)].map Prod.fst ∧
          (L : Int) ≤ GetNodeLevel L 2)) ∧
      ((Value.key 7 : Value Int) ∉ [((Value.key 3 : Value Int), 30), (Value.key 5, 55)].map Prod.fst →
        ∃ nd, sampleInserted[sampleList.length]? = some nd ∧
          nd.Key = some (Value.key 7) ∧
          (∀ j : Nat, (j : Int) < nd.Level →
            ∃ l, Path sampleInserted j l ∧ sampleList.length ∈ l) ∧
          ((L : Int) ≤ GetNodeLevel L 2 →
            nd.Level = (L : Int) + 1 ∧
            readForward sampleInserted 0 L = some (some sampleList.length) ∧
            readForward sampleInserted sampleList.length L = some (some 1))) :=
  ⟨sampleList_reachable, rfl, rfl,
    insert_level_growth TypeID.Integer sampleList sampleInserted sampleList_reachable 7 70 2
      [((Value.key 3 : Value Int), 30), (Value.key 5, 55)] rfl rfl⟩

/-- C23 as stated fails: on the fresh list of the tests, of level 1, `GetNodeLevel` with no
successful coin flip returns 1, which does not exceed the level of the list, and
`InsertOnMem(5, 50)` raises `CurMaxLevel` to 2 all the same. -/
theorem level_grows_on_equal_draw :
    (sampleFresh[0]?).map (fun n => n.CurMaxLevel) = some 1 ∧
    GetNodeLevel 1 0 = 1 ∧ ¬ ((1 : Int) < GetNodeLevel 1 0) ∧
    GetValueOnMem sampleFresh 0 (Value.key 5) = some maxUint32 ∧
    InsertOnMem sampleFresh 0 (Value.key 5) 50 0 = some sampleOne ∧
    (sampleOne[0]?).map (fun n => n.CurMaxLevel) = some 2 :=
  ⟨rfl, rfl, by decide, rfl, rfl, rfl⟩

/-- A sequence of insertions that all return leads from a list built through the interface
to a list built through the interface. -/
theorem Reachable.of_insertAll :
    ∀ (ops : List (K × Nat × Nat)) (h0 h : Heap K), Reachable h0 →
      insertAll h0 ops = some h → Reachable h := by
  intro ops
  induction ops with
  | nil =>
    intro h0 h hr hrun
    simp only [insertAll, Option.some.injEq] at hrun
    exact hrun ▸ hr
  | cons op ops ih =>
    intro h0 h hr hrun
    obtain ⟨k, v, s⟩ := op
    simp only [insertAll] at hrun
    cases hins : InsertOnMem h0 0 (Value.key k) v s with
    | none => rw [hins] at hrun; exact absurd hrun (by simp)
    | some h1 =>
      rw [hins] at hrun
      exact ih h1 h (Reachable.insert hr hins) hrun

/-- An insertion that would raise the level of the list past the twenty entries of the
`Forward` arrays does not return, for keys of any linearly ordered type. -/
theorem insert_at_top_level_fails (h : Heap K) (hr : Reachable h) (k : K) (v s : Nat)
    (r : List (Value K × Nat)) (hscan : scan h 0 none none = some r)
    (habs : Value.key k ∉ r.map Prod.fst)
    (htop : (h[0]?).map (fun n => n.CurMaxLevel) = some 20)
    (hdraw : (20 : Int) ≤ GetNodeLevel 20 s) :
    InsertOnMem h 0 (Value.key k) v s = none := by
  cases hins : InsertOnMem h 0 (Value.key k) v s with
  | none => rfl
  | some h1 =>
    exfalso
    obtain ⟨L, hL, _, hiff, _⟩ := growth_of_level h h1 hr k v s r hscan hins
    rw [htop] at hL
    have hL20 : (L : Int) = 20 := (Option.some.inj hL).symm
    have hLn : L = 20 := by omega
    subst hLn
    have hg := hiff.2 ⟨habs, hdraw⟩
    obtain ⟨L1, hL1, hle, _⟩ := ordered_chains h1 (Reachable.insert hr hins)
    rw [hg] at hL1
    have := Option.some.inj hL1
    omega

/-- C21 fails on the code: on every list built through the interface whose `CurMaxLevel` is
20, the length of the `Forward` arrays, an `InsertOnMem` of a key that a scan of the list
does not yield, with a run of coin flips for which `GetNodeLevel` returns 20, does not
return: it raises `CurMaxLevel` to 21 and indexes `update[20]` and `Forward[20]`, out of
range.  The keys are those of any declared scalar type `t`: integer, float or string. -/
theorem level_overruns_forward (t : TypeID) (h : Heap (KeyOf t)) (hr : Reachable h)
    (k : KeyOf t) (v s : Nat) (r : List (Value (KeyOf t) × Nat))
    (hscan : scan h 0 none none = some r) (habs : Value.key k ∉ r.map Prod.fst)
    (htop : (h[0]?).map (fun n => n.CurMaxLevel) = some 20)
    (hdraw : (20 : Int) ≤ GetNodeLevel 20 s) :
    InsertOnMem h 0 (Value.key k) v s = none :=
  insert_at_top_level_fails h hr k v s r hscan habs htop hdraw

/-- The instance of C21 for the fresh list of the tests: nineteen insertions whose coin
flips succeed nineteen times each bring `CurMaxLevel` to 20, and the twentieth insertion
with such a draw, of the key 20 that the list does not hold, does not return. -/
theorem level_overruns_forward_witness :
    NewSkipListOnMem [] 1 (some (Value.key 0)) maxUint32 true = some (sampleFresh, 0) ∧
    (∀ op ∈ climbOps, 0 < wrapInt32 (1 + (op.2.2 : Int))) ∧
    insertAll sampleFresh (climbOps.take 19) = some sampleTall ∧
    Reachable sampleTall ∧
    (∃ r, scan sampleTall 0 none none = some r ∧ (Value.key 20 : Value Int) ∉ r.map Prod.fst) ∧
    (sampleTall[0]?).map (fun n => n.CurMaxLevel) = some 20 ∧
    (sampleTall[0]?).map (fun n => n.Forward.length) = some 20 ∧
    GetNodeLevel 20 19 = 20 ∧
    InsertOnMem sampleTall 0 (Value.key 20) 0 19 = none ∧
    insertAll sampleFresh climbOps = none :=
  have hr : Reachable sampleTall :=
    Reachable.of_insertAll (climbOps.take 19) sampleFresh sampleTall
      (@Reachable.fresh Int _ 1 (Value.key 0) maxUint32 sampleFresh rfl (by decide)
        (by decide))
      rfl
  ⟨rfl, by decide, rfl, hr, ⟨_, rfl, by decide⟩, rfl, rfl, rfl,
    level_overruns_forward TypeID.Integer sampleTall hr 20 0 19
      ((scan sampleTall 0 none none).getD []) rfl (by decide) rfl (by decide),
    rfl⟩

end SkipList
namespace DiskIndex

open SkipListPage

/-- The number of a slot of the probe order: the slots are counted block by block. -/
theorem probeOrder_lin (nb b o j : Nat) :
    (probeOrder nb b o j).1 * 252 + (probeOrder nb b o j).2 = (b * 252 + o + j) % (nb * 252) := by
  simp only [probeOrder, blockArraySize_eq]
  have := Nat.div_add_mod ((b * 252 + o + j) % (nb * 252)) 252
  omega

theorem probeOrder_snd_lt (nb b o j : Nat) : (probeOrder nb b o j).2 < 252 := by
  simp only [probeOrder, blockArraySize_eq]
  exact Nat.mod_lt _ (by norm_num)

theorem probeOrder_fst_lt (nb b o j : Nat) (hnb : 0 < nb) : (probeOrder nb b o j).1 < nb := by
  simp only [probeOrder, blockArraySize_eq]
  have h := Nat.mod_lt (b * 252 + o + j) (by omega : 0 < nb * 252)
  rw [Nat.div_lt_iff_lt_mul (by norm_num)]
  exact h

/-- A slot is its number. -/
theorem slot_eq_of_lin {b o b1 o1 : Nat} (ho : o < 252) (ho1 : o1 < 252)
    (h : b * 252 + o = b1 * 252 + o1) : b = b1 ∧ o = o1 := by
  omega

theorem probeOrder_of_lin {nb b o j b1 o1 : Nat} (ho1 : o1 < 252)
    (h : b1 * 252 + o1 = (b * 252 + o + j) % (nb * 252)) :
    probeOrder nb b o j = (b1, o1) := by
  have h1 := probeOrder_lin nb b o j
  have h2 := probeOrder_snd_lt nb b o j
  rw [← h] at h1
  obtain ⟨e1, e2⟩ := slot_eq_of_lin h2 ho1 h1
  exact Prod.ext e1 e2

theorem probeOrder_zero {nb b o : Nat} (hb : b < nb) (ho : o < 252) :
    probeOrder nb b o 0 = (b, o) := by
  apply probeOrder_of_lin ho
  rw [Nat.add_zero, Nat.mod_eq_of_lt (by omega)]

theorem probeOrder_period (nb b o j : Nat) :
    probeOrder nb b o (j + nb * BlockArraySize) = probeOrder nb b o j := by
  simp only [probeOrder]
  rw [← Nat.add_assoc, Nat.add_mod_right]

theorem probeOrder_congr {nb b o j b1 o1 j1 : Nat}
    (h : (b * 252 + o + j) % (nb * 252) = (b1 * 252 + o1 + j1) % (nb * 252)) :
    probeOrder nb b o j = probeOrder nb b1 o1 j1 := by
  simp only [probeOrder, blockArraySize_eq, h]

/-- Going on `j` places from the slot `i` places after the start. -/
theorem probeOrder_add (nb b o i j : Nat) :
    probeOrder nb (probeOrder nb b o i).1 (probeOrder nb b o i).2 j
      = probeOrder nb b o (i + j) := by
  have h1 := probeOrder_lin nb b o i
  apply probeOrder_congr
  rw [h1, Nat.mod_add_mod, Nat.add_assoc]

/-- Two places of the probe order less than a round apart are different slots. -/
theorem probeOrder_inj {nb b o i j : Nat} (hij : i ≤ j) (hlt : j < i + nb * 252)
    (h : probeOrder nb b o i = probeOrder nb b o j) : i = j := by
  have h1 := probeOrder_lin nb b o i
  have h2 := probeOrder_lin nb b o j
  rw [h, h2] at h1
  have hm : (b * 252 + o + i) ≡ (b * 252 + o + j) [MOD (nb * 252)] := h1.symm
  have hm2 : i ≡ j [MOD (nb * 252)] := Nat.ModEq.add_left_cancel' _ hm
  have hd : nb * 252 ∣ j - i := (Nat.modEq_iff_dvd' hij).1 hm2
  have hz : j - i = 0 := Nat.eq_zero_of_dvd_of_lt hd (by omega)
  omega

/-- Every slot of the directory stands in the probe order, less than a round after the
start. -/
theorem probeOrder_surj {nb b o b1 o1 : Nat} (hb : b < nb) (ho : o < 252) (hb1 : b1 < nb)
    (ho1 : o1 < 252) : ∃ j, j < nb * 252 ∧ probeOrder nb b o j = (b1, o1) := by
  have hpos : 0 < nb * 252 := by omega
  by_cases hle : b * 252 + o ≤ b1 * 252 + o1
  · refine ⟨b1 * 252 + o1 - (b * 252 + o), by omega, ?_⟩
    apply probeOrder_of_lin ho1
    rw [Nat.add_sub_cancel' hle, Nat.mod_eq_of_lt (by omega)]
  · refine ⟨b1 * 252 + o1 + nb * 252 - (b * 252 + o), by omega, ?_⟩
    apply probeOrder_of_lin ho1
    rw [Nat.add_sub_cancel' (by omega), Nat.add_mod_right, Nat.mod_eq_of_lt (by omega)]

/-- One call of `next` moves the iterator one place on in the probe order. -/
theorem next_probeOrder {C : List PageData} {hp : SkipListHeaderPage} (hd : Dir C hp)
    {bpm : BufferPoolManager} (hc : contents bpm = C) {itr : skipListIterator}
    (hs : OnSlot hp itr) :
    ∃ bpm1 itr1, next bpm hp itr = some (bpm1, itr1) ∧ contents bpm1 = C ∧
      OnSlot hp itr1 ∧
      (itr1.bucket, itr1.offset) = probeOrder (NumBlocks hp) itr.bucket itr.offset 1 := by
  obtain ⟨bpm1, itr1, hn, hc1, hs1, hmove⟩ := next_spec hd hc hs
  refine ⟨bpm1, itr1, hn, hc1, hs1, ?_⟩
  have ho1 := hs1.2.1
  have ho := hs.2.1
  have hb := hs.1
  have hb1 := hs1.1
  rw [blockArraySize_eq] at ho1 ho hmove
  symm
  apply probeOrder_of_lin ho1
  rcases hmove with ⟨h1, h2, h3⟩ | ⟨h1, h2, h3, h4⟩ | ⟨h1, h2, h3, h4⟩
  · rw [Nat.mod_eq_of_lt (by omega)]
    omega
  · rw [Nat.mod_eq_of_lt (by omega)]
    omega
  · have e : itr.bucket * 252 + itr.offset + 1 = NumBlocks hp * 252 := by omega
    rw [e, Nat.mod_self]
    omega

/-- The iterator after `j` calls of `next`: the calls return, the pool data stay, and the
iterator stands `j` places after its start in the probe order. -/
theorem nextN_spec {C : List PageData} {hp : SkipListHeaderPage} (hd : Dir C hp) :
    ∀ (j : Nat) (bpm : BufferPoolManager) (itr : skipListIterator),
      contents bpm = C → OnSlot hp itr →
      ∃ bpm1 itr1, nextN hp j bpm itr = some (bpm1, itr1) ∧ contents bpm1 = C ∧
        OnSlot hp itr1 ∧
        (itr1.bucket, itr1.offset) = probeOrder (NumBlocks hp) itr.bucket itr.offset j := by
  intro j
  induction j with
  | zero =>
    intro bpm itr hc hs
    refine ⟨bpm, itr, rfl, hc, hs, ?_⟩
    have ho := hs.2.1
    rw [blockArraySize_eq] at ho
    exact (probeOrder_zero hs.1 ho).symm
  | succ n ih =>
    intro bpm itr hc hs
    obtain ⟨bpm1, itr1, hn, hc1, hs1, hp1⟩ := next_probeOrder hd hc hs
    obtain ⟨bpm2, itr2, hn2, hc2, hs2, hp2⟩ := ih bpm1 itr1 hc1 hs1
    refine ⟨bpm2, itr2, ?_, hc2, hs2, ?_⟩
    · simp only [nextN, hn, hn2]
    · rw [hp2]
      have e1 : itr1.bucket = (probeOrder (NumBlocks hp) itr.bucket itr.offset 1).1 :=
        congrArg Prod.fst hp1
      have e2 : itr1.offset = (probeOrder (NumBlocks hp) itr.bucket itr.offset 1).2 :=
        congrArg Prod.snd hp1
      rw [e1, e2, probeOrder_add, Nat.add_comm]

end DiskIndex
namespace SkipListPage

/-- What `Insert` does on a slot that is not occupied, of a page with the lengths of its
array types: the slot is claimed and every other slot stays as it was. -/
theorem insert_free_slot {p : SkipListBlockPage} (hs : Sized p) {i : Nat}
    (hi : i < BlockArraySize) (k v : Nat) (hfree : IsOccupied p i = some false) :
    ∃ p1, Insert p i k v = some (p1, true) ∧
      IsOccupied p1 i = some true ∧ IsReadable p1 i = some true ∧
      p1.array[i]? = some { key := k, value := v } ∧
      ∀ j, j ≠ i → IsOccupied p1 j = IsOccupied p j ∧ IsReadable p1 j = IsReadable p j ∧
        p1.array[j]? = p.array[j]? := by
  obtain ⟨o, r, e, ho, hr, ha⟩ := hs.get hi
  have hlt : i < p.array.length := by rw [hs.2.2]; exact hi
  have hbit : o.testBit (i % 8) = false := by
    rw [isOccupied_eq, ho] at hfree
    simpa using hfree
  have hins := insert_free k v ho hr hlt hbit
  refine ⟨_, hins, ?_, ?_, getElem?_set_self_of_some _ ha, ?_⟩
  · rw [isOccupied_eq]
    simp only
    rw [getElem?_set_self_of_some _ ho, Option.map_some', testBit_set]
    simp
  · rw [isReadable_eq]
    simp only
    rw [getElem?_set_self_of_some _ hr, Option.map_some', testBit_set]
    simp
  · intro j hj
    have h3 := insert_other_slot (Ne.symm hj) hins
    refine ⟨h3.1, h3.2.1, ?_⟩
    simp only
    rw [List.getElem?_set_ne (Ne.symm hj)]

end SkipListPage
namespace DiskIndex

open SkipListPage

theorem contents_storeBlock {bpm : BufferPoolManager} {id : Nat} {p : SkipListBlockPage}
    (h : blockOf bpm id = some p) (b : SkipListBlockPage) :
    contents (storeBlock bpm id b) = (contents bpm).set id (PageData.block b) := by
  unfold blockOf at h
  cases hf : bpm.pages[id]? with
  | none => rw [hf] at h; exact absurd h (by simp)
  | some f =>
    simp only [storeBlock, hf, contents, List.map_set]

/-- The loop of `Insert` from the place `j` of the probe order, when the places before
place `j + m` are occupied and hold other values and the slot of place `j + m` is free:
the loop stores into that slot and leaves with the nil error. -/
theorem insertLoop_places {C : List PageData} {hp : SkipListHeaderPage} (hd : Dir C hp)
    (hash value ob oo : Nat) (hob : ob < NumBlocks hp) (hoo : oo < 252) (d : Nat)
    (hdN : d < NumBlocks hp * 252)
    (hocc : ∀ j, j < d → ∃ id p w,
      GetBlockPageId hp (probeOrder (NumBlocks hp) ob oo j).1 = some id ∧
      C[id]? = some (PageData.block p) ∧
      IsOccupied p (probeOrder (NumBlocks hp) ob oo j).2 = some true ∧
      ValueAt p (probeOrder (NumBlocks hp) ob oo j).2 = some w ∧ w ≠ value)
    (id : Nat) (p p1 : SkipListBlockPage)
    (hg : GetBlockPageId hp (probeOrder (NumBlocks hp) ob oo d).1 = some id)
    (hcid : C[id]? = some (PageData.block p))
    (hfree : IsOccupied p (probeOrder (NumBlocks hp) ob oo d).2 = some false)
    (hins : SkipListPage.Insert p (probeOrder (NumBlocks hp) ob oo d).2 hash value
      = some (p1, true)) :
    ∀ (m j : Nat), j + m = d →
      ∀ (f : Nat) (bpm : BufferPoolManager) (itr : skipListIterator) (err : Option String),
        m + 1 ≤ f → contents bpm = C → OnSlot hp itr →
        (itr.bucket, itr.offset) = probeOrder (NumBlocks hp) ob oo j →
        ∃ bpm1 itr1, insertLoop hash value hp ob oo f bpm itr err = some (bpm1, itr1, none) ∧
          contents bpm1 = C.set id (PageData.block p1) := by
  intro m
  induction m with
  | zero =>
    intro j hj f bpm itr err hf hc hs hpos
    obtain ⟨f1, rfl⟩ : ∃ f1, f = f1 + 1 := ⟨f - 1, by omega⟩
    have hjd : j = d := by omega
    subst hjd
    have eb : itr.bucket = (probeOrder (NumBlocks hp) ob oo j).1 := congrArg Prod.fst hpos
    have eo : itr.offset = (probeOrder (NumBlocks hp) ob oo j).2 := congrArg Prod.snd hpos
    have hid : itr.blockId = id := by
      have := hs.2.2
      rw [eb, hg] at this
      exact (Option.some.inj this).symm
    have hblock : blockOf bpm itr.blockId = some p := by
      apply blockOf_of_contents
      rw [hc, hid]
      exact hcid
    refine ⟨storeBlock bpm itr.blockId p1, itr, ?_, ?_⟩
    · rw [← eo] at hfree hins
      simp only [insertLoop, hblock, hfree, Bool.false_eq_true, if_false, Bool.not_false,
        if_true, hins]
    · rw [contents_storeBlock hblock, hc, hid]
  | succ n ih =>
    intro j hj f bpm itr err hf hc hs hpos
    obtain ⟨f1, rfl⟩ : ∃ f1, f = f1 + 1 := ⟨f - 1, by omega⟩
    have hjd : j < d := by omega
    obtain ⟨id0, p0, w, hg0, hc0, hocc0, hval0, hne⟩ := hocc j hjd
    have eb : itr.bucket = (probeOrder (NumBlocks hp) ob oo j).1 := congrArg Prod.fst hpos
    have eo : itr.offset = (probeOrder (NumBlocks hp) ob oo j).2 := congrArg Prod.snd hpos
    have hid : itr.blockId = id0 := by
      have := hs.2.2
      rw [eb, hg0] at this
      exact (Option.some.inj this).symm
    have hblock : blockOf bpm itr.blockId = some p0 := by
      apply blockOf_of_contents
      rw [hc, hid]
      exact hc0
    rw [← eo] at hocc0 hval0
    have hw : (w == value) = false := by simpa using hne
    obtain ⟨bpm1, itr1, hn, hc1, hs1, hp1⟩ := next_probeOrder hd hc hs
    have hpos1 : (itr1.bucket, itr1.offset) = probeOrder (NumBlocks hp) ob oo (j + 1) := by
      rw [hp1, eb, eo, probeOrder_add]
    have hwrap : ¬ (itr1.bucket = ob ∧ itr1.offset = oo) := by
      intro hw1
      have h0 : probeOrder (NumBlocks hp) ob oo 0 = probeOrder (NumBlocks hp) ob oo (j + 1) := by
        rw [probeOrder_zero hob hoo, ← hpos1, hw1.1, hw1.2]
      have := probeOrder_inj (Nat.zero_le _) (by omega) h0
      omega
    obtain ⟨bpm2, itr2, hrec, hc2⟩ := ih (j + 1) (by omega) f1 bpm1 itr1 err (by omega) hc1 hs1
      hpos1
    refine ⟨bpm2, itr2, ?_, hc2⟩
    simp only [insertLoop, hblock, hocc0, hval0, Option.map_some', hw, if_true,
      Bool.not_true, Bool.false_eq_true, if_false, hn, hwrap, hrec]

/-- The slot readers of a well-formed index. -/
theorem WellFormed.slot {sl : SkipList} {hp : SkipListHeaderPage} (hwf : WellFormed sl hp)
    {b : Nat} (hb : b < NumBlocks hp) (o : Nat) :
    ∃ id p, GetBlockPageId hp b = some id ∧ blockOf sl.bpm id = some p ∧ Sized p ∧
      slotOccupied sl.bpm hp (b, o) = IsOccupied p o ∧
      slotValue sl.bpm hp (b, o) = ValueAt p o := by
  obtain ⟨id, p, hg, hbk, hsz⟩ := hwf.2 b hb
  refine ⟨id, p, hg, hbk, hsz, ?_, ?_⟩
  · simp only [slotOccupied, bucketPage, hg, hbk]
  · simp only [slotValue, bucketPage, hg, hbk]

theorem WellFormed.toDir {sl : SkipList} {hp : SkipListHeaderPage} (hwf : WellFormed sl hp) :
    Dir (contents sl.bpm) hp := by
  intro b hb
  obtain ⟨id, p, hg, hbk, _⟩ := hwf.2 b hb
  exact ⟨id, p, hg, contents_of_blockOf hbk⟩

end DiskIndex
namespace DiskIndex

open SkipListPage

/-- C25: on a well-formed index with at least one block, let place `d` of the probe order
that starts at slot (hash(key) mod NumBlocks, hash(key) mod BlockArraySize) be the first
one whose slot is not occupied, and let no slot of a place before it hold `value`.  Then
`Insert(key, value)` returns nil; the pool data afterwards are those of before with the
block page `p` of that slot replaced by a page `p1` in which the slot is occupied and
readable and holds the pair (hash(key), value), and in which every other slot is as it
was in `p`: its occupied bit, its readable bit and its pair.  No other page of the pool is
written, and a slot that is occupied but not readable is passed like any occupied one. -/
theorem insert_probe_placement (ext : External) (sl : SkipList) (hp : SkipListHeaderPage)
    (key : List Nat) (value d : Nat) (hwf : WellFormed sl hp) (hnb : 1 ≤ NumBlocks hp)
    (hbefore : ∀ j, j < d →
      slotOccupied sl.bpm hp (probeOrder (NumBlocks hp) (hash ext key % NumBlocks hp)
        (hash ext key % BlockArraySize) j) = some true ∧
      slotValue sl.bpm hp (probeOrder (NumBlocks hp) (hash ext key % NumBlocks hp)
        (hash ext key % BlockArraySize) j) ≠ some value)
    (hfree : slotOccupied sl.bpm hp (probeOrder (NumBlocks hp) (hash ext key % NumBlocks hp)
        (hash ext key % BlockArraySize) d) = some false) :
    ∃ sl1 id p p1, Insert ext sl key value = some (sl1, none) ∧
      sl1.headerPageId = sl.headerPageId ∧
      GetBlockPageId hp (probeOrder (NumBlocks hp) (hash ext key % NumBlocks hp)
        (hash ext key % BlockArraySize) d).1 = some id ∧
      blockOf sl.bpm id = some p ∧
      contents sl1.bpm = (contents sl.bpm).set id (PageData.block p1) ∧
      IsOccupied p1 (probeOrder (NumBlocks hp) (hash ext key % NumBlocks hp)
        (hash ext key % BlockArraySize) d).2 = some true ∧
      IsReadable p1 (probeOrder (NumBlocks hp) (hash ext key % NumBlocks hp)
        (hash ext key % BlockArraySize) d).2 = some true ∧
      p1.array[(probeOrder (NumBlocks hp) (hash ext key % NumBlocks hp)
        (hash ext key % BlockArraySize) d).2]? = some { key := hash ext key, value := value } ∧
      ∀ i, i ≠ (probeOrder (NumBlocks hp) (hash ext key % NumBlocks hp)
          (hash ext key % BlockArraySize) d).2 →
        IsOccupied p1 i = IsOccupied p i ∧ IsReadable p1 i = IsReadable p i ∧
          p1.array[i]? = p.array[i]? := by
  have hob : hash ext key % NumBlocks hp < NumBlocks hp := Nat.mod_lt _ hnb
  have hoo : hash ext key % BlockArraySize < BlockArraySize := Nat.mod_lt _ (by decide)
  have hoo2 : hash ext key % BlockArraySize < 252 := by rw [← blockArraySize_eq]; exact hoo
  generalize hob0 : hash ext key % NumBlocks hp = ob at *
  generalize hoo0 : hash ext key % BlockArraySize = oo at *
  -- the first free place is less than a round after the start
  have hdN : d < NumBlocks hp * 252 := by
    by_contra hge
    have hper := probeOrder_period (NumBlocks hp) ob oo (d - NumBlocks hp * 252)
    rw [blockArraySize_eq, Nat.sub_add_cancel (by omega)] at hper
    have h1 := (hbefore (d - NumBlocks hp * 252) (by omega)).1
    rw [← hper, hfree] at h1
    exact absurd h1 (by simp)
  -- the slot of place `d`
  have hbd := probeOrder_fst_lt (NumBlocks hp) ob oo d hnb
  have hod := probeOrder_snd_lt (NumBlocks hp) ob oo d
  obtain ⟨id, p, hg, hbk, hsz, hso, _⟩ := hwf.slot hbd (probeOrder (NumBlocks hp) ob oo d).2
  rw [hfree] at hso
  obtain ⟨p1, hins, h1, h2, h3, h4⟩ := insert_free_slot hsz
    (by rw [blockArraySize_eq]; exact hod) (hash ext key) value hso.symm
  -- the slots of the places before `d`
  have hocc : ∀ j, j < d → ∃ id p w,
      GetBlockPageId hp (probeOrder (NumBlocks hp) ob oo j).1 = some id ∧
      (contents sl.bpm)[id]? = some (PageData.block p) ∧
      IsOccupied p (probeOrder (NumBlocks hp) ob oo j).2 = some true ∧
      ValueAt p (probeOrder (NumBlocks hp) ob oo j).2 = some w ∧ w ≠ value := by
    intro j hj
    have hbj := probeOrder_fst_lt (NumBlocks hp) ob oo j hnb
    have hoj := probeOrder_snd_lt (NumBlocks hp) ob oo j
    obtain ⟨idj, pj, hgj, hbkj, hszj, hsoj, hsvj⟩ :=
      hwf.slot hbj (probeOrder (NumBlocks hp) ob oo j).2
    obtain ⟨hb1, hb2⟩ := hbefore j hj
    rw [hsoj] at hb1
    rw [hsvj] at hb2
    obtain ⟨_, _, e, _, _, ha⟩ := hszj.get (by rw [blockArraySize_eq]; exact hoj)
    refine ⟨idj, pj, e.value, hgj, contents_of_blockOf hbkj, hb1, ?_, ?_⟩
    · simp only [ValueAt, ha, Option.map_some']
    · intro hv
      apply hb2
      simp only [ValueAt, ha, Option.map_some', hv]
  -- the calls of `Insert`
  obtain ⟨bpm1, hfetch, hc1⟩ := fetch_of_contents (contents_of_headerOf hwf.1)
  obtain ⟨id0, p0, hg0, hcid0⟩ := hwf.toDir _ hob
  obtain ⟨bpm2, hfetch2, hc2⟩ := fetch_of_contents (hc1 ▸ hcid0)
  obtain ⟨bpm3, itr3, hloop, hc3⟩ := insertLoop_places hwf.toDir (hash ext key) value ob oo hob
    hoo2 d hdN hocc id p p1 hg (contents_of_blockOf hbk) hso.symm hins d 0 (by omega)
    (NumBlocks hp * BlockArraySize) bpm2
    { bucket := ob, offset := oo, blockId := id0 } none
    (by rw [blockArraySize_eq]; omega) (by rw [hc2, hc1]) ⟨hob, hoo, hg0⟩
    (probeOrder_zero hob hoo2).symm
  refine ⟨{ sl with bpm := UnpinPage (UnpinPage bpm3 itr3.blockId true) sl.headerPageId false },
    id, p, p1, ?_, rfl, hg, hbk, ?_, h1, h2, h3, h4⟩
  · have hne : ¬ (NumBlocks hp = 0) := by omega
    simp only [Insert, hfetch, hne, if_false, newSkipListIterator, hob0, hoo0, hg0, hfetch2,
      hloop]
  · simp only [contents_unpin, hc3]

end DiskIndex
namespace DiskIndex

open SkipListPage

theorem samplePage_sized : Sized samplePage := by
  refine ⟨?_, ?_, ?_⟩ <;>
    simp only [samplePage, List.length_cons, List.length_append, List.length_replicate,
      List.length_nil] <;> decide

theorem samplePage_value (i : Nat) (hi : i < 2) : ValueAt samplePage i = some i := by
  have h : i = 0 ∨ i = 1 := by omega
  rcases h with rfl | rfl
  · simp only [ValueAt, samplePage, List.cons_append, List.getElem?_cons_zero,
      Option.map_some']
  · simp only [ValueAt, samplePage, List.cons_append, List.getElem?_cons_succ,
      List.getElem?_cons_zero, Option.map_some']

theorem tombstoneIndex_wf :
    WellFormed tombstoneIndex { pageId := 0, size := 252, lsn := 0, blockPageIds := [1] } := by
  refine ⟨rfl, fun b hb => ⟨1, samplePage, ?_, rfl, samplePage_sized⟩⟩
  have : b = 0 := by simpa [NumBlocks] using hb
  subst this
  rfl

/-- The instance of C25 for the index `tombstoneIndex`, the key [35], whose hash 252 starts
the probe at slot 0 of block 0, and the value 7: slot 0 is occupied and readable, slot 1 is
occupied but not readable, and the pair (252, 7) goes into slot 2. -/
theorem insert_probe_placement_witness :
    WellFormed tombstoneIndex { pageId := 0, size := 252, lsn := 0, blockPageIds := [1] } ∧
    hash sampleExternal [35] = 252 ∧
    IsOccupied samplePage 1 = some true ∧ IsReadable samplePage 1 = some false ∧
    ∃ sl1 id p p1, Insert sampleExternal tombstoneIndex [35] 7 = some (sl1, none) ∧
      sl1.headerPageId = tombstoneIndex.headerPageId ∧
      GetBlockPageId { pageId := 0, size := 252, lsn := 0, blockPageIds := [1] } 0 = some id ∧
      blockOf tombstoneIndex.bpm id = some p ∧
      contents sl1.bpm = (contents tombstoneIndex.bpm).set id (PageData.block p1) ∧
      IsOccupied p1 2 = some true ∧ IsReadable p1 2 = some true ∧
      p1.array[2]? = some { key := 252, value := 7 } ∧
      ∀ i, i ≠ 2 →
        IsOccupied p1 i = IsOccupied p i ∧ IsReadable p1 i = IsReadable p i ∧
          p1.array[i]? = p.array[i]? :=
  ⟨tombstoneIndex_wf, rfl, rfl, rfl,
    insert_probe_placement sampleExternal tombstoneIndex
      { pageId := 0, size := 252, lsn := 0, blockPageIds := [1] } [35] 7 2 tombstoneIndex_wf
      (by decide)
      (fun j hj => by
        have h : j = 0 ∨ j = 1 := by omega
        rcases h with rfl | rfl
        · refine ⟨rfl, ?_⟩
          show ValueAt samplePage 0 ≠ some 7
          rw [samplePage_value 0 (by decide)]
          decide
        · refine ⟨rfl, ?_⟩
          show ValueAt samplePage 1 ≠ some 7
          rw [samplePage_value 1 (by decide)]
          decide)
      rfl⟩

end DiskIndex
namespace DiskIndex

open SkipListPage

/-- One round of the loop of `Insert`: the fuel shows only in the next round. -/
theorem insertLoop_congr (hash value : Nat) (hp : SkipListHeaderPage) (ob oo f1 f2 : Nat)
    (bpm : BufferPoolManager) (itr : skipListIterator) (err : Option String)
    (h : ∀ bpm1 itr1, next bpm hp itr = some (bpm1, itr1) →
      ¬ (itr1.bucket = ob ∧ itr1.offset = oo) →
      insertLoop hash value hp ob oo f1 bpm1 itr1 err
        = insertLoop hash value hp ob oo f2 bpm1 itr1 err) :
    insertLoop hash value hp ob oo (f1 + 1) bpm itr err
      = insertLoop hash value hp ob oo (f2 + 1) bpm itr err := by
  simp only [insertLoop]
  cases hb : blockOf bpm itr.blockId with
  | none => rfl
  | some p =>
    simp only
    cases ho : IsOccupied p itr.offset with
    | none => rfl
    | some occ =>
      cases occ with
      | false => rfl
      | true =>
        simp only [if_true]
        cases hv : ValueAt p itr.offset with
        | none => rfl
        | some w =>
          simp only [Option.map_some']
          cases hw : (w == value) with
          | true => rfl
          | false =>
            simp only [Bool.not_true, Bool.false_eq_true, if_false]
            cases hn : next bpm hp itr with
            | none => rfl
            | some r =>
              obtain ⟨bpm1, itr1⟩ := r
              simp only
              by_cases hwrap : itr1.bucket = ob ∧ itr1.offset = oo
              · simp only [hwrap, and_self, if_true]
              · simp only [hwrap, if_false]
                exact h bpm1 itr1 hn hwrap

end DiskIndex
namespace DiskIndex

open SkipListPage

/-- One round of the loop of `GetValue`: the fuel shows only in the next round. -/
theorem getValueLoop_congr (ext : External) (key : List Nat) (hp : SkipListHeaderPage)
    (ob oo f1 f2 : Nat) (bpm : BufferPoolManager) (itr : skipListIterator) (res : List Nat)
    (h : ∀ bpm1 itr1 res1, next bpm hp itr = some (bpm1, itr1) →
      ¬ (itr1.bucket = ob ∧ itr1.offset = oo) →
      getValueLoop ext key hp ob oo f1 bpm1 itr1 res1
        = getValueLoop ext key hp ob oo f2 bpm1 itr1 res1) :
    getValueLoop ext key hp ob oo (f1 + 1) bpm itr res
      = getValueLoop ext key hp ob oo (f2 + 1) bpm itr res := by
  simp only [getValueLoop]
  cases hb : blockOf bpm itr.blockId with
  | none => rfl
  | some p =>
    simp only
    cases ho : IsOccupied p itr.offset with
    | none => rfl
    | some occ =>
      cases occ with
      | false => rfl
      | true =>
        simp only
        cases hr : IsReadable p itr.offset with
        | none => rfl
        | some rd =>
          cases rd with
          | true => rfl
          | false =>
            simp only [Bool.false_eq_true, if_false]
            cases hn : next bpm hp itr with
            | none => rfl
            | some r =>
              obtain ⟨bpm1, itr1⟩ := r
              simp only
              by_cases hwrap : itr1.bucket = ob ∧ itr1.offset = oo
              · simp only [hwrap, and_self, if_true]
              · simp only [hwrap, if_false]
                exact h bpm1 itr1 res hn hwrap

/-- One round of the loop of `Remove`: the fuel shows only in the next round. -/
theorem removeLoop_congr (ext : External) (key : List Nat) (value : Nat)
    (hp : SkipListHeaderPage) (ob oo f1 f2 : Nat) (bpm : BufferPoolManager)
    (itr : skipListIterator)
    (h : ∀ bpm0 bpm1 itr1, contents bpm0 = contents bpm ∨
        (∃ b, contents bpm0 = (contents bpm).set itr.blockId (PageData.block b)) →
      next bpm0 hp itr = some (bpm1, itr1) →
      ¬ (itr1.bucket = ob ∧ itr1.offset = oo) →
      removeLoop ext key value hp ob oo f1 bpm1 itr1
        = removeLoop ext key value hp ob oo f2 bpm1 itr1) :
    removeLoop ext key value hp ob oo (f1 + 1) bpm itr
      = removeLoop ext key value hp ob oo (f2 + 1) bpm itr := by
  simp only [removeLoop]
  cases hb : blockOf bpm itr.blockId with
  | none => rfl
  | some p =>
    simp only
    cases ho : IsOccupied p itr.offset with
    | none => rfl
    | some occ =>
      cases occ with
      | false => rfl
      | true =>
        simp only
        cases hk : KeyAt p itr.offset with
        | none => rfl
        | some k =>
          cases hv : ext.NewValueFromBytes key with
          | none => rfl
          | some v =>
            simp only
            cases hc : k.CompareEquals v with
            | false =>
              simp only [Bool.false_eq_true, if_false]
              cases hn : next bpm hp itr with
              | none => rfl
              | some r =>
                obtain ⟨bpm1, itr1⟩ := r
                simp only
                by_cases hwrap : itr1.bucket = ob ∧ itr1.offset = oo
                · simp only [hwrap, and_self, if_true]
                · simp only [hwrap, if_false]
                  exact h bpm bpm1 itr1 (Or.inl rfl) hn hwrap
            | true =>
              simp only [if_true]
              cases hw : ValueAt p itr.offset with
              | none => rfl
              | some w =>
                simp only [Option.map_some']
                cases hwv : (w == value) with
                | false =>
                  simp only [Bool.false_eq_true, if_false]
                  cases hn : next bpm hp itr with
                  | none => rfl
                  | some r =>
                    obtain ⟨bpm1, itr1⟩ := r
                    simp only
                    by_cases hwrap : itr1.bucket = ob ∧ itr1.offset = oo
                    · simp only [hwrap, and_self, if_true]
                    · simp only [hwrap, if_false]
                      exact h bpm bpm1 itr1 (Or.inl rfl) hn hwrap
                | true =>
                  simp only [if_true]
                  cases hrm : SkipListPage.Remove p itr.offset with
                  | none => rfl
                  | some b =>
                    simp only [Option.map_some']
                    cases hn : next (storeBlock bpm itr.blockId b) hp itr with
                    | none => rfl
                    | some r =>
                      obtain ⟨bpm1, itr1⟩ := r
                      simp only
                      by_cases hwrap : itr1.bucket = ob ∧ itr1.offset = oo
                      · simp only [hwrap, and_self, if_true]
                      · simp only [hwrap, if_false]
                        exact h _ bpm1 itr1 (Or.inr ⟨b, contents_storeBlock hb b⟩) hn hwrap

end DiskIndex
namespace DiskIndex

open SkipListPage

theorem Dir.set_block {C : List PageData} {hp : SkipListHeaderPage} (hd : Dir C hp)
    (id : Nat) (b : SkipListBlockPage) : Dir (C.set id (PageData.block b)) hp := by
  intro k hk
  obtain ⟨i, p, hg, hc⟩ := hd k hk
  by_cases e : id = i
  · subst e
    exact ⟨id, b, hg, getElem?_set_self_of_some _ hc⟩
  · exact ⟨i, p, hg, by rw [List.getElem?_set_ne e]; exact hc⟩

/-- After a call of `next` from a place `j` of the probe order: the iterator is on place
`j + 1`, and it is on the start slot when this is a whole round. -/
theorem next_place {hp : SkipListHeaderPage} {bpm bpm1 : BufferPoolManager}
    {itr itr1 : skipListIterator} {ob oo j : Nat} (hob : ob < NumBlocks hp) (hoo : oo < 252)
    (hd : Dir (contents bpm) hp) (hs : OnSlot hp itr)
    (hpos : (itr.bucket, itr.offset) = probeOrder (NumBlocks hp) ob oo j)
    (hn : next bpm hp itr = some (bpm1, itr1)) :
    contents bpm1 = contents bpm ∧ OnSlot hp itr1 ∧
      (itr1.bucket, itr1.offset) = probeOrder (NumBlocks hp) ob oo (j + 1) ∧
      (j + 1 = NumBlocks hp * 252 → itr1.bucket = ob ∧ itr1.offset = oo) := by
  obtain ⟨bpm2, itr2, hn2, hc2, hs2, hp2⟩ := next_probeOrder hd rfl hs
  rw [hn] at hn2
  simp only [Option.some.injEq, Prod.mk.injEq] at hn2
  obtain ⟨rfl, rfl⟩ := hn2
  have eb : itr.bucket = (probeOrder (NumBlocks hp) ob oo j).1 := congrArg Prod.fst hpos
  have eo : itr.offset = (probeOrder (NumBlocks hp) ob oo j).2 := congrArg Prod.snd hpos
  have hpos1 : (itr1.bucket, itr1.offset) = probeOrder (NumBlocks hp) ob oo (j + 1) := by
    rw [hp2, eb, eo, probeOrder_add]
  refine ⟨hc2, hs2, hpos1, ?_⟩
  intro hN
  have hper := probeOrder_period (NumBlocks hp) ob oo 0
  rw [blockArraySize_eq, Nat.zero_add, ← hN, probeOrder_zero hob hoo] at hper
  rw [hper] at hpos1
  exact ⟨congrArg Prod.fst hpos1, congrArg Prod.snd hpos1⟩

/-- The loop of `Insert` entered at place `j` of the probe order makes no more rounds than
a whole round of the directory has places left. -/
theorem insertLoop_fuel {hp : SkipListHeaderPage} (hash value ob oo : Nat)
    (hob : ob < NumBlocks hp) (hoo : oo < 252) :
    ∀ (m j : Nat), j + m + 1 = NumBlocks hp * 252 →
      ∀ (f : Nat) (bpm : BufferPoolManager) (itr : skipListIterator) (err : Option String),
        m + 1 ≤ f → Dir (contents bpm) hp → OnSlot hp itr →
        (itr.bucket, itr.offset) = probeOrder (NumBlocks hp) ob oo j →
        insertLoop hash value hp ob oo f bpm itr err
          = insertLoop hash value hp ob oo (m + 1) bpm itr err := by
  intro m
  induction m with
  | zero =>
    intro j hj f bpm itr err hf hd hs hpos
    obtain ⟨f1, rfl⟩ : ∃ f1, f = f1 + 1 := ⟨f - 1, by omega⟩
    apply insertLoop_congr
    intro bpm1 itr1 hn hwrap
    exact absurd ((next_place hob hoo hd hs hpos hn).2.2.2 (by omega)) hwrap
  | succ n ih =>
    intro j hj f bpm itr err hf hd hs hpos
    obtain ⟨f1, rfl⟩ : ∃ f1, f = f1 + 1 := ⟨f - 1, by omega⟩
    apply insertLoop_congr
    intro bpm1 itr1 hn hwrap
    obtain ⟨hc1, hs1, hpos1, _⟩ := next_place hob hoo hd hs hpos hn
    exact ih (j + 1) (by omega) f1 bpm1 itr1 err (by omega) (hc1 ▸ hd) hs1 hpos1

/-- The loop of `GetValue` entered at place `j` of the probe order makes no more rounds
than a whole round of the directory has places left. -/
theorem getValueLoop_fuel {hp : SkipListHeaderPage} (ext : External) (key : List Nat)
    (ob oo : Nat) (hob : ob < NumBlocks hp) (hoo : oo < 252) :
    ∀ (m j : Nat), j + m + 1 = NumBlocks hp * 252 →
      ∀ (f : Nat) (bpm : BufferPoolManager) (itr : skipListIterator) (res : List Nat),
        m + 1 ≤ f → Dir (contents bpm) hp → OnSlot hp itr →
        (itr.bucket, itr.offset) = probeOrder (NumBlocks hp) ob oo j →
        getValueLoop ext key hp ob oo f bpm itr res
          = getValueLoop ext key hp ob oo (m + 1) bpm itr res := by
  intro m
  induction m with
  | zero =>
    intro j hj f bpm itr res hf hd hs hpos
    obtain ⟨f1, rfl⟩ : ∃ f1, f = f1 + 1 := ⟨f - 1, by omega⟩
    apply getValueLoop_congr
    intro bpm1 itr1 res1 hn hwrap
    exact absurd ((next_place hob hoo hd hs hpos hn).2.2.2 (by omega)) hwrap
  | succ n ih =>
    intro j hj f bpm itr res hf hd hs hpos
    obtain ⟨f1, rfl⟩ : ∃ f1, f = f1 + 1 := ⟨f - 1, by omega⟩
    apply getValueLoop_congr
    intro bpm1 itr1 res1 hn hwrap
    obtain ⟨hc1, hs1, hpos1, _⟩ := next_place hob hoo hd hs hpos hn
    exact ih (j + 1) (by omega) f1 bpm1 itr1 res1 (by omega) (hc1 ▸ hd) hs1 hpos1

/-- The loop of `Remove` entered at place `j` of the probe order makes no more rounds than
a whole round of the directory has places left. -/
theorem removeLoop_fuel {hp : SkipListHeaderPage} (ext : External) (key : List Nat)
    (value ob oo : Nat) (hob : ob < NumBlocks hp) (hoo : oo < 252) :
    ∀ (m j : Nat), j + m + 1 = NumBlocks hp * 252 →
      ∀ (f : Nat) (bpm : BufferPoolManager) (itr : skipListIterator),
        m + 1 ≤ f → Dir (contents bpm) hp → OnSlot hp itr →
        (itr.bucket, itr.offset) = probeOrder (NumBlocks hp) ob oo j →
        removeLoop ext key value hp ob oo f bpm itr
          = removeLoop ext key value hp ob oo (m + 1) bpm itr := by
  intro m
  induction m with
  | zero =>
    intro j hj f bpm itr hf hd hs hpos
    obtain ⟨f1, rfl⟩ : ∃ f1, f = f1 + 1 := ⟨f - 1, by omega⟩
    apply removeLoop_congr
    intro bpm0 bpm1 itr1 h0 hn hwrap
    have hd0 : Dir (contents bpm0) hp := by
      rcases h0 with e | ⟨b, e⟩
      · rw [e]; exact hd
      · rw [e]; exact hd.set_block _ _
    exact absurd ((next_place hob hoo hd0 hs hpos hn).2.2.2 (by omega)) hwrap
  | succ n ih =>
    intro j hj f bpm itr hf hd hs hpos
    obtain ⟨f1, rfl⟩ : ∃ f1, f = f1 + 1 := ⟨f - 1, by omega⟩
    apply removeLoop_congr
    intro bpm0 bpm1 itr1 h0 hn hwrap
    have hd0 : Dir (contents bpm0) hp := by
      rcases h0 with e | ⟨b, e⟩
      · rw [e]; exact hd
      · rw [e]; exact hd.set_block _ _
    obtain ⟨hc1, hs1, hpos1, _⟩ := next_place hob hoo hd0 hs hpos hn
    exact ih (j + 1) (by omega) f1 bpm1 itr1 (by omega) (hc1 ▸ hd0) hs1 hpos1

end DiskIndex
namespace DiskIndex

open SkipListPage

/-- One round of the loop of `Insert` on a slot of a well-formed directory returns when
the next round does. -/
theorem insertLoop_step_returns {C : List PageData} {hp : SkipListHeaderPage}
    (hsd : ∀ b, b < NumBlocks hp → ∃ id p, GetBlockPageId hp b = some id ∧
      C[id]? = some (PageData.block p) ∧ Sized p)
    (hash value ob oo f : Nat) (bpm : BufferPoolManager) (itr : skipListIterator)
    (err : Option String) (hc : contents bpm = C) (hs : OnSlot hp itr)
    (hrec : ∀ bpm1 itr1, next bpm hp itr = some (bpm1, itr1) →
      ¬ (itr1.bucket = ob ∧ itr1.offset = oo) →
      ∃ r, insertLoop hash value hp ob oo f bpm1 itr1 err = some r) :
    ∃ r, insertLoop hash value hp ob oo (f + 1) bpm itr err = some r := by
  have hd : Dir C hp := by
    intro b hb
    obtain ⟨id, p, h1, h2, _⟩ := hsd b hb
    exact ⟨id, p, h1, h2⟩
  obtain ⟨id, p, hg, hcid, hsz⟩ := hsd itr.bucket hs.1
  have hid : itr.blockId = id := by
    have := hs.2.2
    rw [hg] at this
    exact (Option.some.inj this).symm
  have hblock : blockOf bpm itr.blockId = some p := by
    apply blockOf_of_contents
    rw [hc, hid]
    exact hcid
  obtain ⟨o, r, e, ho, hr, ha⟩ := hsz.get hs.2.1
  cases hbit : o.testBit (itr.offset % 8) with
  | false =>
    have hocc : IsOccupied p itr.offset = some false := by
      rw [isOccupied_eq, ho, Option.map_some', hbit]
    obtain ⟨p1, b, hins⟩ := hsz.insert_returns hs.2.1 hash value
    exact ⟨(storeBlock bpm itr.blockId p1, itr, none), by
      simp only [insertLoop, hblock, hocc, Bool.false_eq_true, if_false, Bool.not_false,
        if_true, hins]⟩
  | true =>
    have hocc : IsOccupied p itr.offset = some true := by
      rw [isOccupied_eq, ho, Option.map_some', hbit]
    have hval : ValueAt p itr.offset = some e.value := by
      simp only [ValueAt, ha, Option.map_some']
    cases hw : (e.value == value) with
    | true =>
      exact ⟨(bpm, itr, some duplicateError), by
        simp only [insertLoop, hblock, hocc, hval, Option.map_some', hw, if_true]⟩
    | false =>
      obtain ⟨bpm1, itr1, hn, _, _, _⟩ := next_probeOrder hd hc hs
      by_cases hwrap : itr1.bucket = ob ∧ itr1.offset = oo
      · exact ⟨(bpm1, itr1, err), by
          simp only [insertLoop, hblock, hocc, hval, Option.map_some', hw, if_true,
            Bool.not_true, Bool.false_eq_true, if_false, hn, hwrap, and_self]⟩
      · obtain ⟨r1, hr1⟩ := hrec bpm1 itr1 hn hwrap
        exact ⟨r1, by simp only [insertLoop, hblock, hocc, hval, Option.map_some', hw, if_true,
          Bool.not_true, Bool.false_eq_true, if_false, hn, hwrap, hr1]⟩

/-- The loop of `Insert` entered at place `j` of the probe order of a well-formed
directory, with a round for each place left of a whole round, returns. -/
theorem insertLoop_returns {C : List PageData} {hp : SkipListHeaderPage}
    (hsd : ∀ b, b < NumBlocks hp → ∃ id p, GetBlockPageId hp b = some id ∧
      C[id]? = some (PageData.block p) ∧ Sized p)
    (hash value ob oo : Nat) (hob : ob < NumBlocks hp) (hoo : oo < 252) :
    ∀ (m j : Nat), j + m + 1 = NumBlocks hp * 252 →
      ∀ (bpm : BufferPoolManager) (itr : skipListIterator) (err : Option String),
        contents bpm = C → OnSlot hp itr →
        (itr.bucket, itr.offset) = probeOrder (NumBlocks hp) ob oo j →
        ∃ r, insertLoop hash value hp ob oo (m + 1) bpm itr err = some r := by
  have hd : Dir C hp := by
    intro b hb
    obtain ⟨id, p, h1, h2, _⟩ := hsd b hb
    exact ⟨id, p, h1, h2⟩
  intro m
  induction m with
  | zero =>
    intro j hj bpm itr err hc hs hpos
    apply insertLoop_step_returns hsd hash value ob oo 0 bpm itr err hc hs
    intro bpm1 itr1 hn hwrap
    exact absurd ((next_place hob hoo (hc ▸ hd) hs hpos hn).2.2.2 (by omega)) hwrap
  | succ n ih =>
    intro j hj bpm itr err hc hs hpos
    apply insertLoop_step_returns hsd hash value ob oo (n + 1) bpm itr err hc hs
    intro bpm1 itr1 hn hwrap
    obtain ⟨hc1, hs1, hpos1, _⟩ := next_place hob hoo (hc ▸ hd) hs hpos hn
    exact ih (j + 1) (by omega) bpm1 itr1 err (by rw [hc1, hc]) hs1 hpos1

/-- `Insert` returns on every well-formed index with at least one block. -/
theorem index_insert_returns (ext : External) {sl : SkipList} {hp : SkipListHeaderPage}
    (hwf : WellFormed sl hp) (hnb : 1 ≤ NumBlocks hp) (key : List Nat) (value : Nat) :
    ∃ sl1 err, Insert ext sl key value = some (sl1, err) := by
  have hob : hash ext key % NumBlocks hp < NumBlocks hp := Nat.mod_lt _ hnb
  have hoo : hash ext key % BlockArraySize < BlockArraySize := Nat.mod_lt _ (by decide)
  have hoo2 : hash ext key % BlockArraySize < 252 := by rw [← blockArraySize_eq]; exact hoo
  have hsd : ∀ b, b < NumBlocks hp → ∃ id p, GetBlockPageId hp b = some id ∧
      (contents sl.bpm)[id]? = some (PageData.block p) ∧ Sized p := by
    intro b hb
    obtain ⟨id, p, h1, h2, h3⟩ := hwf.2 b hb
    exact ⟨id, p, h1, contents_of_blockOf h2, h3⟩
  obtain ⟨bpm1, hfetch, hc1⟩ := fetch_of_contents (contents_of_headerOf hwf.1)
  obtain ⟨id0, p0, hg0, hcid0⟩ := hwf.toDir _ hob
  obtain ⟨bpm2, hfetch2, hc2⟩ := fetch_of_contents (hc1 ▸ hcid0)
  have hN : NumBlocks hp * BlockArraySize = (NumBlocks hp * 252 - 1) + 1 := by
    rw [blockArraySize_eq]
    omega
  obtain ⟨⟨bpm3, itr3, err⟩, hloop⟩ := insertLoop_returns hsd (hash ext key) value _ _ hob hoo2
    (NumBlocks hp * 252 - 1) 0 (by omega) bpm2
    { bucket := hash ext key % NumBlocks hp, offset := hash ext key % BlockArraySize,
      blockId := id0 } none (by rw [hc2, hc1]) ⟨hob, hoo, hg0⟩
    (probeOrder_zero hob hoo2).symm
  refine ⟨{ sl with bpm := UnpinPage (UnpinPage bpm3 itr3.blockId true) sl.headerPageId false },
    err, ?_⟩
  have hne : ¬ (NumBlocks hp = 0) := by omega
  simp only [Insert, hfetch, hne, if_false, newSkipListIterator, hg0, hfetch2]
  rw [hN, hloop]

end DiskIndex
namespace DiskIndex

open SkipListPage

/-- C26: on a well-formed index, from an iterator that stands on a slot of the directory:
every number `j` of successive calls of `next` returns and leaves the iterator on place
`j` of the probe order, with the pool data as they were; every slot of the directory is
where the iterator stands after exactly one number of calls among 1, ..., NumBlocks *
BlockArraySize; after NumBlocks * BlockArraySize calls the iterator is back on its start
slot; the loops of `Insert`, `GetValue` and `Remove` entered there do with NumBlocks *
BlockArraySize rounds what they do with any greater number of rounds; and `Insert`
returns. -/
theorem probe_round_visits_every_slot_once (sl : SkipList) (hp : SkipListHeaderPage)
    (bpm : BufferPoolManager) (itr : skipListIterator) (hwf : WellFormed sl hp)
    (hc : contents bpm = contents sl.bpm) (hs : OnSlot hp itr) :
    (∀ j, ∃ bpm1 itr1, nextN hp j bpm itr = some (bpm1, itr1) ∧
      contents bpm1 = contents sl.bpm ∧ OnSlot hp itr1 ∧
      (itr1.bucket, itr1.offset) = probeOrder (NumBlocks hp) itr.bucket itr.offset j) ∧
    (∀ b o, b < NumBlocks hp → o < BlockArraySize →
      ∃! j, 1 ≤ j ∧ j ≤ NumBlocks hp * BlockArraySize ∧
        ∃ bpm1 itr1, nextN hp j bpm itr = some (bpm1, itr1) ∧
          itr1.bucket = b ∧ itr1.offset = o) ∧
    (∃ bpm1 itr1, nextN hp (NumBlocks hp * BlockArraySize) bpm itr = some (bpm1, itr1) ∧
      itr1.bucket = itr.bucket ∧ itr1.offset = itr.offset) ∧
    (∀ f, NumBlocks hp * BlockArraySize ≤ f →
      (∀ hash value err, insertLoop hash value hp itr.bucket itr.offset f bpm itr err
        = insertLoop hash value hp itr.bucket itr.offset (NumBlocks hp * BlockArraySize)
            bpm itr err) ∧
      (∀ ext key res, getValueLoop ext key hp itr.bucket itr.offset f bpm itr res
        = getValueLoop ext key hp itr.bucket itr.offset (NumBlocks hp * BlockArraySize)
            bpm itr res) ∧
      (∀ ext key value, removeLoop ext key value hp itr.bucket itr.offset f bpm itr
        = removeLoop ext key value hp itr.bucket itr.offset (NumBlocks hp * BlockArraySize)
            bpm itr)) ∧
    (∀ ext key value, ∃ sl1 err, Insert ext sl key value = some (sl1, err)) := by
  have hd : Dir (contents sl.bpm) hp := hwf.toDir
  have hb0 := hs.1
  have ho0 : itr.offset < 252 := by rw [← blockArraySize_eq]; exact hs.2.1
  have hN : NumBlocks hp * BlockArraySize = (NumBlocks hp * 252 - 1) + 1 := by
    rw [blockArraySize_eq]
    omega
  have hz := probeOrder_zero hb0 ho0
  refine ⟨fun j => nextN_spec hd j bpm itr hc hs, ?_, ?_, ?_, ?_⟩
  · intro b o hb ho
    rw [blockArraySize_eq] at ho
    obtain ⟨j0, hj0, hpj⟩ := probeOrder_surj hb0 ho0 hb ho
    -- a number of calls in 1, ..., NumBlocks * BlockArraySize that lands on (b, o)
    have hex : ∃ j, 1 ≤ j ∧ j ≤ NumBlocks hp * 252 ∧
        probeOrder (NumBlocks hp) itr.bucket itr.offset j = (b, o) := by
      by_cases h0 : j0 = 0
      · refine ⟨NumBlocks hp * 252, by omega, le_refl _, ?_⟩
        have hper := probeOrder_period (NumBlocks hp) itr.bucket itr.offset 0
        rw [blockArraySize_eq, Nat.zero_add] at hper
        rw [hper, ← h0]
        exact hpj
      · exact ⟨j0, by omega, by omega, hpj⟩
    obtain ⟨j, hj1, hj2, hpj2⟩ := hex
    obtain ⟨bpm1, itr1, hn, _, _, hpos⟩ := nextN_spec hd j bpm itr hc hs
    rw [hpj2] at hpos
    refine ⟨j, ⟨hj1, by rw [blockArraySize_eq]; exact hj2, bpm1, itr1, hn,
      congrArg Prod.fst hpos, congrArg Prod.snd hpos⟩, ?_⟩
    rintro y ⟨hy1, hy2, bpm2, itr2, hn2, hyb, hyo⟩
    rw [blockArraySize_eq] at hy2
    obtain ⟨bpm3, itr3, hn3, _, _, hpos3⟩ := nextN_spec hd y bpm itr hc hs
    rw [hn2] at hn3
    simp only [Option.some.injEq, Prod.mk.injEq] at hn3
    obtain ⟨_, rfl⟩ := hn3
    rw [hyb, hyo] at hpos3
    have heq : probeOrder (NumBlocks hp) itr.bucket itr.offset y
        = probeOrder (NumBlocks hp) itr.bucket itr.offset j := by rw [← hpos3, hpj2]
    by_cases hle : y ≤ j
    · exact probeOrder_inj hle (by omega) heq
    · exact (probeOrder_inj (by omega) (by omega) heq.symm).symm
  · obtain ⟨bpm1, itr1, hn, _, _, hpos⟩ :=
      nextN_spec hd (NumBlocks hp * BlockArraySize) bpm itr hc hs
    have hper := probeOrder_period (NumBlocks hp) itr.bucket itr.offset 0
    rw [Nat.zero_add] at hper
    rw [hper, hz] at hpos
    exact ⟨bpm1, itr1, hn, congrArg Prod.fst hpos, congrArg Prod.snd hpos⟩
  · intro f hf
    rw [hN] at hf ⊢
    refine ⟨fun hash value err => ?_, fun ext key res => ?_, fun ext key value => ?_⟩
    · exact insertLoop_fuel hash value _ _ hb0 ho0 _ 0 (by omega) f bpm itr err hf
        (hc ▸ hd) hs hz.symm
    · exact getValueLoop_fuel ext key _ _ hb0 ho0 _ 0 (by omega) f bpm itr res hf
        (hc ▸ hd) hs hz.symm
    · exact removeLoop_fuel ext key value _ _ hb0 ho0 _ 0 (by omega) f bpm itr hf
        (hc ▸ hd) hs hz.symm
  · intro ext key value
    exact index_insert_returns ext hwf (by omega) key value

theorem zeroPage_sized : Sized zeroPage :=
  ⟨List.length_replicate _ _, List.length_replicate _ _, List.length_replicate _ _⟩

theorem sampleIndex_wf :
    WellFormed sampleIndex { pageId := 0, size := 0, lsn := 0, blockPageIds := [1] } := by
  refine ⟨rfl, fun b hb => ⟨1, zeroPage, ?_, rfl, zeroPage_sized⟩⟩
  have : b = 0 := by simpa [NumBlocks] using hb
  subst this
  rfl

/-- The instance of C26 for the index `sampleIndex` of one block page and an iterator on
slot 5 of block 0: after 252 calls of `next` the iterator is on slot 5 of block 0 again,
and `Insert([1], 2)` returns. -/
theorem probe_round_visits_every_slot_once_witness :
    WellFormed sampleIndex { pageId := 0, size := 0, lsn := 0, blockPageIds := [1] } ∧
    OnSlot { pageId := 0, size := 0, lsn := 0, blockPageIds := [1] }
      { bucket := 0, offset := 5, blockId := 1 } ∧
    (∃ bpm1 itr1, nextN { pageId := 0, size := 0, lsn := 0, blockPageIds := [1] } 252
        sampleIndex.bpm { bucket := 0, offset := 5, blockId := 1 } = some (bpm1, itr1) ∧
      itr1.bucket = 0 ∧ itr1.offset = 5) ∧
    (∃ sl1 err, Insert sampleExternal sampleIndex [1] 2 = some (sl1, err)) :=
  ⟨sampleIndex_wf, ⟨by decide, by decide, rfl⟩,
    (probe_round_visits_every_slot_once sampleIndex
      { pageId := 0, size := 0, lsn := 0, blockPageIds := [1] } sampleIndex.bpm
      { bucket := 0, offset := 5, blockId := 1 } sampleIndex_wf rfl
      ⟨by decide, by decide, rfl⟩).2.2.1,
    (probe_round_visits_every_slot_once sampleIndex
      { pageId := 0, size := 0, lsn := 0, blockPageIds := [1] } sampleIndex.bpm
      { bucket := 0, offset := 5, blockId := 1 } sampleIndex_wf rfl
      ⟨by decide, by decide, rfl⟩).2.2.2.2 sampleExternal [1] 2⟩

end DiskIndex
namespace DiskIndex

open SkipListPage

theorem pinAt_eq (bpm : BufferPoolManager) (i : Nat) :
    pinAt bpm i = ((bpm.pages[i]?).map (fun f => f.pinCount)).getD 0 := by
  simp only [pinAt, pins, List.getElem?_map]

theorem pinAt_of_get {bpm : BufferPoolManager} {i : Nat} {f : Frame}
    (h : bpm.pages[i]? = some f) : pinAt bpm i = f.pinCount := by
  rw [pinAt_eq, h]
  rfl

theorem lt_of_get {bpm : BufferPoolManager} {i : Nat} {f : Frame}
    (h : bpm.pages[i]? = some f) : i < bpm.pages.length := by
  by_contra hc
  rw [List.getElem?_eq_none (by omega)] at h
  exact absurd h (by simp)

theorem pinAt_set {bpm : BufferPoolManager} {id : Nat} {f : Frame}
    (h : bpm.pages[id]? = some f) (g : Frame) (i : Nat) :
    pinAt (BufferPoolManager.mk (bpm.pages.set id g)) i
      = if i = id then g.pinCount else pinAt bpm i := by
  rw [pinAt_eq, pinAt_eq]
  by_cases e : i = id
  · subst e
    simp only [if_true]
    rw [getElem?_set_self_of_some _ h]
    rfl
  · simp only [e, if_false]
    rw [List.getElem?_set_ne (Ne.symm e)]

/-- `FetchPage(id)` adds a pin on the page `id`. -/
theorem fetch_pins {bpm bpm1 : BufferPoolManager} {id : Nat} {d : PageData}
    (h : FetchPage bpm id = some (bpm1, d)) :
    id < bpm.pages.length ∧ bpm1.pages.length = bpm.pages.length ∧
      ∀ i, pinAt bpm1 i = pinAt bpm i + (if i = id then 1 else 0) := by
  unfold FetchPage at h
  cases hf : bpm.pages[id]? with
  | none => rw [hf] at h; exact absurd h (by simp)
  | some f =>
    rw [hf] at h
    simp only [Option.some.injEq, Prod.mk.injEq] at h
    obtain ⟨rfl, _⟩ := h
    refine ⟨lt_of_get hf, by simp only [List.length_set], fun i => ?_⟩
    rw [pinAt_set hf]
    by_cases e : i = id
    · subst e
      simp only [if_true, pinAt_of_get hf]
    · simp only [e, if_false, add_zero]

/-- `UnpinPage(id, isDirty)` takes a pin from the page `id` of the pool. -/
theorem unpin_pins (bpm : BufferPoolManager) {id : Nat} (hid : id < bpm.pages.length)
    (dirty : Bool) :
    (UnpinPage bpm id dirty).pages.length = bpm.pages.length ∧
      ∀ i, pinAt (UnpinPage bpm id dirty) i = pinAt bpm i - (if i = id then 1 else 0) := by
  unfold UnpinPage
  have hf : bpm.pages[id]? = some (bpm.pages.get ⟨id, hid⟩) := List.getElem?_eq_getElem hid
  rw [hf]
  refine ⟨by simp only [List.length_set], fun i => ?_⟩
  rw [pinAt_set hf]
  by_cases e : i = id
  · subst e
    simp only [if_true, pinAt_of_get hf]
  · simp only [e, if_false, sub_zero]

theorem storeBlock_pins (bpm : BufferPoolManager) (id : Nat) (b : SkipListBlockPage) :
    (storeBlock bpm id b).pages.length = bpm.pages.length ∧
      ∀ i, pinAt (storeBlock bpm id b) i = pinAt bpm i := by
  unfold storeBlock
  cases hf : bpm.pages[id]? with
  | none => exact ⟨rfl, fun _ => rfl⟩
  | some f =>
    refine ⟨by simp only [List.length_set], fun i => ?_⟩
    rw [pinAt_set hf]
    by_cases e : i = id
    · subst e
      simp only [if_true, pinAt_of_get hf]
    · simp only [e, if_false]

theorem storeHeader_pins (bpm : BufferPoolManager) (id : Nat) (h : SkipListHeaderPage) :
    (storeHeader bpm id h).pages.length = bpm.pages.length ∧
      ∀ i, pinAt (storeHeader bpm id h) i = pinAt bpm i := by
  unfold storeHeader
  cases hf : bpm.pages[id]? with
  | none => exact ⟨rfl, fun _ => rfl⟩
  | some f =>
    refine ⟨by simp only [List.length_set], fun i => ?_⟩
    rw [pinAt_set hf]
    by_cases e : i = id
    · subst e
      simp only [if_true, pinAt_of_get hf]
    · simp only [e, if_false]

/-- Two pools with the same page ids and the same pin count on every page have the same
list of pin counts. -/
theorem pins_ext {bpm bpm1 : BufferPoolManager}
    (hl : bpm1.pages.length = bpm.pages.length) (h : ∀ i, pinAt bpm1 i = pinAt bpm i) :
    pins bpm1 = pins bpm := by
  apply List.ext_getElem
  · simp only [pins, List.length_map, hl]
  · intro i h1 h2
    have hi := h i
    simp only [pinAt] at hi
    rw [List.getElem?_eq_getElem h1, List.getElem?_eq_getElem h2] at hi
    simpa using hi

theorem PinMoved.rfl_of_lt {bpm : BufferPoolManager} {a : Nat} (ha : a < bpm.pages.length) :
    PinMoved bpm bpm a a := ⟨ha, rfl, fun _ => rfl⟩

theorem PinMoved.trans {bpm bpm1 bpm2 : BufferPoolManager} {a b c : Nat}
    (h1 : PinMoved bpm bpm1 a b) (h2 : PinMoved bpm1 bpm2 b c) : PinMoved bpm bpm2 a c := by
  refine ⟨h2.1, by rw [h2.2.1, h1.2.1], fun i => ?_⟩
  have e1 := h1.2.2 i
  have e2 := h2.2.2 i
  omega

theorem PinMoved.store {bpm : BufferPoolManager} {a : Nat} (ha : a < bpm.pages.length)
    (id : Nat) (b : SkipListBlockPage) : PinMoved bpm (storeBlock bpm id b) a a := by
  obtain ⟨hl, hp⟩ := storeBlock_pins bpm id b
  exact ⟨by rw [hl]; exact ha, hl, fun i => by rw [hp i]⟩

/-- A call of `next` that returns moves the pin of the iterator from the block page it
was on to the block page it is on: within a block nothing is pinned or unpinned, and at
the end of a block the old block page is unpinned and the new one is fetched. -/
theorem next_pins {bpm bpm1 : BufferPoolManager} {hp : SkipListHeaderPage}
    {itr itr1 : skipListIterator} (ha : itr.blockId < bpm.pages.length)
    (h : next bpm hp itr = some (bpm1, itr1)) :
    PinMoved bpm bpm1 itr.blockId itr1.blockId := by
  unfold next at h
  simp only at h
  split at h
  · split at h
    · exact absurd h (by simp)
    · rename_i blockId hg
      split at h
      · rename_i bpm2 _ hf
        simp only [Option.some.injEq, Prod.mk.injEq] at h
        obtain ⟨rfl, rfl⟩ := h
        obtain ⟨hl1, hp1⟩ := unpin_pins bpm ha true
        obtain ⟨hlt, hl2, hp2⟩ := fetch_pins hf
        refine ⟨by rw [hl2]; exact hlt, by rw [hl2, hl1], fun i => ?_⟩
        have e1 := hp1 i
        have e2 := hp2 i
        simp only
        omega
      · exact absurd h (by simp)
  · simp only [Option.some.injEq, Prod.mk.injEq] at h
    obtain ⟨rfl, rfl⟩ := h
    exact PinMoved.rfl_of_lt ha

end DiskIndex
namespace DiskIndex

open SkipListPage

/-- The loop of `Insert`, whenever it returns, has moved the pin of the iterator to the
block page the iterator ends on and changed no other pin. -/
theorem insertLoop_pins (hash value : Nat) (hp : SkipListHeaderPage) (ob oo : Nat) :
    ∀ (fuel : Nat) (bpm : BufferPoolManager) (itr : skipListIterator) (err : Option String)
      (bpm1 : BufferPoolManager) (itr1 : skipListIterator) (err1 : Option String),
      insertLoop hash value hp ob oo fuel bpm itr err = some (bpm1, itr1, err1) →
      itr.blockId < bpm.pages.length → PinMoved bpm bpm1 itr.blockId itr1.blockId := by
  intro fuel
  induction fuel with
  | zero =>
    intro bpm itr err bpm1 itr1 err1 h
    simp [insertLoop] at h
  | succ n ih =>
    intro bpm itr err bpm1 itr1 err1 h ha
    unfold insertLoop at h
    cases hb : blockOf bpm itr.blockId with
    | none => rw [hb] at h; exact absurd h (by simp)
    | some bp =>
      rw [hb] at h
      simp only at h
      cases hocc : IsOccupied bp itr.offset with
      | none => rw [hocc] at h; exact absurd h (by simp)
      | some occ =>
        rw [hocc] at h
        cases occ with
        | false =>
          simp only [Bool.false_eq_true, if_false, Bool.not_false, if_true] at h
          cases hins : SkipListPage.Insert bp itr.offset hash value with
          | none => rw [hins] at h; exact absurd h (by simp)
          | some r =>
            obtain ⟨bp1, b⟩ := r
            rw [hins] at h
            simp only [Option.some.injEq, Prod.mk.injEq] at h
            obtain ⟨rfl, rfl, _⟩ := h
            exact PinMoved.store ha _ _
        | true =>
          simp only [if_true] at h
          cases hv : ValueAt bp itr.offset with
          | none => rw [hv] at h; exact absurd h (by simp)
          | some w =>
            rw [hv] at h
            simp only [Option.map_some'] at h
            cases hw : (w == value) with
            | true =>
              rw [hw] at h
              simp only [Option.some.injEq, Prod.mk.injEq] at h
              obtain ⟨rfl, rfl, _⟩ := h
              exact PinMoved.rfl_of_lt ha
            | false =>
              rw [hw] at h
              simp only [Bool.not_true, Bool.false_eq_true, if_false] at h
              cases hn : next bpm hp itr with
              | none => rw [hn] at h; exact absurd h (by simp)
              | some r =>
                obtain ⟨bpm2, itr2⟩ := r
                rw [hn] at h
                simp only at h
                have hm := next_pins ha hn
                split at h
                · simp only [Option.some.injEq, Prod.mk.injEq] at h
                  obtain ⟨rfl, rfl, _⟩ := h
                  exact hm
                · exact hm.trans (ih _ _ _ _ _ _ h hm.1)

/-- The loop of `GetValue`, whenever it returns, has moved the pin of the iterator to the
block page the iterator ends on and changed no other pin. -/
theorem getValueLoop_pins (ext : External) (key : List Nat) (hp : SkipListHeaderPage)
    (ob oo : Nat) :
    ∀ (fuel : Nat) (bpm : BufferPoolManager) (itr : skipListIterator) (res : List Nat)
      (bpm1 : BufferPoolManager) (itr1 : skipListIterator) (res1 : List Nat),
      getValueLoop ext key hp ob oo fuel bpm itr res = some (bpm1, itr1, res1) →
      itr.blockId < bpm.pages.length → PinMoved bpm bpm1 itr.blockId itr1.blockId := by
  intro fuel
  induction fuel with
  | zero =>
    intro bpm itr res bpm1 itr1 res1 h
    simp [getValueLoop] at h
  | succ n ih =>
    intro bpm itr res bpm1 itr1 res1 h ha
    unfold getValueLoop at h
    cases hb : blockOf bpm itr.blockId with
    | none => rw [hb] at h; exact absurd h (by simp)
    | some bp =>
      rw [hb] at h
      simp only at h
      cases hocc : IsOccupied bp itr.offset with
      | none => rw [hocc] at h; exact absurd h (by simp)
      | some occ =>
        rw [hocc] at h
        cases occ with
        | false =>
          simp only [Option.some.injEq, Prod.mk.injEq] at h
          obtain ⟨rfl, rfl, _⟩ := h
          exact PinMoved.rfl_of_lt ha
        | true =>
          simp only at h
          cases hrd : IsReadable bp itr.offset with
          | none => rw [hrd] at h; exact absurd h (by simp)
          | some rd =>
            rw [hrd] at h
            cases rd with
            | true =>
              simp only at h
              cases hk : KeyAt bp itr.offset with
              | none => rw [hk] at h; exact absurd h (by simp)
              | some k =>
                cases hv : ext.NewValueFromBytes key with
                | none => rw [hk, hv] at h; exact absurd h (by simp)
                | some v =>
                  rw [hk, hv] at h
                  simp only at h
                  cases hc : k.CompareEquals v with
                  | false =>
                    rw [hc] at h
                    simp only [Bool.false_eq_true, if_false] at h
                    cases hn : next bpm hp itr with
                    | none => rw [hn] at h; exact absurd h (by simp)
                    | some r =>
                      obtain ⟨bpm2, itr2⟩ := r
                      rw [hn] at h
                      simp only at h
                      have hm := next_pins ha hn
                      split at h
                      · simp only [Option.some.injEq, Prod.mk.injEq] at h
                        obtain ⟨rfl, rfl, _⟩ := h
                        exact hm
                      · exact hm.trans (ih _ _ _ _ _ _ h hm.1)
                  | true =>
                    rw [hc] at h
                    simp only [if_true] at h
                    cases hw : ValueAt bp itr.offset with
                    | none => rw [hw] at h; exact absurd h (by simp)
                    | some w =>
                      rw [hw] at h
                      simp only [Option.map_some'] at h
                      cases hn : next bpm hp itr with
                      | none => rw [hn] at h; exact absurd h (by simp)
                      | some r =>
                        obtain ⟨bpm2, itr2⟩ := r
                        rw [hn] at h
                        simp only at h
                        have hm := next_pins ha hn
                        split at h
                        · simp only [Option.some.injEq, Prod.mk.injEq] at h
                          obtain ⟨rfl, rfl, _⟩ := h
                          exact hm
                        · exact hm.trans (ih _ _ _ _ _ _ h hm.1)
            | false =>
              simp only [Bool.false_eq_true, if_false] at h
              cases hn : next bpm hp itr with
              | none => rw [hn] at h; exact absurd h (by simp)
              | some r =>
                obtain ⟨bpm2, itr2⟩ := r
                rw [hn] at h
                simp only at h
                have hm := next_pins ha hn
                split at h
                · simp only [Option.some.injEq, Prod.mk.injEq] at h
                  obtain ⟨rfl, rfl, _⟩ := h
                  exact hm
                · exact hm.trans (ih _ _ _ _ _ _ h hm.1)

/-- The loop of `Remove`, whenever it returns, has moved the pin of the iterator to the
block page the iterator ends on and changed no other pin. -/
theorem removeLoop_pins (ext : External) (key : List Nat) (value : Nat)
    (hp : SkipListHeaderPage) (ob oo : Nat) :
    ∀ (fuel : Nat) (bpm : BufferPoolManager) (itr : skipListIterator)
      (bpm1 : BufferPoolManager) (itr1 : skipListIterator),
      removeLoop ext key value hp ob oo fuel bpm itr = some (bpm1, itr1) →
      itr.blockId < bpm.pages.length → PinMoved bpm bpm1 itr.blockId itr1.blockId := by
  intro fuel
  induction fuel with
  | zero =>
    intro bpm itr bpm1 itr1 h
    simp [removeLoop] at h
  | succ n ih =>
    intro bpm itr bpm1 itr1 h ha
    unfold removeLoop at h
    cases hb : blockOf bpm itr.blockId with
    | none => rw [hb] at h; exact absurd h (by simp)
    | some bp =>
      rw [hb] at h
      simp only at h
      cases hocc : IsOccupied bp itr.offset with
      | none => rw [hocc] at h; exact absurd h (by simp)
      | some occ =>
        rw [hocc] at h
        cases occ with
        | false =>
          simp only [Option.some.injEq, Prod.mk.injEq] at h
          obtain ⟨rfl, rfl⟩ := h
          exact PinMoved.rfl_of_lt ha
        | true =>
          simp only at h
          cases hk : KeyAt bp itr.offset with
          | none => rw [hk] at h; exact absurd h (by simp)
          | some k =>
            cases hv : ext.NewValueFromBytes key with
            | none => rw [hk, hv] at h; exact absurd h (by simp)
            | some v =>
              rw [hk, hv] at h
              simp only at h
              cases hc : k.CompareEquals v with
              | false =>
                rw [hc] at h
                simp only [Bool.false_eq_true, if_false] at h
                cases hn : next bpm hp itr with
                | none => rw [hn] at h; exact absurd h (by simp)
                | some r =>
                  obtain ⟨bpm2, itr2⟩ := r
                  rw [hn] at h
                  simp only at h
                  have hm := next_pins ha hn
                  split at h
                  · simp only [Option.some.injEq, Prod.mk.injEq] at h
                    obtain ⟨rfl, rfl⟩ := h
                    exact hm
                  · exact hm.trans (ih _ _ _ _ h hm.1)
              | true =>
                rw [hc] at h
                simp only [if_true] at h
                cases hw : ValueAt bp itr.offset with
                | none => rw [hw] at h; exact absurd h (by simp)
                | some w =>
                  rw [hw] at h
                  simp only [Option.map_some'] at h
                  cases hwv : (w == value) with
                  | false =>
                    rw [hwv] at h
                    simp only [Bool.false_eq_true, if_false] at h
                    cases hn : next bpm hp itr with
                    | none => rw [hn] at h; exact absurd h (by simp)
                    | some r =>
                      obtain ⟨bpm2, itr2⟩ := r
                      rw [hn] at h
                      simp only at h
                      have hm := next_pins ha hn
                      split at h
                      · simp only [Option.some.injEq, Prod.mk.injEq] at h
                        obtain ⟨rfl, rfl⟩ := h
                        exact hm
                      · exact hm.trans (ih _ _ _ _ h hm.1)
                  | true =>
                    rw [hwv] at h
                    simp only [if_true] at h
                    cases hrm : SkipListPage.Remove bp itr.offset with
                    | none => rw [hrm] at h; exact absurd h (by simp)
                    | some b =>
                      rw [hrm] at h
                      simp only [Option.map_some'] at h
                      have hst := PinMoved.store ha itr.blockId b
                      cases hn : next (storeBlock bpm itr.blockId b) hp itr with
                      | none => rw [hn] at h; exact absurd h (by simp)
                      | some r =>
                        obtain ⟨bpm2, itr2⟩ := r
                        rw [hn] at h
                        simp only at h
                        have hm := hst.trans (next_pins hst.1 hn)
                        split at h
                        · simp only [Option.some.injEq, Prod.mk.injEq] at h
                          obtain ⟨rfl, rfl⟩ := h
                          exact hm
                        · exact hm.trans (ih _ _ _ _ h hm.1)

end DiskIndex
namespace DiskIndex

open SkipListPage

/-- `newSkipListIterator`, whenever it returns, has added a pin on the block page of the
iterator. -/
theorem newIterator_pins {bpm bpm1 : BufferPoolManager} {hp : SkipListHeaderPage}
    {bucket offset : Nat} {itr : skipListIterator}
    (h : newSkipListIterator bpm hp bucket offset = some (bpm1, itr)) :
    itr.blockId < bpm1.pages.length ∧ bpm1.pages.length = bpm.pages.length ∧
      ∀ i, pinAt bpm1 i = pinAt bpm i + (if i = itr.blockId then 1 else 0) := by
  unfold newSkipListIterator at h
  split at h
  · exact absurd h (by simp)
  · split at h
    · rename_i hf
      simp only [Option.some.injEq, Prod.mk.injEq] at h
      obtain ⟨rfl, rfl⟩ := h
      obtain ⟨hlt, hl, hpn⟩ := fetch_pins hf
      exact ⟨by rw [hl]; exact hlt, hl, hpn⟩
    · exact absurd h (by simp)

/-- The pins of an operation of the index: the header page is fetched, the iterator is
made, the loop moves the pin of the iterator, and the two calls of `UnpinPage` at the end
take the pin of the iterator and the pin of the header page. -/
theorem balance_of_moved {bpm bpm1 bpm2 bpm3 : BufferPoolManager} {hid bid bid1 : Nat}
    {d : PageData} (h1 : FetchPage bpm hid = some (bpm1, d))
    (h2 : bid < bpm2.pages.length ∧ bpm2.pages.length = bpm1.pages.length ∧
      ∀ i, pinAt bpm2 i = pinAt bpm1 i + (if i = bid then 1 else 0))
    (h3 : PinMoved bpm2 bpm3 bid bid1) :
    pins (UnpinPage (UnpinPage bpm3 bid1 true) hid false) = pins bpm := by
  obtain ⟨hlt1, hl1, hp1⟩ := fetch_pins h1
  obtain ⟨_, hl2, hp2⟩ := h2
  obtain ⟨hlt3, hl3, hp3⟩ := h3
  obtain ⟨hl4, hp4⟩ := unpin_pins bpm3 hlt3 true
  have hlt5 : hid < (UnpinPage bpm3 bid1 true).pages.length := by
    rw [hl4, hl3, hl2, hl1]
    exact hlt1
  obtain ⟨hl5, hp5⟩ := unpin_pins (UnpinPage bpm3 bid1 true) hlt5 false
  apply pins_ext
  · rw [hl5, hl4, hl3, hl2, hl1]
  · intro i
    have e1 := hp1 i
    have e2 := hp2 i
    have e3 := hp3 i
    have e4 := hp4 i
    have e5 := hp5 i
    omega

theorem insert_pins {ext : External} {sl sl1 : SkipList} {key : List Nat} {value : Nat}
    {err : Option String} (h : Insert ext sl key value = some (sl1, err)) :
    pins sl1.bpm = pins sl.bpm := by
  unfold Insert at h
  split at h
  · rename_i bpm1 headerPage hf
    simp only at h
    split at h
    · exact absurd h (by simp)
    · split at h
      · exact absurd h (by simp)
      · rename_i bpm2 iterator hi
        split at h
        · exact absurd h (by simp)
        · rename_i bpm3 iterator1 err1 hl
          simp only [Option.some.injEq, Prod.mk.injEq] at h
          rw [← h.1]
          have h2 := newIterator_pins hi
          exact balance_of_moved hf h2 (insertLoop_pins _ _ _ _ _ _ _ _ _ _ _ _ hl h2.1)
  · exact absurd h (by simp)

theorem getValue_pins {ext : External} {sl sl1 : SkipList} {key : List Nat}
    {res : List Nat} (h : GetValue ext sl key = some (sl1, res)) :
    pins sl1.bpm = pins sl.bpm := by
  unfold GetValue at h
  split at h
  · rename_i bpm1 headerPage hf
    simp only at h
    split at h
    · exact absurd h (by simp)
    · split at h
      · exact absurd h (by simp)
      · rename_i bpm2 iterator hi
        split at h
        · exact absurd h (by simp)
        · rename_i bpm3 iterator1 res1 hl
          simp only [Option.some.injEq, Prod.mk.injEq] at h
          rw [← h.1]
          have h2 := newIterator_pins hi
          exact balance_of_moved hf h2 (getValueLoop_pins _ _ _ _ _ _ _ _ _ _ _ _ hl h2.1)
  · exact absurd h (by simp)

theorem remove_pins {ext : External} {sl sl1 : SkipList} {key : List Nat} {value : Nat}
    (h : Remove ext sl key value = some sl1) : pins sl1.bpm = pins sl.bpm := by
  unfold Remove at h
  split at h
  · rename_i bpm1 headerPage hf
    simp only at h
    split at h
    · exact absurd h (by simp)
    · split at h
      · exact absurd h (by simp)
      · rename_i bpm2 iterator hi
        split at h
        · exact absurd h (by simp)
        · rename_i bpm3 iterator1 hl
          simp only [Option.some.injEq] at h
          rw [← h]
          have h2 := newIterator_pins hi
          exact balance_of_moved hf h2 (removeLoop_pins _ _ _ _ _ _ _ _ _ _ _ hl h2.1)
  · exact absurd h (by simp)

end DiskIndex
namespace DiskIndex

open SkipListPage

theorem headerOf_of_contents {bpm : BufferPoolManager} {id : Nat} {h : SkipListHeaderPage}
    (hc : (contents bpm)[id]? = some (PageData.header h)) : headerOf bpm id = some h := by
  rw [contents_get] at hc
  cases hf : bpm.pages[id]? with
  | none => rw [hf] at hc; exact absurd hc (by simp)
  | some f =>
    rw [hf] at hc
    simp only [Option.map_some', Option.some.injEq] at hc
    obtain ⟨d, pc, dr⟩ := f
    simp only at hc
    subst hc
    simp only [headerOf, hf]

theorem contents_length (bpm : BufferPoolManager) :
    (contents bpm).length = bpm.pages.length := by
  simp only [contents, List.length_map]

theorem contents_storeHeader {bpm : BufferPoolManager} {id : Nat}
    (hid : id < bpm.pages.length) (h : SkipListHeaderPage) :
    contents (storeHeader bpm id h) = (contents bpm).set id (PageData.header h) := by
  have hf : bpm.pages[id]? = some (bpm.pages.get ⟨id, hid⟩) := List.getElem?_eq_getElem hid
  simp only [storeHeader, hf, contents, List.map_set]

/-- `NewPage()` appends a page with one pin to the pool. -/
theorem newPage_spec (bpm : BufferPoolManager) (d : PageData) :
    (NewPage bpm d).2 = bpm.pages.length ∧
    contents (NewPage bpm d).1 = contents bpm ++ [d] ∧
    (NewPage bpm d).1.pages.length = bpm.pages.length + 1 ∧
    ∀ i, pinAt (NewPage bpm d).1 i
      = pinAt bpm i + (if i = bpm.pages.length then 1 else 0) := by
  refine ⟨rfl, ?_, ?_, fun i => ?_⟩
  · simp only [NewPage, contents, List.map_append, List.map_cons, List.map_nil]
  · simp only [NewPage, List.length_append, List.length_cons, List.length_nil]
  · rw [pinAt_eq, pinAt_eq]
    simp only [NewPage]
    by_cases h1 : i < bpm.pages.length
    · rw [List.getElem?_append_left h1]
      have : i ≠ bpm.pages.length := by omega
      simp only [this, if_false, add_zero]
    · by_cases h2 : i = bpm.pages.length
      · subst h2
        have e2 : bpm.pages[bpm.pages.length]? = none := List.getElem?_eq_none (le_refl _)
        rw [List.getElem?_append_right (le_refl _), e2, Nat.sub_self]
        simp
      · have e1 : (bpm.pages ++ [Frame.mk d 1 false])[i]? = none :=
          List.getElem?_eq_none (by
            simp only [List.length_append, List.length_cons, List.length_nil]; omega)
        have e2 : bpm.pages[i]? = none := List.getElem?_eq_none (by omega)
        rw [e1, e2]
        simp only [h2, if_false, add_zero]

theorem set_of_get {α : Type} {l : List α} {i : Nat} {a : α} (h : l[i]? = some a) :
    l.set i a = l := by
  apply List.ext_getElem?
  intro j
  by_cases e : i = j
  · subst e
    rw [getElem?_set_self_of_some _ h, h]
  · rw [List.getElem?_set_ne e]

/-- The loop of `NewSkipList` with `n` rounds to go returns: it appends `n` block pages
of zero bytes to the pool and their ids to the directory, and leaves no pin. -/
theorem newSkipListLoop_spec (header : Nat) :
    ∀ (n : Nat) (bpm : BufferPoolManager) (h : SkipListHeaderPage),
      (contents bpm)[header]? = some (PageData.header h) →
      ∃ bpm1, newSkipListLoop header n bpm = some bpm1 ∧
        contents bpm1 = (contents bpm).set header (PageData.header
            { h with blockPageIds := h.blockPageIds ++ List.range' bpm.pages.length n })
          ++ List.replicate n (PageData.block zeroPage) ∧
        bpm1.pages.length = bpm.pages.length + n ∧
        ∀ i, pinAt bpm1 i = pinAt bpm i := by
  intro n
  induction n with
  | zero =>
    intro bpm h hc
    refine ⟨bpm, rfl, ?_, rfl, fun _ => rfl⟩
    simp only [List.range'_zero, List.append_nil, List.replicate_zero]
    exact (set_of_get hc).symm
  | succ n ih =>
    intro bpm h hc
    have hlt : header < bpm.pages.length := by
      rw [← contents_length]
      by_contra hge
      rw [List.getElem?_eq_none (by omega)] at hc
      exact absurd hc (by simp)
    have hltc : header < (contents bpm).length := by rw [contents_length]; exact hlt
    obtain ⟨hnp, hc1, hl1, hp1⟩ := newPage_spec bpm (PageData.block zeroPage)
    have hh1 : headerOf (NewPage bpm (PageData.block zeroPage)).1 header = some h := by
      apply headerOf_of_contents
      rw [hc1, List.getElem?_append_left hltc]
      exact hc
    have hlt1 : header < (NewPage bpm (PageData.block zeroPage)).1.pages.length := by
      rw [hl1]; omega
    have hc2 := contents_storeHeader hlt1 (AddBlockPageId h bpm.pages.length)
    obtain ⟨hl2, hp2⟩ := storeHeader_pins (NewPage bpm (PageData.block zeroPage)).1 header
      (AddBlockPageId h bpm.pages.length)
    have hlt3 : bpm.pages.length < (storeHeader (NewPage bpm (PageData.block zeroPage)).1
        header (AddBlockPageId h bpm.pages.length)).pages.length := by
      rw [hl2, hl1]; omega
    obtain ⟨hl3, hp3⟩ := unpin_pins _ hlt3 true
    have hc3 : (contents (UnpinPage (storeHeader (NewPage bpm (PageData.block zeroPage)).1
        header (AddBlockPageId h bpm.pages.length)) bpm.pages.length true))[header]?
        = some (PageData.header (AddBlockPageId h bpm.pages.length)) := by
      rw [contents_unpin, hc2, hc1]
      apply getElem?_set_self_of_some
      rw [List.getElem?_append_left hltc]
      exact hc
    obtain ⟨bpm4, hrec, hc4, hl4, hp4⟩ := ih _ _ hc3
    refine ⟨bpm4, ?_, ?_, ?_, fun i => ?_⟩
    · simp only [newSkipListLoop, hh1]
      exact hrec
    · rw [hc4, contents_unpin, hc2, hc1, List.set_set, List.set_append_left _ _ hltc, hl3, hl2,
        hl1, List.append_assoc, List.singleton_append, ← List.replicate_succ]
      simp only [AddBlockPageId, List.append_assoc, List.singleton_append, List.range'_succ]
    · rw [hl4, hl3, hl2, hl1]
      omega
    · have e1 := hp1 i
      have e2 := hp2 i
      have e3 := hp3 i
      have e4 := hp4 i
      omega

end DiskIndex
namespace DiskIndex

open SkipListPage

/-- `NewSkipList(bpm, numBuckets)` returns: the header page and the block pages are new
pages at the end of the pool, the directory names the block pages, which hold zero bytes,
and no page has a pin that it did not have before. -/
theorem newSkipList_spec (bpm : BufferPoolManager) (numBuckets : Int) :
    ∃ sl, NewSkipList bpm numBuckets = some sl ∧ sl.headerPageId = bpm.pages.length ∧
      contents sl.bpm = contents bpm ++ [PageData.header
          { pageId := bpm.pages.length, size := numBuckets * BlockArraySize, lsn := 0,
            blockPageIds := List.range' (bpm.pages.length + 1) numBuckets.toNat }]
        ++ List.replicate numBuckets.toNat (PageData.block zeroPage) ∧
      sl.bpm.pages.length = bpm.pages.length + 1 + numBuckets.toNat ∧
      ∀ i, pinAt sl.bpm i = pinAt bpm i := by
  obtain ⟨hnp, hc1, hl1, hp1⟩ := newPage_spec bpm (PageData.header zeroHeader)
  have hget1 : (contents (NewPage bpm (PageData.header zeroHeader)).1)[bpm.pages.length]?
      = some (PageData.header zeroHeader) := by
    rw [hc1, List.getElem?_append_right (by rw [contents_length]), contents_length,
      Nat.sub_self]
    rfl
  have hh1 := headerOf_of_contents hget1
  have hlt1 : bpm.pages.length < (NewPage bpm (PageData.header zeroHeader)).1.pages.length := by
    rw [hl1]; omega
  have hc2 := contents_storeHeader hlt1 (SetPageId zeroHeader bpm.pages.length)
  obtain ⟨hl2, hp2⟩ := storeHeader_pins (NewPage bpm (PageData.header zeroHeader)).1
    bpm.pages.length (SetPageId zeroHeader bpm.pages.length)
  have hget2 : (contents (storeHeader (NewPage bpm (PageData.header zeroHeader)).1
      bpm.pages.length (SetPageId zeroHeader bpm.pages.length)))[bpm.pages.length]?
      = some (PageData.header (SetPageId zeroHeader bpm.pages.length)) := by
    rw [hc2]
    exact getElem?_set_self_of_some _ hget1
  have hh2 := headerOf_of_contents hget2
  have hlt2 : bpm.pages.length < (storeHeader (NewPage bpm (PageData.header zeroHeader)).1
      bpm.pages.length (SetPageId zeroHeader bpm.pages.length)).pages.length := by
    rw [hl2]; exact hlt1
  have hc3 := contents_storeHeader hlt2
    (SetSize (SetPageId zeroHeader bpm.pages.length) (numBuckets * BlockArraySize))
  obtain ⟨hl3, hp3⟩ := storeHeader_pins (storeHeader (NewPage bpm (PageData.header zeroHeader)).1
      bpm.pages.length (SetPageId zeroHeader bpm.pages.length)) bpm.pages.length
    (SetSize (SetPageId zeroHeader bpm.pages.length) (numBuckets * BlockArraySize))
  have hget3 : (contents (storeHeader (storeHeader (NewPage bpm (PageData.header zeroHeader)).1
      bpm.pages.length (SetPageId zeroHeader bpm.pages.length)) bpm.pages.length
      (SetSize (SetPageId zeroHeader bpm.pages.length) (numBuckets * BlockArraySize))))[
        bpm.pages.length]?
      = some (PageData.header
          (SetSize (SetPageId zeroHeader bpm.pages.length) (numBuckets * BlockArraySize))) := by
    rw [hc3]
    exact getElem?_set_self_of_some _ hget2
  obtain ⟨bpm4, hloop, hc4, hl4, hp4⟩ :=
    newSkipListLoop_spec bpm.pages.length numBuckets.toNat _ _ hget3
  have hlt4 : bpm.pages.length < bpm4.pages.length := by
    rw [hl4, hl3, hl2, hl1]; omega
  obtain ⟨hl5, hp5⟩ := unpin_pins bpm4 hlt4 true
  refine ⟨{ headerPageId := bpm.pages.length, bpm := UnpinPage bpm4 bpm.pages.length true },
    ?_, rfl, ?_, ?_, fun i => ?_⟩
  · unfold NewSkipList
    simp only [hnp, hh1, hh2, hloop]
  · simp only
    rw [contents_unpin, hc4, hc3, hc2, hc1, List.set_set, List.set_set,
      List.set_append_right _ _ (by rw [contents_length]), contents_length, Nat.sub_self,
      hl3, hl2, hl1]
    simp only [SetSize, SetPageId, zeroHeader, List.nil_append, List.set_cons_zero]
  · simp only
    rw [hl5, hl4, hl3, hl2, hl1]
  · have e1 := hp1 i
    have e2 := hp2 i
    have e3 := hp3 i
    have e4 := hp4 i
    have e5 := hp5 i
    simp only
    omega

/-- The index that `NewSkipList` returns is well formed, with `numBuckets` blocks. -/
theorem newSkipList_wellFormed (bpm : BufferPoolManager) (numBuckets : Int) :
    ∃ sl hp, NewSkipList bpm numBuckets = some sl ∧ WellFormed sl hp ∧
      NumBlocks hp = numBuckets.toNat := by
  obtain ⟨sl, hnew, hid, hc, _, _⟩ := newSkipList_spec bpm numBuckets
  refine ⟨sl, SkipListHeaderPage.mk bpm.pages.length (numBuckets * BlockArraySize) 0
    (List.range' (bpm.pages.length + 1) numBuckets.toNat), hnew, ⟨?_, ?_⟩, ?_⟩
  · apply headerOf_of_contents
    rw [hc, hid, List.append_assoc,
      List.getElem?_append_right (by rw [contents_length]), contents_length, Nat.sub_self,
      List.singleton_append, List.getElem?_cons_zero]
  · intro b hb
    simp only [NumBlocks, List.length_range'] at hb
    refine ⟨bpm.pages.length + 1 + b, zeroPage, ?_, ?_, zeroPage_sized⟩
    · simp only [GetBlockPageId]
      rw [List.getElem?_range' _ _ hb]
      simp
    · apply blockOf_of_contents
      rw [hc, List.getElem?_append_right (by
        simp only [List.length_append, contents_length, List.length_cons, List.length_nil]
        omega)]
      simp only [List.length_append, contents_length, List.length_cons, List.length_nil]
      rw [List.getElem?_replicate, if_pos (by omega)]
  · simp only [NumBlocks, List.length_range']

end DiskIndex
namespace DiskIndex

open SkipListPage

/-- The pins of the calls that return: whenever `Insert`, `GetValue` or `Remove` returns,
by whichever exit of its loop, every page of the pool has the pin count it had before the
call: the pin on the header page and the pin on the block page of the iterator have both
been given back.  `NewSkipList` returns, with the pin count 0 on the header page and the
block pages it has added and the pin counts of before on the other pages.  In between,
`newSkipListIterator` adds one pin, on the block page of the iterator, and a call of `next`
that returns moves this pin from the block page the iterator was on to the block page it
is on and changes no other pin. -/
theorem pin_balance (ext : External) (sl : SkipList) (key : List Nat) (value : Nat) :
    (∀ sl1 err, Insert ext sl key value = some (sl1, err) → pins sl1.bpm = pins sl.bpm) ∧
    (∀ sl1 res, GetValue ext sl key = some (sl1, res) → pins sl1.bpm = pins sl.bpm) ∧
    (∀ sl1, Remove ext sl key value = some sl1 → pins sl1.bpm = pins sl.bpm) ∧
    (∀ numBuckets : Int, ∃ sl1, NewSkipList sl.bpm numBuckets = some sl1 ∧
      sl1.bpm.pages.length = sl.bpm.pages.length + 1 + numBuckets.toNat ∧
      ∀ i, pinAt sl1.bpm i = pinAt sl.bpm i) ∧
    (∀ hp bucket offset bpm1 itr,
      newSkipListIterator sl.bpm hp bucket offset = some (bpm1, itr) →
      ∀ i, pinAt bpm1 i = pinAt sl.bpm i + (if i = itr.blockId then 1 else 0)) ∧
    (∀ hp bpm1 itr itr1, itr.blockId < sl.bpm.pages.length →
      next sl.bpm hp itr = some (bpm1, itr1) →
      PinMoved sl.bpm bpm1 itr.blockId itr1.blockId) := by
  refine ⟨fun sl1 err h => insert_pins h, fun sl1 res h => getValue_pins h,
    fun sl1 h => remove_pins h, fun numBuckets => ?_,
    fun hp bucket offset bpm1 itr h => (newIterator_pins h).2.2,
    fun hp bpm1 itr itr1 ha h => next_pins ha h⟩
  obtain ⟨sl1, hnew, _, _, hl, hp⟩ := newSkipList_spec sl.bpm numBuckets
  exact ⟨sl1, hnew, hl, hp⟩

/-- The pins of `Insert([1], 2)` on the index `sampleIndex`, whose two pages have no pin:
the call returns nil and the two pages have no pin afterwards. -/
theorem pin_balance_witness :
    pins sampleIndex.bpm = [0, 0] ∧
    ∃ sl1, Insert sampleExternal sampleIndex [1] 2 = some (sl1, none) ∧
      pins sl1.bpm = [0, 0] := by
  obtain ⟨p1, hins, _⟩ := zeroPage_insert (hash sampleExternal [1] % BlockArraySize)
    (hash sampleExternal [1]) 2 (Nat.mod_lt _ (by decide))
  have h := insert_sample sampleExternal [1] 2 p1 hins
  exact ⟨rfl, storedIndex p1, h, (pin_balance sampleExternal sampleIndex [1] 2).1 _ _ h⟩

end DiskIndex
namespace DiskIndex

open SkipListPage

/-- The state in which the loops of `GetValue` and `Remove` are entered on a well-formed
index: the header page and the block page of the bucket at which the probe starts have
been fetched, and each holds one pin more than before the call. -/
theorem pins_at_loop_entry {sl : SkipList} {hp : SkipListHeaderPage}
    (hwf : WellFormed sl hp) {ob : Nat} (hob : ob < NumBlocks hp) (oo : Nat) :
    ∃ bpm1 bpm2 id p,
      FetchPage sl.bpm sl.headerPageId = some (bpm1, PageData.header hp) ∧
      newSkipListIterator bpm1 hp ob oo
        = some (bpm2, { bucket := ob, offset := oo, blockId := id }) ∧
      GetBlockPageId hp ob = some id ∧ blockOf sl.bpm id = some p ∧
      blockOf bpm2 id = some p ∧
      ∀ i, pinAt bpm2 i
        = pinAt sl.bpm i + (if i = sl.headerPageId then 1 else 0) + (if i = id then 1 else 0) := by
  obtain ⟨bpm1, hfetch, hc1⟩ := fetch_of_contents (contents_of_headerOf hwf.1)
  obtain ⟨id, p, hg, hbk, _⟩ := hwf.2 ob hob
  have hcid := contents_of_blockOf hbk
  obtain ⟨bpm2, hfetch2, hc2⟩ := fetch_of_contents (hc1 ▸ hcid)
  refine ⟨bpm1, bpm2, id, p, hfetch, ?_, hg, hbk, ?_, ?_⟩
  · simp only [newSkipListIterator, hg, hfetch2]
  · apply blockOf_of_contents
    rw [hc2, hc1]
    exact hcid
  · intro i
    rw [(fetch_pins hfetch2).2.2 i, (fetch_pins hfetch).2.2 i]

/-- C27 fails on the code: on every well-formed index with at least one block, when the
slot at which the probe of `key` starts is occupied, `Remove(key, value)` does not return,
and when that slot is readable too, `GetValue(key)` does not return: the comparison goes
through the nil pointer that `KeyAt` returns.  The loop is entered after `FetchPage` of the
header page and `FetchPage` of the block page of the iterator, so at the panic each of the
two pages holds one pin more than before the call; the two `UnpinPage` calls stand after
the loop, are not deferred, and are never reached. -/
theorem pins_held_when_lookup_panics (ext : External) (sl : SkipList)
    (hp : SkipListHeaderPage) (key : List Nat) (value : Nat) (hwf : WellFormed sl hp)
    (hnb : 1 ≤ NumBlocks hp)
    (hocc : slotOccupied sl.bpm hp
      (hash ext key % NumBlocks hp, hash ext key % BlockArraySize) = some true) :
    ∃ bpm1 bpm2 itr,
      FetchPage sl.bpm sl.headerPageId = some (bpm1, PageData.header hp) ∧
      newSkipListIterator bpm1 hp (hash ext key % NumBlocks hp)
        (hash ext key % BlockArraySize) = some (bpm2, itr) ∧
      GetBlockPageId hp (hash ext key % NumBlocks hp) = some itr.blockId ∧
      (∀ i, pinAt bpm2 i = pinAt sl.bpm i + (if i = sl.headerPageId then 1 else 0)
        + (if i = itr.blockId then 1 else 0)) ∧
      removeLoop ext key value hp (hash ext key % NumBlocks hp)
        (hash ext key % BlockArraySize) (NumBlocks hp * BlockArraySize) bpm2 itr = none ∧
      Remove ext sl key value = none ∧
      (slotReadable sl.bpm hp
          (hash ext key % NumBlocks hp, hash ext key % BlockArraySize) = some true →
        getValueLoop ext key hp (hash ext key % NumBlocks hp)
          (hash ext key % BlockArraySize) (NumBlocks hp * BlockArraySize) bpm2 itr [] = none ∧
        GetValue ext sl key = none) := by
  have hob : hash ext key % NumBlocks hp < NumBlocks hp := Nat.mod_lt _ hnb
  obtain ⟨bpm1, bpm2, id, p, hfetch, hitr, hg, hbk, hbk2, hpins⟩ :=
    pins_at_loop_entry hwf hob (hash ext key % BlockArraySize)
  have hne : ¬ (NumBlocks hp = 0) := by omega
  obtain ⟨f, hf⟩ : ∃ f, NumBlocks hp * BlockArraySize = f + 1 :=
    ⟨NumBlocks hp * BlockArraySize - 1, by rw [blockArraySize_eq]; omega⟩
  have ho : IsOccupied p (hash ext key % BlockArraySize) = some true := by
    simpa only [slotOccupied, bucketPage, hg, hbk] using hocc
  have hloop : removeLoop ext key value hp (hash ext key % NumBlocks hp)
      (hash ext key % BlockArraySize) (NumBlocks hp * BlockArraySize) bpm2
      { bucket := hash ext key % NumBlocks hp, offset := hash ext key % BlockArraySize,
        blockId := id } = none := by
    rw [hf]
    simp only [removeLoop, hbk2, ho, KeyAt]
  refine ⟨bpm1, bpm2, _, hfetch, hitr, hg, hpins, hloop, ?_, ?_⟩
  · simp only [Remove, hfetch, hne, if_false, hitr, hloop]
  · intro hrd
    have hr : IsReadable p (hash ext key % BlockArraySize) = some true := by
      simpa only [slotReadable, bucketPage, hg, hbk] using hrd
    have hloop2 : getValueLoop ext key hp (hash ext key % NumBlocks hp)
        (hash ext key % BlockArraySize) (NumBlocks hp * BlockArraySize) bpm2
        { bucket := hash ext key % NumBlocks hp, offset := hash ext key % BlockArraySize,
          blockId := id } [] = none := by
      rw [hf]
      simp only [getValueLoop, hbk2, ho, hr, KeyAt]
    refine ⟨hloop2, ?_⟩
    simp only [GetValue, hfetch, hne, if_false, hitr, hloop2]

/-- The block page of `sampleIndex` after the `Insert` of a pair: the page has the lengths
of its array types and the slot at which the probe of the key starts is occupied and
readable. -/
theorem zeroPage_insert_sized (o k v : Nat) (ho : o < BlockArraySize) :
    ∃ p1, SkipListPage.Insert zeroPage o k v = some (p1, true) ∧ Sized p1 ∧
      IsOccupied p1 o = some true ∧ IsReadable p1 o = some true := by
  obtain ⟨p1, hins, h1, h2, _⟩ := zeroPage_insert o k v ho
  refine ⟨p1, hins, ?_, h1, h2⟩
  have hlt : o < zeroPage.array.length := by rw [zeroPage_sized.2.2]; exact ho
  have e := insert_free k v (zeroPage_occ o ho) (zeroPage_rd o ho) hlt (by simp)
  rw [e] at hins
  simp only [Option.some.injEq, Prod.mk.injEq, and_true] at hins
  rw [← hins]
  refine ⟨?_, ?_, ?_⟩
  · simp only [List.length_set]
    exact zeroPage_sized.1
  · simp only [List.length_set]
    exact zeroPage_sized.2.1
  · simp only [List.length_set]
    exact zeroPage_sized.2.2

/-- The instance of C27 for the index `sampleIndex`, whose two pages have no pin, and the
key [1]: `Insert([1], 2)` returns nil and leaves no pin; then `Remove([1], 2)` and
`GetValue([1])` do not return, and at the panic the header page and the block page hold
one pin each. -/
theorem pins_held_when_lookup_panics_witness :
    pins sampleIndex.bpm = [0, 0] ∧ hash sampleExternal [1] = 218 ∧
    ∃ sl1, Insert sampleExternal sampleIndex [1] 2 = some (sl1, none) ∧
      pins sl1.bpm = [0, 0] ∧
      WellFormed sl1 { pageId := 0, size := 0, lsn := 0, blockPageIds := [1] } ∧
      slotOccupied sl1.bpm { pageId := 0, size := 0, lsn := 0, blockPageIds := [1] }
        (0, 218) = some true ∧
      slotReadable sl1.bpm { pageId := 0, size := 0, lsn := 0, blockPageIds := [1] }
        (0, 218) = some true ∧
      Remove sampleExternal sl1 [1] 2 = none ∧
      GetValue sampleExternal sl1 [1] = none ∧
      ∃ bpm1 bpm2 itr,
        FetchPage sl1.bpm 0
          = some (bpm1, PageData.header
              { pageId := 0, size := 0, lsn := 0, blockPageIds := [1] }) ∧
        newSkipListIterator bpm1 { pageId := 0, size := 0, lsn := 0, blockPageIds := [1] }
          0 218 = some (bpm2, itr) ∧
        pinAt bpm2 0 = 1 ∧ pinAt bpm2 1 = 1 ∧
        removeLoop sampleExternal [1] 2
          { pageId := 0, size := 0, lsn := 0, blockPageIds := [1] } 0 218 252 bpm2 itr
          = none ∧
        getValueLoop sampleExternal [1]
          { pageId := 0, size := 0, lsn := 0, blockPageIds := [1] } 0 218 252 bpm2 itr []
          = none := by
  obtain ⟨p1, hins, hsz, ho, hr⟩ := zeroPage_insert_sized 218 218 2 (by decide)
  have h := insert_sample sampleExternal [1] 2 p1 hins
  have hwf : WellFormed (storedIndex p1)
      { pageId := 0, size := 0, lsn := 0, blockPageIds := [1] } := by
    refine ⟨rfl, fun b hb => ⟨1, p1, ?_, rfl, hsz⟩⟩
    have : b = 0 := by simpa [NumBlocks] using hb
    subst this
    rfl
  have hocc : slotOccupied (storedIndex p1).bpm
      { pageId := 0, size := 0, lsn := 0, blockPageIds := [1] } (0, 218) = some true := ho
  have hrd : slotReadable (storedIndex p1).bpm
      { pageId := 0, size := 0, lsn := 0, blockPageIds := [1] } (0, 218) = some true := hr
  obtain ⟨bpm1, bpm2, itr, h1, h2, hg, h3, h4, h5, h6⟩ :=
    pins_held_when_lookup_panics sampleExternal (storedIndex p1)
      { pageId := 0, size := 0, lsn := 0, blockPageIds := [1] } [1] 2 hwf (by decide) hocc
  have hid : itr.blockId = 1 := (Option.some.inj hg).symm
  have e0 := h3 0
  have e1 := h3 1
  rw [hid] at e0 e1
  exact ⟨rfl, rfl, storedIndex p1, h, rfl, hwf, hocc, hrd, h5, (h6 hrd).2, bpm1, bpm2, itr,
    h1, h2, e0, e1, h4, (h6 hrd).1⟩

end DiskIndex
